import Mathlib

/-!
# go-streams: a verification development

Shallow embedding of the pull-based stream toolkit (`package streams`) and
proofs of its specification.

Conventions of the embedding
* A Go `error` that may be `nil` is an `Option Error`; `io.EOF` is `Error.EOF`.
* A call `Recv() (T, error)` returns a pair `T × Option Error` together with the
  new state of the receiver (explicit state passing).
* An upstream `Stream[T]` owned by a single consumer is a cursor into the
  sequence of answers its successive `Recv` calls give.
* The zero value of `T` is `default`.
-/

namespace Streams

/-! ## Go strings

A Go `string` is a sequence of bytes. The functions below are the ones of
the Go standard library (`len`, slicing, `strings.Index`, package
`unicode/utf8`, the conversions `[]rune(s)` and `string(runes)`) that the
package calls, written after their documentation. -/

/-- A Go `string`: its bytes. -/
abbrev GoString := List Nat

/-- The constant `utf8.RuneError` (U+FFFD). -/
def RuneError : Nat := 0xFFFD

/-- A UTF-8 continuation byte. -/
def isCont (b : Nat) : Bool := 0x80 ≤ b && b ≤ 0xBF

/-- The lowest second byte accepted after the first byte `b0` of a multi-byte
encoding. -/
def acceptLo (b0 : Nat) : Nat := if b0 = 0xE0 then 0xA0 else if b0 = 0xF0 then 0x90 else 0x80

/-- The highest second byte accepted after the first byte `b0` of a
multi-byte encoding. -/
def acceptHi (b0 : Nat) : Nat := if b0 = 0xED then 0x9F else if b0 = 0xF4 then 0x8F else 0xBF

/-- The function `utf8.DecodeRuneInString`: the first rune of the string and
its width in bytes; `(RuneError, 0)` on the empty string and
`(RuneError, 1)` on an encoding that is invalid or cut short. -/
def DecodeRuneInString : GoString → Nat × Nat
  | [] => (RuneError, 0)
  | b0 :: rest =>
    if b0 < 0x80 then (b0, 1)
    else if 0xC2 ≤ b0 ∧ b0 ≤ 0xDF then
      match rest with
      | b1 :: _ => if isCont b1 then ((b0 % 32) * 64 + b1 % 64, 2) else (RuneError, 1)
      | [] => (RuneError, 1)
    else if 0xE0 ≤ b0 ∧ b0 ≤ 0xEF then
      match rest with
      | b1 :: b2 :: _ =>
        if acceptLo b0 ≤ b1 ∧ b1 ≤ acceptHi b0 ∧ isCont b2 then
          (((b0 % 16) * 64 + b1 % 64) * 64 + b2 % 64, 3)
        else (RuneError, 1)
      | _ => (RuneError, 1)
    else if 0xF0 ≤ b0 ∧ b0 ≤ 0xF4 then
      match rest with
      | b1 :: b2 :: b3 :: _ =>
        if acceptLo b0 ≤ b1 ∧ b1 ≤ acceptHi b0 ∧ isCont b2 ∧ isCont b3 then
          ((((b0 % 8) * 64 + b1 % 64) * 64 + b2 % 64) * 64 + b3 % 64, 4)
        else (RuneError, 1)
      | _ => (RuneError, 1)
    else (RuneError, 1)

/-- Worker of `runes`; the first argument bounds the number of runes. -/
def runesAux : Nat → GoString → List Nat
  | 0, _ => []
  | _ + 1, [] => []
  | fuel + 1, b :: rest =>
    (DecodeRuneInString (b :: rest)).1 ::
      runesAux fuel ((b :: rest).drop (DecodeRuneInString (b :: rest)).2)

/-- The conversion `[]rune(s)`: the runes of the string, each invalid byte
giving one `RuneError`. -/
def runes (s : GoString) : List Nat := runesAux s.length s

/-- The function `utf8.RuneCountInString`. -/
def RuneCountInString (s : GoString) : Nat := (runes s).length

/-- The conversion `string(r)` of one rune: its UTF-8 encoding, that of
U+FFFD for a surrogate or a value beyond U+10FFFF. -/
def encodeRune (r : Nat) : GoString :=
  if r < 0x80 then [r]
  else if r < 0x800 then [0xC0 + r / 64, 0x80 + r % 64]
  else if (0xD800 ≤ r ∧ r ≤ 0xDFFF) ∨ 0x10FFFF < r then [0xEF, 0xBF, 0xBD]
  else if r < 0x10000 then [0xE0 + r / 4096, 0x80 + r / 64 % 64, 0x80 + r % 64]
  else [0xF0 + r / 262144, 0x80 + r / 4096 % 64, 0x80 + r / 64 % 64, 0x80 + r % 64]

/-- The conversion `string(runes)` of a rune slice. -/
def stringOfRunes (rs : List Nat) : GoString := rs.flatMap encodeRune

/-- Worker of `ValidString`. -/
def ValidStringAux : Nat → GoString → Bool
  | 0, _ => true
  | _ + 1, [] => true
  | fuel + 1, b :: rest =>
    if DecodeRuneInString (b :: rest) = (RuneError, 1) then false
    else ValidStringAux fuel ((b :: rest).drop (DecodeRuneInString (b :: rest)).2)

/-- The function `utf8.ValidString`: the string consists entirely of valid
UTF-8 encodings. -/
def ValidString (s : GoString) : Bool := ValidStringAux s.length s

/-- The function `strings.Index(s, substr)`: the byte offset of the first
occurrence of `substr` in `s`; `none` stands for the result `-1`. -/
def Index : GoString → GoString → Option Nat
  | [], substr => if substr = [] then some 0 else none
  | b :: rest, substr =>
    if substr.isPrefixOf (b :: rest) then some 0
    else (Index rest substr).map (fun i => i + 1)

/-- The bytes of a string literal. -/
def str (s : String) : GoString := s.data.flatMap (fun c => encodeRune c.toNat)


/-! ## base.go and create.go -/

/-- Go error values seen by the package: `io.EOF` or some other error. -/
inductive Error where
  | EOF
  | other (msg : String)
  deriving DecidableEq

/-- The interface `Stream[T]` of `base.go`, for a stream owned by one consumer:
`answers k` is what the `k`-th call of `Recv` (counted from 0) returns and
`calls` is the number of calls made so far. -/
structure Stream (T : Type) where
  answers : Nat → T × Option Error
  calls : Nat

/-- One call `s.Recv()`: the answer and the advanced stream. -/
def Stream.Recv {T : Type} (s : Stream T) : (T × Option Error) × Stream T :=
  (s.answers s.calls, { s with calls := s.calls + 1 })

/-- The stream `FromSlice(slice)` of `create.go`: the items of the slice, then
`io.EOF` with the zero value on every later call. -/
def FromSlice {T : Type} [Inhabited T] (slice : List T) : Stream T :=
  { answers := fun k =>
      match slice.get? k with
      | some v => (v, none)
      | none => (default, some Error.EOF)
    calls := 0 }

/-- The stream still has the items `xs` to give, each with a nil error, and
then answers with the terminal error `e`. -/
def Stream.Yields {T : Type} (s : Stream T) (xs : List T) (e : Error) : Prop :=
  (∀ j, ∀ h : j < xs.length, s.answers (s.calls + j) = (xs.get ⟨j, h⟩, none)) ∧
  (s.answers (s.calls + xs.length)).2 = some e

/-! ## fork.go -/

/-- The struct `streamCache[T]` (the mutex is not modelled: calls are
sequential). -/
structure streamCache (T : Type) where
  src : Stream T
  buf : List T
  err : Option Error

/-- The constructor `newCache(src)`. -/
def newCache {T : Type} (src : Stream T) : streamCache T :=
  { src := src, buf := [], err := none }

/-- The method `streamCache.tryGet(i)`. -/
def streamCache.tryGet {T : Type} [Inhabited T] (c : streamCache T) (i : Nat) :
    Bool × T × Option Error :=
  if h : i < c.buf.length then
    (true, c.buf.get ⟨i, h⟩, none)
  else if c.err ≠ none then
    (true, default, c.err)
  else
    (false, default, none)

/-- The method `streamCache.blockLoad(i)`. -/
def streamCache.blockLoad {T : Type} [Inhabited T] (c : streamCache T) (i : Nat) :
    (T × Option Error) × streamCache T :=
  if h : i < c.buf.length then
    ((c.buf.get ⟨i, h⟩, none), c)
  else if c.err ≠ none then
    ((default, c.err), c)
  else
    let r := c.src.Recv
    match r.1.2 with
    | none => ((r.1.1, none), { c with src := r.2, buf := c.buf ++ [r.1.1] })
    | some e => ((r.1.1, some e), { c with src := r.2, err := some e })

/-- The method `streamCache.Get(i)`. -/
def streamCache.Get {T : Type} [Inhabited T] (c : streamCache T) (i : Nat) :
    (T × Option Error) × streamCache T :=
  let t := c.tryGet i
  if t.1 then ((t.2.1, t.2.2), c) else c.blockLoad i

/-- Successive calls `Get(i)` for the indices of the list, in order. -/
def streamCache.Gets {T : Type} [Inhabited T] (c : streamCache T) :
    List Nat → List (T × Option Error) × streamCache T
  | [] => ([], c)
  | i :: rest =>
    let r := c.Get i
    let rs := streamCache.Gets r.2 rest
    (r.1 :: rs.1, rs.2)

/-- The struct `forkStream[T]`; its `cache` pointer is the cache of the
enclosing `Forked`. -/
structure forkStream where
  index : Nat
  deriving DecidableEq

/-- One shared cache together with all the fork readers that point to it.
A reader is named by its position in `readers`. -/
structure Forked (T : Type) where
  cache : streamCache T
  readers : List forkStream

/-- The function `Fork(src, copies)` when `src` is not itself a fork reader:
a new cache and `copies` readers at index 0. -/
def Fork {T : Type} (src : Stream T) (copies : Nat) : Forked T :=
  { cache := newCache src, readers := List.replicate copies { index := 0 } }

/-- The function `Fork(src, copies)` when `src` is the fork reader `r` of `w`:
the cache is reused and the `copies` new readers start at the index of `r`.
The new readers are appended after the existing ones. -/
def Forked.Fork {T : Type} (w : Forked T) (r : Nat) (copies : Nat) : Forked T :=
  { w with readers := w.readers ++ List.replicate copies { index := (w.readers.getD r { index := 0 }).index } }

/-- The method `forkStream.Recv()` called on reader `r`. -/
def Forked.Recv {T : Type} [Inhabited T] (w : Forked T) (r : Nat) :
    (T × Option Error) × Forked T :=
  let index := (w.readers.getD r { index := 0 }).index
  let g := w.cache.Get index
  (g.1, { cache := g.2, readers := w.readers.set r { index := index + 1 } })

/-- A sequential use of the readers of one cache. -/
inductive ForkOp where
  | recv (r : Nat)
  | fork (r : Nat) (copies : Nat)

/-- The state after a sequence of operations. -/
def Forked.exec {T : Type} [Inhabited T] (w : Forked T) : List ForkOp → Forked T
  | [] => w
  | ForkOp.recv r :: rest => Forked.exec (w.Recv r).2 rest
  | ForkOp.fork r copies :: rest => Forked.exec (w.Fork r copies) rest

/-- The state after the `Recv` calls of a schedule (a list of reader names). -/
def Forked.run {T : Type} [Inhabited T] (w : Forked T) (sched : List Nat) : Forked T :=
  w.exec (sched.map ForkOp.recv)

/-- Predicate `IsOutcome xs e i res`: `res` is the outcome of source position
`i` for a source that gives the items `xs` and then the terminal error `e`. -/
def IsOutcome {T : Type} (xs : List T) (e : Error) (i : Nat) (res : T × Option Error) : Prop :=
  (∀ h : i < xs.length, res = (xs.get ⟨i, h⟩, none)) ∧ (xs.length ≤ i → res.2 = some e)

/-- The index of the furthest-advanced reader (0 without readers). -/
def maxIndex (rs : List forkStream) : Nat :=
  (rs.map (fun r => r.index)).foldr max 0

/-- Every operation names a reader that exists when it is issued, starting
from `n` readers. -/
def ValidOps : Nat → List ForkOp → Prop
  | _, [] => True
  | n, ForkOp.recv r :: rest => r < n ∧ ValidOps n rest
  | n, ForkOp.fork r copies :: rest => r < n ∧ ValidOps (n + copies) rest

/-- The number of `Recv` calls on reader `r` in a sequence of operations. -/
def recvCount (r : Nat) : List ForkOp → Nat
  | [] => 0
  | ForkOp.recv q :: rest => (if q = r then 1 else 0) + recvCount r rest
  | ForkOp.fork _ _ :: rest => recvCount r rest

/-- Invariant of a cache over a source that gives `xs` and then `e`. -/
structure CacheInv {T : Type} (src0 : Stream T) (xs : List T) (e : Error)
    (c : streamCache T) : Prop where
  answers : c.src.answers = src0.answers
  pre : c.buf <+: xs
  open_calls : c.err = none → c.src.calls = src0.calls + c.buf.length
  closed : ∀ e', c.err = some e' →
    e' = e ∧ c.buf = xs ∧ c.src.calls = src0.calls + xs.length + 1

/-- Invariant of a cache with its readers: while no terminal error is cached
the buffer is exactly as long as the furthest reader index. -/
structure ForkedInv {T : Type} (src0 : Stream T) (xs : List T) (e : Error)
    (w : Forked T) : Prop where
  cache : CacheInv src0 xs e w.cache
  open_max : w.cache.err = none → w.cache.buf.length = maxIndex w.readers
  closed_max : w.cache.err ≠ none → xs.length < maxIndex w.readers

/-! ## higher_order.go and Demux -/

/-- The method `filterStream.Recv()` over an embedded stream with state `σ`
whose `Recv` is `recv`. The loop runs until an item passes `validate` or the
embedded stream returns an error; `none` means that the bound `fuel` on the
number of iterations was reached. -/
def filterStream.Recv {σ T : Type} [Inhabited T] (recv : σ → (T × Option Error) × σ)
    (validate : T → Bool) : Nat → σ → Option ((T × Option Error) × σ)
  | 0, _ => none
  | fuel + 1, s =>
    match (recv s).1.2 with
    | some err => some ((default, some err), (recv s).2)
    | none =>
      if validate (recv s).1.1 then some (((recv s).1.1, none), (recv s).2)
      else filterStream.Recv recv validate fuel (recv s).2

/-- A value `Filter(copyStreams[i], validate)` stored by `Demux`: the fork
reader it embeds and its predicate. -/
structure filterStream (T : Type) where
  reader : Nat
  validate : T → Bool

/-- The result of `Demux`: the map from label to filtered stream, together
with the cache and fork readers the streams of the map share. -/
structure Demuxed (T : Type) where
  forks : Forked T
  demuxRes : GoString → Option (filterStream T)

/-- The map assignment `m[key] = v`. -/
def mapSet {V : Type} (m : GoString → Option V) (key : GoString) (v : V) :
    GoString → Option V :=
  fun k => if k = key then some v else m k

/-- The loop `for i, label := range labelsRange` of `Demux`, from index `i`. -/
def demuxLoop {T : Type} (classifier : T → GoString) :
    Nat → List GoString → (GoString → Option (filterStream T)) →
      (GoString → Option (filterStream T))
  | _, [], m => m
  | i, label :: rest, m =>
    demuxLoop classifier (i + 1) rest
      (mapSet m label { reader := i, validate := fun t => classifier t == label })

/-- The function `Demux(src, classifier, labelsRange)`. -/
def Demux {T : Type} (src : Stream T) (classifier : T → GoString)
    (labelsRange : List GoString) : Demuxed T :=
  { forks := Fork src (labelsRange.length + 1)
    demuxRes :=
      mapSet (demuxLoop classifier 0 labelsRange (fun _ => none)) []
        { reader := labelsRange.length, validate := fun t => classifier t == [] } }

/-- One `Recv()` on the stream stored under `key`; `none` when the map has no
such key or the bound `fuel` on the filter loop was reached. -/
def Demuxed.Recv {T : Type} [Inhabited T] (d : Demuxed T) (fuel : Nat) (key : GoString) :
    Option ((T × Option Error) × Demuxed T) :=
  match d.demuxRes key with
  | none => none
  | some f =>
    match filterStream.Recv (fun w => Forked.Recv w f.reader) f.validate fuel d.forks with
    | none => none
    | some (res, w) => some (res, { d with forks := w })

/-- The state after one `Recv()` on each key of the list, in order. -/
def Demuxed.run {T : Type} [Inhabited T] (d : Demuxed T) (fuel : Nat) :
    List GoString → Option (Demuxed T)
  | [] => some d
  | key :: rest =>
    match d.Recv fuel key with
    | none => none
    | some (_, d1) => Demuxed.run d1 fuel rest

/-- Draining the stream stored under `key`: `Recv()` until the first error,
as `Consume` and the test helpers do; returns the items and that error. The
first argument bounds the number of `Recv` calls. -/
def Demuxed.drain {T : Type} [Inhabited T] (fuel : Nat) :
    Nat → Demuxed T → GoString → Option ((List T × Error) × Demuxed T)
  | 0, _, _ => none
  | n + 1, d, key =>
    match d.Recv fuel key with
    | none => none
    | some ((_, some e), d1) => some (([], e), d1)
    | some ((v, none), d1) =>
      match Demuxed.drain fuel n d1 key with
      | none => none
      | some ((vs, e), d2) => some ((v :: vs, e), d2)

/-- Draining the streams of several keys one after the other. -/
def Demuxed.drainAll {T : Type} [Inhabited T] (fuel : Nat) (d : Demuxed T) :
    List GoString → Option (List (List T × Error))
  | [] => some []
  | key :: rest =>
    match Demuxed.drain fuel fuel d key with
    | none => none
    | some (out, d1) =>
      match Demuxed.drainAll fuel d1 rest with
      | none => none
      | some outs => some (out :: outs)

/-- The entry stored under `key` embeds the fork reader created for `key` and
filters on `classifier(t) == key`. -/
def GoodEntry {T : Type} (classifier : T → GoString) (labelsRange : List GoString)
    (key : GoString) (f : filterStream T) : Prop :=
  f.reader < labelsRange.length + 1 ∧ labelsRange.getD f.reader [] = key ∧
  f.validate = fun t => classifier t == key

/-- The items the filtered stream `f` has still to give: the items ahead of
its reader that pass its predicate. -/
def Demuxed.remaining {T : Type} (xs : List T) (d : Demuxed T) (f : filterStream T) : List T :=
  (xs.drop (d.forks.readers.getD f.reader { index := 0 }).index).filter f.validate

/-- Invariant of the result of `Demux` over a source that gives `xs` and then
`e`. -/
structure DemuxInv {T : Type} (src0 : Stream T) (xs : List T) (e : Error)
    (classifier : T → GoString) (labelsRange : List GoString) (d : Demuxed T) : Prop where
  forks : ForkedInv src0 xs e d.forks
  len : d.forks.readers.length = labelsRange.length + 1
  entries : ∀ key f, d.demuxRes key = some f → GoodEntry classifier labelsRange key f
  keys : ∀ key, key ∈ labelsRange ∨ key = [] → ∃ f, d.demuxRes key = some f

/-! ## special_token.go and label.go -/

/-- The struct `LabeledChunk`. -/
structure LabeledChunk where
  Label : GoString
  Chunk : GoString
  deriving DecidableEq

instance : Inhabited LabeledChunk := ⟨{ Label := [], Chunk := [] }⟩

/-- The struct `SLabel`. -/
structure SLabel where
  Name : GoString
  StartToken : GoString
  EndToken : GoString
  deriving DecidableEq

/-- The struct `labelStream`. The field `opened` is not in the Go struct: it
is a history variable that records, in order, the labels that
`cutOverflowBuffer` has opened; no code reads it. -/
structure labelStream where
  src : Stream GoString
  labels : List SLabel
  buffer : GoString
  minBufferLen : Nat
  currentLabel : Option SLabel
  opened : List SLabel

/-- The function `checkLabels`: `some` error message when the labels are
rejected, `none` for a nil error. -/
def checkLabels (labels : List SLabel) : Option String :=
  if labels.length = 0 then some "labels is empty" else none

/-- The loop of `NewLabelStream` that computes `minBufferLen`. -/
def labelMinBufferLen (labels : List SLabel) : Nat :=
  labels.foldl
    (fun minBufferLen lb =>
      let m1 := if RuneCountInString lb.StartToken > minBufferLen then lb.StartToken.length
        else minBufferLen
      if RuneCountInString lb.EndToken > m1 then lb.EndToken.length else m1)
    0

/-- The constructor `NewLabelStream(src, labels)`; `none` stands for the
panic raised when `checkLabels` rejects the labels. -/
def NewLabelStream (src : Stream GoString) (labels : List SLabel) : Option labelStream :=
  match checkLabels labels with
  | some _ => none
  | none =>
    some { src := src, labels := labels, buffer := [],
           minBufferLen := labelMinBufferLen labels, currentLabel := none, opened := [] }

/-- The first part of `labelStream.cutOverflowBuffer` after the length test
(the block `if s.currentLabel != nil`): the result when the block returns,
`none` when control goes on to the scan of the start tokens. -/
def labelStream.cutOpenLabel (s : labelStream) :
    Option ((GoString × GoString) × labelStream) :=
  match s.currentLabel with
  | none => none
  | some cur =>
    if cur.EndToken = [] then
      some ((cur.Name, s.buffer), { s with minBufferLen := 0, buffer := [] })
    else
      match Index s.buffer cur.EndToken with
      | some index =>
        some ((cur.Name, s.buffer.take index),
          { s with buffer := s.buffer.drop index, currentLabel := none })
      | none => none

/-- The search of the loop `for i, lb := range s.labels`: the first label, in
list order from position `i`, whose start token occurs in the buffer, with
its position in the list and the offset of the occurrence. -/
def findStartToken (buffer : GoString) : Nat → List SLabel → Option (Nat × SLabel × Nat)
  | _, [] => none
  | i, lb :: rest =>
    match Index buffer lb.StartToken with
    | none => findStartToken buffer (i + 1) rest
    | some index => some (i, lb, index)

/-- The last part of `labelStream.cutOverflowBuffer` (after the loop over the
labels): release the runes in excess of `minBufferLen`. -/
def labelStream.cutRunes (s : labelStream) : (GoString × GoString) × labelStream :=
  let index := RuneCountInString s.buffer - s.minBufferLen
  if index > 0 then
    let bufferRunes := runes s.buffer
    ((match s.currentLabel with
      | some cur => cur.Name
      | none => [],
      stringOfRunes (bufferRunes.take index)),
     { s with buffer := stringOfRunes (bufferRunes.drop index) })
  else (([], []), s)

/-- The state after the loop over the labels has matched the start token of
`lb`, the label at position `i`, at offset `index` of the buffer: the buffer
is cut after the token, `lb` becomes the current label and leaves the
candidate list, and `minBufferLen` drops to 0 when `lb` has no end token. -/
def labelStream.openLabel (s : labelStream) (i : Nat) (lb : SLabel) (index : Nat) :
    labelStream :=
  { s with buffer := s.buffer.drop (index + lb.StartToken.length),
           currentLabel := some lb,
           labels := s.labels.eraseIdx i,
           minBufferLen := if lb.EndToken = [] then 0 else s.minBufferLen,
           opened := s.opened ++ [lb] }

/-- The method `labelStream.cutOverflowBuffer()` with a bound on the depth of
its recursion: the pair `(label, chunk)` and the new state, `none` when the
bound is reached. -/
def labelStream.cutOverflowBufferAux : Nat → labelStream →
    Option ((GoString × GoString) × labelStream)
  | 0, _ => none
  | fuel + 1, s =>
    if RuneCountInString s.buffer ≤ s.minBufferLen then some (([], []), s)
    else
      match s.cutOpenLabel with
      | some r => some r
      | none =>
        match findStartToken s.buffer 0 s.labels with
        | some (i, lb, index) =>
          if (s.buffer.take index).length > 0 then
            some (([], s.buffer.take index), s.openLabel i lb index)
          else
            labelStream.cutOverflowBufferAux fuel (s.openLabel i lb index)
        | none => some s.cutRunes

/-- The method `labelStream.cutOverflowBuffer()`: every recursive call comes
after the removal of one label, so `len(labels) + 1` nested calls suffice. -/
def labelStream.cutOverflowBuffer (s : labelStream) :
    Option ((GoString × GoString) × labelStream) :=
  s.cutOverflowBufferAux (s.labels.length + 1)

/-- The state after upstream answered `io.EOF`: `s.minBufferLen = 0`. -/
def labelStream.onEOF (s : labelStream) : labelStream :=
  { s with src := (s.src.Recv).2, minBufferLen := 0 }

/-- The state after upstream answered with another error. -/
def labelStream.onError (s : labelStream) : labelStream :=
  { s with src := (s.src.Recv).2 }

/-- The state after upstream gave a chunk: `s.buffer += upChunk`. -/
def labelStream.onChunk (s : labelStream) : labelStream :=
  { s with src := (s.src.Recv).2, buffer := s.buffer ++ (s.src.Recv).1.1 }

/-- The method `labelStream.Recv()`; `fuel` bounds the iterations of its
loop, each of which takes one chunk from upstream. -/
def labelStream.Recv : Nat → labelStream → Option ((LabeledChunk × Option Error) × labelStream)
  | 0, _ => none
  | fuel + 1, s =>
    match s.cutOverflowBuffer with
    | none => none
    | some ((label, chunk), s1) =>
      if chunk ≠ [] then some (({ Label := label, Chunk := chunk }, none), s1)
      else
        match (s1.src.Recv).1.2 with
        | some Error.EOF =>
          match s1.onEOF.cutOverflowBuffer with
          | none => none
          | some ((label2, chunk2), s3) =>
            if chunk2 ≠ [] then some (({ Label := label2, Chunk := chunk2 }, none), s3)
            else some ((default, some Error.EOF), s3)
        | some err => some ((default, some err), s1.onError)
        | none => labelStream.Recv fuel s1.onChunk

/-- Draining the label engine: `Recv()` until the first error; returns the
items received and that error. The first argument bounds the number of
`Recv` calls, `fuel` the loop of each. -/
def labelStream.drain (fuel : Nat) : Nat → labelStream →
    Option ((List LabeledChunk × Error) × labelStream)
  | 0, _ => none
  | n + 1, s =>
    match s.Recv fuel with
    | none => none
    | some ((_, some e), s1) => some (([], e), s1)
    | some ((v, none), s1) =>
      match labelStream.drain fuel n s1 with
      | none => none
      | some ((vs, e), s2) => some ((v :: vs, e), s2)

/-- The struct `specialTokenParserStream`; `src` is its embedded
`Stream[string]`. -/
structure specialTokenParserStream where
  src : Stream GoString
  specialTokens : List GoString
  minBufferLen : Nat
  lastToken : GoString
  buffer : GoString

/-- The loop of `NewSpecialTokenParserStream` that computes `minBufferLen`. -/
def tokensMinBufferLen (specialTokens : List GoString) : Nat :=
  specialTokens.foldl
    (fun minBufferLen lb =>
      if RuneCountInString lb > minBufferLen then lb.length else minBufferLen)
    0

/-- The constructor `NewSpecialTokenParserStream(src, specialTokens)`. -/
def NewSpecialTokenParserStream (src : Stream GoString) (specialTokens : List GoString) :
    specialTokenParserStream :=
  { src := src, specialTokens := specialTokens,
    minBufferLen := tokensMinBufferLen specialTokens, lastToken := [], buffer := [] }

/-- The search of the loop `for _, st := range s.specialTokens`: the first
token, in list order, that occurs in the buffer, with the offset of its first
occurrence. -/
def findToken (buffer : GoString) : List GoString → Option (GoString × Nat)
  | [] => none
  | st :: rest =>
    match Index buffer st with
    | none => findToken buffer rest
    | some index => some (st, index)

/-- The method `specialTokenParserStream.cutOverflowBuffer()`. -/
def specialTokenParserStream.cutOverflowBuffer (s : specialTokenParserStream) :
    (GoString × GoString) × specialTokenParserStream :=
  if RuneCountInString s.buffer ≤ s.minBufferLen then (([], []), s)
  else
    match findToken s.buffer s.specialTokens with
    | some (st, index) =>
      if (s.buffer.take index).length > 0 then
        ((s.lastToken, s.buffer.take index),
          { s with lastToken := st, buffer := s.buffer.drop index })
      else
        ((st, []), { s with lastToken := st, buffer := (s.buffer.drop index).drop st.length })
    | none =>
      let index := RuneCountInString s.buffer - s.minBufferLen
      if index > 0 then
        ((s.lastToken, stringOfRunes ((runes s.buffer).take index)),
          { s with buffer := stringOfRunes ((runes s.buffer).drop index) })
      else (([], []), s)

/-- The state after upstream answered `io.EOF`: `s.minBufferLen = 0`. -/
def specialTokenParserStream.onEOF (s : specialTokenParserStream) : specialTokenParserStream :=
  { s with src := (s.src.Recv).2, minBufferLen := 0 }

/-- The state after upstream answered with another error. -/
def specialTokenParserStream.onError (s : specialTokenParserStream) :
    specialTokenParserStream :=
  { s with src := (s.src.Recv).2 }

/-- The state after upstream gave a chunk: `s.buffer += upChunk`. -/
def specialTokenParserStream.onChunk (s : specialTokenParserStream) :
    specialTokenParserStream :=
  { s with src := (s.src.Recv).2, buffer := s.buffer ++ (s.src.Recv).1.1 }

/-- The method `specialTokenParserStream.Recv()`; `fuel` bounds the
iterations of its loop, each of which takes one chunk from upstream. -/
def specialTokenParserStream.Recv : Nat → specialTokenParserStream →
    Option ((LabeledChunk × Option Error) × specialTokenParserStream)
  | 0, _ => none
  | fuel + 1, s =>
    if (s.cutOverflowBuffer).1.2 ≠ [] ∨ (s.cutOverflowBuffer).1.1 ≠ [] then
      some (({ Label := (s.cutOverflowBuffer).1.1, Chunk := (s.cutOverflowBuffer).1.2 }, none),
        (s.cutOverflowBuffer).2)
    else
      match ((s.cutOverflowBuffer).2.src.Recv).1.2 with
      | some Error.EOF =>
        if ((s.cutOverflowBuffer).2.onEOF.cutOverflowBuffer).1.2 = [] ∧
            ((s.cutOverflowBuffer).2.onEOF.cutOverflowBuffer).1.1 = [] then
          some ((default, some Error.EOF), ((s.cutOverflowBuffer).2.onEOF.cutOverflowBuffer).2)
        else
          some (({ Label := ((s.cutOverflowBuffer).2.onEOF.cutOverflowBuffer).1.1,
                   Chunk := ((s.cutOverflowBuffer).2.onEOF.cutOverflowBuffer).1.2 }, none),
            ((s.cutOverflowBuffer).2.onEOF.cutOverflowBuffer).2)
      | some err => some ((default, some err), (s.cutOverflowBuffer).2.onError)
      | none => specialTokenParserStream.Recv fuel (s.cutOverflowBuffer).2.onChunk

/-- Draining the special-token engine: `Recv()` until the first error. -/
def specialTokenParserStream.drain (fuel : Nat) : Nat → specialTokenParserStream →
    Option ((List LabeledChunk × Error) × specialTokenParserStream)
  | 0, _ => none
  | n + 1, s =>
    match s.Recv fuel with
    | none => none
    | some ((_, some e), s1) => some (([], e), s1)
    | some ((v, none), s1) =>
      match specialTokenParserStream.drain fuel n s1 with
      | none => none
      | some ((vs, e), s2) => some ((v :: vs, e), s2)

/-- The output of draining `NewLabelStream(FromSlice(chunks), labels)`. -/
def labelOutput (labels : List SLabel) (chunks : List GoString) (fuel : Nat) :
    Option (List LabeledChunk × Error) :=
  match NewLabelStream (FromSlice chunks) labels with
  | none => none
  | some s => (labelStream.drain fuel fuel s).map (fun r => r.1)

/-- The output of draining
`NewSpecialTokenParserStream(FromSlice(chunks), specialTokens)`. -/
def specialTokenOutput (specialTokens : List GoString) (chunks : List GoString) (fuel : Nat) :
    Option (List LabeledChunk × Error) :=
  (specialTokenParserStream.drain fuel fuel
    (NewSpecialTokenParserStream (FromSlice chunks) specialTokens)).map (fun r => r.1)

/-- The stream has the items `xs` to give, each with a nil error, and answers
`io.EOF` on every call after them (as `FromSlice(xs)` does). -/
def Stream.GivesThenEOF {T : Type} (s : Stream T) (xs : List T) : Prop :=
  (∀ j, ∀ h : j < xs.length, s.answers (s.calls + j) = (xs.get ⟨j, h⟩, none)) ∧
  (∀ j, xs.length ≤ j → (s.answers (s.calls + j)).2 = some Error.EOF)

/-- The state after successive calls of `Recv()`, one for each element of the
list, which gives the bound on the loop of that call; `none` when a bound
was reached. -/
def labelStream.run (s : labelStream) : List Nat → Option labelStream
  | [] => some s
  | fuel :: rest =>
    match s.Recv fuel with
    | none => none
    | some (_, s1) => labelStream.run s1 rest

/-- Invariant of the special-token engine on a text in which no special token
occurs: `d` is the text still to be emitted, `future` the chunks the source
has still to give. -/
structure PassInvST (tokens : List GoString) (s : specialTokenParserStream)
    (d : GoString) (future : List GoString) : Prop where
  toks : s.specialTokens = tokens
  last : s.lastToken = []
  text : s.buffer ++ future.flatten = d
  valid : ValidString s.buffer = true
  fvalid : ∀ c ∈ future, ValidString c = true
  src : s.src.GivesThenEOF future
  absent : ∀ t ∈ tokens, ¬ t <:+: d

/-- Invariant of the label engine on a text in which no start token occurs. -/
structure PassInvL (labels : List SLabel) (s : labelStream)
    (d : GoString) (future : List GoString) : Prop where
  labs : s.labels = labels
  cur : s.currentLabel = none
  text : s.buffer ++ future.flatten = d
  valid : ValidString s.buffer = true
  fvalid : ∀ c ∈ future, ValidString c = true
  src : s.src.GivesThenEOF future
  absent : ∀ lb ∈ labels, ¬ lb.StartToken <:+: d

/-- The bytes of a text, each paired with the label it is emitted under. -/
def labelBytes (label : GoString) (text : GoString) : List (GoString × Nat) :=
  text.map (fun b => (label, b))

/-- The labelled bytes of a sequence of items: what the items say, chunk
boundaries forgotten. -/
def labelledBytes (out : List LabeledChunk) : List (GoString × Nat) :=
  out.flatMap (fun o => labelBytes o.Label o.Chunk)

/-- The invariant `PassInvL` in terms of the labelled bytes still to be
emitted. -/
def PassL (labels : List SLabel) (s : labelStream) (D : List (GoString × Nat))
    (future : List GoString) : Prop :=
  ∃ d, D = labelBytes [] d ∧ PassInvL labels s d future

/-- Invariant of the label engine configured with the single label
`{name, tok, ""}` on a text `pre ++ tok ++ rest0` whose first occurrence of
`tok` follows `pre`. Before the match (first alternative) `d` is the part of
`pre` still to be emitted; after it (second alternative) `x` is the part of
`rest0` still to be emitted. `D` is the labelled bytes still to be emitted
and `f` the chunks still to come. -/
def OpenEndInv (name tok rest0 : GoString) (s : labelStream) (D : List (GoString × Nat))
    (f : List GoString) : Prop :=
  s.src.GivesThenEOF f ∧
  ((∃ d, D = labelBytes [] d ++ labelBytes name rest0 ∧
      s.labels = [{ Name := name, StartToken := tok, EndToken := [] }] ∧
      s.currentLabel = none ∧
      (s.minBufferLen = tok.length ∨ (s.minBufferLen = 0 ∧ f = [])) ∧
      s.buffer ++ f.flatten = d ++ tok ++ rest0 ∧
      ValidString s.buffer = true ∧ (∀ c ∈ f, ValidString c = true) ∧
      Index (d ++ tok ++ rest0) tok = some d.length) ∨
   (∃ x, D = labelBytes name x ∧ s.labels = [] ∧
      s.currentLabel = some { Name := name, StartToken := tok, EndToken := [] } ∧
      s.minBufferLen = 0 ∧ s.buffer ++ f.flatten = x))

/-- The relation between an engine state and a later one: the labels opened
in between (`newly`, appended to the history `opened`) are exactly the
candidates removed from the list, and a label can be the current one only if
it was opened in between or was current before. -/
def labelStream.Step (s s' : labelStream) : Prop :=
  ∃ newly, s'.opened = s.opened ++ newly ∧ (newly ++ s'.labels).Perm s.labels ∧
    s'.labels.Sublist s.labels ∧
    (∀ lb, s'.currentLabel = some lb → lb ∈ newly ∨ s.currentLabel = some lb)

/-- The events a text stands for when emitted under a label: its bytes, each
with the label. -/
def textEvents (label : GoString) (text : GoString) : List (GoString × Option Nat) :=
  text.map (fun b => (label, some b))

/-- The events of one item of the special-token engine: a marker for an item
with an empty chunk and a label, the labelled bytes of the chunk otherwise. -/
def itemEvents (label chunk : GoString) : List (GoString × Option Nat) :=
  if chunk = [] then (if label = [] then [] else [(label, none)]) else textEvents label chunk

/-- The events of a sequence of items: what the items say, chunk boundaries
forgotten. -/
def events (out : List LabeledChunk) : List (GoString × Option Nat) :=
  out.flatMap (fun o => itemEvents o.Label o.Chunk)

/-- Reference segmentation of a text by a single token `t`: the text before
the first occurrence of `t` under the label `last`, a marker, and the rest
segmented under the label `t`. The first argument bounds the number of
markers. -/
def segmentOne (t : GoString) : Nat → GoString → GoString → List (GoString × Option Nat)
  | 0, _, _ => []
  | n + 1, last, text =>
    match Index text t with
    | none => textEvents last text
    | some i =>
      textEvents last (text.take i) ++ (t, none) :: segmentOne t n t (text.drop (i + t.length))

/-- Reference segmentation of a whole text. -/
def segment (t last text : GoString) : List (GoString × Option Nat) :=
  segmentOne t (text.length + 1) last text

/-- Invariant of the special-token engine configured with the single token
`t`: `D` is the events still to be emitted, `f` the chunks still to come. -/
structure OneTokInv (t : GoString) (s : specialTokenParserStream)
    (D : List (GoString × Option Nat)) (f : List GoString) : Prop where
  toks : s.specialTokens = [t]
  src : s.src.GivesThenEOF f
  valid : ValidString s.buffer = true
  fvalid : ∀ c ∈ f, ValidString c = true
  min : s.minBufferLen = t.length ∨ (s.minBufferLen = 0 ∧ f = [])
  todo : D = segment t s.lastToken (s.buffer ++ f.flatten)


/-! ## remove_token.go -/

/-- The struct `removeTokensStream`. -/
structure removeTokensStream where
  src : Stream GoString
  tokens : List GoString
  buffer : GoString
  minBufferLen : Nat

/-- The loop of `NewRemoveTokensStream` that computes `minBufferLen`; its
body makes the same test twice. -/
def removeMinBufferLen (tokens : List GoString) : Nat :=
  tokens.foldl
    (fun minBufferLen lb =>
      let m1 := if RuneCountInString lb > minBufferLen then lb.length else minBufferLen
      if RuneCountInString lb > m1 then lb.length else m1)
    0

/-- What `NewRemoveTokensStream` returns: the source itself when no non-empty
token is left, the engine otherwise. -/
inductive RemoveTokens where
  | source (src : Stream GoString)
  | engine (s : removeTokensStream)

/-- The constructor `NewRemoveTokensStream(src, tokens)`. -/
def NewRemoveTokensStream (src : Stream GoString) (tokens : List GoString) : RemoveTokens :=
  let filterToken := tokens.filter (fun token => token ≠ [])
  if filterToken.length = 0 then RemoveTokens.source src
  else
    RemoveTokens.engine
      { src := src, tokens := filterToken, buffer := [],
        minBufferLen := removeMinBufferLen filterToken }

/-- The body of the loop `for _, l := range s.tokens` of
`removeTokensStream.cutOverflowBuffer`, on the pair `(index, label)`; the
index `none` stands for `-1`. -/
def scanStep (buffer : GoString) (acc : Option Nat × GoString) (l : GoString) :
    Option Nat × GoString :=
  match Index buffer l with
  | some i =>
    match acc.1 with
    | none => (some i, l)
    | some index => if i < index then (some i, l) else acc
  | none => acc

/-- The loop `for _, l := range s.tokens`, started with `index := -1` and
`label := ""`. -/
def scanTokens (buffer : GoString) (tokens : List GoString) : Option Nat × GoString :=
  tokens.foldl (scanStep buffer) (none, [])

/-- The method `removeTokensStream.cutOverflowBuffer()`: the returned string
and the new state. -/
def removeTokensStream.cutOverflowBuffer (s : removeTokensStream) :
    GoString × removeTokensStream :=
  if RuneCountInString s.buffer ≤ s.minBufferLen then ([], s)
  else
    match scanTokens s.buffer s.tokens with
    | (some index, label) =>
      (s.buffer.take index, { s with buffer := s.buffer.drop (index + label.length) })
    | (none, _) =>
      let index := RuneCountInString s.buffer - s.minBufferLen
      if index > 0 then
        (stringOfRunes ((runes s.buffer).take index),
          { s with buffer := stringOfRunes ((runes s.buffer).drop index) })
      else ([], s)

/-- The state after upstream answered `io.EOF`: `s.minBufferLen = 0`. -/
def removeTokensStream.onEOF (s : removeTokensStream) : removeTokensStream :=
  { s with src := (s.src.Recv).2, minBufferLen := 0 }

/-- The state after upstream answered with another error. -/
def removeTokensStream.onError (s : removeTokensStream) : removeTokensStream :=
  { s with src := (s.src.Recv).2 }

/-- The state after upstream gave a chunk: `s.buffer += upChunk`. -/
def removeTokensStream.onChunk (s : removeTokensStream) : removeTokensStream :=
  { s with src := (s.src.Recv).2, buffer := s.buffer ++ (s.src.Recv).1.1 }

/-- The method `removeTokensStream.Recv()`; `fuel` bounds the iterations of
its loop, each of which takes one chunk from upstream. -/
def removeTokensStream.Recv : Nat → removeTokensStream →
    Option ((GoString × Option Error) × removeTokensStream)
  | 0, _ => none
  | fuel + 1, s =>
    if (s.cutOverflowBuffer).1 ≠ [] then
      some (((s.cutOverflowBuffer).1, none), (s.cutOverflowBuffer).2)
    else
      match ((s.cutOverflowBuffer).2.src.Recv).1.2 with
      | some Error.EOF =>
        if ((s.cutOverflowBuffer).2.onEOF.cutOverflowBuffer).1 ≠ [] then
          some ((((s.cutOverflowBuffer).2.onEOF.cutOverflowBuffer).1, none),
            ((s.cutOverflowBuffer).2.onEOF.cutOverflowBuffer).2)
        else
          some (([], some Error.EOF), ((s.cutOverflowBuffer).2.onEOF.cutOverflowBuffer).2)
      | some err => some (([], some err), (s.cutOverflowBuffer).2.onError)
      | none => removeTokensStream.Recv fuel (s.cutOverflowBuffer).2.onChunk

/-- One call `Recv()` on the stream returned by `NewRemoveTokensStream`. -/
def RemoveTokens.Recv (fuel : Nat) :
    RemoveTokens → Option ((GoString × Option Error) × RemoveTokens)
  | RemoveTokens.source src => some ((src.Recv).1, RemoveTokens.source (src.Recv).2)
  | RemoveTokens.engine s => (s.Recv fuel).map (fun r => (r.1, RemoveTokens.engine r.2))

/-- Draining the stream returned by `NewRemoveTokensStream`: `Recv()` until
the first error; returns the strings received and that error. -/
def RemoveTokens.drain (fuel : Nat) : Nat → RemoveTokens →
    Option ((List GoString × Error) × RemoveTokens)
  | 0, _ => none
  | n + 1, s =>
    match s.Recv fuel with
    | none => none
    | some ((_, some e), s1) => some (([], e), s1)
    | some ((v, none), s1) =>
      match RemoveTokens.drain fuel n s1 with
      | none => none
      | some ((vs, e), s2) => some ((v :: vs, e), s2)

/-- The output of draining `NewRemoveTokensStream(FromSlice(chunks), tokens)`. -/
def removeOutput (tokens : List GoString) (chunks : List GoString) (fuel : Nat) :
    Option (List GoString × Error) :=
  (RemoveTokens.drain fuel fuel (NewRemoveTokensStream (FromSlice chunks) tokens)).map
    (fun r => r.1)

/-- The residual buffer of the stream returned by `NewRemoveTokensStream`
(the source itself has none). -/
def RemoveTokens.buffer : RemoveTokens → GoString
  | RemoveTokens.source _ => []
  | RemoveTokens.engine s => s.buffer

/-- Reference semantics, from the specification: the occurrence a strip step
deletes. Among the tokens that occur in the text it is the one whose first
occurrence has the smallest offset, and on equal offsets the one listed
first; the result is that offset and the token. -/
def earliestToken (text : GoString) : List GoString → Option (Nat × GoString)
  | [] => none
  | t :: rest =>
    match Index text t, earliestToken text rest with
    | none, r => r
    | some i, none => some (i, t)
    | some i, some (j, u) => if i ≤ j then some (i, t) else some (j, u)

/-- Reference semantics, from the specification: delete the earliest token
occurrence, keep the text before it and go on with the text after it; the
first argument bounds the number of deletions. -/
def stripAux (tokens : List GoString) : Nat → GoString → GoString
  | 0, text => text
  | n + 1, text =>
    match earliestToken text tokens with
    | none => text
    | some (i, t) => text.take i ++ stripAux tokens n (text.drop (i + t.length))

/-- Reference semantics, from the specification: `strip(T)` for the non-empty
tokens of the list; each deletion removes at least one byte, so the length of
the text bounds the number of deletions. -/
def strip (tokens : List GoString) (text : GoString) : GoString :=
  stripAux (tokens.filter (fun token => token ≠ [])) text.length text

/-! ## merge.go -/

/-- The clock of package `time`, read by `time.Now()` and `time.Since(t)`:
`readings k` is what the `k`-th reading (counted from 0) gives, in nanoseconds
since the zero time `time.Time{}`, and `reads` is the number of readings made
so far. Nothing is assumed of the readings. -/
structure Clock where
  readings : Nat → Int
  reads : Nat

/-- One reading of the clock (`time.Now()`): the time and the advanced
clock. -/
def Clock.Now (c : Clock) : Int × Clock :=
  (c.readings c.reads, { c with reads := c.reads + 1 })

/-- The largest `time.Duration` (an `int64` count of nanoseconds). -/
def maxDuration : Int := 2 ^ 63 - 1

/-- The smallest `time.Duration`. -/
def minDuration : Int := -(2 ^ 63)

/-- The duration `t.Sub(u)` of package `time`: `t - u`, or the largest
(smallest) duration when the difference does not fit. -/
def Sub (t u : Int) : Int :=
  if t - u > maxDuration then maxDuration
  else if t - u < minDuration then minDuration
  else t - u

/-- The variables captured by the closure of `ThrottleMerge`: the source `s`,
the parameters `merge` and `throttleDuration`, the variables `buf` (a nil
pointer is `none`), `bufErr` and `lastSendAt`, and the clock. The field
`merges` is not in the Go code: it is a history variable that counts the
calls of `merge`; no code reads it. -/
structure throttleMerge (T : Type) where
  s : Stream T
  merge : T → T → T × Bool
  throttleDuration : Int
  buf : Option T
  bufErr : Option Error
  lastSendAt : Int
  clock : Clock
  merges : Nat

/-- The stream `ThrottleMerge(s, merge, throttleDuration)` before its first
`Recv`; `lastSendAt` is the zero time. -/
def ThrottleMerge {T : Type} (s : Stream T) (merge : T → T → T × Bool)
    (throttleDuration : Int) (clock : Clock) : throttleMerge T :=
  { s := s, merge := merge, throttleDuration := throttleDuration, buf := none,
    bufErr := none, lastSendAt := 0, clock := clock, merges := 0 }

/-- The closure `sendBuf`: returns `*buf`, clears `buf` and sets `lastSendAt`
to `time.Now()`; `none` stands for the panic of dereferencing a nil `buf`. -/
def throttleMerge.sendBuf {T : Type} (m : throttleMerge T) : Option (T × throttleMerge T) :=
  match m.buf with
  | none => none
  | some lastBuf =>
    some (lastBuf,
      { m with buf := none, lastSendAt := (m.clock.Now).1, clock := (m.clock.Now).2 })

/-- The `for` loop of the function given to `FromFunc` in `ThrottleMerge`;
`fuel` bounds its iterations. -/
def throttleMerge.loop {T : Type} : Nat → throttleMerge T →
    Option ((T × Option Error) × throttleMerge T)
  | 0, _ => none
  | fuel + 1, m =>
    if Sub (m.clock.Now).1 m.lastSendAt > m.throttleDuration then
      match ({ m with clock := (m.clock.Now).2 }).sendBuf with
      | none => none
      | some (lastBuf, m1) => some ((lastBuf, none), m1)
    else
      match ((m.s.Recv).1.2), m.buf with
      | some err, _ =>
        match ({ m with clock := (m.clock.Now).2, s := (m.s.Recv).2,
                        bufErr := some err }).sendBuf with
        | none => none
        | some (lastBuf, m1) => some ((lastBuf, none), m1)
      | none, none => none
      | none, some b =>
        if (m.merge b (m.s.Recv).1.1).2 = false then
          match ({ m with clock := (m.clock.Now).2, s := (m.s.Recv).2,
                          merges := m.merges + 1 }).sendBuf with
          | none => none
          | some (toSend, m1) => some ((toSend, none), { m1 with buf := some (m.s.Recv).1.1 })
        else
          throttleMerge.loop fuel
            { m with clock := (m.clock.Now).2, s := (m.s.Recv).2, merges := m.merges + 1,
                     buf := some (m.merge b (m.s.Recv).1.1).1 }

/-- The function given to `FromFunc` in `ThrottleMerge`: one call `Recv()` of
the returned stream. -/
def throttleMerge.Recv {T : Type} [Inhabited T] (fuel : Nat) (m : throttleMerge T) :
    Option ((T × Option Error) × throttleMerge T) :=
  match m.bufErr with
  | some e => some ((default, some e), m)
  | none =>
    match m.buf with
    | none =>
      match (m.s.Recv).1.2 with
      | some err => some (((m.s.Recv).1.1, some err), { m with s := (m.s.Recv).2 })
      | none => throttleMerge.loop fuel { m with s := (m.s.Recv).2, buf := some (m.s.Recv).1.1 }
    | some _ => throttleMerge.loop fuel m

/-- Draining the stream of `ThrottleMerge`: `Recv()` until the first error;
returns the items received and that error. -/
def throttleMerge.drain {T : Type} [Inhabited T] (fuel : Nat) : Nat → throttleMerge T →
    Option ((List T × Error) × throttleMerge T)
  | 0, _ => none
  | n + 1, m =>
    match m.Recv fuel with
    | none => none
    | some ((_, some e), m1) => some (([], e), m1)
    | some ((v, none), m1) =>
      match throttleMerge.drain fuel n m1 with
      | none => none
      | some ((vs, e), m2) => some ((v :: vs, e), m2)

/-- The left fold of `merge` over the items `g` from the seed `a`, when every
step is reported mergeable; `none` when `merge` declines a step. -/
def mergeFold {T : Type} (merge : T → T → T × Bool) : T → List T → Option T
  | a, [] => some a
  | a, x :: rest => if (merge a x).2 = false then none else mergeFold merge (merge a x).1 rest

/-- The item a group of adjacent source items is coalesced into: the left
fold of `merge` over the group; `none` for an empty group or a declined
step. -/
def mergeGroup {T : Type} (merge : T → T → T × Bool) : List T → Option T
  | [] => none
  | a :: rest => mergeFold merge a rest

/-- The variables captured by the closure of `ThrottleMerge2`: the source
`s`, the parameters `merge` and `throttleDuration`, the slices `origBuf` and
`sendBuf`, `sendErr`, `lastMergeAt`, and the clock. -/
structure throttleMerge2 (T : Type) where
  s : Stream T
  merge : List T → List T
  throttleDuration : Int
  origBuf : List T
  sendBuf : List T
  sendErr : Option Error
  lastMergeAt : Int
  clock : Clock

/-- The stream `ThrottleMerge2(s, merge, throttleDuration)` before its first
`Recv`; `lastMergeAt` is the zero time. -/
def ThrottleMerge2 {T : Type} (s : Stream T) (merge : List T → List T)
    (throttleDuration : Int) (clock : Clock) : throttleMerge2 T :=
  { s := s, merge := merge, throttleDuration := throttleDuration, origBuf := [],
    sendBuf := [], sendErr := none, lastMergeAt := 0, clock := clock }

/-- The closure `mergeOrigBuf`. -/
def throttleMerge2.mergeOrigBuf {T : Type} (m : throttleMerge2 T) : throttleMerge2 T :=
  if m.origBuf.length > 0 then
    { m with lastMergeAt := (m.clock.Now).1, clock := (m.clock.Now).2,
             sendBuf := m.sendBuf ++ m.merge m.origBuf, origBuf := [] }
  else
    { m with lastMergeAt := (m.clock.Now).1, clock := (m.clock.Now).2 }

/-- The closure `receiveOrigBuf`. -/
def throttleMerge2.receiveOrigBuf {T : Type} (m : throttleMerge2 T) : throttleMerge2 T :=
  match (m.s.Recv).1.2 with
  | some err => { ({ m with s := (m.s.Recv).2 }).mergeOrigBuf with sendErr := some err }
  | none => { m with s := (m.s.Recv).2, origBuf := m.origBuf ++ [(m.s.Recv).1.1] }

/-- One iteration of the `for` loop of `ThrottleMerge2` that does not return:
the branch on `time.Since(lastMergeAt) > throttleDuration`. -/
def throttleMerge2.advance {T : Type} (m : throttleMerge2 T) : throttleMerge2 T :=
  if Sub (m.clock.Now).1 m.lastMergeAt > m.throttleDuration then
    if m.origBuf.length = 0 then
      (({ m with clock := (m.clock.Now).2 }).receiveOrigBuf).mergeOrigBuf
    else ({ m with clock := (m.clock.Now).2 }).mergeOrigBuf
  else ({ m with clock := (m.clock.Now).2 }).receiveOrigBuf

/-- The function given to `FromFunc` in `ThrottleMerge2`: one call `Recv()`
of the returned stream; `fuel` bounds the iterations of its loop. -/
def throttleMerge2.Recv {T : Type} [Inhabited T] : Nat → throttleMerge2 T →
    Option ((T × Option Error) × throttleMerge2 T)
  | 0, _ => none
  | fuel + 1, m =>
    match m.sendBuf with
    | send :: rest => some ((send, none), { m with sendBuf := rest })
    | [] =>
      match m.sendErr with
      | some e => some ((default, some e), m)
      | none => throttleMerge2.Recv fuel m.advance

/-- Draining the stream of `ThrottleMerge2`: `Recv()` until the first error;
returns the items received and that error. -/
def throttleMerge2.drain {T : Type} [Inhabited T] (fuel : Nat) : Nat → throttleMerge2 T →
    Option ((List T × Error) × throttleMerge2 T)
  | 0, _ => none
  | n + 1, m =>
    match m.Recv fuel with
    | none => none
    | some ((_, some e), m1) => some (([], e), m1)
    | some ((v, none), m1) =>
      match throttleMerge2.drain fuel n m1 with
      | none => none
      | some ((vs, e), m2) => some ((v :: vs, e), m2)

/-- What the scan of `removeTokensStream.cutOverflowBuffer` holds in
`(index, label)` after the tokens `pre`: nothing when none of them occurs in
the buffer `B`; otherwise the smallest offset of a first occurrence and, among
the tokens first occurring there, the one listed first (at position `k`). -/
def ScanInv (B : GoString) (pre : List GoString) (acc : Option Nat × GoString) : Prop :=
  (acc.1 = none ∧ ∀ t ∈ pre, Index B t = none) ∨
  (∃ index k, acc.1 = some index ∧ pre[k]? = some acc.2 ∧ Index B acc.2 = some index ∧
    (∀ t' ∈ pre, ∀ i' : Nat, Index B t' = some i' → index ≤ i') ∧
    (∀ (j : Nat) (t' : GoString), j < k → pre[j]? = some t' → Index B t' ≠ some index))

/-- Invariant of the remove-token engine on a text in which no token occurs:
`d` is the text still to be emitted, `future` the chunks the source has still
to give. -/
structure PassInvR (tokens : List GoString) (s : removeTokensStream)
    (d : GoString) (future : List GoString) : Prop where
  toks : s.tokens = tokens
  text : s.buffer ++ future.flatten = d
  valid : ValidString s.buffer = true
  fvalid : ∀ c ∈ future, ValidString c = true
  src : s.src.GivesThenEOF future
  absent : ∀ t ∈ tokens, ¬ t <:+: d

/-- Reference segmentation of a text by a list of special tokens, from the
specification: the text before the earliest token occurrence under the label
`last`, a marker for the token, and the rest of the text, after the
occurrence, segmented under that token as label. The first argument bounds
the number of markers. -/
def segmentListAux (tokens : List GoString) :
    Nat → GoString → GoString → List (GoString × Option Nat)
  | 0, _, _ => []
  | n + 1, last, text =>
    match earliestToken text tokens with
    | none => textEvents last text
    | some (i, t) =>
      textEvents last (text.take i) ++
        (t, none) :: segmentListAux tokens n t (text.drop (i + t.length))

/-- Reference segmentation of a text by a list of special tokens; a text has
at most as many markers as bytes. -/
def segmentList (tokens : List GoString) (last text : GoString) :
    List (GoString × Option Nat) :=
  segmentListAux tokens (text.length + 1) last text

/-- The offsets at which the token `t` occurs in the text. -/
def occurrences (t text : GoString) : List Nat :=
  (List.range text.length).filter (fun j => t.isPrefixOf (text.drop j))

/-- Occurrences of different tokens never overlap in the text. -/
def NoOverlap (tokens : List GoString) (text : GoString) : Prop :=
  ∀ u ∈ tokens, ∀ v ∈ tokens, u ≠ v → ∀ j ∈ occurrences u text, ∀ k ∈ occurrences v text,
    j + u.length ≤ k ∨ k + v.length ≤ j

/-- In every suffix of the text, the first token in list order that occurs in
the suffix occurs there no later than any other token. -/
def ListedFirstIsEarliest (tokens : List GoString) (text : GoString) : Prop :=
  ∀ p, p < text.length → ∀ x ∈ findToken (text.drop p) tokens, ∀ t ∈ tokens,
    ∀ j ∈ occurrences t (text.drop p), x.2 ≤ j

/-- Invariant of the special-token engine with the tokens `tokens` on the
text `text`: the buffer and the chunks `f` still to come make up a suffix of
the text, whose reference segmentation is the events `D` still to be
emitted. -/
structure TokInv (tokens : List GoString) (text : GoString) (s : specialTokenParserStream)
    (D : List (GoString × Option Nat)) (f : List GoString) : Prop where
  toks : s.specialTokens = tokens
  src : s.src.GivesThenEOF f
  valid : ValidString s.buffer = true
  fvalid : ∀ c ∈ f, ValidString c = true
  min : s.minBufferLen = tokensMinBufferLen tokens ∨ (s.minBufferLen = 0 ∧ f = [])
  todo : D = segmentList tokens s.lastToken (s.buffer ++ f.flatten)
  suffix : ∃ q, s.buffer ++ f.flatten = text.drop q
/-! ## base.go: `Empty`, `avoidNil`; concat.go -/

/-- The stream `Empty[T]()` of `base.go`: the zero value and `io.EOF` on
every call. -/
def Empty {T : Type} [Inhabited T] : Stream T :=
  { answers := fun _ => (default, some Error.EOF), calls := 0 }

/-- The function `avoidNil(stream)`; `none` is the nil interface value. -/
def avoidNil {T : Type} [Inhabited T] (stream : Option (Stream T)) : Stream T :=
  match stream with
  | none => Empty
  | some s => s

/-- The function `avoidNils(ss)`. -/
def avoidNils {T : Type} [Inhabited T] (ss : List (Option (Stream T))) : List (Stream T) :=
  ss.map avoidNil

/-- The struct `concatStream[T]`. -/
structure concatStream (T : Type) where
  streams : List (Stream T)
  index : Nat
  nonEmpty : Bool
  firstNonEmptyUsage : Bool

/-- The method `concatStream.Recv()`; `fuel` bounds the iterations of its
loop. -/
def concatStream.Recv {T : Type} [Inhabited T] : Nat → concatStream T →
    Option ((T × Option Error) × concatStream T)
  | 0, _ => none
  | fuel + 1, m =>
    if h : m.index < m.streams.length then
      let stream := m.streams.get ⟨m.index, h⟩
      let r := stream.Recv
      let m1 : concatStream T := { m with streams := m.streams.set m.index r.2 }
      match r.1.2 with
      | some Error.EOF =>
        if m.firstNonEmptyUsage && m.nonEmpty then some ((default, some Error.EOF), m1)
        else concatStream.Recv fuel { m1 with index := m.index + 1 }
      | some err => some ((default, some err), m1)
      | none =>
        some ((r.1.1, none), if m.firstNonEmptyUsage then { m1 with nonEmpty := true } else m1)
    else some ((default, some Error.EOF), m)

/-- The function `Concat(streams...)`. -/
def Concat {T : Type} [Inhabited T] (streams : List (Option (Stream T))) : concatStream T :=
  { streams := avoidNils streams, index := 0, nonEmpty := false, firstNonEmptyUsage := false }

/-- The function `FirstNonEmpty(streams...)`. -/
def FirstNonEmpty {T : Type} [Inhabited T] (streams : List (Option (Stream T))) :
    concatStream T :=
  { streams := avoidNils streams, index := 0, nonEmpty := false, firstNonEmptyUsage := true }

/-- Draining a `concatStream`: `Recv()` until the first error, at most `n`
calls; returns the items received and that error. -/
def concatStream.drain {T : Type} [Inhabited T] (fuel : Nat) : Nat → concatStream T →
    Option ((List T × Error) × concatStream T)
  | 0, _ => none
  | n + 1, m =>
    match m.Recv fuel with
    | none => none
    | some ((_, some e), m1) => some (([], e), m1)
    | some ((v, none), m1) =>
      match concatStream.drain fuel n m1 with
      | none => none
      | some ((vs, e), m2) => some ((v :: vs, e), m2)

/-- What the claim asks of one argument of `Concat`: a nil entry has no item,
any other entry gives the items `xs` and then `io.EOF`. -/
def EntryGives {T : Type} (s : Option (Stream T)) (xs : List T) : Prop :=
  match s with
  | none => xs = []
  | some s => s.Yields xs Error.EOF
/-! ## substitute.go -/

/-- A non-nil stream as a call of `replace` returns it: a stream object that
exists already, given by its address (the source itself, or a stream that the
function shares with other code), or a stream object that the call creates,
given by its initial state. -/
inductive Replacement (T : Type) where
  | existing (address : Nat)
  | created (s : Stream T)

/-- The struct `substitutingStream[T]` with the stream objects of the
program: `heap` lists them by address, and the embedded field `Stream` holds
the address of one of them, so that two references to one object are told
from two objects (the mutex is not modelled: calls are sequential). The nil
function value of `replace` is `none`, and so is the nil stream a call of
`replace` may return. Two fields record the history and are read by no code:
`asked` lists the arguments `replace` has been called with, `swaps` counts the
assignments to the field `Stream`. -/
structure substitutingStream (T : Type) where
  heap : List (Streams.Stream T)
  Stream : Nat
  replace : Option (T → Option (Replacement T))
  asked : List T
  swaps : Nat

/-- The function `SubstituteStream(src, replace)` in a program whose stream
objects are `heap`; `src` is the address of the source or `none`, the nil
stream, for which `avoidNil` creates an empty stream. -/
def SubstituteStream {T : Type} [Inhabited T] (heap : List (Stream T)) (src : Option Nat)
    (replace : Option (T → Option (Replacement T))) : substitutingStream T :=
  match src with
  | some address =>
    { heap := heap, Stream := address, replace := replace, asked := [], swaps := 0 }
  | none =>
    { heap := heap ++ [Empty], Stream := heap.length, replace := replace, asked := [],
      swaps := 0 }

/-- A call of `Recv()` on the stream object at an address: its answer, and
the heap in which that object has advanced by one call. The second branch
stands for an address outside the heap, which no program holds. -/
def recvAt {T : Type} [Inhabited T] (heap : List (Stream T)) (address : Nat) :
    (T × Option Error) × List (Stream T) :=
  match heap.get? address with
  | some st => ((st.Recv).1, heap.set address (st.Recv).2)
  | none => ((default, some Error.EOF), heap)

/-- The heap and the address of the stream a call of `replace` has returned:
an object it creates is added to the heap. -/
def Replacement.place {T : Type} (heap : List (Stream T)) :
    Replacement T → List (Stream T) × Nat
  | Replacement.existing address => (heap, address)
  | Replacement.created s => (heap ++ [s], heap.length)

/-- The method `substitutingStream.Recv()`. -/
def substitutingStream.Recv {T : Type} [Inhabited T] (s : substitutingStream T) :
    (T × Option Error) × substitutingStream T :=
  let r := recvAt s.heap s.Stream
  let s1 : substitutingStream T := { s with heap := r.2 }
  match r.1.2 with
  | some err => ((r.1.1, some err), s1)
  | none =>
    match s.replace with
    | none => ((r.1.1, none), s1)
    | some replace =>
      let s2 : substitutingStream T := { s1 with asked := s1.asked ++ [r.1.1] }
      match replace r.1.1 with
      | some replacements =>
        let p := replacements.place s2.heap
        ((recvAt p.1 p.2).1,
          { s2 with heap := (recvAt p.1 p.2).2, Stream := p.2, swaps := s2.swaps + 1 })
      | none => ((r.1.1, none), s2)

/-- Successive calls of `Recv()`: the results of the first `n` calls and the
state after them. -/
def substitutingStream.recvs {T : Type} [Inhabited T] : Nat → substitutingStream T →
    List (T × Option Error) × substitutingStream T
  | 0, s => ([], s)
  | n + 1, s =>
    let r := s.Recv
    let rs := substitutingStream.recvs n r.2
    (r.1 :: rs.1, rs.2)
/-! ## string_reader.go -/

/-- The struct `StringReader`; the `strings.Builder` is the string it
holds. -/
structure StringReader where
  Stream : Stream GoString
  buffer : GoString

/-- The function `NewStringReader(stream)`. -/
def NewStringReader (stream : Option (Stream GoString)) : StringReader :=
  { Stream := avoidNil stream, buffer := [] }

/-- The inner loop `for _, delim := range delims` of `ReadUntil` on the
string `buffer`: the string returned and the string written back to the
buffer when a delimiter is found, `none` when the loop ends without
returning. -/
def scanDelims (buffer : GoString) : List GoString → Option (GoString × GoString)
  | [] => none
  | delim :: rest =>
    match Index buffer delim with
    | some index =>
      let endIndex := if delim = [] then (DecodeRuneInString buffer).2 else index + delim.length
      some (buffer.take endIndex, buffer.drop endIndex)
    | none => scanDelims buffer rest

/-- The method `StringReader.ReadUntil(delims)`; `fuel` bounds the iterations
of its loop. -/
def StringReader.ReadUntil : Nat → StringReader → List GoString →
    Option ((GoString × Option Error) × StringReader)
  | 0, _, _ => none
  | fuel + 1, b, delims =>
    match (if b.buffer.length > 0 then scanDelims b.buffer delims else none) with
    | some (out, rest) => some ((out, none), { b with buffer := rest })
    | none =>
      let r := b.Stream.Recv
      let b1 : StringReader := { b with Stream := r.2 }
      match r.1.2 with
      | some Error.EOF =>
        if b1.buffer.length > 0 then some ((b1.buffer, none), { b1 with buffer := [] })
        else some (([], some Error.EOF), b1)
      | some err => some (([], some err), b1)
      | none =>
        StringReader.ReadUntil fuel
          (if r.1.1.length > 0 then { b1 with buffer := b1.buffer ++ r.1.1 } else b1) delims

/-- Draining `b.ToSplitReader(delims)`: `ReadUntil(delims)` until the first
error, at most `n` calls; returns the strings received and that error. -/
def StringReader.drain (fuel : Nat) (delims : List GoString) : Nat → StringReader →
    Option ((List GoString × Error) × StringReader)
  | 0, _ => none
  | n + 1, b =>
    match b.ReadUntil fuel delims with
    | none => none
    | some ((_, some e), b1) => some (([], e), b1)
    | some ((v, none), b1) =>
      match StringReader.drain fuel delims n b1 with
      | none => none
      | some ((vs, e), b2) => some ((v :: vs, e), b2)
/-! ## concurrent_queue.go -/

/-- The struct `Node[T]`. A pointer to a node is the address of the node in
the memory of the queue, `none` is the nil pointer. -/
structure Node (T : Type) where
  value : T
  next : Option Nat

/-- The struct `ConcurrentQueue[T]` with the nodes it has allocated: `heap`
lists them by address. The lock is not modelled: every method holds it from
entry to return, so methods run one at a time. -/
structure ConcurrentQueue (T : Type) where
  heap : List (Node T)
  head : Option Nat
  tail : Option Nat

/-- The zero value `&ConcurrentQueue[T]{}`. -/
def ConcurrentQueue.zero {T : Type} : ConcurrentQueue T :=
  { heap := [], head := none, tail := none }

/-- The assignment `p.next = next` for the node at address `p`. -/
def setNext {T : Type} (heap : List (Node T)) (p : Nat) (next : Option Nat) : List (Node T) :=
  match heap.get? p with
  | some n => heap.set p { n with next := next }
  | none => heap

/-- The method `ConcurrentQueue.Push(value)`. -/
def ConcurrentQueue.Push {T : Type} (q : ConcurrentQueue T) (value : T) : ConcurrentQueue T :=
  let newNode := q.heap.length
  let heap := q.heap ++ [{ value := value, next := none }]
  match q.tail with
  | none => { heap := heap, head := some newNode, tail := some newNode }
  | some t => { heap := setNext heap t (some newNode), head := q.head, tail := some newNode }

/-- The method `ConcurrentQueue.Pop()`. The second branch stands for a
`head` that points outside the allocated nodes, which no sequence of `Push`
and `Pop` produces (see `ConcurrentQueue.Holds`). -/
def ConcurrentQueue.Pop {T : Type} [Inhabited T] (q : ConcurrentQueue T) :
    (T × Bool) × ConcurrentQueue T :=
  match q.head with
  | none => ((default, false), q)
  | some h =>
    match q.heap.get? h with
    | none => ((default, false), q)
    | some node =>
      ((node.value, true),
        if node.next = none then { q with head := node.next, tail := none }
        else { q with head := node.next })

/-- One operation of a sequential use of the queue. -/
inductive QueueOp (T : Type) where
  | push (v : T)
  | pop

/-- A sequence of operations on the queue, one after the other: the results
of the `Pop` calls, in order, and the final queue. -/
def ConcurrentQueue.exec {T : Type} [Inhabited T] (q : ConcurrentQueue T) :
    List (QueueOp T) → List (T × Bool) × ConcurrentQueue T
  | [] => ([], q)
  | QueueOp.push v :: rest => ConcurrentQueue.exec (q.Push v) rest
  | QueueOp.pop :: rest =>
    let r := q.Pop
    let rs := ConcurrentQueue.exec r.2 rest
    (r.1 :: rs.1, rs.2)

/-- The list the claim compares the queue with: `Push` appends at the back,
`Pop` removes at the front and answers `(zero, false)` on the empty list. -/
def fifoExec {T : Type} [Inhabited T] (l : List T) : List (QueueOp T) → List (T × Bool) × List T
  | [] => ([], l)
  | QueueOp.push v :: rest => fifoExec (l ++ [v]) rest
  | QueueOp.pop :: rest =>
    match l with
    | [] => let rs := fifoExec [] rest; ((default, false) :: rs.1, rs.2)
    | x :: l1 => let rs := fifoExec l1 rest; ((x, true) :: rs.1, rs.2)

/-- The values pushed by a sequence of operations, in order. -/
def pushed {T : Type} : List (QueueOp T) → List T
  | [] => []
  | QueueOp.push v :: rest => v :: pushed rest
  | QueueOp.pop :: rest => pushed rest

/-- The nodes from address `a` to address `t`, linked by `next`, hold the
values `xs`, and the node at `t` is the last one. -/
def Chain {T : Type} (heap : List (Node T)) : Nat → List T → Nat → Prop
  | _, [], _ => False
  | a, [x], t => heap.get? a = some { value := x, next := none } ∧ a = t
  | a, x :: y :: rest, t =>
    ∃ b, heap.get? a = some { value := x, next := some b } ∧ a < b ∧ Chain heap b (y :: rest) t

/-- The queue holds the values `xs`, oldest first. -/
def ConcurrentQueue.Holds {T : Type} (q : ConcurrentQueue T) (xs : List T) : Prop :=
  match xs with
  | [] => q.head = none ∧ q.tail = none
  | _ :: _ => ∃ a t, q.head = some a ∧ q.tail = some t ∧ Chain q.heap a xs t
/-! ## with_buffer.go

`WithBuffer` starts a goroutine that reads the source and pushes onto a
queue, and returns a stream whose `Recv` pops from the queue. The two
threads are modelled as a transition system: a schedule says which thread
performs its next action. The actions are `src.Recv()`, `queue.Push`,
`cond.Signal()` for the goroutine, and taking the lock `mu`, `queue.Pop()`,
entering `cond.Wait()` for the caller of `Recv`. A caller inside
`cond.Wait()` moves again only after a `cond.Signal()` that finds it there,
as `sync.Cond` specifies. -/

/-- The struct `valWithErr` declared in `WithBuffer`. -/
structure valWithErr (T : Type) where
  val : T
  err : Option Error

instance {T : Type} [Inhabited T] : Inhabited (valWithErr T) := ⟨{ val := default, err := none }⟩

/-- Where the goroutine of `WithBuffer` stands: before `src.Recv()`, before
`queue.Push`, before `cond.Signal()`, or returned. -/
inductive producerAt where
  | recv
  | push
  | signal
  | returned
  deriving DecidableEq

/-- Where the caller of `Recv` stands: outside of a call; holding `mu`
before `queue.Pop()`; after a `Pop` that found the queue empty and before
`cond.Wait()`; waiting inside `cond.Wait()`. -/
inductive consumerAt where
  | outside
  | pop
  | wait
  | waiting
  deriving DecidableEq

/-- The two threads. -/
inductive Thread where
  | producer
  | consumer
  deriving DecidableEq

/-- The variables of `WithBuffer`: the source, the queue, the locals `val`
and `err` of the goroutine, and the positions of the two threads. The field
`results` records what the completed calls of `Recv` have returned and is
read by no code. -/
structure withBuffer (T : Type) where
  src : Stream T
  queue : ConcurrentQueue (valWithErr T)
  producer : producerAt
  val : T
  err : Option Error
  consumer : consumerAt
  results : List (T × Option Error)

/-- The state right after `WithBuffer(src)` has returned. -/
def WithBuffer {T : Type} [Inhabited T] (src : Stream T) : withBuffer T :=
  { src := src, queue := ConcurrentQueue.zero, producer := producerAt.recv, val := default,
    err := none, consumer := consumerAt.outside, results := [] }

/-- The next action of one thread, `none` when the thread cannot move: the
goroutine has returned, or the caller waits in `cond.Wait()`. -/
def withBuffer.step {T : Type} [Inhabited T] (w : withBuffer T) : Thread → Option (withBuffer T)
  | Thread.producer =>
    match w.producer with
    | producerAt.recv =>
      some { w with src := (w.src.Recv).2, val := (w.src.Recv).1.1, err := (w.src.Recv).1.2,
                    producer := producerAt.push }
    | producerAt.push =>
      some { w with queue := w.queue.Push { val := w.val, err := w.err },
                    producer := producerAt.signal }
    | producerAt.signal =>
      some { w with consumer := if w.consumer = consumerAt.waiting then consumerAt.pop
                                else w.consumer,
                    producer := if w.err.isSome then producerAt.returned else producerAt.recv }
    | producerAt.returned => none
  | Thread.consumer =>
    match w.consumer with
    | consumerAt.outside => some { w with consumer := consumerAt.pop }
    | consumerAt.pop =>
      if (w.queue.Pop).1.2 then
        some { w with queue := (w.queue.Pop).2, consumer := consumerAt.outside,
                      results := w.results ++ [((w.queue.Pop).1.1.val, (w.queue.Pop).1.1.err)] }
      else some { w with queue := (w.queue.Pop).2, consumer := consumerAt.wait }
    | consumerAt.wait => some { w with consumer := consumerAt.waiting }
    | consumerAt.waiting => none

/-- The state after the actions of a schedule, `none` when the schedule asks
a thread to move that cannot. -/
def withBuffer.run {T : Type} [Inhabited T] : List Thread → withBuffer T → Option (withBuffer T)
  | [], w => some w
  | t :: rest, w =>
    match w.step t with
    | none => none
    | some w1 => withBuffer.run rest w1

/-- The answers of the first `n` calls of `Recv` on the stream. -/
def Stream.firstAnswers {T : Type} (s : Stream T) (n : Nat) : List (T × Option Error) :=
  (List.range n).map (fun j => s.answers (s.calls + j))

/-- What holds in every state of `WithBuffer(src0)`: the source has been read
`P` times, only the last of these answers may carry an error, and the
answers are, in order, those already returned by `Recv`, those in the queue
(`qs`), and the one the goroutine is about to push. -/
structure BufInv {T : Type} (src0 : Stream T) (w : withBuffer T) (P : Nat)
    (qs : List (valWithErr T)) : Prop where
  answers : w.src.answers = src0.answers
  calls : w.src.calls = src0.calls + P
  holds : w.queue.Holds qs
  content : w.results ++ qs.map (fun v => (v.val, v.err)) ++
      (if w.producer = producerAt.push then [(w.val, w.err)] else []) = src0.firstAnswers P
  early : ∀ j, j + 1 < P → (src0.answers (src0.calls + j)).2 = none
  atRecv : w.producer = producerAt.recv → ∀ j, j < P → (src0.answers (src0.calls + j)).2 = none
  held : w.producer ≠ producerAt.recv →
    1 ≤ P ∧ (w.val, w.err) = src0.answers (src0.calls + (P - 1))
/-! ## skip.go and take_while.go -/

/-- Draining a stream given by its `Recv` function: `Recv()` until the first
error, at most `n` calls; returns the items received and that error. -/
def drainWith {σ T : Type} (recv : σ → Option ((T × Option Error) × σ)) :
    Nat → σ → Option ((List T × Error) × σ)
  | 0, _ => none
  | n + 1, m =>
    match recv m with
    | none => none
    | some ((_, some e), m1) => some (([], e), m1)
    | some ((v, none), m1) =>
      match drainWith recv n m1 with
      | none => none
      | some ((vs, e), m2) => some ((v :: vs, e), m2)

/-- Successive calls of a `Recv` function: the results of `n` calls and the
state after them. -/
def recvsWith {σ T : Type} (recv : σ → Option ((T × Option Error) × σ)) :
    Nat → σ → Option (List (T × Option Error) × σ)
  | 0, m => some ([], m)
  | n + 1, m =>
    match recv m with
    | none => none
    | some (r, m1) =>
      match recvsWith recv n m1 with
      | none => none
      | some (rs, m2) => some (r :: rs, m2)

/-- The variables captured by the closure of `SkipUntil`. -/
structure skipUntil (T : Type) where
  s : Stream T
  f : T → Bool
  hasSkipped : Bool

/-- The stream `SkipUntil(s, f)` before its first `Recv`. -/
def SkipUntil {T : Type} (s : Stream T) (f : T → Bool) : skipUntil T :=
  { s := s, f := f, hasSkipped := false }

/-- The function given to `FromFunc` in `SkipUntil`; `fuel` bounds the
iterations of its loop. -/
def skipUntil.Recv {T : Type} [Inhabited T] : Nat → skipUntil T →
    Option ((T × Option Error) × skipUntil T)
  | 0, _ => none
  | fuel + 1, m =>
    if m.hasSkipped then some ((m.s.Recv).1, { m with s := (m.s.Recv).2 })
    else
      match (m.s.Recv).1.2 with
      | some err => some ((default, some err), { m with s := (m.s.Recv).2 })
      | none =>
        if m.f (m.s.Recv).1.1 then
          some (((m.s.Recv).1.1, none), { m with s := (m.s.Recv).2, hasSkipped := true })
        else skipUntil.Recv fuel { m with s := (m.s.Recv).2 }

/-- The variables captured by the closure of `SkipN`; `n` and `i` are Go
`int`s. -/
structure skipN (T : Type) where
  s : Stream T
  n : Int
  i : Int

/-- The stream `SkipN(s, n)` before its first `Recv`. -/
def SkipN {T : Type} (s : Stream T) (n : Int) : skipN T :=
  { s := s, n := n, i := 0 }

/-- The function given to `FromFunc` in `SkipN`; `fuel` bounds the
iterations of its loop. The counter `i` stops at `n`, so it does not
overflow. -/
def skipN.Recv {T : Type} [Inhabited T] : Nat → skipN T → Option ((T × Option Error) × skipN T)
  | 0, _ => none
  | fuel + 1, m =>
    match (m.s.Recv).1.2 with
    | some err => some ((default, some err), { m with s := (m.s.Recv).2 })
    | none =>
      if m.i ≥ m.n then some (((m.s.Recv).1.1, none), { m with s := (m.s.Recv).2 })
      else skipN.Recv fuel { m with s := (m.s.Recv).2, i := m.i + 1 }

/-- The variables captured by the closure of `TakeWhile`; `ended` is the
variable `end`. -/
structure takeWhile (T : Type) where
  src : Stream T
  canTake : T → Bool
  ended : Bool

/-- The stream `TakeWhile(src, canTake)` before its first `Recv`. -/
def TakeWhile {T : Type} (src : Stream T) (canTake : T → Bool) : takeWhile T :=
  { src := src, canTake := canTake, ended := false }

/-- The function given to `FromFunc` in `TakeWhile`; `fuel` bounds the
iterations of its loop. -/
def takeWhile.Recv {T : Type} [Inhabited T] : Nat → takeWhile T →
    Option ((T × Option Error) × takeWhile T)
  | 0, _ => none
  | fuel + 1, m =>
    if m.ended then some ((default, some Error.EOF), m)
    else
      match (m.src.Recv).1.2 with
      | some err => some (((m.src.Recv).1.1, some err), { m with src := (m.src.Recv).2 })
      | none =>
        if m.canTake (m.src.Recv).1.1 then
          some (((m.src.Recv).1.1, none), { m with src := (m.src.Recv).2 })
        else takeWhile.Recv fuel { m with src := (m.src.Recv).2, ended := true }

/-! ## fork.go: the cursors and the cache -/

/-- What holds of a cache and its readers over a source `src0` of any kind:
the buffer holds the answers of the source by position, all of them with a nil
error; while no error is cached the source has been read as many times as the
buffer is long, and no reader index is beyond the end of the buffer. -/
structure CursorInv {T : Type} (src0 : Stream T) (w : Forked T) : Prop where
  answers : w.cache.src.answers = src0.answers
  buf : ∀ j, ∀ h : j < w.cache.buf.length,
    src0.answers (src0.calls + j) = (w.cache.buf.get ⟨j, h⟩, none)
  calls : w.cache.err = none → w.cache.src.calls = src0.calls + w.cache.buf.length
  index : w.cache.err = none → ∀ rd ∈ w.readers, rd.index ≤ w.cache.buf.length
/-! ## The lookahead bound of the three segmentation engines -/

/-- The maximum, over the tokens, of the token's length counted in Unicode
code points. -/
def maxRuneCount (tokens : List GoString) : Nat :=
  (tokens.map RuneCountInString).foldr max 0

/-- The tokens configured by a list of labels: their start and end tokens. -/
def labelTokens (labels : List SLabel) : List GoString :=
  labels.flatMap (fun lb => [lb.StartToken, lb.EndToken])

/-- The field `minBufferLen` of what `NewRemoveTokensStream` returns, `none`
when it returns the source itself. -/
def RemoveTokens.minBufferLen : RemoveTokens → Option Nat
  | RemoveTokens.source _ => none
  | RemoveTokens.engine s => some s.minBufferLen
/-! ## The label engine with labels met in list order -/

/-- What the label engine emits for the text `X` that follows the start token
of an open label with the end token `e`: the text before the first occurrence
of `e` under the name of the label, and then, for the text from that
occurrence on, what `K` says. When `X` begins with the end token and `lose`
holds, nothing is emitted: this is the pass after the end of the input that
closes the label with an empty chunk, after which `Recv` returns end-of-stream
(see C8). -/
def closeRefK (name e : GoString) (lose : Bool) (X : GoString)
    (K : GoString → List (GoString × Nat)) : List (GoString × Nat) :=
  match Index X e with
  | none => labelBytes name X
  | some q =>
    if q = 0 ∧ lose = true then [] else labelBytes name (X.take q) ++ K (X.drop q)

/-- What the label engine emits for the text `Y` that follows the start token
of the label `L`: all of it under the name of the label when the label has no
end token, and `closeRefK` otherwise. -/
def openRefK (L : SLabel) (lose : Bool) (Y : GoString)
    (K : GoString → List (GoString × Nat)) : List (GoString × Nat) :=
  if L.EndToken = [] then labelBytes L.Name Y else closeRefK L.Name L.EndToken lose Y K

/-- One stage of the reference: the text before the first occurrence of the
start token of the first candidate, in list order, that occurs in `X` comes
under `""`; that label is opened, and `K`, given the remaining candidates,
says what follows the end of the label. -/
def stageRef (lose : Nat → GoString → Bool)
    (K : List SLabel → GoString → List (GoString × Nat)) (C : List SLabel) (X : GoString) :
    List (GoString × Nat) :=
  match findStartToken X 0 C with
  | none => labelBytes [] X
  | some (i, L, p) =>
    labelBytes [] (X.take p) ++
      openRefK L (lose p (X.drop (p + L.StartToken.length)))
        (X.drop (p + L.StartToken.length)) (K (C.eraseIdx i))

/-- The reference for the labels after the first one: stage after stage, as
long as candidates remain (the first argument bounds their number). -/
def laterRef : Nat → List SLabel → GoString → List (GoString × Nat)
  | 0, _, X => labelBytes [] X
  | n + 1, C, X => stageRef (fun _ _ => false) (laterRef n) C X

/-- Whether the first label opened is closed by the pass made after the end
of the input with an empty chunk, when its end token follows its start token
at once: a text of at most `M` code points is only looked at in that pass, and
of a longer text only what follows the start token can be left for it. -/
def firstLose (M : Nat) (X : GoString) (p : Nat) (Y : GoString) : Bool :=
  if RuneCountInString X ≤ M then decide (p = 0) else decide (RuneCountInString Y ≤ M)

/-- The reference from a state in which no label is open, with the
candidates `C`: the end-of-input loss of `firstLose` concerns the first label
opened only (`first`). -/
def stagesRef (first : Bool) (C : List SLabel) (M : Nat) (X : GoString) :
    List (GoString × Nat) :=
  stageRef (fun p Y => first && firstLose M X p Y) (laterRef (C.length - 1)) C X

/-- What the label engine with the labels `labels` and the lookahead `M`
emits for the text `X`, when the labels are met in list order (`Orderly`). -/
def labelsRef (labels : List SLabel) (M : Nat) (X : GoString) : List (GoString × Nat) :=
  stagesRef true labels M X

/-- While a label with the end token `e` is open on the text `Y`, no start
token of a remaining candidate ends before the first occurrence of `e` does
(none occurs when `e` does not), and `later` holds of the text from that
occurrence on. -/
def openOrderly (later : List SLabel → GoString → Bool) (C : List SLabel) (e : GoString)
    (Y : GoString) : Bool :=
  match Index Y e with
  | none => C.all (fun l => (Index Y l.StartToken).isNone)
  | some q =>
    C.all (fun l => (occurrences l.StartToken Y).all
      (fun k => decide (q + e.length ≤ k + l.StartToken.length))) &&
    later C (Y.drop q)

/-- The labels are met in list order in the text `X`, one at a time. The
label opened, `L`, is the first candidate in list order whose start token
occurs in `X`, and `p` is the offset of the first occurrence of that token.
The tokens of `L` are valid UTF-8. A start token of a candidate that differs
from the start token of `L` occurs only from the offset
`p + len(L.StartToken)` on, that is, after the start token of `L` has ended.
When `L` has an end token, `openOrderly` holds of the text after the start
token; if `L` is not the first label opened (`first`), that text does not
begin with the end token, so the label has content; and the same holds, with
`first` false, of the remaining candidates and the text from the first
occurrence of the end token on. The first argument bounds the number of
candidates. -/
def orderlyFrom : Nat → Bool → List SLabel → GoString → Bool
  | 0, _, _, _ => true
  | n + 1, first, C, X =>
    match findStartToken X 0 C with
    | none => true
    | some (i, L, p) =>
      ValidString L.StartToken && ValidString L.EndToken &&
      C.all (fun l => (occurrences l.StartToken X).all (fun k =>
        (decide (l.StartToken = L.StartToken) && decide (p ≤ k)) ||
          decide (p + L.StartToken.length ≤ k))) &&
      (decide (L.EndToken = []) ||
        ((first || decide (Index (X.drop (p + L.StartToken.length)) L.EndToken ≠ some 0)) &&
          openOrderly (orderlyFrom n false) (C.eraseIdx i) L.EndToken
            (X.drop (p + L.StartToken.length))))

/-- The labels `labels` are met in list order in the text, one at a time. -/
def Orderly (labels : List SLabel) (text : GoString) : Prop :=
  orderlyFrom labels.length true labels text = true

/-- The part of the invariant `OrdInv` for a state in which no label is open:
the text still to come is orderly for the remaining candidates, and `D` is
its reference. -/
def OrdClosed (M : Nat) (first : Bool) (s : labelStream) (D : List (GoString × Nat))
    (f : List GoString) : Prop :=
  s.currentLabel = none ∧ (s.minBufferLen = M ∨ (s.minBufferLen = 0 ∧ f = [])) ∧
  D = stagesRef first s.labels s.minBufferLen (s.buffer ++ f.flatten) ∧
  orderlyFrom s.labels.length first s.labels (s.buffer ++ f.flatten) = true

/-- The part of the invariant `OrdInv` for a state in which a label with an
end token is open. -/
def OrdOpen (M : Nat) (s : labelStream) (D : List (GoString × Nat)) (f : List GoString) :
    Prop :=
  ∃ L, s.currentLabel = some L ∧ L.EndToken ≠ [] ∧ ValidString L.EndToken = true ∧
    RuneCountInString L.EndToken ≤ M ∧
    (s.minBufferLen = M ∨ (s.minBufferLen = 0 ∧ f = [])) ∧
    D = closeRefK L.Name L.EndToken
      (decide (RuneCountInString (s.buffer ++ f.flatten) ≤ s.minBufferLen))
      (s.buffer ++ f.flatten) (laterRef s.labels.length s.labels) ∧
    openOrderly (orderlyFrom s.labels.length false) s.labels L.EndToken
      (s.buffer ++ f.flatten) = true

/-- The part of the invariant `OrdInv` for a state in which a label without
end token is open: all that comes goes out under its name. -/
def OrdAbsorb (s : labelStream) (D : List (GoString × Nat)) (f : List GoString) : Prop :=
  ∃ L, s.currentLabel = some L ∧ L.EndToken = [] ∧ s.minBufferLen = 0 ∧
    D = labelBytes L.Name (s.buffer ++ f.flatten)

/-- Invariant of the label engine on a text in which the labels are met in
list order: `f` are the chunks still to come, `D` is the labelled bytes still
to be emitted, and `M` is the lookahead the engine was built with. -/
def OrdInv (M : Nat) (s : labelStream) (D : List (GoString × Nat)) (f : List GoString) :
    Prop :=
  s.src.GivesThenEOF f ∧ ValidString s.buffer = true ∧ (∀ c ∈ f, ValidString c = true) ∧
  (∀ l ∈ s.labels, RuneCountInString l.StartToken ≤ M ∧ RuneCountInString l.EndToken ≤ M) ∧
  (OrdClosed M true s D f ∨ OrdClosed M false s D f ∨ OrdOpen M s D f ∨ OrdAbsorb s D f)

/-- The invariant `OrdInv` in a state from which `Recv` goes on to read
upstream: the last call of `cutOverflowBuffer` returned an empty chunk, so the
buffer is within the lookahead or a label has just been closed. -/
def OrdRest (M : Nat) (s : labelStream) (D : List (GoString × Nat)) (f : List GoString) :
    Prop :=
  OrdInv M s D f ∧ (RuneCountInString s.buffer ≤ s.minBufferLen ∨ OrdClosed M false s D f)
/-! # Theorems -/

/-! ## The shared cache -/

theorem CacheInv_newCache {T : Type} (src0 : Stream T) (xs : List T) (e : Error) :
    CacheInv src0 xs e (newCache src0) := by
  refine ⟨rfl, ?_, ?_, ?_⟩ <;> simp [newCache]

theorem CacheInv.get_buf {T : Type} {src0 : Stream T} {xs : List T} {e : Error}
    {c : streamCache T} (hc : CacheInv src0 xs e c) (i : Nat) (h : i < c.buf.length) :
    ∃ h2 : i < xs.length, c.buf.get ⟨i, h⟩ = xs.get ⟨i, h2⟩ := by
  obtain ⟨t, ht⟩ := hc.pre
  subst ht
  refine ⟨by simp; omega, ?_⟩
  simp [List.getElem_append_left h]

theorem CacheInv.len_le {T : Type} {src0 : Stream T} {xs : List T} {e : Error}
    {c : streamCache T} (hc : CacheInv src0 xs e c) : c.buf.length ≤ xs.length :=
  hc.pre.length_le

theorem prefix_snoc {T : Type} {l xs : List T} (h : l <+: xs) (hn : l.length < xs.length) :
    l ++ [xs.get ⟨l.length, hn⟩] <+: xs := by
  obtain ⟨t, rfl⟩ := h
  cases t with
  | nil => simp at hn
  | cons a t =>
    refine ⟨t, ?_⟩
    have h1 : (l ++ a :: t)[l.length] = a := by
      rw [List.getElem_append_right (by omega)]; simp
    simp [h1]

/-- A hit: a position below the buffer length is served from the buffer and
the cache (its source included) does not change. -/
theorem Get_hit {T : Type} [Inhabited T] (c : streamCache T) (i : Nat) (h : i < c.buf.length) :
    c.Get i = ((c.buf.get ⟨i, h⟩, none), c) := by
  simp [streamCache.Get, streamCache.tryGet, h]

/-- Once a terminal error is cached, `Get` never changes the cache. -/
theorem Get_closed {T : Type} [Inhabited T] (c : streamCache T) (i : Nat) (e : Error)
    (he : c.err = some e) :
    (c.Get i).2 = c ∧ (c.buf.length ≤ i → (c.Get i).1 = (default, some e)) := by
  by_cases h : i < c.buf.length
  · rw [Get_hit c i h]; exact ⟨rfl, fun h2 => absurd h (by omega)⟩
  · simp [streamCache.Get, streamCache.tryGet, h, he]

/-- A miss at the end of the buffer with no error cached: one call of the
source. -/
theorem Get_miss {T : Type} [Inhabited T] (c : streamCache T) (i : Nat)
    (h : c.buf.length ≤ i) (he : c.err = none) :
    c.Get i = match (c.src.Recv).1.2 with
      | none => (((c.src.Recv).1.1, none),
          { c with src := (c.src.Recv).2, buf := c.buf ++ [(c.src.Recv).1.1] })
      | some e => (((c.src.Recv).1.1, some e), { c with src := (c.src.Recv).2, err := some e }) := by
  have h' : ¬ i < c.buf.length := by omega
  simp [streamCache.Get, streamCache.tryGet, streamCache.blockLoad, h', he]

/-- The step lemma of the cache: `Get(i)` with `i` not beyond the buffer end
(or with a cached terminal error) gives the outcome of position `i`. -/
theorem Get_spec {T : Type} [Inhabited T] {src0 : Stream T} {xs : List T} {e : Error}
    (hsrc : src0.Yields xs e) {c : streamCache T} (hc : CacheInv src0 xs e c) (i : Nat)
    (hi : c.err = none → i ≤ c.buf.length) :
    IsOutcome xs e i (c.Get i).1 ∧ CacheInv src0 xs e (c.Get i).2 ∧
    ((c.Get i).2.err = none → (c.Get i).2.buf.length = max c.buf.length (i + 1)) ∧
    ((c.Get i).2.err ≠ none → c.err = none → i = xs.length) ∧
    (c.err ≠ none → (c.Get i).2 = c) := by
  have hle := hc.len_le
  by_cases h : i < c.buf.length
  · rw [Get_hit c i h]
    obtain ⟨h2, hg⟩ := hc.get_buf i h
    refine ⟨⟨fun _ => by rw [hg], fun h3 => absurd h3 (by omega)⟩, hc, ?_, ?_, fun _ => rfl⟩
    · intro _; simp; omega
    · intro h1 h2; exact absurd h2 h1
  · cases he : c.err with
    | some e' =>
      obtain ⟨hs, hr⟩ := Get_closed c i e' he
      obtain ⟨rfl, hb, _⟩ := hc.closed e' he
      rw [hs]
      refine ⟨⟨fun h3 => absurd h3 (by rw [hb] at h; omega), fun _ => ?_⟩, hc, ?_, ?_, fun _ => rfl⟩
      · rw [hr (by omega)]
      · intro h1; rw [he] at h1; cases h1
      · intro _ h2; cases h2
    | none =>
      have hi' : i = c.buf.length := by have := hi he; omega
      have hcalls := hc.open_calls he
      rw [Get_miss c i (by omega) he]
      obtain ⟨hy1, hy2⟩ := hsrc
      by_cases hn : c.buf.length < xs.length
      · have hans : (c.src.Recv).1 = (xs.get ⟨c.buf.length, hn⟩, none) := by
          simp only [Stream.Recv, hc.answers, hcalls]
          exact hy1 _ hn
        simp only [hans]
        refine ⟨⟨fun h3 => by subst hi'; rfl, fun h3 => absurd h3 (by omega)⟩, ?_, ?_, ?_, ?_⟩
        · refine ⟨?_, ?_, ?_, ?_⟩
          · simp [Stream.Recv, hc.answers]
          · exact prefix_snoc hc.pre hn
          · intro _; simp [Stream.Recv, hcalls]; omega
          · intro e' h3; simp [he] at h3
        · intro _; simp; omega
        · intro h1; simp [he] at h1
        · intro h1; exact absurd rfl h1
      · have hlen : c.buf.length = xs.length := by omega
        have hans : (c.src.Recv).1.2 = some e := by
          simp only [Stream.Recv, hc.answers, hcalls, hlen]
          exact hy2
        simp only [hans]
        refine ⟨⟨fun h3 => absurd h3 (by omega), fun _ => rfl⟩, ?_, ?_, ?_, ?_⟩
        · refine ⟨?_, hc.pre, ?_, ?_⟩
          · simp [Stream.Recv, hc.answers]
          · intro h3; simp at h3
          · intro e' h3
            simp at h3
            refine ⟨h3.symm, ?_, ?_⟩
            · exact List.IsPrefix.eq_of_length hc.pre hlen
            · simp [Stream.Recv, hcalls, hlen]
        · intro h3; simp at h3
        · intro _ _; omega
        · intro h1; exact absurd rfl h1

/-! ## Readers of one cache -/

theorem index_le_maxIndex (rs : List forkStream) (r : Nat) (d : forkStream)
    (h : r < rs.length) : (rs.getD r d).index ≤ maxIndex rs := by
  induction rs generalizing r with
  | nil => simp at h
  | cons a t ih =>
    cases r with
    | zero => simp [maxIndex]
    | succ r =>
      have := ih r (by simpa using h)
      simp only [maxIndex, List.map_cons, List.foldr_cons, List.getD_cons_succ] at this ⊢
      omega

theorem maxIndex_set (rs : List forkStream) (r v : Nat) (d : forkStream)
    (h : r < rs.length) (hv : (rs.getD r d).index ≤ v) :
    maxIndex (rs.set r { index := v }) = max (maxIndex rs) v := by
  induction rs generalizing r with
  | nil => simp at h
  | cons a t ih =>
    cases r with
    | zero =>
      simp only [List.getD_cons_zero] at hv
      simp only [maxIndex, List.set_cons_zero, List.map_cons, List.foldr_cons]
      omega
    | succ r =>
      have := ih r (by simpa using h) (by simpa using hv)
      simp only [maxIndex, List.set_cons_succ, List.map_cons, List.foldr_cons] at this ⊢
      omega

theorem maxIndex_append (l1 l2 : List forkStream) :
    maxIndex (l1 ++ l2) = max (maxIndex l1) (maxIndex l2) := by
  induction l1 with
  | nil => simp [maxIndex]
  | cons a t ih =>
    simp only [maxIndex, List.cons_append, List.map_cons, List.foldr_cons] at ih ⊢
    omega

theorem maxIndex_replicate_le (c v : Nat) :
    maxIndex (List.replicate c { index := v }) ≤ v := by
  induction c with
  | zero => simp [maxIndex]
  | succ c ih =>
    simp only [maxIndex, List.replicate_succ, List.map_cons, List.foldr_cons] at ih ⊢
    omega

theorem maxIndex_append_replicate (rs : List forkStream) (c v : Nat)
    (hv : v ≤ maxIndex rs) :
    maxIndex (rs ++ List.replicate c { index := v }) = maxIndex rs := by
  have h1 := maxIndex_append rs (List.replicate c { index := v })
  have h2 := maxIndex_replicate_le c v
  omega

/-- The method `forkStream.Recv` keeps the invariant and returns the outcome
of the position the reader stands at. -/
theorem Recv_spec {T : Type} [Inhabited T] {src0 : Stream T} {xs : List T} {e : Error}
    (hsrc : src0.Yields xs e) {w : Forked T} (hw : ForkedInv src0 xs e w) (r : Nat)
    (hr : r < w.readers.length) :
    IsOutcome xs e (w.readers.getD r { index := 0 }).index (w.Recv r).1 ∧
    ForkedInv src0 xs e (w.Recv r).2 := by
  have hidx := index_le_maxIndex w.readers r { index := 0 } hr
  have hi : w.cache.err = none → (w.readers.getD r { index := 0 }).index ≤ w.cache.buf.length := by
    intro h; rw [hw.open_max h]; exact hidx
  obtain ⟨h1, h2, h3, h4, h5⟩ := Get_spec hsrc hw.cache _ hi
  have hmax := maxIndex_set w.readers r ((w.readers.getD r { index := 0 }).index + 1)
    { index := 0 } hr (by omega)
  refine ⟨h1, ⟨h2, ?_, ?_⟩⟩
  · intro he
    simp only [Forked.Recv] at he ⊢
    rw [hmax, h3 he]
    by_cases hc : w.cache.err = none
    · rw [hw.open_max hc]
    · rw [h5 hc] at he; exact absurd he hc
  · intro he
    simp only [Forked.Recv] at he ⊢
    rw [hmax]
    by_cases hc : w.cache.err = none
    · have := h4 he hc; omega
    · have := hw.closed_max hc; omega

theorem Fork_inv {T : Type} (src0 : Stream T) (xs : List T) (e : Error) (k : Nat) :
    ForkedInv src0 xs e (Fork src0 k) := by
  refine ⟨CacheInv_newCache src0 xs e, ?_, ?_⟩
  · intro _
    have := maxIndex_replicate_le k 0
    simp only [Fork, newCache, List.length_nil]
    omega
  · intro h; simp [Fork, newCache] at h

theorem reFork_inv {T : Type} {src0 : Stream T} {xs : List T} {e : Error} {w : Forked T}
    (hw : ForkedInv src0 xs e w) (r copies : Nat) (hr : r < w.readers.length) :
    ForkedInv src0 xs e (w.Fork r copies) := by
  have hidx := index_le_maxIndex w.readers r { index := 0 } hr
  have hmax := maxIndex_append_replicate w.readers copies _ hidx
  refine ⟨hw.cache, ?_, ?_⟩
  · intro he; simp only [Forked.Fork] at he ⊢; rw [hmax]; exact hw.open_max he
  · intro he; simp only [Forked.Fork] at he ⊢; rw [hmax]; exact hw.closed_max he

theorem Recv_readers_length {T : Type} [Inhabited T] (w : Forked T) (r : Nat) :
    (w.Recv r).2.readers.length = w.readers.length := by
  simp [Forked.Recv]

theorem reFork_readers_length {T : Type} (w : Forked T) (r copies : Nat) :
    (w.Fork r copies).readers.length = w.readers.length + copies := by
  simp [Forked.Fork]

theorem exec_inv {T : Type} [Inhabited T] {src0 : Stream T} {xs : List T} {e : Error}
    (hsrc : src0.Yields xs e) (ops : List ForkOp) (w : Forked T)
    (hw : ForkedInv src0 xs e w) (hv : ValidOps w.readers.length ops) :
    ForkedInv src0 xs e (w.exec ops) := by
  induction ops generalizing w with
  | nil => exact hw
  | cons op rest ih =>
    cases op with
    | recv r =>
      obtain ⟨hr, hv'⟩ := hv
      exact ih _ (Recv_spec hsrc hw r hr).2 (by rw [Recv_readers_length]; exact hv')
    | fork r copies =>
      obtain ⟨hr, hv'⟩ := hv
      exact ih _ (reFork_inv hw r copies hr) (by rw [reFork_readers_length]; exact hv')

/-- The index of an existing reader after a sequence of operations: its old
index plus the number of `Recv` calls made on it. -/
theorem exec_index {T : Type} [Inhabited T] (ops : List ForkOp) (w : Forked T) (r : Nat)
    (hr : r < w.readers.length) :
    ((w.exec ops).readers.getD r { index := 0 }).index =
      (w.readers.getD r { index := 0 }).index + recvCount r ops ∧
    w.readers.length ≤ (w.exec ops).readers.length := by
  induction ops generalizing w with
  | nil => simp [Forked.exec, recvCount]
  | cons op rest ih =>
    cases op with
    | recv q =>
      obtain ⟨h1, h2⟩ := ih (w.Recv q).2 (by rw [Recv_readers_length]; exact hr)
      rw [Recv_readers_length] at h2
      refine ⟨?_, by simp only [Forked.exec]; exact h2⟩
      simp only [Forked.exec, recvCount]
      rw [h1]
      by_cases hq : q = r
      · subst hq
        simp [Forked.Recv, List.getD_eq_getElem?_getD, List.getElem?_set, hr]
        omega
      · simp [Forked.Recv, List.getD_eq_getElem?_getD, List.getElem?_set, hq]
    | fork q copies =>
      obtain ⟨h1, h2⟩ := ih (w.Fork q copies) (by rw [reFork_readers_length]; omega)
      rw [reFork_readers_length] at h2
      refine ⟨?_, by simp only [Forked.exec]; omega⟩
      simp only [Forked.exec, recvCount]
      rw [h1]
      simp [Forked.Fork, List.getD_eq_getElem?_getD, List.getElem?_append_left hr]

theorem recvCount_map_recv (r : Nat) (sched : List Nat) :
    recvCount r (sched.map ForkOp.recv) = sched.count r := by
  induction sched with
  | nil => simp [recvCount]
  | cons q rest ih =>
    simp only [List.map_cons, recvCount, ih, List.count_cons]
    by_cases h : q = r
    · simp [h]; omega
    · simp [h]

theorem ValidOps_map_recv (k : Nat) (sched : List Nat) (h : ∀ q ∈ sched, q < k) :
    ValidOps k (sched.map ForkOp.recv) := by
  induction sched with
  | nil => simp [ValidOps]
  | cons q rest ih =>
    simp only [List.map_cons, ValidOps]
    exact ⟨h q (by simp), ih (fun x hx => h x (by simp [hx]))⟩

theorem exec_recv_readers_length {T : Type} [Inhabited T] (sched : List Nat) (w : Forked T) :
    (w.exec (sched.map ForkOp.recv)).readers.length = w.readers.length := by
  induction sched generalizing w with
  | nil => rfl
  | cons q rest ih =>
    simp only [List.map_cons, Forked.exec]
    rw [ih, Recv_readers_length]

theorem FromSlice_Yields {T : Type} [Inhabited T] (xs : List T) :
    (FromSlice xs).Yields xs Error.EOF := by
  refine ⟨?_, ?_⟩
  · intro j h
    simp [FromSlice, List.getElem?_eq_getElem h]
  · simp [FromSlice]

theorem maxIndex_eq_of_index (rs : List forkStream) (k : Nat) (f : Nat → Nat)
    (hlen : rs.length = k) (hf : ∀ r, r < k → (rs.getD r { index := 0 }).index = f r) :
    maxIndex rs = ((List.range k).map f).foldr max 0 := by
  have : rs.map (fun r => r.index) = (List.range k).map f := by
    apply List.ext_getElem
    · simp [hlen]
    · intro i h1 h2
      have hi : i < k := by simpa using h2
      have := hf i hi
      simp only [List.getD_eq_getElem?_getD] at this
      rw [List.getElem?_eq_getElem (by omega)] at this
      simpa using this
  simp [maxIndex, this]

theorem run_facts {T : Type} [Inhabited T] {src : Stream T} {xs : List T} {e : Error}
    (hsrc : src.Yields xs e) (k : Nat) (sched : List Nat) (hs : ∀ q ∈ sched, q < k) :
    ForkedInv src xs e ((Fork src k).run sched) ∧
    ((Fork src k).run sched).readers.length = k ∧
    ∀ r, r < k → (((Fork src k).run sched).readers.getD r { index := 0 }).index = sched.count r := by
  have hlen : (Fork src k).readers.length = k := by simp [Fork]
  refine ⟨?_, ?_, ?_⟩
  · exact exec_inv hsrc _ _ (Fork_inv src xs e k) (by rw [hlen]; exact ValidOps_map_recv k sched hs)
  · simp only [Forked.run]; rw [exec_recv_readers_length, hlen]
  · intro r hr
    have := (exec_index (sched.map ForkOp.recv) (Fork src k) r (by rw [hlen]; exact hr)).1
    simp only [Forked.run]
    rw [this, recvCount_map_recv]
    simp [Fork, List.getD_eq_getElem?_getD, List.getElem?_replicate, hr]

/-- C1 (Fork order preservation). For a source that gives the items `xs` and
then the terminal error `e`, any number `k` of copies and any sequential
interleaving `pre` of earlier `Recv` calls on the `k` readers of
`Fork(src, k)`, the next `Recv` of reader `r`, which is its `j`-th with
`j = pre.count r`, returns `xs[j]` with a nil error when `j < xs.length` and
returns the error `e` when `j ≥ xs.length`. -/
theorem Fork_order_preservation {T : Type} [Inhabited T] (src : Stream T) (xs : List T)
    (e : Error) (hsrc : src.Yields xs e) (k : Nat) (pre : List Nat)
    (hpre : ∀ q ∈ pre, q < k) (r : Nat) (hr : r < k) :
    (∀ h : pre.count r < xs.length,
      (((Fork src k).run pre).Recv r).1 = (xs.get ⟨pre.count r, h⟩, none)) ∧
    (xs.length ≤ pre.count r → (((Fork src k).run pre).Recv r).1.2 = some e) := by
  obtain ⟨hinv, hlen, hidx⟩ := run_facts hsrc k pre hpre
  have := (Recv_spec hsrc hinv r (by rw [hlen]; exact hr)).1
  rw [hidx r hr] at this
  exact this

theorem Fork_order_preservation_witness :
    (FromSlice [1, 2, 3]).Yields [1, 2, 3] Error.EOF ∧
    (((Fork (FromSlice [1, 2, 3]) 2).run [0, 1, 0]).Recv 1).1 = (2, none) ∧
    (((Fork (FromSlice [1, 2, 3]) 2).run [0, 0, 0, 1]).Recv 0).1.2 = some Error.EOF :=
  ⟨FromSlice_Yields _,
   (Fork_order_preservation (FromSlice [1, 2, 3]) [1, 2, 3] Error.EOF (FromSlice_Yields _) 2
      [0, 1, 0] (by decide) 1 (by decide)).1 (by decide),
   (Fork_order_preservation (FromSlice [1, 2, 3]) [1, 2, 3] Error.EOF (FromSlice_Yields _) 2
      [0, 0, 0, 1] (by decide) 0 (by decide)).2 (by decide)⟩

/-- C2 (exactly-once source consumption). After any sequential schedule of
`Recv` calls on the `k` readers of `Fork(src, k)`, with `m` the largest number
of calls made on a single reader, the cache buffer is exactly the first `m`
items of the source (all of them when `m` exceeds their number), so its length
is `m` capped at the number of items, and the source has been called exactly
once per position reached: `min m (xs.length + 1)` times, the `+ 1` being the
single call that returned the terminal error. -/
theorem Fork_exactly_once {T : Type} [Inhabited T] (src : Stream T) (xs : List T)
    (e : Error) (hsrc : src.Yields xs e) (k : Nat) (sched : List Nat)
    (hs : ∀ q ∈ sched, q < k) :
    ((Fork src k).run sched).cache.buf
      = xs.take (((List.range k).map (fun r => sched.count r)).foldr max 0) ∧
    ((Fork src k).run sched).cache.buf.length
      = min (((List.range k).map (fun r => sched.count r)).foldr max 0) xs.length ∧
    ((Fork src k).run sched).cache.src.calls
      = src.calls + min (((List.range k).map (fun r => sched.count r)).foldr max 0)
          (xs.length + 1) := by
  obtain ⟨hinv, hlen, hidx⟩ := run_facts hsrc k sched hs
  have hm := maxIndex_eq_of_index _ k (fun r => sched.count r) hlen hidx
  rw [← hm]
  have hbuf : ((Fork src k).run sched).cache.buf
      = xs.take (maxIndex ((Fork src k).run sched).readers) ∧
      ((Fork src k).run sched).cache.src.calls
      = src.calls + min (maxIndex ((Fork src k).run sched).readers) (xs.length + 1) := by
    cases he : ((Fork src k).run sched).cache.err with
    | none =>
      have h1 := hinv.open_max he
      have h2 := hinv.cache.open_calls he
      have h3 := hinv.cache.len_le
      rw [← h1]
      refine ⟨?_, by rw [h2]; omega⟩
      exact (List.prefix_iff_eq_take.mp hinv.cache.pre)
    | some e' =>
      have h1 := hinv.closed_max (by rw [he]; simp)
      obtain ⟨_, h2, h3⟩ := hinv.cache.closed e' he
      refine ⟨?_, by rw [h3]; omega⟩
      rw [h2, List.take_of_length_le (by omega)]
  refine ⟨hbuf.1, ?_, hbuf.2⟩
  conv_lhs => rw [hbuf.1]
  simp

theorem Fork_exactly_once_witness :
    (FromSlice [1, 2, 3]).Yields [1, 2, 3] Error.EOF ∧
    ((Fork (FromSlice [1, 2, 3]) 2).run [0, 1, 0]).cache.buf = [1, 2] ∧
    ((Fork (FromSlice [1, 2, 3]) 2).run [0, 1, 0]).cache.src.calls = 2 := by
  have h := Fork_exactly_once (FromSlice [1, 2, 3]) [1, 2, 3] Error.EOF (FromSlice_Yields _) 2
    [0, 1, 0] (by decide)
  exact ⟨FromSlice_Yields _, h.1, h.2.2⟩

theorem Gets_closed {T : Type} [Inhabited T] (c : streamCache T) (e : Error)
    (he : c.err = some e) (is : List Nat) :
    (c.Gets is).2 = c ∧
    (c.Gets is).1 = is.map (fun i =>
      if h : i < c.buf.length then (c.buf.get ⟨i, h⟩, none) else (default, some e)) := by
  induction is with
  | nil => simp [streamCache.Gets]
  | cons i rest ih =>
    obtain ⟨h1, h2⟩ := Get_closed c i e he
    simp only [streamCache.Gets, h1, ih.1, ih.2, List.map_cons, true_and]
    congr 1
    by_cases h : i < c.buf.length
    · simp [h, Get_hit c i h]
    · simp [h, h2 (by omega)]

/-- C3 (the terminal outcome is cached). If a `Get(i0)` on a cache without a
cached error reaches the source (`i0` is not below the buffer length) and the
source returns the non-nil error `e` (end-of-stream included), then the cache
records `e` and keeps its items, and in every later sequence of calls `Get(i)`
the cache is left unchanged, its source included, so the source is never
called again; each such `Get(i)` returns `e` with the zero value when `i` is
at or beyond the number of cached items and the cached item with a nil error
otherwise. -/
theorem terminal_outcome_cached {T : Type} [Inhabited T] (c0 : streamCache T) (i0 : Nat)
    (e : Error) (h0 : c0.err = none) (hi0 : c0.buf.length ≤ i0)
    (hsrc : (c0.src.Recv).1.2 = some e) (is : List Nat) :
    (c0.Get i0).1.2 = some e ∧
    (c0.Get i0).2.err = some e ∧
    (c0.Get i0).2.buf = c0.buf ∧
    (c0.Get i0).2.src.calls = c0.src.calls + 1 ∧
    ((c0.Get i0).2.Gets is).2 = (c0.Get i0).2 ∧
    ((c0.Get i0).2.Gets is).1 = is.map (fun i =>
      if h : i < c0.buf.length then (c0.buf.get ⟨i, h⟩, none) else (default, some e)) := by
  have hg := Get_miss c0 i0 hi0 h0
  simp only [hsrc] at hg
  have herr : (c0.Get i0).2.err = some e := by rw [hg]
  have hbuf : (c0.Get i0).2.buf = c0.buf := by rw [hg]
  obtain ⟨h1, h2⟩ := Gets_closed (c0.Get i0).2 e herr is
  refine ⟨by rw [hg], herr, hbuf, by rw [hg]; rfl, h1, ?_⟩
  rw [h2]
  apply List.map_congr_left
  intro i _
  by_cases h : i < c0.buf.length
  · have h' : i < (c0.Get i0).2.buf.length := by rw [hbuf]; exact h
    simp only [h, h', dite_true]
    congr 1
    simp [hbuf]
  · have h' : ¬ i < (c0.Get i0).2.buf.length := by rw [hbuf]; exact h
    simp [h, h']

theorem terminal_outcome_cached_witness :
    (((newCache (FromSlice [7])).Get 0).2.Get 1).2.err = some Error.EOF ∧
    (((((newCache (FromSlice [7])).Get 0).2.Get 1).2.Gets [0, 1, 5, 0]).1
      = [(7, none), (0, some Error.EOF), (0, some Error.EOF), (7, none)]) ∧
    (((((newCache (FromSlice [7])).Get 0).2.Get 1).2.Gets [0, 1, 5, 0]).2.src.calls = 2) := by
  have h := terminal_outcome_cached ((newCache (FromSlice [7])).Get 0).2 1 Error.EOF
    (by decide) (by decide) (by decide) [0, 1, 5, 0]
  refine ⟨h.2.1, ?_, ?_⟩
  · rw [h.2.2.2.2.2]; decide
  · rw [h.2.2.2.2.1]; decide

theorem Recv_readers {T : Type} [Inhabited T] (w : Forked T) (r : Nat) :
    (w.Recv r).2.readers
      = w.readers.set r { index := (w.readers.getD r { index := 0 }).index + 1 } := rfl

theorem Recv_index_self {T : Type} [Inhabited T] (w : Forked T) (r : Nat)
    (hr : r < w.readers.length) :
    ((w.Recv r).2.readers.getD r { index := 0 }).index
      = (w.readers.getD r { index := 0 }).index + 1 := by
  rw [Recv_readers]
  simp [List.getD_eq_getElem?_getD, List.getElem?_set, hr]

theorem Recv_index_other {T : Type} [Inhabited T] (w : Forked T) (r q : Nat) (hq : q ≠ r) :
    (w.Recv r).2.readers.getD q { index := 0 } = w.readers.getD q { index := 0 } := by
  rw [Recv_readers]
  simp [List.getD_eq_getElem?_getD, List.getElem?_set, Ne.symm hq]

/-- What one `Recv` of `Filter(reader r, validate)` does: with enough fuel for
the items still ahead of the reader it returns the next item that passes
`validate`, or the terminal error when there is none, and moves only reader
`r`. -/
theorem filterRecv_spec {T : Type} [Inhabited T] {src0 : Stream T} {xs : List T} {e : Error}
    (hsrc : src0.Yields xs e) (validate : T → Bool) (r : Nat) (fuel : Nat) (w : Forked T)
    (hw : ForkedInv src0 xs e w) (hr : r < w.readers.length)
    (hfuel : xs.length - (w.readers.getD r { index := 0 }).index < fuel) :
    ∃ res w', filterStream.Recv (fun w => Forked.Recv w r) validate fuel w = some (res, w') ∧
      ForkedInv src0 xs e w' ∧ w'.readers.length = w.readers.length ∧
      (∀ q, q ≠ r → w'.readers.getD q { index := 0 } = w.readers.getD q { index := 0 }) ∧
      (xs.drop (w'.readers.getD r { index := 0 }).index).filter validate
        = ((xs.drop (w.readers.getD r { index := 0 }).index).filter validate).tail ∧
      res = match (xs.drop (w.readers.getD r { index := 0 }).index).filter validate with
        | [] => (default, some e)
        | a :: _ => (a, none) := by
  induction fuel generalizing w with
  | zero => omega
  | succ fuel ih =>
    obtain ⟨hout, hinv⟩ := Recv_spec hsrc hw r hr
    have hlen := Recv_readers_length w r
    have hself := Recv_index_self w r hr
    by_cases hi : (w.readers.getD r { index := 0 }).index < xs.length
    · have hres := hout.1 hi
      have hdrop : xs.drop (w.readers.getD r { index := 0 }).index
          = xs.get ⟨_, hi⟩ :: xs.drop ((w.readers.getD r { index := 0 }).index + 1) := by
        simp
      by_cases hv : validate (xs.get ⟨_, hi⟩) = true
      · refine ⟨(xs.get ⟨_, hi⟩, none), (w.Recv r).2, ?_, hinv, hlen,
          fun q hq => Recv_index_other w r q hq, ?_, ?_⟩
        · simp only [filterStream.Recv, hres, hv, if_true]
        · rw [hself, hdrop, List.filter_cons_of_pos hv, List.tail_cons]
        · rw [hdrop, List.filter_cons_of_pos hv]
      · obtain ⟨res, w', h1, h2, h3, h4, h5, h6⟩ := ih (w.Recv r).2 hinv (by rw [hlen]; exact hr)
          (by rw [hself]; omega)
        refine ⟨res, w', ?_, h2, by rw [h3, hlen], ?_, ?_, ?_⟩
        · simp only [filterStream.Recv, hres, hv]
          exact h1
        · intro q hq; rw [h4 q hq, Recv_index_other w r q hq]
        · rw [h5, hself, hdrop, List.filter_cons_of_neg hv]
        · rw [h6, hself, hdrop, List.filter_cons_of_neg hv]
    · have hres := hout.2 (by omega)
      have hdrop : xs.drop (w.readers.getD r { index := 0 }).index = [] :=
        List.drop_eq_nil_of_le (by omega)
      have hdrop' : xs.drop ((w.readers.getD r { index := 0 }).index + 1) = [] :=
        List.drop_eq_nil_of_le (by omega)
      refine ⟨(default, some e), (w.Recv r).2, ?_, hinv, hlen,
        fun q hq => Recv_index_other w r q hq, ?_, ?_⟩
      · simp only [filterStream.Recv, hres]
      · rw [hself, hdrop, hdrop']; rfl
      · rw [hdrop]; rfl

theorem demuxLoop_entries {T : Type} (c : T → GoString) (rest : List GoString) :
    ∀ (done : List GoString) (m : GoString → Option (filterStream T)),
    (∀ key f, m key = some f → f.reader < done.length ∧
      (done ++ rest).getD f.reader [] = key ∧ f.validate = fun t => c t == key) →
    ∀ key f, demuxLoop c done.length rest m key = some f →
      f.reader < (done ++ rest).length ∧
      (done ++ rest).getD f.reader [] = key ∧ f.validate = fun t => c t == key := by
  induction rest with
  | nil =>
    intro done m hm key f hf
    obtain ⟨h1, h2, h3⟩ := hm key f hf
    exact ⟨by simpa using h1, h2, h3⟩
  | cons label rest ih =>
    intro done m hm key f hf
    have hd : done ++ label :: rest = (done ++ [label]) ++ rest := by simp
    have hl : (done ++ [label]).length = done.length + 1 := by simp
    rw [hd]
    simp only [demuxLoop] at hf
    rw [← hl] at hf
    refine ih (done ++ [label]) _ ?_ key f hf
    intro key' f' hf'
    simp only [mapSet] at hf'
    by_cases hk : key' = label
    · simp only [hk, if_true, Option.some.injEq] at hf'
      subst hf'
      refine ⟨by simp, ?_, by rw [hk]⟩
      have h0 : (done ++ label :: rest)[done.length]? = some label := by
        rw [List.getElem?_append_right (le_refl _)]; simp
      rw [← hd, List.getD_eq_getElem?_getD]
      simp only [h0, Option.getD_some]
      exact hk.symm
    · simp only [hk, if_false] at hf'
      obtain ⟨h1, h2, h3⟩ := hm key' f' hf'
      exact ⟨by rw [hl]; omega, by rw [← hd]; exact h2, h3⟩

theorem demuxLoop_keys {T : Type} (c : T → GoString) (rest : List GoString) :
    ∀ (i : Nat) (m : GoString → Option (filterStream T)) (key : GoString),
    (key ∈ rest ∨ ∃ f, m key = some f) → ∃ f, demuxLoop c i rest m key = some f := by
  induction rest with
  | nil =>
    intro i m key h
    rcases h with h | h
    · simp at h
    · exact h
  | cons label rest ih =>
    intro i m key h
    simp only [demuxLoop]
    apply ih
    by_cases hk : key = label
    · right
      refine ⟨{ reader := i, validate := fun t => c t == label }, ?_⟩
      simp only [mapSet]
      rw [if_pos hk]
    · rcases h with h | ⟨f, hf⟩
      · left; simpa [hk] using h
      · right; exact ⟨f, by simp [mapSet, hk, hf]⟩

theorem Demux_inv {T : Type} (src0 : Stream T) (xs : List T) (e : Error)
    (c : T → GoString) (L : List GoString) : DemuxInv src0 xs e c L (Demux src0 c L) := by
  refine ⟨Fork_inv src0 xs e _, by simp [Demux, Fork], ?_, ?_⟩
  · intro key f hf
    simp only [Demux, mapSet] at hf
    by_cases hk : key = []
    · simp only [hk, if_true, Option.some.injEq] at hf
      subst hf
      refine ⟨by simp, ?_, by rw [hk]⟩
      simp [List.getD_eq_getElem?_getD, hk]
    · simp only [hk, if_false] at hf
      have := demuxLoop_entries c L [] (fun _ => none) (by intro k f h; simp at h) key f
        (by simpa using hf)
      simp only [List.nil_append] at this
      exact ⟨by omega, this.2.1, this.2.2⟩
  · intro key hkey
    simp only [Demux, mapSet]
    by_cases hk : key = []
    · exact ⟨{ reader := L.length, validate := fun t => c t == [] }, if_pos hk⟩
    · simp only [hk, if_false]
      apply demuxLoop_keys
      left
      rcases hkey with h | h
      · exact h
      · exact absurd h hk

/-- One `Recv()` on the stream stored under `key`. -/
theorem Demuxed_Recv_spec {T : Type} [Inhabited T] {src0 : Stream T} {xs : List T} {e : Error}
    (hsrc : src0.Yields xs e) {c : T → GoString} {L : List GoString} {d : Demuxed T}
    (hd : DemuxInv src0 xs e c L d) (fuel : Nat) (hfuel : xs.length < fuel)
    (key : GoString) (f : filterStream T) (hf : d.demuxRes key = some f) :
    ∃ res d', d.Recv fuel key = some (res, d') ∧ DemuxInv src0 xs e c L d' ∧
      d'.demuxRes = d.demuxRes ∧
      d'.remaining xs f = (d.remaining xs f).tail ∧
      (∀ key' f', key' ≠ key → d.demuxRes key' = some f' →
        d'.remaining xs f' = d.remaining xs f') ∧
      res = match d.remaining xs f with
        | [] => (default, some e)
        | a :: _ => (a, none) := by
  obtain ⟨hr, hlab, hval⟩ := hd.entries key f hf
  obtain ⟨res, w', h1, h2, h3, h4, h5, h6⟩ := filterRecv_spec hsrc f.validate f.reader fuel
    d.forks hd.forks (by rw [hd.len]; exact hr) (by omega)
  refine ⟨res, { d with forks := w' }, ?_, ⟨h2, by rw [h3]; exact hd.len, hd.entries, hd.keys⟩,
    rfl, h5, ?_, h6⟩
  · simp only [Demuxed.Recv, hf, h1]
  · intro key' f' hne hf'
    obtain ⟨_, hlab', _⟩ := hd.entries key' f' hf'
    have hrr : f'.reader ≠ f.reader := by
      intro heq
      rw [heq, hlab] at hlab'
      exact hne hlab'.symm
    simp only [Demuxed.remaining]
    rw [h4 _ hrr]

theorem Demuxed_run_spec {T : Type} [Inhabited T] {src0 : Stream T} {xs : List T} {e : Error}
    (hsrc : src0.Yields xs e) {c : T → GoString} {L : List GoString} (fuel : Nat)
    (hfuel : xs.length < fuel) (pre : List GoString) :
    ∀ (d : Demuxed T), DemuxInv src0 xs e c L d → (∀ k ∈ pre, k ∈ L ∨ k = []) →
    ∃ d', d.run fuel pre = some d' ∧ DemuxInv src0 xs e c L d' ∧
      d'.demuxRes = d.demuxRes ∧
      ∀ key f, d.demuxRes key = some f →
        d'.remaining xs f = (d.remaining xs f).drop (pre.count key) := by
  induction pre with
  | nil =>
    intro d hd _
    exact ⟨d, rfl, hd, rfl, fun key f _ => by simp⟩
  | cons k rest ih =>
    intro d hd hpre
    obtain ⟨fk, hfk⟩ := hd.keys k (hpre k (by simp))
    obtain ⟨res, d1, h1, h2, h3, h4, h5, _⟩ := Demuxed_Recv_spec hsrc hd fuel hfuel k fk hfk
    obtain ⟨d', g1, g2, g3, g4⟩ := ih d1 h2 (fun x hx => hpre x (by simp [hx]))
    refine ⟨d', ?_, g2, by rw [g3, h3], ?_⟩
    · simp only [Demuxed.run, h1, g1]
    · intro key f hf
      rw [g4 key f (by rw [h3]; exact hf)]
      by_cases hk : key = k
      · subst hk
        have : f = fk := by rw [hf] at hfk; exact Option.some.inj hfk
        subst this
        rw [h4, List.count_cons_self, List.drop_tail]
      · rw [h5 key f hk hf, List.count_cons_of_ne hk]

theorem Demux_remaining {T : Type} (src0 : Stream T) (xs : List T) (c : T → GoString)
    (L : List GoString) (key : GoString) (f : filterStream T) (hg : GoodEntry c L key f) :
    (Demux src0 c L).remaining xs f = xs.filter (fun x => c x == key) := by
  obtain ⟨hr, _, hv⟩ := hg
  simp only [Demuxed.remaining, Demux, Fork, List.getD_eq_getElem?_getD,
    List.getElem?_replicate, hr, if_true, Option.getD_some, List.drop_zero, hv]

/-- C6 (Demux per-label content and order). For every classifier, label
list and source that gives `xs` and then the terminal error `e`, and every key
`l` that is in the label list or is the empty string: after any sequence
`pre` of earlier `Recv` calls on the streams of the map (in any order, on any
keys), the next `Recv` on the stream stored under `l`, which is its `j`-th
with `j = pre.count l`, returns the `j`-th item of the sub-sequence
`xs.filter (c · = l)` with a nil error, and returns the terminal error `e`
with the zero value once that sub-sequence is used up. Every one of these
calls returns, the filter loop needing at most `xs.length + 1` iterations. -/
theorem Demux_per_label {T : Type} [Inhabited T] (src : Stream T) (xs : List T) (e : Error)
    (hsrc : src.Yields xs e) (c : T → GoString) (L : List GoString) (pre : List GoString)
    (hpre : ∀ k ∈ pre, k ∈ L ∨ k = []) (l : GoString) (hl : l ∈ L ∨ l = [])
    (fuel : Nat) (hfuel : xs.length < fuel) :
    ∃ d res d', (Demux src c L).run fuel pre = some d ∧ d.Recv fuel l = some (res, d') ∧
      (∀ h : pre.count l < (xs.filter (fun x => c x == l)).length,
        res = ((xs.filter (fun x => c x == l)).get ⟨pre.count l, h⟩, none)) ∧
      ((xs.filter (fun x => c x == l)).length ≤ pre.count l → res = (default, some e)) := by
  have hd0 := Demux_inv src xs e c L
  obtain ⟨d, g1, g2, g3, g4⟩ := Demuxed_run_spec hsrc fuel hfuel pre _ hd0 hpre
  obtain ⟨f, hf⟩ := hd0.keys l hl
  obtain ⟨res, d', h1, _, _, _, _, h6⟩ := Demuxed_Recv_spec hsrc g2 fuel hfuel l f
    (by rw [g3]; exact hf)
  rw [g4 l f hf, Demux_remaining src xs c L l f (hd0.entries l f hf)] at h6
  refine ⟨d, res, d', g1, h1, ?_, ?_⟩
  · intro h
    rw [h6, List.drop_eq_getElem_cons h]
    rfl
  · intro h
    rw [h6, List.drop_eq_nil_of_le h]

theorem Demux_per_label_witness :
    (FromSlice [1, 2, 3, 4, 5]).Yields [1, 2, 3, 4, 5] Error.EOF ∧
    ∃ d res d',
      (Demux (FromSlice [1, 2, 3, 4, 5]) (fun n => if n % 2 = 0 then str "even" else str "")
        [str "even"]).run 6 [str "", str "even", str ""] = some d ∧
      d.Recv 6 (str "") = some (res, d') ∧ res = (5, none) := by
  obtain ⟨d, res, d', h1, h2, h3, _⟩ := Demux_per_label (FromSlice [1, 2, 3, 4, 5])
    [1, 2, 3, 4, 5] Error.EOF (FromSlice_Yields _)
    (fun n => if n % 2 = 0 then str "even" else str "") [str "even"]
    [str "", str "even", str ""] (by decide) (str "") (by decide) 6 (by decide)
  exact ⟨FromSlice_Yields _, d, res, d', h1, h2, h3 (by decide)⟩

theorem Demuxed_drain_spec {T : Type} [Inhabited T] {src0 : Stream T} {xs : List T} {e : Error}
    (hsrc : src0.Yields xs e) {c : T → GoString} {L : List GoString} (fuel : Nat)
    (hfuel : xs.length < fuel) (key : GoString) (f : filterStream T) (n : Nat) :
    ∀ (d : Demuxed T), DemuxInv src0 xs e c L d → d.demuxRes key = some f →
    (d.remaining xs f).length < n →
    ∃ d', Demuxed.drain fuel n d key = some ((d.remaining xs f, e), d') ∧
      DemuxInv src0 xs e c L d' ∧ d'.demuxRes = d.demuxRes ∧
      (∀ key' f', key' ≠ key → d.demuxRes key' = some f' →
        d'.remaining xs f' = d.remaining xs f') := by
  induction n with
  | zero => intro d _ _ h; omega
  | succ n ih =>
    intro d hd hf hn
    obtain ⟨res, d1, h1, h2, h3, h4, h5, h6⟩ := Demuxed_Recv_spec hsrc hd fuel hfuel key f hf
    cases hrem : d.remaining xs f with
    | nil =>
      rw [hrem] at h6
      subst h6
      exact ⟨d1, by simp only [Demuxed.drain, h1], h2, h3, h5⟩
    | cons a t =>
      rw [hrem] at h6 h4 hn
      subst h6
      simp only [List.tail_cons] at h4
      obtain ⟨d2, g1, g2, g3, g4⟩ := ih d1 h2 (by rw [h3]; exact hf)
        (by rw [h4]; simp at hn; omega)
      refine ⟨d2, ?_, g2, by rw [g3, h3], ?_⟩
      · simp only [Demuxed.drain, h1, g1, h4]
      · intro key' f' hne hf'
        rw [g4 key' f' hne (by rw [h3]; exact hf'), h5 key' f' hne hf']

theorem Demuxed_drainAll_spec {T : Type} [Inhabited T] {src0 : Stream T} {xs : List T}
    {e : Error} (hsrc : src0.Yields xs e) {c : T → GoString} {L : List GoString} (fuel : Nat)
    (hfuel : xs.length < fuel) (R : GoString → List T) (ks : List GoString) :
    ∀ (d : Demuxed T), DemuxInv src0 xs e c L d → ks.Nodup → (∀ k ∈ ks, k ∈ L ∨ k = []) →
    (∀ k ∈ ks, ∀ f, d.demuxRes k = some f → d.remaining xs f = R k) →
    Demuxed.drainAll fuel d ks = some (ks.map (fun k => (R k, e))) := by
  induction ks with
  | nil => intro d _ _ _ _; rfl
  | cons k rest ih =>
    intro d hd hnd hks hR
    obtain ⟨f, hf⟩ := hd.keys k (hks k (by simp))
    have hlen : (d.remaining xs f).length < fuel := by
      have h1 : (d.remaining xs f).length ≤ xs.length := by
        simp only [Demuxed.remaining]
        exact le_trans (List.length_filter_le _ _) (by simp)
      omega
    obtain ⟨d1, g1, g2, g3, g4⟩ := Demuxed_drain_spec hsrc fuel hfuel k f fuel d hd hf hlen
    have hnd' := List.nodup_cons.mp hnd
    have := ih d1 g2 hnd'.2 (fun x hx => hks x (by simp [hx])) (by
      intro k' hk' f' hf'
      have hne : k' ≠ k := fun h => hnd'.1 (h ▸ hk')
      rw [g3] at hf'
      rw [g4 k' f' hne hf']
      exact hR k' (by simp [hk']) f' hf')
    simp only [Demuxed.drainAll, g1, this, List.map_cons, hR k (by simp) f hf]

theorem sum_count_filter {T : Type} [DecidableEq T] (c : T → GoString) (xs : List T) (x : T)
    (ks : List GoString) (hnd : ks.Nodup) :
    (ks.map (fun l => (xs.filter (fun y => c y == l)).count x)).sum
      = if c x ∈ ks then xs.count x else 0 := by
  induction ks with
  | nil => simp
  | cons k rest ih =>
    have hnd' := List.nodup_cons.mp hnd
    rw [List.map_cons, List.sum_cons, ih hnd'.2]
    by_cases hk : c x = k
    · have h1 : (xs.filter (fun y => c y == k)).count x = xs.count x := by
        rw [List.count_filter]; simp [hk]
      have h2 : c x ∉ rest := hk ▸ hnd'.1
      rw [h1, if_neg h2, if_pos (by simp [hk])]
      simp
    · have h1 : (xs.filter (fun y => c y == k)).count x = 0 := by
        rw [List.count_eq_zero]
        intro hmem
        have := (List.mem_filter.mp hmem).2
        simp at this
        exact hk this
      simp [h1, hk]

/-- C5, as stated, fails: an item whose classification is neither a label of
the list nor the empty string is kept by no stream of the map. With the
source `[5]`, the classifier constantly `"z"` and no labels, the map holds the
single key `""` and draining it gives no item: 5 is dropped. -/
theorem Demux_completeness_counterexample :
    (∀ key, key ≠ str "" →
      ((Demux (FromSlice [5]) (fun _ => str "z") []).demuxRes key).isNone = true) ∧
    (Demux (FromSlice [5]) (fun _ => str "z") []).drainAll 2 [str ""]
      = some [([], Error.EOF)] := by
  refine ⟨?_, by decide⟩
  intro key hk
  have hk' : key ≠ [] := hk
  simp [Demux, mapSet, demuxLoop, hk']

/-- C5, amended (Demux completeness). For every classifier `c`, label list
`L` and source that gives `xs` and then `e`, if `c` maps every source item to
a label of `L` or to the empty string, then draining the streams of the map,
each key once and in any order `ks`, returns for each key `l` exactly the
source items `x` with `c x = l`, in source order, then `e`; hence every item
occurs in the drained outputs, taken together, exactly as often as in the
source: none is duplicated and none is dropped. -/
theorem Demux_completeness {T : Type} [Inhabited T] [DecidableEq T] (src : Stream T)
    (xs : List T) (e : Error) (hsrc : src.Yields xs e) (c : T → GoString) (L : List GoString)
    (hc : ∀ x ∈ xs, c x ∈ L ∨ c x = []) (ks : List GoString) (hnd : ks.Nodup)
    (hks : ∀ k, k ∈ ks ↔ (k ∈ L ∨ k = [])) (fuel : Nat) (hfuel : xs.length < fuel) :
    ∃ outs, (Demux src c L).drainAll fuel ks = some outs ∧
      outs = ks.map (fun l => (xs.filter (fun x => c x == l), e)) ∧
      ∀ x, (outs.map (fun o => o.1.count x)).sum = xs.count x := by
  have hd0 := Demux_inv src xs e c L
  have h := Demuxed_drainAll_spec hsrc fuel hfuel (fun l => xs.filter (fun x => c x == l)) ks
    _ hd0 hnd (fun k hk => (hks k).mp hk)
    (fun k _ f hf => Demux_remaining src xs c L k f (hd0.entries k f hf))
  refine ⟨_, h, rfl, ?_⟩
  intro x
  rw [List.map_map]
  have := sum_count_filter c xs x ks hnd
  simp only [Function.comp_def]
  rw [this]
  by_cases hx : x ∈ xs
  · rw [if_pos ((hks (c x)).mpr (hc x hx))]
  · rw [List.count_eq_zero_of_not_mem hx]; simp

theorem Demux_completeness_witness :
    (FromSlice [1, 2, 3, 4, 5]).Yields [1, 2, 3, 4, 5] Error.EOF ∧
    ∃ outs,
      (Demux (FromSlice [1, 2, 3, 4, 5]) (fun n => if n % 2 = 0 then str "even" else str "")
        [str "even"]).drainAll 6 [str "", str "even"] = some outs ∧
      outs = [([1, 3, 5], Error.EOF), ([2, 4], Error.EOF)] := by
  obtain ⟨outs, h1, h2, _⟩ := Demux_completeness (FromSlice [1, 2, 3, 4, 5])
    [1, 2, 3, 4, 5] Error.EOF (FromSlice_Yields _)
    (fun n => if n % 2 = 0 then str "even" else str "") [str "even"]
    (by decide) [str "", str "even"] (by decide)
    (by
      intro k
      simp only [List.mem_cons, List.mem_singleton, List.not_mem_nil, or_false]
      constructor
      · rintro (h | h)
        · right; exact h
        · left; exact h
      · rintro (h | h)
        · right; exact h
        · left; exact h) 6 (by decide)
  exact ⟨FromSlice_Yields _, outs, h1, by rw [h2]; decide⟩

/-! ## Go strings: UTF-8 -/

theorem isCont_iff (b : Nat) : isCont b = true ↔ 0x80 ≤ b ∧ b ≤ 0xBF := by
  simp [isCont]

theorem DecodeRune_size_pos (b : Nat) (rest : GoString) :
    1 ≤ (DecodeRuneInString (b :: rest)).2 := by
  simp only [DecodeRuneInString]
  split_ifs <;> (try split) <;> (try split_ifs) <;> simp

theorem DecodeRune_size_le (s : GoString) : (DecodeRuneInString s).2 ≤ s.length := by
  cases s with
  | nil => simp [DecodeRuneInString]
  | cons b rest =>
    simp only [DecodeRuneInString]
    split_ifs <;> (try split) <;> (try split_ifs) <;> simp

/-- Decoding a valid first rune and encoding it again gives back the bytes it
was decoded from. -/
theorem decode_roundtrip (b : Nat) (rest : GoString)
    (hv : DecodeRuneInString (b :: rest) ≠ (RuneError, 1)) :
    encodeRune (DecodeRuneInString (b :: rest)).1
      = (b :: rest).take (DecodeRuneInString (b :: rest)).2 := by
  by_cases h1 : b < 0x80
  · simp [DecodeRuneInString, h1, encodeRune]
  by_cases h2 : 0xC2 ≤ b ∧ b ≤ 0xDF
  · rcases rest with _ | ⟨b1, t⟩
    · simp [DecodeRuneInString, h1, h2] at hv
    · by_cases h5 : isCont b1 = true
      · simp only [DecodeRuneInString, if_neg h1, if_pos h2, if_pos h5]
        rw [isCont_iff] at h5
        simp only [encodeRune]
        rw [if_neg (by omega), if_pos (by omega)]
        simp only [List.take_succ_cons, List.take_zero]
        congr 1
        · omega
        · congr 1; omega
      · simp [DecodeRuneInString, h1, h2, h5] at hv
  by_cases h3 : 0xE0 ≤ b ∧ b ≤ 0xEF
  · rcases rest with _ | ⟨b1, _ | ⟨b2, t⟩⟩
    · simp [DecodeRuneInString, h1, h2, h3] at hv
    · simp [DecodeRuneInString, h1, h2, h3] at hv
    · by_cases h5 : acceptLo b ≤ b1 ∧ b1 ≤ acceptHi b ∧ isCont b2 = true
      · simp only [DecodeRuneInString, if_neg h1, if_neg h2, if_pos h3, if_pos h5]
        obtain ⟨h6, h7, h8⟩ := h5
        rw [isCont_iff] at h8
        simp only [acceptLo] at h6
        simp only [acceptHi] at h7
        have hb1 : 0x80 ≤ b1 ∧ b1 ≤ 0xBF := by
          constructor
          · split_ifs at h6 <;> omega
          · split_ifs at h7 <;> omega
        have hlo : b = 0xE0 → 0xA0 ≤ b1 := by intro h; rw [if_pos h] at h6; exact h6
        have hhi : b = 0xED → b1 ≤ 0x9F := by intro h; rw [if_pos h] at h7; exact h7
        simp only [encodeRune]
        rw [if_neg (by omega), if_neg (by omega), if_neg (by omega), if_pos (by omega)]
        simp only [List.take_succ_cons, List.take_zero]
        congr 1
        · omega
        · congr 1
          · omega
          · congr 1; omega
      · simp [DecodeRuneInString, h1, h2, h3, h5] at hv
  by_cases h4 : 0xF0 ≤ b ∧ b ≤ 0xF4
  · rcases rest with _ | ⟨b1, _ | ⟨b2, _ | ⟨b3, t⟩⟩⟩
    · simp [DecodeRuneInString, h1, h2, h3, h4] at hv
    · simp [DecodeRuneInString, h1, h2, h3, h4] at hv
    · simp [DecodeRuneInString, h1, h2, h3, h4] at hv
    · by_cases h5 : acceptLo b ≤ b1 ∧ b1 ≤ acceptHi b ∧ isCont b2 = true ∧ isCont b3 = true
      · simp only [DecodeRuneInString, if_neg h1, if_neg h2, if_neg h3, if_pos h4, if_pos h5]
        obtain ⟨h6, h7, h8, h9⟩ := h5
        rw [isCont_iff] at h8 h9
        simp only [acceptLo] at h6
        simp only [acceptHi] at h7
        have hb1 : 0x80 ≤ b1 ∧ b1 ≤ 0xBF := by
          constructor
          · split_ifs at h6 <;> omega
          · split_ifs at h7 <;> omega
        have hlo : b = 0xF0 → 0x90 ≤ b1 := by
          intro h; rw [if_neg (by omega), if_pos h] at h6; exact h6
        have hhi : b = 0xF4 → b1 ≤ 0x8F := by
          intro h; rw [if_neg (by omega), if_pos h] at h7; exact h7
        simp only [encodeRune]
        rw [if_neg (by omega), if_neg (by omega), if_neg (by omega), if_neg (by omega)]
        simp only [List.take_succ_cons, List.take_zero]
        congr 1
        · omega
        · congr 1
          · omega
          · congr 1
            · omega
            · congr 1; omega
      · simp [DecodeRuneInString, h1, h2, h3, h4, h5] at hv
  · simp [DecodeRuneInString, h1, h2, h3, h4] at hv

theorem DecodeRune_append (b : Nat) (rest t : GoString)
    (hv : DecodeRuneInString (b :: rest) ≠ (RuneError, 1)) :
    DecodeRuneInString (b :: rest ++ t) = DecodeRuneInString (b :: rest) := by
  by_cases h1 : b < 0x80
  · simp [DecodeRuneInString, h1]
  by_cases h2 : 0xC2 ≤ b ∧ b ≤ 0xDF
  · rcases rest with _ | ⟨b1, r⟩
    · simp [DecodeRuneInString, h1, h2] at hv
    · simp [DecodeRuneInString, h1, h2]
  by_cases h3 : 0xE0 ≤ b ∧ b ≤ 0xEF
  · rcases rest with _ | ⟨b1, _ | ⟨b2, r⟩⟩
    · simp [DecodeRuneInString, h1, h2, h3] at hv
    · simp [DecodeRuneInString, h1, h2, h3] at hv
    · simp [DecodeRuneInString, h1, h2, h3]
  by_cases h4 : 0xF0 ≤ b ∧ b ≤ 0xF4
  · rcases rest with _ | ⟨b1, _ | ⟨b2, _ | ⟨b3, r⟩⟩⟩
    · simp [DecodeRuneInString, h1, h2, h3, h4] at hv
    · simp [DecodeRuneInString, h1, h2, h3, h4] at hv
    · simp [DecodeRuneInString, h1, h2, h3, h4] at hv
    · simp [DecodeRuneInString, h1, h2, h3, h4]
  · simp [DecodeRuneInString, h1, h2, h3, h4] at hv

theorem drop_decode_length_le (b : Nat) (rest : GoString) :
    ((b :: rest).drop (DecodeRuneInString (b :: rest)).2).length ≤ rest.length := by
  have := DecodeRune_size_pos b rest
  simp only [List.length_drop, List.length_cons]
  omega

theorem runesAux_fuel : ∀ (n : Nat) (s : GoString) (f1 f2 : Nat),
    s.length ≤ n → s.length ≤ f1 → s.length ≤ f2 → runesAux f1 s = runesAux f2 s := by
  intro n
  induction n with
  | zero =>
    intro s f1 f2 h _ _
    have hs : s = [] := List.length_eq_zero.mp (by omega)
    subst hs
    cases f1 <;> cases f2 <;> rfl
  | succ n ih =>
    intro s f1 f2 h h1 h2
    cases s with
    | nil => cases f1 <;> cases f2 <;> rfl
    | cons b rest =>
      cases f1 with
      | zero => simp at h1
      | succ f1 =>
        cases f2 with
        | zero => simp at h2
        | succ f2 =>
          have hl := drop_decode_length_le b rest
          simp only [List.length_cons] at h h1 h2
          simp only [runesAux]
          congr 1
          exact ih _ f1 f2 (by omega) (by omega) (by omega)

theorem runes_nil : runes [] = [] := rfl

theorem runes_cons (b : Nat) (rest : GoString) :
    runes (b :: rest) = (DecodeRuneInString (b :: rest)).1 ::
      runes ((b :: rest).drop (DecodeRuneInString (b :: rest)).2) := by
  have hl := drop_decode_length_le b rest
  simp only [runes, List.length_cons, runesAux]
  congr 1
  exact runesAux_fuel rest.length _ _ _ hl hl (le_refl _)

theorem ValidStringAux_fuel : ∀ (n : Nat) (s : GoString) (f1 f2 : Nat),
    s.length ≤ n → s.length ≤ f1 → s.length ≤ f2 → ValidStringAux f1 s = ValidStringAux f2 s := by
  intro n
  induction n with
  | zero =>
    intro s f1 f2 h _ _
    have hs : s = [] := List.length_eq_zero.mp (by omega)
    subst hs
    cases f1 <;> cases f2 <;> rfl
  | succ n ih =>
    intro s f1 f2 h h1 h2
    cases s with
    | nil => cases f1 <;> cases f2 <;> rfl
    | cons b rest =>
      cases f1 with
      | zero => simp at h1
      | succ f1 =>
        cases f2 with
        | zero => simp at h2
        | succ f2 =>
          have hl := drop_decode_length_le b rest
          simp only [List.length_cons] at h h1 h2
          simp only [ValidStringAux]
          split_ifs
          · rfl
          · exact ih _ f1 f2 (by omega) (by omega) (by omega)

theorem ValidString_nil : ValidString [] = true := rfl

theorem ValidString_cons (b : Nat) (rest : GoString) :
    ValidString (b :: rest) = true ↔
      DecodeRuneInString (b :: rest) ≠ (RuneError, 1) ∧
      ValidString ((b :: rest).drop (DecodeRuneInString (b :: rest)).2) = true := by
  have hl := drop_decode_length_le b rest
  simp only [ValidString, List.length_cons, ValidStringAux]
  rw [ValidStringAux_fuel rest.length _ rest.length _ hl hl (le_refl _)]
  split_ifs with h
  · simp [h]
  · simp [h]

/-- A string can be proved to have a property by following the decoder. -/
theorem GoString.decode_induction (P : GoString → Prop) (hnil : P [])
    (hcons : ∀ b rest, P ((b :: rest).drop (DecodeRuneInString (b :: rest)).2) → P (b :: rest))
    (s : GoString) : P s := by
  have : ∀ n, ∀ s : GoString, s.length ≤ n → P s := by
    intro n
    induction n with
    | zero =>
      intro s h
      have hs : s = [] := List.length_eq_zero.mp (by omega)
      subst hs; exact hnil
    | succ n ih =>
      intro s h
      cases s with
      | nil => exact hnil
      | cons b rest =>
        apply hcons
        apply ih
        have hl := drop_decode_length_le b rest
        simp only [List.length_cons] at h
        omega
  exact this s.length s (le_refl _)

theorem stringOfRunes_append (a b : List Nat) :
    stringOfRunes (a ++ b) = stringOfRunes a ++ stringOfRunes b := by
  simp [stringOfRunes]

theorem stringOfRunes_cons (r : Nat) (rs : List Nat) :
    stringOfRunes (r :: rs) = encodeRune r ++ stringOfRunes rs := by
  simp [stringOfRunes]

/-- On valid UTF-8 the conversion to runes and back is the identity. -/
theorem ValidString_roundtrip (s : GoString) (h : ValidString s = true) :
    stringOfRunes (runes s) = s := by
  induction s using GoString.decode_induction with
  | hnil => rfl
  | hcons b rest ih =>
    obtain ⟨h1, h2⟩ := (ValidString_cons b rest).mp h
    rw [runes_cons, stringOfRunes_cons, ih h2, decode_roundtrip b rest h1, List.take_append_drop]

/-- Cutting valid UTF-8 after `k` runes loses nothing and leaves valid
UTF-8. -/
theorem ValidString_drop_runes (s : GoString) (h : ValidString s = true) :
    ∀ k, ValidString (stringOfRunes ((runes s).drop k)) = true := by
  induction s using GoString.decode_induction with
  | hnil => intro k; simp [runes_nil, stringOfRunes, ValidString_nil]
  | hcons b rest ih =>
    intro k
    obtain ⟨h1, h2⟩ := (ValidString_cons b rest).mp h
    cases k with
    | zero => rw [List.drop_zero, ValidString_roundtrip _ h]; exact h
    | succ k =>
      rw [runes_cons, List.drop_succ_cons]
      exact ih h2 k

theorem ValidString_split_runes (s : GoString) (h : ValidString s = true) (k : Nat) :
    stringOfRunes ((runes s).take k) ++ stringOfRunes ((runes s).drop k) = s := by
  rw [← stringOfRunes_append, List.take_append_drop, ValidString_roundtrip s h]

theorem ValidString_append (a b : GoString) (ha : ValidString a = true)
    (hb : ValidString b = true) : ValidString (a ++ b) = true := by
  induction a using GoString.decode_induction with
  | hnil => simpa using hb
  | hcons x rest ih =>
    obtain ⟨h1, h2⟩ := (ValidString_cons x rest).mp ha
    have hd := DecodeRune_append x rest b h1
    have hle := DecodeRune_size_le (x :: rest)
    have hd' : DecodeRuneInString (x :: (rest ++ b)) = DecodeRuneInString (x :: rest) := hd
    rw [List.cons_append, ValidString_cons, hd']
    refine ⟨h1, ?_⟩
    rw [← List.cons_append, List.drop_append_of_le_length hle]
    exact ih h2

theorem encodeRune_length_pos (r : Nat) : 1 ≤ (encodeRune r).length := by
  simp only [encodeRune]
  split_ifs <;> simp

theorem stringOfRunes_length_ge (rs : List Nat) : rs.length ≤ (stringOfRunes rs).length := by
  induction rs with
  | nil => simp [stringOfRunes]
  | cons r rs ih =>
    rw [stringOfRunes_cons, List.length_append, List.length_cons]
    have := encodeRune_length_pos r
    omega

/-! ## Go strings: `strings.Index` -/

theorem Index_nil_sub (s : GoString) : Index s [] = some 0 := by
  cases s <;> simp [Index]

/-- A result `some i`: the substring occurs at offset `i` and at no smaller
offset. -/
theorem Index_eq_some (s sub : GoString) (i : Nat) (h : Index s sub = some i) :
    sub <+: s.drop i ∧ i ≤ s.length ∧ ∀ j, j < i → ¬ sub <+: s.drop j := by
  induction s generalizing i with
  | nil =>
    simp only [Index] at h
    split_ifs at h with h1
    · cases h; subst h1; simp
  | cons b rest ih =>
    simp only [Index] at h
    split_ifs at h with h1
    · cases h
      refine ⟨by simpa using List.isPrefixOf_iff_prefix.mp h1, by simp, fun j hj => by omega⟩
    · cases hr : Index rest sub with
      | none => simp [hr] at h
      | some k =>
        simp only [hr, Option.map_some', Option.some.injEq] at h
        subst h
        obtain ⟨g1, g2, g3⟩ := ih k hr
        refine ⟨by simpa using g1, by simp; omega, ?_⟩
        intro j hj
        cases j with
        | zero =>
          simp only [List.drop_zero]
          intro hp
          exact h1 (List.isPrefixOf_iff_prefix.mpr hp)
        | succ j =>
          simp only [List.drop_succ_cons]
          exact g3 j (by omega)

/-- A result `-1`: the substring occurs nowhere. -/
theorem Index_eq_none (s sub : GoString) (h : Index s sub = none) :
    ∀ j, ¬ sub <+: s.drop j := by
  induction s with
  | nil =>
    simp only [Index] at h
    split_ifs at h with h1
    intro j hp
    simp only [List.drop_nil, List.prefix_nil] at hp
    exact h1 hp
  | cons b rest ih =>
    simp only [Index] at h
    split_ifs at h with h1
    have hr : Index rest sub = none := by
      cases hr : Index rest sub with
      | none => rfl
      | some k => simp [hr] at h
    intro j
    cases j with
    | zero =>
      simp only [List.drop_zero]
      intro hp
      exact h1 (List.isPrefixOf_iff_prefix.mpr hp)
    | succ j =>
      simp only [List.drop_succ_cons]
      exact ih hr j

/-- The first occurrence determines the result. -/
theorem Index_of_first (s sub : GoString) (i : Nat) (h1 : sub <+: s.drop i)
    (h3 : ∀ j, j < i → ¬ sub <+: s.drop j) : Index s sub = some i := by
  cases h : Index s sub with
  | none => exact absurd h1 (Index_eq_none s sub h i)
  | some k =>
    obtain ⟨g1, _, g3⟩ := Index_eq_some s sub k h
    rcases Nat.lt_trichotomy k i with hlt | heq | hgt
    · exact absurd g1 (h3 k hlt)
    · rw [heq]
    · exact absurd h1 (g3 i hgt)

theorem Index_none_of_absent (s sub : GoString) (h : ¬ sub <:+: s) : Index s sub = none := by
  cases hi : Index s sub with
  | none => rfl
  | some k =>
    obtain ⟨g1, _, _⟩ := Index_eq_some s sub k hi
    exact absurd (List.IsInfix.trans g1.isInfix (List.drop_suffix k s).isInfix) h

theorem occurs_of_Index_some (s sub : GoString) (i : Nat) (h : Index s sub = some i) :
    sub <:+: s := by
  obtain ⟨g1, _, _⟩ := Index_eq_some s sub i h
  exact List.IsInfix.trans g1.isInfix (List.drop_suffix i s).isInfix

theorem Index_none_iff (s sub : GoString) : Index s sub = none ↔ ¬ sub <:+: s := by
  constructor
  · intro h hinf
    obtain ⟨a, b, hab⟩ := hinf
    apply Index_eq_none s sub h a.length
    rw [← hab]
    simp
  · exact Index_none_of_absent s sub

/-- Where the substring ends, when it occurs at offset `i`. -/
theorem Index_some_length (s sub : GoString) (i : Nat) (h : Index s sub = some i) :
    i + sub.length ≤ s.length ∧ s = s.take i ++ sub ++ s.drop (i + sub.length) := by
  obtain ⟨g1, g2, _⟩ := Index_eq_some s sub i h
  obtain ⟨t, ht⟩ := g1
  have hlen : (s.drop i).length = sub.length + t.length := by rw [← ht]; simp
  simp only [List.length_drop] at hlen
  refine ⟨by omega, ?_⟩
  have h2 : s.drop (i + sub.length) = t := by
    rw [← List.drop_drop, ← ht]
    simp
  rw [h2, List.append_assoc, ht, List.take_append_drop]

/-- An occurrence found in a prefix of the text is the first occurrence in the
whole text. -/
theorem Index_append_left (a b sub : GoString) (i : Nat) (h : Index a sub = some i) :
    Index (a ++ b) sub = some i := by
  obtain ⟨g1, g2, g3⟩ := Index_eq_some a sub i h
  obtain ⟨hl, _⟩ := Index_some_length a sub i h
  apply Index_of_first
  · rw [List.drop_append_of_le_length g2]
    exact g1.trans (List.prefix_append _ _)
  · intro j hj hp
    apply g3 j hj
    rw [List.drop_append_of_le_length (by omega)] at hp
    rw [List.prefix_iff_eq_take] at hp ⊢
    have hlen : sub.length ≤ (List.drop j a).length := by
      simp only [List.length_drop]
      omega
    rw [List.take_append_of_le_length hlen] at hp
    exact hp

/-! ## Go strings: rune boundaries -/

theorem acceptLo_ge (b : Nat) : 0x80 ≤ acceptLo b := by
  simp only [acceptLo]; split_ifs <;> omega

theorem acceptHi_le (b : Nat) : acceptHi b ≤ 0xBF := by
  simp only [acceptHi]; split_ifs <;> omega

/-- The bytes of a valid encoding: the first is not a continuation byte, the
others are, and the decoder needs no byte beyond them. -/
theorem decode_valid_shape (b : Nat) (rest : GoString)
    (hv : DecodeRuneInString (b :: rest) ≠ (RuneError, 1)) :
    isCont b = false ∧
    (∀ k, 0 < k → k < (DecodeRuneInString (b :: rest)).2 →
      ∃ c, (b :: rest)[k]? = some c ∧ isCont c = true) ∧
    DecodeRuneInString ((b :: rest).take (DecodeRuneInString (b :: rest)).2)
      = DecodeRuneInString (b :: rest) := by
  by_cases h1 : b < 0x80
  · refine ⟨by simp [isCont]; omega, ?_, ?_⟩
    · intro k hk1 hk2
      simp [DecodeRuneInString, h1] at hk2
      omega
    · simp [DecodeRuneInString, h1]
  by_cases h2 : 0xC2 ≤ b ∧ b ≤ 0xDF
  · rcases rest with _ | ⟨b1, t⟩
    · simp [DecodeRuneInString, h1, h2] at hv
    · by_cases h5 : isCont b1 = true
      · refine ⟨by simp [isCont]; omega, ?_, ?_⟩
        · intro k hk1 hk2
          simp only [DecodeRuneInString, if_neg h1, if_pos h2, if_pos h5] at hk2
          have hk : k = 1 := by omega
          subst hk
          exact ⟨b1, by simp, h5⟩
        · simp [DecodeRuneInString, h1, h2, h5]
      · simp [DecodeRuneInString, h1, h2, h5] at hv
  by_cases h3 : 0xE0 ≤ b ∧ b ≤ 0xEF
  · rcases rest with _ | ⟨b1, _ | ⟨b2, t⟩⟩
    · simp [DecodeRuneInString, h1, h2, h3] at hv
    · simp [DecodeRuneInString, h1, h2, h3] at hv
    · by_cases h5 : acceptLo b ≤ b1 ∧ b1 ≤ acceptHi b ∧ isCont b2 = true
      · have hc1 : isCont b1 = true := by
          rw [isCont_iff]
          have := acceptLo_ge b
          have := acceptHi_le b
          omega
        refine ⟨by simp [isCont]; omega, ?_, ?_⟩
        · intro k hk1 hk2
          simp only [DecodeRuneInString, if_neg h1, if_neg h2, if_pos h3, if_pos h5] at hk2
          have hk : k = 1 ∨ k = 2 := by omega
          rcases hk with rfl | rfl
          · exact ⟨b1, by simp, hc1⟩
          · exact ⟨b2, by simp, h5.2.2⟩
        · simp [DecodeRuneInString, h1, h2, h3, h5]
      · simp [DecodeRuneInString, h1, h2, h3, h5] at hv
  by_cases h4 : 0xF0 ≤ b ∧ b ≤ 0xF4
  · rcases rest with _ | ⟨b1, _ | ⟨b2, _ | ⟨b3, t⟩⟩⟩
    · simp [DecodeRuneInString, h1, h2, h3, h4] at hv
    · simp [DecodeRuneInString, h1, h2, h3, h4] at hv
    · simp [DecodeRuneInString, h1, h2, h3, h4] at hv
    · by_cases h5 : acceptLo b ≤ b1 ∧ b1 ≤ acceptHi b ∧ isCont b2 = true ∧ isCont b3 = true
      · have hc1 : isCont b1 = true := by
          rw [isCont_iff]
          have := acceptLo_ge b
          have := acceptHi_le b
          omega
        refine ⟨by simp [isCont]; omega, ?_, ?_⟩
        · intro k hk1 hk2
          simp only [DecodeRuneInString, if_neg h1, if_neg h2, if_neg h3, if_pos h4,
            if_pos h5] at hk2
          have hk : k = 1 ∨ k = 2 ∨ k = 3 := by omega
          rcases hk with rfl | rfl | rfl
          · exact ⟨b1, by simp, hc1⟩
          · exact ⟨b2, by simp, h5.2.2.1⟩
          · exact ⟨b3, by simp, h5.2.2.2⟩
        · simp [DecodeRuneInString, h1, h2, h3, h4, h5]
      · simp [DecodeRuneInString, h1, h2, h3, h4, h5] at hv
  · simp [DecodeRuneInString, h1, h2, h3, h4] at hv

/-- A valid string does not start with a continuation byte. -/
theorem ValidString_head_not_cont (b : Nat) (rest : GoString)
    (h : ValidString (b :: rest) = true) : isCont b = false :=
  (decode_valid_shape b rest ((ValidString_cons b rest).mp h).1).1

/-- The bytes of one valid encoding followed by a valid string make a valid
string. -/
theorem ValidString_rune_append (b : Nat) (rest X : GoString)
    (hv : DecodeRuneInString (b :: rest) ≠ (RuneError, 1)) (hX : ValidString X = true) :
    ValidString ((b :: rest).take (DecodeRuneInString (b :: rest)).2 ++ X) = true := by
  obtain ⟨_, _, h3⟩ := decode_valid_shape b rest hv
  have hpos := DecodeRune_size_pos b rest
  have hle := DecodeRune_size_le (b :: rest)
  obtain ⟨n, hn⟩ : ∃ n, (DecodeRuneInString (b :: rest)).2 = n + 1 :=
    ⟨(DecodeRuneInString (b :: rest)).2 - 1, by omega⟩
  rw [hn] at h3 ⊢
  simp only [List.take_succ_cons] at h3 ⊢
  have hv' : DecodeRuneInString (b :: List.take n rest) ≠ (RuneError, 1) := by rw [h3]; exact hv
  have hd := DecodeRune_append b (List.take n rest) X hv'
  have hd' : DecodeRuneInString (b :: (List.take n rest ++ X))
      = DecodeRuneInString (b :: rest) := by
    rw [← h3]; exact hd
  rw [List.cons_append, ValidString_cons, hd']
  refine ⟨hv, ?_⟩
  rw [hn]
  simp only [List.drop_succ_cons]
  have hlen : n ≤ rest.length := by rw [hn] at hle; simp at hle; omega
  rw [List.drop_append_of_le_length (by simp [hlen])]
  simp [List.drop_take, hX]

/-- A valid string can be cut before any byte that is not a continuation
byte: both parts are valid. -/
theorem ValidString_split (B : GoString) (hB : ValidString B = true) :
    ∀ i, (∀ c, B[i]? = some c → isCont c = false) →
      ValidString (B.take i) = true ∧ ValidString (B.drop i) = true := by
  induction B using GoString.decode_induction with
  | hnil => intro i _; simp [ValidString_nil]
  | hcons b rest ih =>
    intro i hi
    obtain ⟨h1, h2⟩ := (ValidString_cons b rest).mp hB
    obtain ⟨_, hshape, _⟩ := decode_valid_shape b rest h1
    by_cases hi0 : i = 0
    · subst hi0
      simp [ValidString_nil, hB]
    by_cases hin : i < (DecodeRuneInString (b :: rest)).2
    · exfalso
      obtain ⟨c, hc1, hc2⟩ := hshape i (by omega) hin
      rw [hi c hc1] at hc2
      cases hc2
    · have hle := DecodeRune_size_le (b :: rest)
      have hsplit : b :: rest = (b :: rest).take (DecodeRuneInString (b :: rest)).2
          ++ (b :: rest).drop (DecodeRuneInString (b :: rest)).2 :=
        (List.take_append_drop _ _).symm
      obtain ⟨g1, g2⟩ := ih h2 (i - (DecodeRuneInString (b :: rest)).2) (by
        intro c hc
        apply hi c
        rw [← hc, List.getElem?_drop]
        congr 1
        omega)
      constructor
      · have : (b :: rest).take i = (b :: rest).take (DecodeRuneInString (b :: rest)).2 ++
            ((b :: rest).drop (DecodeRuneInString (b :: rest)).2).take
              (i - (DecodeRuneInString (b :: rest)).2) := by
          conv_lhs => rw [hsplit]
          rw [List.take_append_eq_append_take]
          congr 1
          · rw [List.take_take]
            congr 1
            omega
          · congr 1
            simp only [List.length_take]
            omega
        rw [this]
        exact ValidString_rune_append b rest _ h1 g1
      · have : (b :: rest).drop i = ((b :: rest).drop (DecodeRuneInString (b :: rest)).2).drop
            (i - (DecodeRuneInString (b :: rest)).2) := by
          rw [List.drop_drop]
          congr 1
          omega
        rw [this]
        exact g2

/-- Removing a valid prefix from a valid string leaves a valid string. -/
theorem ValidString_of_append (a b : GoString) (ha : ValidString a = true)
    (hab : ValidString (a ++ b) = true) : ValidString b = true := by
  induction a using GoString.decode_induction with
  | hnil => simpa using hab
  | hcons x rest ih =>
    obtain ⟨h1, h2⟩ := (ValidString_cons x rest).mp ha
    have hd : DecodeRuneInString (x :: (rest ++ b)) = DecodeRuneInString (x :: rest) :=
      DecodeRune_append x rest b h1
    have hle := DecodeRune_size_le (x :: rest)
    rw [List.cons_append, ValidString_cons, hd] at hab
    apply ih h2
    have := hab.2
    rw [← List.cons_append, List.drop_append_of_le_length hle] at this
    exact this

/-- Where a valid non-empty token occurs in a valid string, the string can be
cut before and after the occurrence into valid parts. -/
theorem ValidString_at_occurrence (B t : GoString) (i : Nat) (hB : ValidString B = true)
    (ht : ValidString t = true) (hne : t ≠ []) (hocc : t <+: B.drop i) :
    ValidString (B.take i) = true ∧ ValidString (B.drop i) = true ∧
    ValidString (B.drop (i + t.length)) = true := by
  obtain ⟨rest, hrest⟩ := hocc
  have hsplit := ValidString_split B hB i (by
    intro c hc
    cases t with
    | nil => exact absurd rfl hne
    | cons t0 tt =>
      have h0 : (B.drop i)[0]? = some t0 := by rw [← hrest]; simp
      rw [List.getElem?_drop] at h0
      simp only [Nat.add_zero] at h0
      rw [hc] at h0
      have hct : c = t0 := Option.some.inj h0
      rw [hct]
      exact ValidString_head_not_cont t0 tt ht)
  refine ⟨hsplit.1, hsplit.2, ?_⟩
  have h2 := hsplit.2
  rw [← hrest] at h2
  have h3 := ValidString_of_append t rest ht h2
  have : B.drop (i + t.length) = rest := by
    rw [← List.drop_drop, ← hrest]
    simp
  rw [this]
  exact h3

/-! ## Segmentation engines: common lemmas -/

theorem FromSlice_GivesThenEOF {T : Type} [Inhabited T] (xs : List T) :
    (FromSlice xs).GivesThenEOF xs := by
  refine ⟨?_, ?_⟩
  · intro j h
    simp [FromSlice, List.getElem?_eq_getElem h]
  · intro j h
    simp [FromSlice, List.getElem?_eq_none h]

theorem GivesThenEOF_cons {T : Type} (s : Stream T) (x : T) (xs : List T)
    (h : s.GivesThenEOF (x :: xs)) :
    (s.Recv).1 = (x, none) ∧ (s.Recv).2.GivesThenEOF xs := by
  obtain ⟨h1, h2⟩ := h
  refine ⟨?_, ?_, ?_⟩
  · have := h1 0 (by simp)
    simpa [Stream.Recv] using this
  · intro j hj
    have := h1 (j + 1) (by simpa using hj)
    simp only [Stream.Recv]
    rw [show s.calls + 1 + j = s.calls + (j + 1) by omega, this]
    simp
  · intro j hj
    have := h2 (j + 1) (by simpa using hj)
    simp only [Stream.Recv]
    rw [show s.calls + 1 + j = s.calls + (j + 1) by omega, this]

theorem GivesThenEOF_nil {T : Type} (s : Stream T) (h : s.GivesThenEOF []) :
    (s.Recv).1.2 = some Error.EOF ∧ (s.Recv).2.GivesThenEOF [] := by
  obtain ⟨_, h2⟩ := h
  refine ⟨?_, ?_, ?_⟩
  · simpa [Stream.Recv] using h2 0 (by simp)
  · intro j hj; simp at hj
  · intro j _
    have := h2 (j + 1) (by simp)
    simp only [Stream.Recv]
    rw [show s.calls + 1 + j = s.calls + (j + 1) by omega, this]

theorem runes_eq_nil (s : GoString) (h : RuneCountInString s = 0) : s = [] := by
  cases s with
  | nil => rfl
  | cons b rest =>
    simp [RuneCountInString, runes_cons] at h

theorem RuneCount_nil : RuneCountInString [] = 0 := rfl

theorem stringOfRunes_ne_nil (rs : List Nat) (h : rs ≠ []) : stringOfRunes rs ≠ [] := by
  intro h2
  have := stringOfRunes_length_ge rs
  rw [h2] at this
  cases rs with
  | nil => exact h rfl
  | cons r rs => simp at this

/-- The release of the runes in excess of `m`, on a valid buffer: the chunk
and the kept suffix make up the buffer, the chunk is not empty, and the kept
suffix is valid and at least `m` bytes long. -/
theorem cut_runes_valid (B : GoString) (m : Nat) (hv : ValidString B = true)
    (hc : m < RuneCountInString B) :
    stringOfRunes ((runes B).take (RuneCountInString B - m)) ++
        stringOfRunes ((runes B).drop (RuneCountInString B - m)) = B ∧
    stringOfRunes ((runes B).take (RuneCountInString B - m)) ≠ [] ∧
    m ≤ (stringOfRunes ((runes B).drop (RuneCountInString B - m))).length ∧
    ValidString (stringOfRunes ((runes B).drop (RuneCountInString B - m))) = true := by
  refine ⟨ValidString_split_runes B hv _, ?_, ?_, ValidString_drop_runes B hv _⟩
  · apply stringOfRunes_ne_nil
    intro h
    have := congrArg List.length h
    simp only [List.length_take, List.length_nil, RuneCountInString] at this hc
    omega
  · have := stringOfRunes_length_ge ((runes B).drop (RuneCountInString B - m))
    simp only [List.length_drop, RuneCountInString] at this hc ⊢
    omega

theorem absent_of_append_right {a b t : GoString} (h : ¬ t <:+: a ++ b) : ¬ t <:+: b :=
  fun h2 => h (h2.trans (List.suffix_append a b).isInfix)

theorem absent_of_append_left {a b t : GoString} (h : ¬ t <:+: a ++ b) : ¬ t <:+: a :=
  fun h2 => h (h2.trans (List.prefix_append a b).isInfix)

theorem findToken_none (B : GoString) (tokens : List GoString)
    (h : ∀ t ∈ tokens, ¬ t <:+: B) : findToken B tokens = none := by
  induction tokens with
  | nil => rfl
  | cons t rest ih =>
    simp only [findToken]
    rw [Index_none_of_absent B t (h t (by simp))]
    exact ih (fun x hx => h x (by simp [hx]))

theorem findStartToken_none (B : GoString) (labels : List SLabel) (i : Nat)
    (h : ∀ lb ∈ labels, ¬ lb.StartToken <:+: B) : findStartToken B i labels = none := by
  induction labels generalizing i with
  | nil => rfl
  | cons lb rest ih =>
    simp only [findStartToken]
    rw [Index_none_of_absent B lb.StartToken (h lb (by simp))]
    exact ih (i + 1) (fun x hx => h x (by simp [hx]))

/-! ## Special-token engine on a text without tokens -/

theorem PassInvST_cut {tokens : List GoString} {s : specialTokenParserStream}
    {d : GoString} {future : List GoString} (h : PassInvST tokens s d future) :
    (s.cutOverflowBuffer).1.1 = [] ∧
    (s.cutOverflowBuffer).2.src = s.src ∧
    (∃ d', d = (s.cutOverflowBuffer).1.2 ++ d' ∧
      PassInvST tokens (s.cutOverflowBuffer).2 d' future) ∧
    (s.minBufferLen = 0 → (s.cutOverflowBuffer).1.2 = [] → s.buffer = []) := by
  by_cases hc : RuneCountInString s.buffer ≤ s.minBufferLen
  · have he : s.cutOverflowBuffer = (([], []), s) := by
      simp [specialTokenParserStream.cutOverflowBuffer, hc]
    rw [he]
    refine ⟨rfl, rfl, ⟨d, by simp, h⟩, ?_⟩
    intro h0 _
    exact runes_eq_nil _ (by omega)
  · have hnone : findToken s.buffer s.specialTokens = none := by
      apply findToken_none
      intro t ht
      rw [h.toks] at ht
      have := h.absent t ht
      rw [← h.text] at this
      exact absent_of_append_left this
    have hpos : RuneCountInString s.buffer - s.minBufferLen > 0 := by omega
    have he : s.cutOverflowBuffer =
        ((s.lastToken, stringOfRunes ((runes s.buffer).take
            (RuneCountInString s.buffer - s.minBufferLen))),
          { s with buffer := stringOfRunes ((runes s.buffer).drop
            (RuneCountInString s.buffer - s.minBufferLen)) }) := by
      simp [specialTokenParserStream.cutOverflowBuffer, hc, hnone, hpos]
    obtain ⟨g1, g2, g3, g4⟩ := cut_runes_valid s.buffer s.minBufferLen h.valid (by omega)
    rw [he]
    refine ⟨h.last, rfl, ⟨stringOfRunes ((runes s.buffer).drop
        (RuneCountInString s.buffer - s.minBufferLen)) ++ future.flatten, ?_, ?_⟩, ?_⟩
    · rw [← List.append_assoc, g1, h.text]
    · refine ⟨h.toks, h.last, rfl, g4, h.fvalid, h.src, ?_⟩
      intro t ht
      have := h.absent t ht
      rw [← h.text, ← g1, List.append_assoc] at this
      exact absent_of_append_right this
    · intro _ hnil
      exact absurd hnil g2

theorem ST_Recv_emit (fuel : Nat) (s : specialTokenParserStream)
    (h : (s.cutOverflowBuffer).1.2 ≠ [] ∨ (s.cutOverflowBuffer).1.1 ≠ []) :
    s.Recv (fuel + 1) = some ((LabeledChunk.mk (s.cutOverflowBuffer).1.1
      (s.cutOverflowBuffer).1.2, none), (s.cutOverflowBuffer).2) := by
  simp only [specialTokenParserStream.Recv, h, if_true]

theorem ST_Recv_chunk (fuel : Nat) (s : specialTokenParserStream)
    (h1 : (s.cutOverflowBuffer).1.2 = []) (h2 : (s.cutOverflowBuffer).1.1 = [])
    (h3 : ((s.cutOverflowBuffer).2.src.Recv).1.2 = none) :
    s.Recv (fuel + 1) = specialTokenParserStream.Recv fuel (s.cutOverflowBuffer).2.onChunk := by
  simp only [specialTokenParserStream.Recv, h1, h2, h3, ne_eq, not_true_eq_false, or_self,
    if_false]

theorem ST_Recv_eof (fuel : Nat) (s : specialTokenParserStream)
    (h1 : (s.cutOverflowBuffer).1.2 = []) (h2 : (s.cutOverflowBuffer).1.1 = [])
    (h3 : ((s.cutOverflowBuffer).2.src.Recv).1.2 = some Error.EOF) :
    s.Recv (fuel + 1) =
      if ((s.cutOverflowBuffer).2.onEOF.cutOverflowBuffer).1.2 = [] ∧
          ((s.cutOverflowBuffer).2.onEOF.cutOverflowBuffer).1.1 = [] then
        some ((default, some Error.EOF), ((s.cutOverflowBuffer).2.onEOF.cutOverflowBuffer).2)
      else
        some (({ Label := ((s.cutOverflowBuffer).2.onEOF.cutOverflowBuffer).1.1,
                 Chunk := ((s.cutOverflowBuffer).2.onEOF.cutOverflowBuffer).1.2 }, none),
          ((s.cutOverflowBuffer).2.onEOF.cutOverflowBuffer).2) := by
  simp only [specialTokenParserStream.Recv, h1, h2, h3, ne_eq, not_true_eq_false, or_self,
    if_false]

theorem PassInvST_Recv {tokens : List GoString} (fuel : Nat) :
    ∀ (s : specialTokenParserStream) (d : GoString) (future : List GoString),
    PassInvST tokens s d future → future.length < fuel →
    ∃ res s', s.Recv fuel = some (res, s') ∧
      ((∃ c d' future', res = ({ Label := [], Chunk := c }, none) ∧ c ≠ [] ∧ d = c ++ d' ∧
          future'.length ≤ future.length ∧ PassInvST tokens s' d' future') ∨
       (res = (default, some Error.EOF) ∧ d = [])) := by
  induction fuel with
  | zero => intro s d future _ h; omega
  | succ fuel ih =>
    intro s d future h hf
    obtain ⟨c1, c2, ⟨d', hd, hinv⟩, c4⟩ := PassInvST_cut h
    by_cases hne : (s.cutOverflowBuffer).1.2 ≠ []
    · refine ⟨_, _, ST_Recv_emit fuel s (Or.inl hne), Or.inl ⟨_, d', future, ?_, hne, hd,
        le_refl _, hinv⟩⟩
      rw [c1]
    · have hnil : (s.cutOverflowBuffer).1.2 = [] := by simpa using hne
      have hd' : d' = d := by rw [hd, hnil]; rfl
      subst hd'
      cases future with
      | nil =>
        obtain ⟨e1, e2⟩ := GivesThenEOF_nil _ hinv.src
        have hinv2 : PassInvST tokens (s.cutOverflowBuffer).2.onEOF d' [] :=
          ⟨hinv.toks, hinv.last, hinv.text, hinv.valid, hinv.fvalid, e2, hinv.absent⟩
        obtain ⟨k1, k2, ⟨d2, hd2, hinv3⟩, k4⟩ := PassInvST_cut hinv2
        rw [ST_Recv_eof fuel s hnil c1 e1]
        by_cases hne2 : ((s.cutOverflowBuffer).2.onEOF.cutOverflowBuffer).1.2 = []
        · rw [if_pos ⟨hne2, k1⟩]
          refine ⟨_, _, rfl, Or.inr ⟨rfl, ?_⟩⟩
          have hb := k4 rfl hne2
          have := hinv2.text
          simp only [List.flatten_nil, List.append_nil] at this
          rw [← this]; exact hb
        · rw [if_neg (fun hh => hne2 hh.1)]
          refine ⟨_, _, rfl, Or.inl ⟨_, d2, [], ?_, hne2, hd2, le_refl _, hinv3⟩⟩
          rw [k1]
      | cons x fut =>
        obtain ⟨e1, e2⟩ := GivesThenEOF_cons _ x fut hinv.src
        have e1' : ((s.cutOverflowBuffer).2.src.Recv).1.2 = none := by rw [e1]
        have hinv2 : PassInvST tokens (s.cutOverflowBuffer).2.onChunk d' fut := by
          refine ⟨hinv.toks, hinv.last, ?_, ?_, fun c hc => hinv.fvalid c (by simp [hc]), e2,
            hinv.absent⟩
          · have := hinv.text
            simp only [List.flatten_cons] at this
            simp only [specialTokenParserStream.onChunk, e1, List.append_assoc]
            exact this
          · simp only [specialTokenParserStream.onChunk, e1]
            exact ValidString_append _ _ hinv.valid (hinv.fvalid x (by simp))
        obtain ⟨res, s', r1, r2⟩ := ih _ d' fut hinv2 (by simp at hf; omega)
        refine ⟨res, s', ?_, ?_⟩
        · rw [ST_Recv_chunk fuel s hnil c1 e1']
          exact r1
        · rcases r2 with ⟨c, d2, f2, q1, q2, q3, q4, q5⟩ | q
          · exact Or.inl ⟨c, d2, f2, q1, q2, q3, by simp; omega, q5⟩
          · exact Or.inr q

theorem PassInvST_drain {tokens : List GoString} (fuel : Nat) (n : Nat) :
    ∀ (s : specialTokenParserStream) (d : GoString) (future : List GoString),
    PassInvST tokens s d future → future.length < fuel → d.length < n →
    ∃ out s', specialTokenParserStream.drain fuel n s = some ((out, Error.EOF), s') ∧
      (∀ o ∈ out, o.Label = []) ∧ (out.map (fun o => o.Chunk)).flatten = d := by
  induction n with
  | zero => intro s d future _ _ h; omega
  | succ n ih =>
    intro s d future h hf hn
    obtain ⟨res, s1, r1, r2⟩ := PassInvST_Recv fuel s d future h hf
    rcases r2 with ⟨c, d2, f2, q1, q2, q3, q4, q5⟩ | ⟨q1, q2⟩
    · have hclen : 1 ≤ c.length := by
        cases c with
        | nil => exact absurd rfl q2
        | cons a t => simp
      obtain ⟨out, s2, g1, g2, g3⟩ := ih s1 d2 f2 q5 (by omega)
        (by rw [q3, List.length_append] at hn; omega)
      refine ⟨{ Label := [], Chunk := c } :: out, s2, ?_, ?_, ?_⟩
      · simp only [specialTokenParserStream.drain, r1, q1, g1]
      · intro o ho
        rcases List.mem_cons.mp ho with rfl | ho
        · rfl
        · exact g2 o ho
      · simp only [List.map_cons, List.flatten_cons, g3, q3]
    · refine ⟨[], s1, ?_, by simp, by simp [q2]⟩
      simp only [specialTokenParserStream.drain, r1, q1]

/-! ## Special-token engine: the loop of `Recv` and draining -/

theorem events_cons (o : LabeledChunk) (out : List LabeledChunk) :
    events (o :: out) = itemEvents o.Label o.Chunk ++ events out := by
  simp [events]

theorem itemEvents_nil : itemEvents [] [] = [] := by
  simp [itemEvents]

theorem itemEvents_length_pos (l c : GoString) (h : c ≠ [] ∨ l ≠ []) :
    1 ≤ (itemEvents l c).length := by
  simp only [itemEvents]
  by_cases hc : c = []
  · have hl : l ≠ [] := by
      rcases h with h | h
      · exact absurd hc h
      · exact h
    simp [hc, hl]
  · simp only [hc, if_false, textEvents, List.length_map]
    exact List.length_pos.mpr hc

/-- The loop of `specialTokenParserStream.Recv` under an invariant `I s D f`
of the engine state `s`, the events `D` still to be emitted and the chunks `f`
still to come from upstream. -/
theorem ST_Recv_generic
    (I : specialTokenParserStream → List (GoString × Option Nat) → List GoString → Prop)
    (hsrc : ∀ s D f, I s D f → s.src.GivesThenEOF f)
    (hcut : ∀ s D f, I s D f →
      ∃ D', D = itemEvents (s.cutOverflowBuffer).1.1 (s.cutOverflowBuffer).1.2 ++ D' ∧
        I (s.cutOverflowBuffer).2 D' f ∧
        (s.minBufferLen = 0 → f = [] → (s.cutOverflowBuffer).1.2 = [] →
          (s.cutOverflowBuffer).1.1 = [] → D = []))
    (hchunk : ∀ s D x f, I s D (x :: f) → I s.onChunk D f)
    (heof : ∀ s D, I s D [] → I s.onEOF D [])
    (fuel : Nat) :
    ∀ (s : specialTokenParserStream) (D : List (GoString × Option Nat)) (f : List GoString),
    I s D f → f.length < fuel →
    ∃ res s', s.Recv fuel = some (res, s') ∧
      ((∃ l c D' f', res = (LabeledChunk.mk l c, none) ∧ (c ≠ [] ∨ l ≠ []) ∧
          D = itemEvents l c ++ D' ∧ f'.length ≤ f.length ∧ I s' D' f') ∨
       (res = (default, some Error.EOF) ∧ D = [])) := by
  induction fuel with
  | zero => intro s D f _ h; omega
  | succ fuel ih =>
    intro s D f h hf
    obtain ⟨D', hD, hI, _⟩ := hcut s D f h
    by_cases hne : (s.cutOverflowBuffer).1.2 ≠ [] ∨ (s.cutOverflowBuffer).1.1 ≠ []
    · exact ⟨_, _, ST_Recv_emit fuel s hne, Or.inl ⟨_, _, D', f, rfl, hne, hD, le_refl _, hI⟩⟩
    · have hnil : (s.cutOverflowBuffer).1.2 = [] ∧ (s.cutOverflowBuffer).1.1 = [] := by
        constructor
        · by_contra hx; exact hne (Or.inl hx)
        · by_contra hx; exact hne (Or.inr hx)
      have hD' : D' = D := by rw [hD, hnil.1, hnil.2, itemEvents_nil]; rfl
      subst hD'
      cases f with
      | nil =>
        obtain ⟨e1, _⟩ := GivesThenEOF_nil _ (hsrc _ _ _ hI)
        have hI2 := heof _ D' hI
        obtain ⟨D2, hD2, hI3, hz⟩ := hcut _ _ _ hI2
        rw [ST_Recv_eof fuel s hnil.1 hnil.2 e1]
        by_cases hne2 : ((s.cutOverflowBuffer).2.onEOF.cutOverflowBuffer).1.2 = [] ∧
            ((s.cutOverflowBuffer).2.onEOF.cutOverflowBuffer).1.1 = []
        · rw [if_pos hne2]
          exact ⟨_, _, rfl, Or.inr ⟨rfl, hz rfl rfl hne2.1 hne2.2⟩⟩
        · rw [if_neg hne2]
          refine ⟨_, _, rfl, Or.inl ⟨_, _, D2, [], rfl, ?_, hD2, le_refl _, hI3⟩⟩
          by_contra hx
          apply hne2
          constructor
          · by_contra hy; exact hx (Or.inl hy)
          · by_contra hy; exact hx (Or.inr hy)
      | cons x fut =>
        obtain ⟨e1, _⟩ := GivesThenEOF_cons _ x fut (hsrc _ _ _ hI)
        have e1' : ((s.cutOverflowBuffer).2.src.Recv).1.2 = none := by rw [e1]
        have hI2 := hchunk _ D' x fut hI
        obtain ⟨res, s', r1, r2⟩ := ih _ D' fut hI2 (by simp at hf; omega)
        refine ⟨res, s', ?_, ?_⟩
        · rw [ST_Recv_chunk fuel s hnil.1 hnil.2 e1']
          exact r1
        · rcases r2 with ⟨l2, c2, D2, f2, q1, q2, q3, q4, q5⟩ | q
          · exact Or.inl ⟨l2, c2, D2, f2, q1, q2, q3, by simp; omega, q5⟩
          · exact Or.inr q

/-- Draining the special-token engine under such an invariant: the items
received before end-of-stream say exactly the events `D`. -/
theorem ST_drain_generic
    (I : specialTokenParserStream → List (GoString × Option Nat) → List GoString → Prop)
    (hsrc : ∀ s D f, I s D f → s.src.GivesThenEOF f)
    (hcut : ∀ s D f, I s D f →
      ∃ D', D = itemEvents (s.cutOverflowBuffer).1.1 (s.cutOverflowBuffer).1.2 ++ D' ∧
        I (s.cutOverflowBuffer).2 D' f ∧
        (s.minBufferLen = 0 → f = [] → (s.cutOverflowBuffer).1.2 = [] →
          (s.cutOverflowBuffer).1.1 = [] → D = []))
    (hchunk : ∀ s D x f, I s D (x :: f) → I s.onChunk D f)
    (heof : ∀ s D, I s D [] → I s.onEOF D [])
    (fuel : Nat) (n : Nat) :
    ∀ (s : specialTokenParserStream) (D : List (GoString × Option Nat)) (f : List GoString),
    I s D f → f.length < fuel → D.length < n →
    ∃ out s', specialTokenParserStream.drain fuel n s = some ((out, Error.EOF), s') ∧
      events out = D := by
  induction n with
  | zero => intro s D f _ _ h; omega
  | succ n ih =>
    intro s D f h hf hn
    obtain ⟨res, s1, r1, r2⟩ := ST_Recv_generic I hsrc hcut hchunk heof fuel s D f h hf
    rcases r2 with ⟨l, c, D2, f2, q1, q2, q3, q4, q5⟩ | ⟨q1, q2⟩
    · have hclen := itemEvents_length_pos l c q2
      obtain ⟨out, s2, g1, g2⟩ := ih s1 D2 f2 q5 (by omega)
        (by rw [q3, List.length_append] at hn; omega)
      refine ⟨LabeledChunk.mk l c :: out, s2, ?_, ?_⟩
      · simp only [specialTokenParserStream.drain, r1, q1, g1]
      · rw [events_cons, g2, q3]
    · refine ⟨[], s1, ?_, by simp [events, q2]⟩
      simp only [specialTokenParserStream.drain, r1, q1]

/-! ## The reference segmentation of a text at one token -/

theorem textEvents_append (l a b : GoString) :
    textEvents l (a ++ b) = textEvents l a ++ textEvents l b := by
  simp [textEvents]

theorem textEvents_length (l x : GoString) : (textEvents l x).length = x.length := by
  simp [textEvents]

theorem itemEvents_text (l c : GoString) (h : c ≠ []) : itemEvents l c = textEvents l c := by
  simp [itemEvents, h]

theorem itemEvents_marker (t : GoString) (h : t ≠ []) : itemEvents t [] = [(t, none)] := by
  simp [itemEvents, h]

theorem Index_nil_text (t : GoString) (h : t ≠ []) : Index [] t = none := by
  simp [Index, h]

theorem segmentOne_fuel (t : GoString) (ht : t ≠ []) :
    ∀ (n m : Nat) (last text : GoString), text.length < n → text.length < m →
      segmentOne t n last text = segmentOne t m last text := by
  intro n
  induction n with
  | zero => intro m last text h; omega
  | succ n ih =>
    intro m last text hn hm
    cases m with
    | zero => omega
    | succ m =>
      cases hi : Index text t with
      | none => simp only [segmentOne, hi]
      | some i =>
        obtain ⟨hl, _⟩ := Index_some_length text t i hi
        have htl : 1 ≤ t.length := List.length_pos.mpr ht
        simp only [segmentOne, hi]
        rw [ih m t (text.drop (i + t.length)) (by simp; omega) (by simp; omega)]

theorem segment_none (t last text : GoString) (h : Index text t = none) :
    segment t last text = textEvents last text := by
  simp only [segment, segmentOne, h]

theorem segment_some (t last text : GoString) (i : Nat) (ht : t ≠ [])
    (h : Index text t = some i) :
    segment t last text =
      textEvents last (text.take i) ++ (t, none) :: segment t t (text.drop (i + t.length)) := by
  obtain ⟨hl, _⟩ := Index_some_length text t i h
  have htl : 1 ≤ t.length := List.length_pos.mpr ht
  have e1 : segment t last text = segmentOne t (text.length + 1) last text := rfl
  have e2 : segment t t (text.drop (i + t.length))
      = segmentOne t ((text.drop (i + t.length)).length + 1) t (text.drop (i + t.length)) := rfl
  have e3 : segmentOne t (text.length + 1) last text = textEvents last (text.take i) ++
      (t, none) :: segmentOne t text.length t (text.drop (i + t.length)) := by
    simp only [segmentOne, h]
  rw [e1, e3, e2, segmentOne_fuel t ht text.length ((text.drop (i + t.length)).length + 1) t _
    (by simp; omega) (by omega)]

theorem segment_nil (t last : GoString) (ht : t ≠ []) : segment t last [] = [] := by
  rw [segment_none t last [] (Index_nil_text t ht)]
  rfl

theorem prefix_of_drop_append (B F t : GoString) (j : Nat) (hj : j + t.length ≤ B.length)
    (h : t <+: (B ++ F).drop j) : t <+: B.drop j := by
  rw [List.drop_append_of_le_length (by omega)] at h
  exact List.prefix_of_prefix_length_le h (List.prefix_append _ _) (by simp; omega)

theorem drop_append_ge (p R : GoString) (k : Nat) (hk : p.length ≤ k) :
    (p ++ R).drop k = R.drop (k - p.length) := by
  rw [List.drop_append_eq_append_drop, List.drop_eq_nil_of_le hk, List.nil_append]

/-- A prefix in which no occurrence of the token starts is plain text. -/
theorem segment_skip (t last p R : GoString) (ht : t ≠ [])
    (h : ∀ j, j < p.length → ¬ t <+: (p ++ R).drop j) :
    segment t last (p ++ R) = textEvents last p ++ segment t last R := by
  cases hi : Index (p ++ R) t with
  | none =>
    have hR : Index R t = none :=
      Index_none_of_absent _ _ (absent_of_append_right ((Index_none_iff _ _).mp hi))
    rw [segment_none _ _ _ hi, segment_none _ _ _ hR, textEvents_append]
  | some i =>
    obtain ⟨g1, g2, g3⟩ := Index_eq_some _ _ _ hi
    have hip : p.length ≤ i := by
      by_contra hlt
      exact h i (by omega) g1
    have hR : Index R t = some (i - p.length) := by
      apply Index_of_first
      · rw [← drop_append_ge p R i hip]; exact g1
      · intro j hj hp
        apply g3 (j + p.length) (by omega)
        rw [drop_append_ge p R _ (by omega)]
        have : j + p.length - p.length = j := by omega
        rw [this]
        exact hp
    rw [segment_some _ _ _ _ ht hi, segment_some _ _ _ _ ht hR]
    have htake : (p ++ R).take i = p ++ R.take (i - p.length) := by
      rw [List.take_append_eq_append_take, List.take_of_length_le hip]
    have hlen : i + t.length - p.length = i - p.length + t.length := by omega
    rw [htake, textEvents_append, drop_append_ge p R _ (by omega), List.append_assoc, hlen]

theorem segment_length (t : GoString) (ht : t ≠ []) :
    ∀ (n : Nat) (last text : GoString), text.length < n →
      (segment t last text).length ≤ 2 * text.length := by
  intro n
  induction n with
  | zero => intro _ _ h; omega
  | succ n ih =>
    intro last text h
    cases hi : Index text t with
    | none => rw [segment_none _ _ _ hi, textEvents_length]; omega
    | some i =>
      obtain ⟨hl, _⟩ := Index_some_length text t i hi
      have htl : 1 ≤ t.length := List.length_pos.mpr ht
      have := ih t (text.drop (i + t.length)) (by simp; omega)
      rw [segment_some _ _ _ _ ht hi]
      simp only [List.length_append, List.length_cons, textEvents_length, List.length_take]
      simp only [List.length_drop] at this
      omega

/-! ## Special-token engine with one token -/

theorem OneTok_cut {t : GoString} (ht : t ≠ []) (htv : ValidString t = true)
    {s : specialTokenParserStream} {D : List (GoString × Option Nat)} {f : List GoString}
    (h : OneTokInv t s D f) :
    ∃ D', D = itemEvents (s.cutOverflowBuffer).1.1 (s.cutOverflowBuffer).1.2 ++ D' ∧
      OneTokInv t (s.cutOverflowBuffer).2 D' f ∧
      (s.minBufferLen = 0 → f = [] → (s.cutOverflowBuffer).1.2 = [] →
        (s.cutOverflowBuffer).1.1 = [] → D = []) := by
  have htl : 1 ≤ t.length := List.length_pos.mpr ht
  by_cases hc : RuneCountInString s.buffer ≤ s.minBufferLen
  · have he : s.cutOverflowBuffer = (([], []), s) := by
      simp [specialTokenParserStream.cutOverflowBuffer, hc]
    rw [he]
    refine ⟨D, by simp [itemEvents_nil], h, ?_⟩
    intro h0 hf _ _
    have hb : s.buffer = [] := runes_eq_nil _ (by omega)
    rw [h.todo, hb, hf]
    exact segment_nil t _ ht
  · cases hi : Index s.buffer t with
    | none =>
      have hnone : findToken s.buffer s.specialTokens = none := by
        rw [h.toks]
        simp only [findToken, hi]
      have hpos : RuneCountInString s.buffer - s.minBufferLen > 0 := by omega
      have he : s.cutOverflowBuffer =
          ((s.lastToken, stringOfRunes ((runes s.buffer).take
              (RuneCountInString s.buffer - s.minBufferLen))),
            { s with buffer := stringOfRunes ((runes s.buffer).drop
              (RuneCountInString s.buffer - s.minBufferLen)) }) := by
        simp [specialTokenParserStream.cutOverflowBuffer, hc, hnone, hpos]
      obtain ⟨g1, g2, g3, g4⟩ := cut_runes_valid s.buffer s.minBufferLen h.valid (by omega)
      rw [he]
      generalize stringOfRunes ((runes s.buffer).take
        (RuneCountInString s.buffer - s.minBufferLen)) = chunk at g1 g2
      generalize stringOfRunes ((runes s.buffer).drop
        (RuneCountInString s.buffer - s.minBufferLen)) = kept at g1 g3 g4
      refine ⟨segment t s.lastToken (kept ++ f.flatten), ?_,
        ⟨h.toks, h.src, g4, h.fvalid, h.min, rfl⟩, ?_⟩
      · rw [itemEvents_text _ _ g2, h.todo, ← g1, List.append_assoc]
        apply segment_skip t _ _ _ ht
        intro j hj hp
        rw [← List.append_assoc, g1] at hp
        have hlen : s.buffer.length = chunk.length + kept.length := by rw [← g1]; simp
        rcases h.min with hm | ⟨_, hf⟩
        · exact Index_eq_none s.buffer t hi j
            (prefix_of_drop_append s.buffer _ t j (by omega) hp)
        · rw [hf] at hp
          simp only [List.flatten_nil, List.append_nil] at hp
          exact Index_eq_none s.buffer t hi j hp
      · intro _ _ hnil
        exact absurd hnil g2
    | some i =>
      have hfind : findToken s.buffer s.specialTokens = some (t, i) := by
        rw [h.toks]
        simp only [findToken, hi]
      obtain ⟨g1, g2, _⟩ := Index_eq_some _ _ _ hi
      obtain ⟨hl, _⟩ := Index_some_length s.buffer t i hi
      obtain ⟨v1, v2, v3⟩ := ValidString_at_occurrence s.buffer t i h.valid htv ht g1
      have hiR := Index_append_left s.buffer f.flatten t i hi
      have hD := segment_some t s.lastToken _ i ht hiR
      rw [← h.todo, List.take_append_of_le_length g2,
        List.drop_append_of_le_length hl] at hD
      by_cases hpos : (s.buffer.take i).length > 0
      · have he : s.cutOverflowBuffer =
            ((s.lastToken, s.buffer.take i),
              { s with lastToken := t, buffer := s.buffer.drop i }) := by
          simp only [specialTokenParserStream.cutOverflowBuffer, if_neg hc, hfind, if_pos hpos]
        rw [he]
        have hne : s.buffer.take i ≠ [] := List.length_pos.mp hpos
        have h0 : Index (s.buffer.drop i ++ f.flatten) t = some 0 := by
          apply Index_append_left
          apply Index_of_first
          · exact g1
          · intro j hj; omega
        have hD2 := segment_some t t _ 0 ht h0
        have hdd : List.drop (0 + t.length) (s.buffer.drop i ++ f.flatten)
            = s.buffer.drop (i + t.length) ++ f.flatten := by
          rw [List.drop_append_of_le_length (by simp; omega), List.drop_drop]
          congr 2
          omega
        rw [hdd] at hD2
        refine ⟨segment t t (s.buffer.drop i ++ f.flatten), ?_,
          ⟨h.toks, h.src, v2, h.fvalid, h.min, rfl⟩, ?_⟩
        · rw [itemEvents_text _ _ hne, hD, hD2]
          simp [textEvents]
        · intro _ _ hnil
          exact absurd hnil hne
      · have hi0 : i = 0 := by
          simp only [List.length_take] at hpos
          omega
        have he : s.cutOverflowBuffer =
            ((t, []), { s with lastToken := t, buffer := (s.buffer.drop i).drop t.length }) := by
          simp only [specialTokenParserStream.cutOverflowBuffer, if_neg hc, hfind, if_neg hpos]
        rw [he]
        have hbuf : (s.buffer.drop i).drop t.length = s.buffer.drop (i + t.length) := by
          rw [List.drop_drop]
        refine ⟨segment t t (s.buffer.drop (i + t.length) ++ f.flatten), ?_,
          ⟨h.toks, h.src, ?_, h.fvalid, h.min, ?_⟩, ?_⟩
        · rw [itemEvents_marker t ht, hD, hi0]
          simp [textEvents]
        · show ValidString ((s.buffer.drop i).drop t.length) = true
          rw [hbuf]; exact v3
        · show _ = segment t t ((s.buffer.drop i).drop t.length ++ f.flatten)
          rw [hbuf]
        · intro _ _ _ hl0
          exact absurd hl0 ht

theorem OneTok_chunk {t : GoString} {s : specialTokenParserStream}
    {D : List (GoString × Option Nat)} {x : GoString} {f : List GoString}
    (h : OneTokInv t s D (x :: f)) : OneTokInv t s.onChunk D f := by
  obtain ⟨e1, e2⟩ := GivesThenEOF_cons _ x f h.src
  refine ⟨h.toks, e2, ?_, fun c hc => h.fvalid c (List.mem_cons_of_mem _ hc), ?_, ?_⟩
  · show ValidString (s.buffer ++ (s.src.Recv).1.1) = true
    rw [e1]
    exact ValidString_append _ _ h.valid (h.fvalid x (List.mem_cons_self _ _))
  · rcases h.min with hm | ⟨_, hf⟩
    · exact Or.inl hm
    · cases hf
  · show D = segment t s.lastToken ((s.buffer ++ (s.src.Recv).1.1) ++ f.flatten)
    rw [e1, h.todo]
    simp

theorem OneTok_eof {t : GoString} {s : specialTokenParserStream}
    {D : List (GoString × Option Nat)} (h : OneTokInv t s D []) : OneTokInv t s.onEOF D [] := by
  obtain ⟨_, e2⟩ := GivesThenEOF_nil _ h.src
  exact ⟨h.toks, e2, h.valid, h.fvalid, Or.inr ⟨rfl, rfl⟩, h.todo⟩

theorem tokensMinBufferLen_single (t : GoString) (ht : t ≠ []) :
    tokensMinBufferLen [t] = t.length := by
  have hpos : RuneCountInString t > 0 := by
    by_contra hx
    exact ht (runes_eq_nil t (by omega))
  simp [tokensMinBufferLen, hpos]

/-- With one non-empty valid token and valid chunks, draining the
special-token engine yields end-of-stream after items that say exactly the
reference segmentation of the concatenated text. -/
theorem specialTokenOutput_single (t : GoString) (ht : t ≠ []) (htv : ValidString t = true)
    (chunks : List GoString) (hv : ∀ c ∈ chunks, ValidString c = true) (fuel : Nat)
    (hfuel : chunks.length + 2 * chunks.flatten.length < fuel) :
    ∃ out, specialTokenOutput [t] chunks fuel = some (out, Error.EOF) ∧
      events out = segment t [] chunks.flatten := by
  have hinit : OneTokInv t (NewSpecialTokenParserStream (FromSlice chunks) [t])
      (segment t [] chunks.flatten) chunks :=
    ⟨rfl, FromSlice_GivesThenEOF chunks, ValidString_nil, hv,
      Or.inl (tokensMinBufferLen_single t ht), by simp [NewSpecialTokenParserStream]⟩
  have hlen := segment_length t ht (chunks.flatten.length + 1) [] chunks.flatten (by omega)
  obtain ⟨out, s', h1, h2⟩ := ST_drain_generic (OneTokInv t) (fun s D f h => h.src)
    (fun s D f h => OneTok_cut ht htv h) (fun s D x f h => OneTok_chunk h)
    (fun s D h => OneTok_eof h) fuel fuel _ _ _ hinit (by omega) (by omega)
  exact ⟨out, by simp [specialTokenOutput, h1], h2⟩

/-! ## Label engine: the loop of `Recv` and draining -/

theorem L_Recv_emit (fuel : Nat) (s s1 : labelStream) (l c : GoString)
    (h : s.cutOverflowBuffer = some ((l, c), s1)) (hc : c ≠ []) :
    s.Recv (fuel + 1) = some ((LabeledChunk.mk l c, none), s1) := by
  simp only [labelStream.Recv, h, hc, ne_eq, not_false_eq_true, if_true]

theorem L_Recv_chunk (fuel : Nat) (s s1 : labelStream) (l : GoString)
    (h : s.cutOverflowBuffer = some ((l, []), s1)) (h3 : (s1.src.Recv).1.2 = none) :
    s.Recv (fuel + 1) = labelStream.Recv fuel s1.onChunk := by
  simp only [labelStream.Recv, h, h3, ne_eq, not_true_eq_false, if_false]

theorem L_Recv_eof (fuel : Nat) (s s1 s3 : labelStream) (l l2 c2 : GoString)
    (h : s.cutOverflowBuffer = some ((l, []), s1))
    (h3 : (s1.src.Recv).1.2 = some Error.EOF)
    (h4 : s1.onEOF.cutOverflowBuffer = some ((l2, c2), s3)) :
    s.Recv (fuel + 1) =
      if c2 ≠ [] then some ((LabeledChunk.mk l2 c2, none), s3)
      else some ((default, some Error.EOF), s3) := by
  simp only [labelStream.Recv, h, h3, h4, ne_eq, not_true_eq_false, if_false]

theorem labelBytes_nil (l : GoString) : labelBytes l [] = [] := rfl

theorem labelBytes_append (l a b : GoString) :
    labelBytes l (a ++ b) = labelBytes l a ++ labelBytes l b := by
  simp [labelBytes]

theorem labelBytes_length (l a : GoString) : (labelBytes l a).length = a.length := by
  simp [labelBytes]

theorem labelledBytes_cons (o : LabeledChunk) (out : List LabeledChunk) :
    labelledBytes (o :: out) = labelBytes o.Label o.Chunk ++ labelledBytes out := by
  simp [labelledBytes]

/-- The loop of `labelStream.Recv` under an invariant `I s D f` of the engine
state `s`, the labelled bytes `D` still to be emitted and the chunks `f` still
to come from upstream. -/
theorem label_Recv_generic (I : labelStream → List (GoString × Nat) → List GoString → Prop)
    (hsrc : ∀ s D f, I s D f → s.src.GivesThenEOF f)
    (hcut : ∀ s D f, I s D f → ∃ l c s', s.cutOverflowBuffer = some ((l, c), s') ∧
      ∃ D', D = labelBytes l c ++ D' ∧ I s' D' f ∧
        (s.minBufferLen = 0 → f = [] → c = [] → D = []))
    (hchunk : ∀ s D x f, I s D (x :: f) → I s.onChunk D f)
    (heof : ∀ s D, I s D [] → I s.onEOF D [])
    (fuel : Nat) :
    ∀ (s : labelStream) (D : List (GoString × Nat)) (f : List GoString),
    I s D f → f.length < fuel →
    ∃ res s', s.Recv fuel = some (res, s') ∧
      ((∃ l c D' f', res = (LabeledChunk.mk l c, none) ∧ c ≠ [] ∧
          D = labelBytes l c ++ D' ∧ f'.length ≤ f.length ∧ I s' D' f') ∨
       (res = (default, some Error.EOF) ∧ D = [])) := by
  induction fuel with
  | zero => intro s D f _ h; omega
  | succ fuel ih =>
    intro s D f h hf
    obtain ⟨l, c, s1, hc, D', hD, hI, _⟩ := hcut s D f h
    by_cases hne : c ≠ []
    · exact ⟨_, _, L_Recv_emit fuel s s1 l c hc hne,
        Or.inl ⟨l, c, D', f, rfl, hne, hD, le_refl _, hI⟩⟩
    · have hnil : c = [] := by simpa using hne
      subst hnil
      have hD' : D' = D := by rw [hD]; rfl
      subst hD'
      cases f with
      | nil =>
        obtain ⟨e1, _⟩ := GivesThenEOF_nil _ (hsrc _ _ _ hI)
        have hI2 := heof s1 D' hI
        obtain ⟨l2, c2, s3, hc2, D2, hD2, hI3, hz⟩ := hcut _ _ _ hI2
        rw [L_Recv_eof fuel s s1 s3 l l2 c2 hc e1 hc2]
        by_cases hne2 : c2 ≠ []
        · rw [if_pos hne2]
          exact ⟨_, _, rfl, Or.inl ⟨l2, c2, D2, [], rfl, hne2, hD2, le_refl _, hI3⟩⟩
        · rw [if_neg hne2]
          exact ⟨_, _, rfl, Or.inr ⟨rfl, hz rfl rfl (by simpa using hne2)⟩⟩
      | cons x fut =>
        obtain ⟨e1, _⟩ := GivesThenEOF_cons _ x fut (hsrc _ _ _ hI)
        have e1' : (s1.src.Recv).1.2 = none := by rw [e1]
        have hI2 := hchunk s1 D' x fut hI
        obtain ⟨res, s', r1, r2⟩ := ih _ D' fut hI2 (by simp at hf; omega)
        refine ⟨res, s', ?_, ?_⟩
        · rw [L_Recv_chunk fuel s s1 l hc e1']
          exact r1
        · rcases r2 with ⟨l2, c2, D2, f2, q1, q2, q3, q4, q5⟩ | q
          · exact Or.inl ⟨l2, c2, D2, f2, q1, q2, q3, by simp; omega, q5⟩
          · exact Or.inr q

/-- Draining the label engine under such an invariant: the items received
before end-of-stream say exactly the labelled bytes `D`, in non-empty
chunks. -/
theorem label_drain_generic (I : labelStream → List (GoString × Nat) → List GoString → Prop)
    (hsrc : ∀ s D f, I s D f → s.src.GivesThenEOF f)
    (hcut : ∀ s D f, I s D f → ∃ l c s', s.cutOverflowBuffer = some ((l, c), s') ∧
      ∃ D', D = labelBytes l c ++ D' ∧ I s' D' f ∧
        (s.minBufferLen = 0 → f = [] → c = [] → D = []))
    (hchunk : ∀ s D x f, I s D (x :: f) → I s.onChunk D f)
    (heof : ∀ s D, I s D [] → I s.onEOF D [])
    (fuel : Nat) (n : Nat) :
    ∀ (s : labelStream) (D : List (GoString × Nat)) (f : List GoString),
    I s D f → f.length < fuel → D.length < n →
    ∃ out s', labelStream.drain fuel n s = some ((out, Error.EOF), s') ∧
      labelledBytes out = D ∧ ∀ o ∈ out, o.Chunk ≠ [] := by
  induction n with
  | zero => intro s D f _ _ h; omega
  | succ n ih =>
    intro s D f h hf hn
    obtain ⟨res, s1, r1, r2⟩ := label_Recv_generic I hsrc hcut hchunk heof fuel s D f h hf
    rcases r2 with ⟨l, c, D2, f2, q1, q2, q3, q4, q5⟩ | ⟨q1, q2⟩
    · have hclen : 1 ≤ c.length := by
        cases c with
        | nil => exact absurd rfl q2
        | cons a t => simp
      obtain ⟨out, s2, g1, g2, g3⟩ := ih s1 D2 f2 q5 (by omega)
        (by rw [q3, List.length_append, labelBytes_length] at hn; omega)
      refine ⟨LabeledChunk.mk l c :: out, s2, ?_, ?_, ?_⟩
      · simp only [labelStream.drain, r1, q1, g1]
      · rw [labelledBytes_cons, g2, q3]
      · intro o ho
        rcases List.mem_cons.mp ho with rfl | ho
        · exact q2
        · exact g3 o ho
    · refine ⟨[], s1, ?_, by simp [labelledBytes, q2], by simp⟩
      simp only [labelStream.drain, r1, q1]

/-! ## Label engine: one call of `cutOverflowBuffer` -/

theorem L_cut_small (fuel : Nat) (s : labelStream)
    (h : RuneCountInString s.buffer ≤ s.minBufferLen) :
    s.cutOverflowBufferAux (fuel + 1) = some (([], []), s) := by
  simp only [labelStream.cutOverflowBufferAux, h, if_true]

theorem L_cut_open (fuel : Nat) (s : labelStream) (r : (GoString × GoString) × labelStream)
    (h : ¬ RuneCountInString s.buffer ≤ s.minBufferLen) (h2 : s.cutOpenLabel = some r) :
    s.cutOverflowBufferAux (fuel + 1) = some r := by
  simp only [labelStream.cutOverflowBufferAux, h, if_false, h2]

theorem L_cut_runes (fuel : Nat) (s : labelStream)
    (h : ¬ RuneCountInString s.buffer ≤ s.minBufferLen) (h2 : s.cutOpenLabel = none)
    (h3 : findStartToken s.buffer 0 s.labels = none) :
    s.cutOverflowBufferAux (fuel + 1) = some s.cutRunes := by
  simp only [labelStream.cutOverflowBufferAux, h, if_false, h2, h3]

theorem L_cut_start_emit (fuel : Nat) (s : labelStream) (i : Nat) (lb : SLabel) (index : Nat)
    (h : ¬ RuneCountInString s.buffer ≤ s.minBufferLen) (h2 : s.cutOpenLabel = none)
    (h3 : findStartToken s.buffer 0 s.labels = some (i, lb, index))
    (h4 : (s.buffer.take index).length > 0) :
    s.cutOverflowBufferAux (fuel + 1)
      = some (([], s.buffer.take index), s.openLabel i lb index) := by
  simp only [labelStream.cutOverflowBufferAux, h, if_false, h2, h3, h4, if_true]

theorem L_cut_start_rec (fuel : Nat) (s : labelStream) (i : Nat) (lb : SLabel) (index : Nat)
    (h : ¬ RuneCountInString s.buffer ≤ s.minBufferLen) (h2 : s.cutOpenLabel = none)
    (h3 : findStartToken s.buffer 0 s.labels = some (i, lb, index))
    (h4 : ¬ (s.buffer.take index).length > 0) :
    s.cutOverflowBufferAux (fuel + 1)
      = labelStream.cutOverflowBufferAux fuel (s.openLabel i lb index) := by
  simp only [labelStream.cutOverflowBufferAux, h, if_false, h2, h3, h4]

theorem L_cutRunes_eq (s : labelStream) (h : ¬ RuneCountInString s.buffer ≤ s.minBufferLen) :
    s.cutRunes =
      ((match s.currentLabel with
        | some cur => cur.Name
        | none => [],
        stringOfRunes ((runes s.buffer).take (RuneCountInString s.buffer - s.minBufferLen))),
       { s with buffer := stringOfRunes ((runes s.buffer).drop
          (RuneCountInString s.buffer - s.minBufferLen)) }) := by
  have hpos : RuneCountInString s.buffer - s.minBufferLen > 0 := by omega
  simp only [labelStream.cutRunes, hpos, if_true]

theorem L_cutRunes_spec (s : labelStream) (h : ¬ RuneCountInString s.buffer ≤ s.minBufferLen)
    (hv : ValidString s.buffer = true) :
    ∃ chunk kept, s.cutRunes =
        ((match s.currentLabel with
          | some cur => cur.Name
          | none => [], chunk), { s with buffer := kept }) ∧
      chunk ++ kept = s.buffer ∧ chunk ≠ [] ∧ s.minBufferLen ≤ kept.length ∧
      ValidString kept = true := by
  obtain ⟨g1, g2, g3, g4⟩ := cut_runes_valid s.buffer s.minBufferLen hv (by omega)
  exact ⟨_, _, L_cutRunes_eq s h, g1, g2, g3, g4⟩

/-! ## Label engine on a text without start tokens -/

theorem PassL_cut (labels : List SLabel) (s : labelStream) (D : List (GoString × Nat))
    (f : List GoString) (h : PassL labels s D f) :
    ∃ l c s', s.cutOverflowBuffer = some ((l, c), s') ∧
      ∃ D', D = labelBytes l c ++ D' ∧ PassL labels s' D' f ∧
        (s.minBufferLen = 0 → f = [] → c = [] → D = []) := by
  obtain ⟨d, hD, hi⟩ := h
  by_cases hc : RuneCountInString s.buffer ≤ s.minBufferLen
  · refine ⟨[], [], s, L_cut_small _ s hc, D, by simp [labelBytes], ⟨d, hD, hi⟩, ?_⟩
    intro h0 hf _
    have hb : s.buffer = [] := runes_eq_nil _ (by omega)
    have := hi.text
    rw [hb, hf] at this
    simp only [List.flatten_nil, List.append_nil] at this
    rw [hD, ← this]; rfl
  · have hopen : s.cutOpenLabel = none := by
      simp only [labelStream.cutOpenLabel, hi.cur]
    have hnone : findStartToken s.buffer 0 s.labels = none := by
      apply findStartToken_none
      intro lb hlb
      rw [hi.labs] at hlb
      have := hi.absent lb hlb
      rw [← hi.text] at this
      exact absent_of_append_left this
    obtain ⟨g1, g2, g3, g4⟩ := cut_runes_valid s.buffer s.minBufferLen hi.valid (by omega)
    have he := L_cut_runes s.labels.length s hc hopen hnone
    rw [L_cutRunes_eq s hc, hi.cur] at he
    refine ⟨_, _, _, he, labelBytes []
      (stringOfRunes ((runes s.buffer).drop (RuneCountInString s.buffer - s.minBufferLen))
        ++ f.flatten), ?_, ⟨_, rfl, ?_⟩, ?_⟩
    · rw [hD, ← labelBytes_append, ← List.append_assoc, g1, hi.text]
    · refine ⟨hi.labs, rfl, rfl, g4, hi.fvalid, hi.src, ?_⟩
      intro lb hlb
      have := hi.absent lb hlb
      rw [← hi.text, ← g1, List.append_assoc] at this
      exact absent_of_append_right this
    · intro _ _ hnil
      exact absurd hnil g2

theorem PassL_chunk (labels : List SLabel) (s : labelStream) (D : List (GoString × Nat))
    (x : GoString) (f : List GoString) (h : PassL labels s D (x :: f)) :
    PassL labels s.onChunk D f := by
  obtain ⟨d, hD, hi⟩ := h
  obtain ⟨e1, e2⟩ := GivesThenEOF_cons _ x f hi.src
  refine ⟨d, hD, hi.labs, hi.cur, ?_, ?_, fun c hc => hi.fvalid c (by simp [hc]), e2,
    hi.absent⟩
  · have := hi.text
    simp only [List.flatten_cons] at this
    simp only [labelStream.onChunk, e1, List.append_assoc]
    exact this
  · simp only [labelStream.onChunk, e1]
    exact ValidString_append _ _ hi.valid (hi.fvalid x (by simp))

theorem PassL_eof (labels : List SLabel) (s : labelStream) (D : List (GoString × Nat))
    (h : PassL labels s D []) : PassL labels s.onEOF D [] := by
  obtain ⟨d, hD, hi⟩ := h
  obtain ⟨_, e2⟩ := GivesThenEOF_nil _ hi.src
  exact ⟨d, hD, hi.labs, hi.cur, hi.text, hi.valid, hi.fvalid, e2, hi.absent⟩

/-! ## Chunk-boundary independence -/

theorem specialTokenOutput_pass (tokens : List GoString) (chunks : List GoString)
    (hv : ∀ c ∈ chunks, ValidString c = true)
    (hno : ∀ t ∈ tokens, Index chunks.flatten t = none)
    (fuel : Nat) (hf1 : chunks.length < fuel) (hf2 : chunks.flatten.length < fuel) :
    ∃ out, specialTokenOutput tokens chunks fuel = some (out, Error.EOF) ∧
      (∀ o ∈ out, o.Label = []) ∧ (out.map (fun o => o.Chunk)).flatten = chunks.flatten := by
  have hinv : PassInvST tokens (NewSpecialTokenParserStream (FromSlice chunks) tokens)
      chunks.flatten chunks :=
    ⟨rfl, rfl, by simp [NewSpecialTokenParserStream], ValidString_nil, hv,
      FromSlice_GivesThenEOF chunks, fun t ht => (Index_none_iff _ _).mp (hno t ht)⟩
  obtain ⟨out, s', h1, h2, h3⟩ := PassInvST_drain fuel fuel _ _ _ hinv hf1 hf2
  exact ⟨out, by simp [specialTokenOutput, h1], h2, h3⟩

theorem labelledBytes_pass (out : List LabeledChunk) (d : GoString)
    (h : labelledBytes out = labelBytes [] d) (hne : ∀ o ∈ out, o.Chunk ≠ []) :
    (∀ o ∈ out, o.Label = []) ∧ (out.map (fun o => o.Chunk)).flatten = d := by
  induction out generalizing d with
  | nil =>
    simp only [labelledBytes, List.flatMap_nil] at h
    have : d = [] := by
      cases d with
      | nil => rfl
      | cons a t => simp [labelBytes] at h
    simp [this]
  | cons o rest ih =>
    rw [labelledBytes_cons] at h
    have hlen : o.Chunk.length ≤ d.length := by
      have := congrArg List.length h
      simp only [List.length_append, labelBytes_length] at this
      omega
    have hd : d = d.take o.Chunk.length ++ d.drop o.Chunk.length :=
      (List.take_append_drop _ _).symm
    rw [hd, labelBytes_append] at h
    have hl1 : (labelBytes o.Label o.Chunk).length
        = (labelBytes [] (d.take o.Chunk.length)).length := by
      simp [labelBytes_length, hlen]
    obtain ⟨h1, h2⟩ := List.append_inj h hl1
    obtain ⟨g1, g2⟩ := ih _ h2 (fun x hx => hne x (by simp [hx]))
    have hc := hne o (by simp)
    have hlab : o.Label = [] ∧ o.Chunk = d.take o.Chunk.length := by
      cases hch : o.Chunk with
      | nil => exact absurd hch hc
      | cons a t =>
        rw [hch] at h1
        cases hdt : d.take (a :: t).length with
        | nil => rw [hdt] at h1; simp [labelBytes] at h1
        | cons a2 t2 =>
          rw [hdt] at h1
          simp only [labelBytes, List.map_cons, List.cons.injEq, Prod.mk.injEq] at h1
          refine ⟨h1.1.1, ?_⟩
          rw [h1.1.2]
          congr 1
          have h3 := h1.2
          rw [h1.1.1] at h3
          exact List.map_injective_iff.mpr (fun x y hxy => (Prod.mk.inj hxy).2) h3
    refine ⟨?_, ?_⟩
    · intro x hx
      rcases List.mem_cons.mp hx with rfl | hx
      · exact hlab.1
      · exact g1 x hx
    · simp only [List.map_cons, List.flatten_cons, g2]
      conv_rhs => rw [hd]
      rw [← hlab.2]

theorem labelOutput_pass (labels : List SLabel) (hl : labels ≠ []) (chunks : List GoString)
    (hv : ∀ c ∈ chunks, ValidString c = true)
    (hno : ∀ lb ∈ labels, Index chunks.flatten lb.StartToken = none)
    (fuel : Nat) (hf1 : chunks.length < fuel) (hf2 : chunks.flatten.length < fuel) :
    ∃ out, labelOutput labels chunks fuel = some (out, Error.EOF) ∧
      (∀ o ∈ out, o.Label = []) ∧ (out.map (fun o => o.Chunk)).flatten = chunks.flatten := by
  have hnew : NewLabelStream (FromSlice chunks) labels = some
      { src := FromSlice chunks, labels := labels, buffer := [],
        minBufferLen := labelMinBufferLen labels, currentLabel := none, opened := [] } := by
    cases labels with
    | nil => exact absurd rfl hl
    | cons a t => simp [NewLabelStream, checkLabels]
  have hinv : PassL labels
      { src := FromSlice chunks, labels := labels, buffer := [],
        minBufferLen := labelMinBufferLen labels, currentLabel := none, opened := [] }
      (labelBytes [] chunks.flatten) chunks :=
    ⟨chunks.flatten, rfl, rfl, rfl, by simp, ValidString_nil, hv,
      FromSlice_GivesThenEOF chunks, fun lb hlb => (Index_none_iff _ _).mp (hno lb hlb)⟩
  obtain ⟨out, s', h1, h2, h3⟩ := label_drain_generic (PassL labels)
    (fun s D f h => by obtain ⟨_, _, hi⟩ := h; exact hi.src)
    (PassL_cut labels) (PassL_chunk labels) (PassL_eof labels) fuel fuel _ _ _ hinv hf1
    (by rw [labelBytes_length]; exact hf2)
  obtain ⟨g1, g2⟩ := labelledBytes_pass out _ h2 h3
  exact ⟨out, by simp [labelOutput, hnew, h1], g1, g2⟩

/-! ## Label engine: a single label without end token -/

theorem first_occ_facts (B F d tok rest : GoString) (hT : B ++ F = d ++ tok ++ rest)
    (hfirst : Index (d ++ tok ++ rest) tok = some d.length) (i : Nat)
    (hi : Index B tok = some i) :
    i = d.length ∧ B.take i = d ∧ B.drop (i + tok.length) ++ F = rest := by
  have h1 := Index_append_left B F tok i hi
  rw [hT, hfirst] at h1
  have hid : i = d.length := (Option.some.inj h1).symm
  obtain ⟨hl, _⟩ := Index_some_length B tok i hi
  subst hid
  refine ⟨rfl, ?_, ?_⟩
  · have : (B ++ F).take d.length = B.take d.length :=
      List.take_append_of_le_length (by omega)
    rw [← this, hT, List.append_assoc, List.take_left']
    rfl
  · have : (B ++ F).drop (d.length + tok.length) = B.drop (d.length + tok.length) ++ F :=
      List.drop_append_of_le_length hl
    rw [← this, hT]
    have hlen : d.length + tok.length = (d ++ tok).length := by simp
    rw [hlen, List.drop_left']
    rfl

theorem no_occ_facts (B F d tok rest : GoString) (hT : B ++ F = d ++ tok ++ rest)
    (hnone : Index B tok = none) : B.length < d.length + tok.length := by
  by_contra hge
  have hge' : d.length + tok.length ≤ B.length := by omega
  have h1 : d ++ tok <+: B ++ F := by rw [hT]; exact List.prefix_append _ _
  have h2 : d ++ tok <+: B :=
    List.prefix_of_prefix_length_le h1 (List.prefix_append B F) (by simpa using hge')
  have h3 : tok <:+: B := (List.suffix_append d tok).isInfix.trans h2.isInfix
  exact (Index_none_iff B tok).mp hnone h3

theorem first_occ_drop (c d' tok rest : GoString)
    (h : Index (c ++ d' ++ tok ++ rest) tok = some (c ++ d').length) :
    Index (d' ++ tok ++ rest) tok = some d'.length := by
  obtain ⟨_, _, g3⟩ := Index_eq_some _ _ _ h
  apply Index_of_first
  · rw [List.append_assoc, List.drop_left']
    · exact List.prefix_append _ _
    · rfl
  · intro j hj hp
    apply g3 (c.length + j) (by simp; omega)
    have : (c ++ d' ++ tok ++ rest).drop (c.length + j) = (d' ++ tok ++ rest).drop j := by
      rw [← List.drop_drop]
      simp only [List.append_assoc]
      rw [List.drop_left']
      rfl
    rw [this]
    exact hp

theorem RuneCount_pos_of_ne_nil (s : GoString) (h : s ≠ []) : 0 < RuneCountInString s := by
  cases s with
  | nil => exact absurd rfl h
  | cons b rest => simp [RuneCountInString, runes_cons]

/-- One `cutOverflowBuffer` after the label was opened. -/
theorem OpenEnd_cut2 (name tok rest0 : GoString) (s : labelStream) (f : List GoString)
    (fuel : Nat)
    (hlab : s.labels = [])
    (hcur : s.currentLabel = some { Name := name, StartToken := tok, EndToken := [] })
    (hmin : s.minBufferLen = 0) (hsrc : s.src.GivesThenEOF f) :
    ∃ l c s', s.cutOverflowBufferAux (fuel + 1) = some ((l, c), s') ∧
      ∃ D', labelBytes name (s.buffer ++ f.flatten) = labelBytes l c ++ D' ∧
        OpenEndInv name tok rest0 s' D' f ∧
        (f = [] → c = [] → s.buffer ++ f.flatten = []) := by
  by_cases hc : RuneCountInString s.buffer ≤ s.minBufferLen
  · have hb : s.buffer = [] := runes_eq_nil _ (by omega)
    refine ⟨[], [], s, L_cut_small fuel s hc, labelBytes name (s.buffer ++ f.flatten), rfl,
      ?_, ?_⟩
    · exact ⟨hsrc, Or.inr ⟨_, rfl, hlab, hcur, hmin, rfl⟩⟩
    · intro hf _
      rw [hb, hf]; rfl
  · have hopen : s.cutOpenLabel
        = some ((name, s.buffer), { s with minBufferLen := 0, buffer := [] }) := by
      simp only [labelStream.cutOpenLabel, hcur, if_true]
    have hne : s.buffer ≠ [] := by
      intro h
      rw [h, RuneCount_nil] at hc
      omega
    refine ⟨name, s.buffer, _, L_cut_open fuel s _ hc hopen, labelBytes name f.flatten,
      labelBytes_append _ _ _, ?_, ?_⟩
    · exact ⟨hsrc, Or.inr ⟨_, rfl, hlab, hcur, rfl, by simp⟩⟩
    · intro _ h
      exact absurd h hne

theorem findStartToken_single (B : GoString) (lb : SLabel) :
    findStartToken B 0 [lb] = (Index B lb.StartToken).map (fun i => (0, lb, i)) := by
  simp only [findStartToken]
  cases Index B lb.StartToken <;> rfl

/-- One `cutOverflowBuffer` of the engine with the single label
`{name, tok, ""}`. -/
theorem OpenEnd_cut (name tok rest0 : GoString) (htok : tok ≠ []) (s : labelStream)
    (D : List (GoString × Nat)) (f : List GoString) (h : OpenEndInv name tok rest0 s D f) :
    ∃ l c s', s.cutOverflowBuffer = some ((l, c), s') ∧
      ∃ D', D = labelBytes l c ++ D' ∧ OpenEndInv name tok rest0 s' D' f ∧
        (s.minBufferLen = 0 → f = [] → c = [] → D = []) := by
  obtain ⟨hsrc, h1 | h2⟩ := h
  · obtain ⟨d, hD, hlab, hcur, hmin, htext, hvalid, hfvalid, hfirst⟩ := h1
    have hfuel : s.cutOverflowBuffer = s.cutOverflowBufferAux 2 := by
      simp only [labelStream.cutOverflowBuffer, hlab, List.length_singleton]
    rw [hfuel]
    have htoklen : 0 < tok.length := List.length_pos.mpr htok
    by_cases hc : RuneCountInString s.buffer ≤ s.minBufferLen
    · refine ⟨[], [], s, L_cut_small 1 s hc, D, by simp [labelBytes],
        ⟨hsrc, Or.inl ⟨d, hD, hlab, hcur, hmin, htext, hvalid, hfvalid, hfirst⟩⟩, ?_⟩
      intro h0 hf _
      have hb : s.buffer = [] := runes_eq_nil _ (by omega)
      rw [hb, hf] at htext
      have := congrArg List.length htext
      simp at this
      omega
    · have hopen : s.cutOpenLabel = none := by
        simp only [labelStream.cutOpenLabel, hcur]
      cases hidx : Index s.buffer tok with
      | some i =>
        obtain ⟨hi, htake, hdrop⟩ := first_occ_facts s.buffer f.flatten d tok rest0 htext hfirst
          i hidx
        have hfind : findStartToken s.buffer 0 s.labels
            = some (0, { Name := name, StartToken := tok, EndToken := [] }, i) := by
          rw [hlab, findStartToken_single]
          simp only [hidx, Option.map_some']
        have hs1lab : (s.openLabel 0 { Name := name, StartToken := tok, EndToken := [] }
            i).labels = [] := by
          simp only [labelStream.openLabel, hlab, List.eraseIdx_cons_zero]
        by_cases hd : (s.buffer.take i).length > 0
        · refine ⟨[], s.buffer.take i, _, L_cut_start_emit 1 s 0 _ i hc hopen hfind hd,
            labelBytes name rest0, ?_, ?_, ?_⟩
          · rw [hD, htake]
          · refine ⟨hsrc, Or.inr ⟨rest0, rfl, hs1lab, rfl, by simp [labelStream.openLabel],
              ?_⟩⟩
            simp only [labelStream.openLabel]
            exact hdrop
          · intro _ _ hnil
            rw [hnil] at hd
            simp at hd
        · have hdnil : d = [] := by
            rw [← htake]
            exact List.length_eq_zero.mp (by omega)
          rw [L_cut_start_rec 1 s 0 _ i hc hopen hfind hd]
          obtain ⟨l, c, s', g1, D', g2, g3, g4⟩ := OpenEnd_cut2 name tok rest0
            (s.openLabel 0 { Name := name, StartToken := tok, EndToken := [] } i) f 0
            hs1lab rfl (by simp [labelStream.openLabel]) hsrc
          have hbuf : (s.openLabel 0 { Name := name, StartToken := tok, EndToken := [] }
              i).buffer ++ f.flatten = rest0 := by
            simp only [labelStream.openLabel]
            exact hdrop
          rw [hbuf] at g2 g4
          refine ⟨l, c, s', g1, D', ?_, g3, ?_⟩
          · rw [hD, hdnil, labelBytes_nil, List.nil_append]
            exact g2
          · intro _ hf hcn
            rw [hD, hdnil, g4 hf hcn]
            rfl
      | none =>
        have hfind : findStartToken s.buffer 0 s.labels = none := by
          rw [hlab, findStartToken_single]
          simp only [hidx, Option.map_none']
        have hlt := no_occ_facts s.buffer f.flatten d tok rest0 htext hidx
        obtain ⟨chunk, kept, he0, g1, g2, g3, g4⟩ := L_cutRunes_spec s hc hvalid
        have he := L_cut_runes 1 s hc hopen hfind
        rw [he0, hcur] at he
        have hminv : s.minBufferLen = tok.length := by
          rcases hmin with hm | ⟨_, hf⟩
          · exact hm
          · exfalso
            rw [hf] at htext
            simp only [List.flatten_nil, List.append_nil] at htext
            have := congrArg List.length htext
            simp only [List.length_append] at this
            omega
        have hBlen : s.buffer.length = chunk.length + kept.length := by
          rw [← g1]; simp
        have hclen : chunk.length ≤ d.length := by omega
        have hpre : chunk <+: d := by
          have p1 : chunk <+: d ++ (tok ++ rest0) := by
            rw [← List.append_assoc, ← htext, ← g1, List.append_assoc]
            exact List.prefix_append _ _
          exact List.prefix_of_prefix_length_le p1 (List.prefix_append d _) hclen
        obtain ⟨d', hd'⟩ := hpre
        refine ⟨_, _, _, he, labelBytes [] d' ++ labelBytes name rest0, ?_, ?_, ?_⟩
        · rw [hD, ← hd', labelBytes_append, List.append_assoc]
        · refine ⟨hsrc, Or.inl ⟨d', rfl, hlab, rfl, Or.inl hminv, ?_, g4, hfvalid, ?_⟩⟩
          · have h3 := htext
            rw [← g1, ← hd'] at h3
            simp only [List.append_assoc] at h3
            have h4 := List.append_cancel_left h3
            simp only [List.append_assoc]
            exact h4
          · apply first_occ_drop chunk d' tok rest0
            rw [hd']
            exact hfirst
        · intro _ _ hnil
          exact absurd hnil g2
  · obtain ⟨x, hD, hlab, hcur, hmin, htext⟩ := h2
    have hfuel : s.cutOverflowBuffer = s.cutOverflowBufferAux 1 := by
      simp only [labelStream.cutOverflowBuffer, hlab, List.length_nil]
    rw [hfuel]
    obtain ⟨l, c, s', g1, D', g2, g3, g4⟩ := OpenEnd_cut2 name tok rest0 s f 0 hlab hcur hmin
      hsrc
    rw [htext] at g2 g4
    refine ⟨l, c, s', g1, D', by rw [hD]; exact g2, g3, ?_⟩
    intro _ hf hcn
    rw [hD, g4 hf hcn]
    rfl

theorem OpenEnd_chunk (name tok rest0 : GoString) (s : labelStream)
    (D : List (GoString × Nat)) (x : GoString) (f : List GoString)
    (h : OpenEndInv name tok rest0 s D (x :: f)) : OpenEndInv name tok rest0 s.onChunk D f := by
  obtain ⟨hsrc, h1 | h2⟩ := h
  · obtain ⟨d, hD, hlab, hcur, hmin, htext, hvalid, hfvalid, hfirst⟩ := h1
    obtain ⟨e1, e2⟩ := GivesThenEOF_cons _ x f hsrc
    refine ⟨e2, Or.inl ⟨d, hD, hlab, hcur, ?_, ?_, ?_, fun c hc => hfvalid c (by simp [hc]),
      hfirst⟩⟩
    · rcases hmin with hm | ⟨_, hf⟩
      · exact Or.inl hm
      · simp at hf
    · simp only [List.flatten_cons] at htext
      simp only [labelStream.onChunk, e1, List.append_assoc]
      simpa [List.append_assoc] using htext
    · simp only [labelStream.onChunk, e1]
      exact ValidString_append _ _ hvalid (hfvalid x (by simp))
  · obtain ⟨y, hD, hlab, hcur, hmin, htext⟩ := h2
    obtain ⟨e1, e2⟩ := GivesThenEOF_cons _ x f hsrc
    refine ⟨e2, Or.inr ⟨y, hD, hlab, hcur, hmin, ?_⟩⟩
    simp only [List.flatten_cons] at htext
    simp only [labelStream.onChunk, e1, List.append_assoc]
    exact htext

theorem OpenEnd_eof (name tok rest0 : GoString) (s : labelStream)
    (D : List (GoString × Nat)) (h : OpenEndInv name tok rest0 s D []) :
    OpenEndInv name tok rest0 s.onEOF D [] := by
  obtain ⟨hsrc, h1 | h2⟩ := h
  · obtain ⟨d, hD, hlab, hcur, _, htext, hvalid, hfvalid, hfirst⟩ := h1
    obtain ⟨_, e2⟩ := GivesThenEOF_nil _ hsrc
    exact ⟨e2, Or.inl ⟨d, hD, hlab, hcur, Or.inr ⟨rfl, rfl⟩, htext, hvalid, hfvalid, hfirst⟩⟩
  · obtain ⟨y, hD, hlab, hcur, _, htext⟩ := h2
    obtain ⟨_, e2⟩ := GivesThenEOF_nil _ hsrc
    exact ⟨e2, Or.inr ⟨y, hD, hlab, hcur, rfl, htext⟩⟩

theorem labelledBytes_filter (out : List LabeledChunk) (l : GoString) :
    ((labelledBytes out).filter (fun p => p.1 == l)).map (fun p => p.2)
      = ((out.filter (fun o => o.Label == l)).map (fun o => o.Chunk)).flatten := by
  induction out with
  | nil => rfl
  | cons o rest ih =>
    rw [labelledBytes_cons, List.filter_append, List.map_append, ih]
    by_cases h : o.Label = l
    · have h1 : (labelBytes o.Label o.Chunk).filter (fun p => p.1 == l)
          = labelBytes o.Label o.Chunk := by
        apply List.filter_eq_self.mpr
        intro p hp
        simp only [labelBytes, List.mem_map] at hp
        obtain ⟨b, _, rfl⟩ := hp
        simp [h]
      have h2 : (o :: rest).filter (fun o => o.Label == l)
          = o :: rest.filter (fun o => o.Label == l) := by
        simp [h]
      rw [h1, h2]
      simp [labelBytes]
    · have h1 : (labelBytes o.Label o.Chunk).filter (fun p => p.1 == l) = [] := by
        apply List.filter_eq_nil_iff.mpr
        intro p hp
        simp only [labelBytes, List.mem_map] at hp
        obtain ⟨b, _, rfl⟩ := hp
        simp [h]
      have h2 : (o :: rest).filter (fun o => o.Label == l)
          = rest.filter (fun o => o.Label == l) := by
        simp [h]
      rw [h1, h2]
      simp

theorem labelBytes_filter_self (l t : GoString) :
    ((labelBytes l t).filter (fun p => p.1 == l)).map (fun p => p.2) = t := by
  have h1 : (labelBytes l t).filter (fun p => p.1 == l) = labelBytes l t := by
    apply List.filter_eq_self.mpr
    intro p hp
    simp only [labelBytes, List.mem_map] at hp
    obtain ⟨b, _, rfl⟩ := hp
    simp
  rw [h1]
  simp [labelBytes]

theorem labelBytes_filter_other (l l2 t : GoString) (h : l ≠ l2) :
    ((labelBytes l t).filter (fun p => p.1 == l2)).map (fun p => p.2) = [] := by
  have h1 : (labelBytes l t).filter (fun p => p.1 == l2) = [] := by
    apply List.filter_eq_nil_iff.mpr
    intro p hp
    simp only [labelBytes, List.mem_map] at hp
    obtain ⟨b, _, rfl⟩ := hp
    simp [h]
  rw [h1]
  rfl

theorem labelMinBufferLen_single (name tok : GoString) (htok : tok ≠ []) :
    labelMinBufferLen [{ Name := name, StartToken := tok, EndToken := [] }] = tok.length := by
  have h1 := RuneCount_pos_of_ne_nil tok htok
  simp only [labelMinBufferLen, List.foldl_cons, List.foldl_nil, h1, gt_iff_lt, if_true,
    RuneCount_nil]
  simp

/-- C9, as stated, fails: a chunking may cut the text inside a multi-byte
character, and the release of a rune prefix then re-encodes the stray bytes
as U+FFFD. With the label `X` (start token `<`, no end token) and the text
`pre ++ "<" ++ "r"`, `pre` being `ab` followed by the three bytes of one
CJK character, cut after the first of these three bytes, the chunks emitted
under the default label do not concatenate to `pre`. -/
theorem no_end_token_counterexample :
    [[97, 98, 0xE4], [0xBD, 0xA0, 60, 114]].flatten
      = [97, 98, 0xE4, 0xBD, 0xA0] ++ str "<" ++ str "r" ∧
    Index ([97, 98, 0xE4, 0xBD, 0xA0] ++ str "<" ++ str "r") (str "<") = some 5 ∧
    ValidString ([97, 98, 0xE4, 0xBD, 0xA0] ++ str "<" ++ str "r") = true ∧
    labelOutput [⟨str "X", str "<", str ""⟩] [[97, 98, 0xE4], [0xBD, 0xA0, 60, 114]] 10
      = some ([⟨[], [97, 98]⟩, ⟨[], [0xEF, 0xBF, 0xBD, 0xBD, 0xA0]⟩, ⟨str "X", str "r"⟩],
          Error.EOF) ∧
    [97, 98] ++ [0xEF, 0xBF, 0xBD, 0xBD, 0xA0] ≠ [97, 98, 0xE4, 0xBD, 0xA0] := by
  decide

/-- C9, amended (a label without end token absorbs the remainder). For a
single label `X` with a non-empty start token `tok` and an empty end token,
and for every chunking into valid UTF-8 chunks of a text `pre ++ tok ++ rest`
in which the first occurrence of `tok` begins right after `pre`, draining the
label engine ends with end-of-stream and the items emitted say `pre` under
the default label `""` followed by `rest` under the name of `X`; so, the name
of `X` not being `""`, the chunks emitted under `X` concatenate to `rest` and
those emitted under `""` concatenate to `pre`. -/
theorem no_end_token_absorbs (name tok : GoString) (htok : tok ≠ []) (pre rest : GoString)
    (hfirst : Index (pre ++ tok ++ rest) tok = some pre.length) (chunks : List GoString)
    (hchunks : chunks.flatten = pre ++ tok ++ rest)
    (hv : ∀ c ∈ chunks, ValidString c = true) (fuel : Nat) (hf1 : chunks.length < fuel)
    (hf2 : pre.length + rest.length < fuel) :
    ∃ out, labelOutput [{ Name := name, StartToken := tok, EndToken := [] }] chunks fuel
        = some (out, Error.EOF) ∧
      labelledBytes out = labelBytes [] pre ++ labelBytes name rest ∧
      (name ≠ [] →
        ((out.filter (fun o => o.Label == name)).map (fun o => o.Chunk)).flatten = rest ∧
        ((out.filter (fun o => o.Label == [])).map (fun o => o.Chunk)).flatten = pre) := by
  have hnew : NewLabelStream (FromSlice chunks)
      [{ Name := name, StartToken := tok, EndToken := [] }] = some
      { src := FromSlice chunks, labels := [{ Name := name, StartToken := tok, EndToken := [] }],
        buffer := [],
        minBufferLen := labelMinBufferLen [{ Name := name, StartToken := tok, EndToken := [] }],
        currentLabel := none, opened := [] } := by
    simp [NewLabelStream, checkLabels]
  have hinv : OpenEndInv name tok rest
      { src := FromSlice chunks, labels := [{ Name := name, StartToken := tok, EndToken := [] }],
        buffer := [],
        minBufferLen := labelMinBufferLen [{ Name := name, StartToken := tok, EndToken := [] }],
        currentLabel := none, opened := [] }
      (labelBytes [] pre ++ labelBytes name rest) chunks :=
    ⟨FromSlice_GivesThenEOF chunks, Or.inl ⟨pre, rfl, rfl, rfl,
      Or.inl (labelMinBufferLen_single name tok htok), by simpa using hchunks, ValidString_nil,
      hv, hfirst⟩⟩
  obtain ⟨out, s', h1, h2, _⟩ := label_drain_generic (OpenEndInv name tok rest)
    (fun s D f h => h.1) (OpenEnd_cut name tok rest htok) (OpenEnd_chunk name tok rest)
    (OpenEnd_eof name tok rest) fuel fuel _ _ _ hinv hf1
    (by simp only [List.length_append, labelBytes_length]; exact hf2)
  refine ⟨out, by simp [labelOutput, hnew, h1], h2, ?_⟩
  intro hname
  refine ⟨?_, ?_⟩
  · rw [← labelledBytes_filter, h2, List.filter_append, List.map_append,
      labelBytes_filter_self, labelBytes_filter_other [] name pre (Ne.symm hname)]
    rfl
  · rw [← labelledBytes_filter, h2, List.filter_append, List.map_append,
      labelBytes_filter_self, labelBytes_filter_other name [] rest hname]
    simp

theorem no_end_token_absorbs_witness :
    ∃ out, labelOutput [⟨str "X", str "<X>", str ""⟩]
        [str "start", str "<X>rest", str "of", str "stream"] 20 = some (out, Error.EOF) ∧
      ((out.filter (fun o => o.Label == str "X")).map (fun o => o.Chunk)).flatten
        = str "restofstream" ∧
      ((out.filter (fun o => o.Label == [])).map (fun o => o.Chunk)).flatten = str "start" := by
  obtain ⟨out, h1, _, h3⟩ := no_end_token_absorbs (str "X") (str "<X>") (by decide)
    (str "start") (str "restofstream") (by decide)
    [str "start", str "<X>rest", str "of", str "stream"] (by decide) (by decide) 20
    (by decide) (by decide)
  exact ⟨out, h1, (h3 (by decide)).1, (h3 (by decide)).2⟩

/-! ## Label engine: end of input, single use of labels -/

/-- C8, the defect evaluated. With the label `A` (`<A>` ... `</A>`) and the
single chunk `<A></A>`, the first `Recv` returns end-of-stream while the
buffer still holds `</A>`: the pass made after upstream ended meets the end
token at offset 0, closes the label with an empty chunk, and `Recv` takes
the empty chunk for an empty buffer. Draining the engine yields no item. -/
theorem labelStream_EOF_leaves_buffer :
    (match NewLabelStream (FromSlice [str "<A></A>"]) [⟨str "A", str "<A>", str "</A>"⟩] with
      | none => none
      | some s => (s.Recv 3).map (fun r => (r.1, r.2.buffer)))
      = some ((⟨[], []⟩, some Error.EOF), str "</A>") ∧
    labelOutput [⟨str "A", str "<A>", str "</A>"⟩] [str "<A></A>"] 10
      = some ([], Error.EOF) := by
  decide

theorem perm_cons_eraseIdx {α : Type} (l : List α) (i : Nat) (a : α) (h : l[i]? = some a) :
    (a :: l.eraseIdx i).Perm l := by
  induction l generalizing i with
  | nil => simp at h
  | cons b t ih =>
    cases i with
    | zero =>
      simp only [List.getElem?_cons_zero, Option.some.injEq] at h
      subst h
      simp
    | succ i =>
      simp only [List.getElem?_cons_succ] at h
      simp only [List.eraseIdx_cons_succ]
      exact (List.Perm.swap b a _).trans ((ih i h).cons b)

theorem findStartToken_some (B : GoString) (labels : List SLabel) (k i : Nat) (lb : SLabel)
    (index : Nat) (h : findStartToken B k labels = some (i, lb, index)) :
    k ≤ i ∧ labels[i - k]? = some lb ∧ Index B lb.StartToken = some index := by
  induction labels generalizing k with
  | nil => simp [findStartToken] at h
  | cons a t ih =>
    simp only [findStartToken] at h
    cases hi : Index B a.StartToken with
    | none =>
      rw [hi] at h
      obtain ⟨h1, h2, h3⟩ := ih (k + 1) h
      refine ⟨by omega, ?_, h3⟩
      have : i - k = (i - (k + 1)) + 1 := by omega
      rw [this, List.getElem?_cons_succ]
      exact h2
    | some j =>
      rw [hi] at h
      simp only [Option.some.injEq, Prod.mk.injEq] at h
      obtain ⟨rfl, rfl, rfl⟩ := h
      exact ⟨le_refl _, by simp, hi⟩

theorem cutOpenLabel_some (s : labelStream) (r : (GoString × GoString) × labelStream)
    (h : s.cutOpenLabel = some r) :
    r.2.labels = s.labels ∧ r.2.opened = s.opened ∧
    (r.2.currentLabel = s.currentLabel ∨ r.2.currentLabel = none) ∧
    r.1.2 ++ r.2.buffer = s.buffer := by
  simp only [labelStream.cutOpenLabel] at h
  cases hcur : s.currentLabel with
  | none => rw [hcur] at h; simp at h
  | some cur =>
    rw [hcur] at h
    simp only at h
    split_ifs at h with h1
    · cases h
      exact ⟨rfl, rfl, Or.inl rfl, by simp⟩
    · cases hi : Index s.buffer cur.EndToken with
      | none => rw [hi] at h; simp at h
      | some index =>
        rw [hi] at h
        cases h
        exact ⟨rfl, rfl, Or.inr rfl, List.take_append_drop _ _⟩

/-- What any call of `cutOverflowBuffer` does to the candidate list: the
labels it opens are exactly the candidates it removes. -/
theorem cutAux_labels (fuel : Nat) :
    ∀ (s : labelStream) (r : (GoString × GoString) × labelStream),
    s.cutOverflowBufferAux fuel = some r →
    ∃ newly, r.2.opened = s.opened ++ newly ∧ (newly ++ r.2.labels).Perm s.labels ∧
      r.2.labels.Sublist s.labels ∧ r.2.src = s.src ∧
      (∀ lb, r.2.currentLabel = some lb → lb ∈ newly ∨ s.currentLabel = some lb) := by
  induction fuel with
  | zero => intro s r h; simp [labelStream.cutOverflowBufferAux] at h
  | succ fuel ih =>
    intro s r h
    by_cases hc : RuneCountInString s.buffer ≤ s.minBufferLen
    · rw [L_cut_small fuel s hc] at h
      cases h
      exact ⟨[], by simp, by simp, List.Sublist.refl _, rfl, fun lb hlb => Or.inr hlb⟩
    · cases hopen : s.cutOpenLabel with
      | some r' =>
        rw [L_cut_open fuel s r' hc hopen] at h
        cases h
        obtain ⟨g1, g2, g3, _⟩ := cutOpenLabel_some s r hopen
        refine ⟨[], by simp [g2], by simp [g1], by rw [g1], ?_, ?_⟩
        · simp only [labelStream.cutOpenLabel] at hopen
          cases hcur : s.currentLabel with
          | none => rw [hcur] at hopen; simp at hopen
          | some cur =>
            rw [hcur] at hopen
            simp only at hopen
            split_ifs at hopen with h1
            · cases hopen; rfl
            · cases hi : Index s.buffer cur.EndToken with
              | none => rw [hi] at hopen; simp at hopen
              | some index => rw [hi] at hopen; cases hopen; rfl
        · intro lb hlb
          rcases g3 with g3 | g3
          · rw [g3] at hlb; exact Or.inr hlb
          · rw [g3] at hlb; cases hlb
      | none =>
        cases hfind : findStartToken s.buffer 0 s.labels with
        | none =>
          rw [L_cut_runes fuel s hc hopen hfind] at h
          cases h
          have hr : s.cutRunes.2.labels = s.labels ∧ s.cutRunes.2.opened = s.opened ∧
              s.cutRunes.2.currentLabel = s.currentLabel ∧ s.cutRunes.2.src = s.src := by
            rw [L_cutRunes_eq s hc]
            exact ⟨rfl, rfl, rfl, rfl⟩
          refine ⟨[], by simp [hr.2.1], by simp [hr.1], by rw [hr.1], hr.2.2.2, ?_⟩
          intro lb hlb
          rw [hr.2.2.1] at hlb
          exact Or.inr hlb
        | some m =>
          obtain ⟨i, lb, index⟩ := m
          obtain ⟨_, hget, _⟩ := findStartToken_some s.buffer s.labels 0 i lb index hfind
          simp only [Nat.sub_zero] at hget
          have hperm := perm_cons_eraseIdx s.labels i lb hget
          by_cases hd : (s.buffer.take index).length > 0
          · rw [L_cut_start_emit fuel s i lb index hc hopen hfind hd] at h
            cases h
            refine ⟨[lb], rfl, hperm, List.eraseIdx_sublist _ _, rfl, ?_⟩
            intro lb' hlb'
            simp only [labelStream.openLabel, Option.some.injEq] at hlb'
            exact Or.inl (by simp [hlb'])
          · rw [L_cut_start_rec fuel s i lb index hc hopen hfind hd] at h
            obtain ⟨newly, g1, g2, g3, g4, g5⟩ := ih _ r h
            refine ⟨lb :: newly, ?_, ?_, ?_, ?_, ?_⟩
            · rw [g1]; simp [labelStream.openLabel]
            · simp only [labelStream.openLabel] at g2
              exact ((g2.cons lb)).trans hperm
            · exact g3.trans (List.eraseIdx_sublist _ _)
            · rw [g4]; rfl
            · intro lb' hlb'
              rcases g5 lb' hlb' with h1 | h1
              · exact Or.inl (by simp [h1])
              · simp only [labelStream.openLabel, Option.some.injEq] at h1
                exact Or.inl (by simp [h1])

theorem Step_refl (s s' : labelStream) (h1 : s'.opened = s.opened) (h2 : s'.labels = s.labels)
    (h3 : s'.currentLabel = s.currentLabel) : s.Step s' :=
  ⟨[], by simp [h1], by simp [h2], by rw [h2], fun lb hlb => Or.inr (h3 ▸ hlb)⟩

theorem Step_trans {s s1 s2 : labelStream} (h1 : s.Step s1) (h2 : s1.Step s2) : s.Step s2 := by
  obtain ⟨n1, a1, a2, a3, a4⟩ := h1
  obtain ⟨n2, b1, b2, b3, b4⟩ := h2
  refine ⟨n1 ++ n2, by rw [b1, a1, List.append_assoc], ?_, b3.trans a3, ?_⟩
  · rw [List.append_assoc]
    exact (List.Perm.append_left n1 b2).trans a2
  · intro lb hlb
    rcases b4 lb hlb with h | h
    · exact Or.inl (by simp [h])
    · rcases a4 lb h with h' | h'
      · exact Or.inl (by simp [h'])
      · exact Or.inr h'

theorem cut_Step (s : labelStream) (r : (GoString × GoString) × labelStream)
    (h : s.cutOverflowBuffer = some r) : s.Step r.2 := by
  obtain ⟨newly, g1, g2, g3, _, g5⟩ := cutAux_labels _ s r h
  exact ⟨newly, g1, g2, g3, g5⟩

theorem Recv_Step (fuel : Nat) :
    ∀ (s : labelStream) (res : LabeledChunk × Option Error) (s' : labelStream),
    s.Recv fuel = some (res, s') → s.Step s' := by
  induction fuel with
  | zero => intro s res s' h; simp [labelStream.Recv] at h
  | succ fuel ih =>
    intro s res s' h
    cases hcut : s.cutOverflowBuffer with
    | none => simp [labelStream.Recv, hcut] at h
    | some r =>
      obtain ⟨⟨l, c⟩, s1⟩ := r
      have hs1 := cut_Step s _ hcut
      by_cases hne : c ≠ []
      · rw [L_Recv_emit fuel s s1 l c hcut hne] at h
        cases h
        exact hs1
      · have hnil : c = [] := by simpa using hne
        subst hnil
        cases hsrc : (s1.src.Recv).1.2 with
        | none =>
          rw [L_Recv_chunk fuel s s1 l hcut hsrc] at h
          exact Step_trans hs1 (Step_trans (Step_refl s1 s1.onChunk rfl rfl rfl) (ih _ _ _ h))
        | some e =>
          cases e with
          | EOF =>
            cases hcut2 : s1.onEOF.cutOverflowBuffer with
            | none => simp [labelStream.Recv, hcut, hsrc, hcut2] at h
            | some r2 =>
              obtain ⟨⟨l2, c2⟩, s3⟩ := r2
              have hs3 := cut_Step s1.onEOF _ hcut2
              rw [L_Recv_eof fuel s s1 s3 l l2 c2 hcut hsrc hcut2] at h
              have hfin : s.Step s3 :=
                Step_trans hs1 (Step_trans (Step_refl s1 s1.onEOF rfl rfl rfl) hs3)
              split_ifs at h <;> (cases h; exact hfin)
          | other msg =>
            simp only [labelStream.Recv, hcut, hsrc, ne_eq, not_true_eq_false, if_false,
              Option.some.injEq, Prod.mk.injEq] at h
            obtain ⟨_, rfl⟩ := h
            exact Step_trans hs1 (Step_refl s1 s1.onError rfl rfl rfl)

theorem run_Step (fuels : List Nat) :
    ∀ (s s' : labelStream), s.run fuels = some s' → s.Step s' := by
  induction fuels with
  | nil =>
    intro s s' h
    simp only [labelStream.run, Option.some.injEq] at h
    subst h
    exact Step_refl s s rfl rfl rfl
  | cons fuel rest ih =>
    intro s s' h
    simp only [labelStream.run] at h
    cases hr : s.Recv fuel with
    | none => rw [hr] at h; simp at h
    | some r =>
      rw [hr] at h
      exact Step_trans (Recv_Step fuel s r.1 r.2 hr) (ih _ _ h)

theorem cutAux_no_candidate (fuel : Nat) (s : labelStream)
    (r : (GoString × GoString) × labelStream) (h : s.cutOverflowBufferAux fuel = some r)
    (hno : ∀ lb ∈ s.labels, Index s.buffer lb.StartToken = none) :
    r.2.labels = s.labels ∧ r.2.opened = s.opened ∧
    (r.2.currentLabel = s.currentLabel ∨ r.2.currentLabel = none) ∧
    (ValidString s.buffer = true → r.1.2 ++ r.2.buffer = s.buffer) := by
  cases fuel with
  | zero => simp [labelStream.cutOverflowBufferAux] at h
  | succ fuel =>
    by_cases hc : RuneCountInString s.buffer ≤ s.minBufferLen
    · rw [L_cut_small fuel s hc] at h
      cases h
      exact ⟨rfl, rfl, Or.inl rfl, fun _ => rfl⟩
    · cases hopen : s.cutOpenLabel with
      | some r' =>
        rw [L_cut_open fuel s r' hc hopen] at h
        cases h
        obtain ⟨g1, g2, g3, g4⟩ := cutOpenLabel_some s r hopen
        exact ⟨g1, g2, g3, fun _ => g4⟩
      | none =>
        have hfind : findStartToken s.buffer 0 s.labels = none :=
          findStartToken_none _ _ _ (fun lb hlb => (Index_none_iff _ _).mp (hno lb hlb))
        rw [L_cut_runes fuel s hc hopen hfind] at h
        cases h
        refine ⟨?_, ?_, ?_, ?_⟩
        · rw [L_cutRunes_eq s hc]
        · rw [L_cutRunes_eq s hc]
        · rw [L_cutRunes_eq s hc]; exact Or.inl rfl
        · intro hv
          obtain ⟨chunk, kept, he, g1, _, _, _⟩ := L_cutRunes_spec s hc hv
          rw [he]
          exact g1

/-- Single use of labels, the part of C10 that holds in every run. For an
engine built by `NewLabelStream` from the labels `labels`, after any number of
`Recv` calls: the history of opened labels together with the remaining
candidates is a rearrangement of `labels`, so every configured label was
opened at most once (as often as it is listed) and an opened one is no longer
a candidate; the candidate list is a sub-list of `labels`, so it never grows;
and the current label was opened. In every call of `cutOverflowBuffer`, from
any state, the labels opened are exactly the candidates removed, so a start
token without remaining candidate opens nothing; and when no remaining
candidate has a start token occurring in the buffer, the call opens no label,
keeps the candidate list, and keeps the text: chunk and new buffer together
are the old buffer (for a buffer of valid UTF-8). Whether the text kept in the
buffer is emitted at the end of input is the matter of C8 and C10. -/
theorem label_single_use (src : Stream GoString) (labels : List SLabel) (s0 : labelStream)
    (h0 : NewLabelStream src labels = some s0) :
    (∀ fuels s, s0.run fuels = some s →
      (s.opened ++ s.labels).Perm labels ∧
      (∀ lb, s.opened.count lb + s.labels.count lb = labels.count lb) ∧
      s.labels.Sublist labels ∧
      (∀ lb, s.currentLabel = some lb → lb ∈ s.opened)) ∧
    (∀ (s : labelStream) r, s.cutOverflowBuffer = some r →
      ∃ newly, r.2.opened = s.opened ++ newly ∧ (newly ++ r.2.labels).Perm s.labels ∧
        r.2.labels.Sublist s.labels ∧ ∀ lb ∈ newly, lb ∈ s.labels) ∧
    (∀ (s : labelStream) r, s.cutOverflowBuffer = some r →
      (∀ lb ∈ s.labels, Index s.buffer lb.StartToken = none) →
      r.2.labels = s.labels ∧ r.2.opened = s.opened ∧
      (r.2.currentLabel = s.currentLabel ∨ r.2.currentLabel = none) ∧
      (ValidString s.buffer = true → r.1.2 ++ r.2.buffer = s.buffer)) := by
  have hs0 : s0.opened = [] ∧ s0.labels = labels ∧ s0.currentLabel = none := by
    simp only [NewLabelStream] at h0
    cases hch : checkLabels labels with
    | some m => rw [hch] at h0; simp at h0
    | none =>
      rw [hch] at h0
      simp only [Option.some.injEq] at h0
      subst h0
      exact ⟨rfl, rfl, rfl⟩
  refine ⟨?_, ?_, ?_⟩
  · intro fuels s hrun
    obtain ⟨newly, g1, g2, g3, g4⟩ := run_Step fuels s0 s hrun
    rw [hs0.1, List.nil_append] at g1
    rw [hs0.2.1] at g2 g3
    rw [← g1] at g2
    refine ⟨g2, ?_, g3, ?_⟩
    · intro lb
      rw [← List.count_append]
      exact g2.count_eq lb
    · intro lb hlb
      rcases g4 lb hlb with h | h
      · rw [g1]; exact h
      · rw [hs0.2.2] at h; cases h
  · intro s r h
    obtain ⟨newly, g1, g2, g3, _, _⟩ := cutAux_labels _ s r h
    exact ⟨newly, g1, g2, g3, fun lb hlb => g2.subset (by simp [hlb])⟩
  · intro s r h hno
    exact cutAux_no_candidate _ s r h hno

theorem label_single_use_witness :
    (∃ s0, NewLabelStream (FromSlice [str "a<A>b<A>c"]) [⟨str "A", str "<A>", str ""⟩]
        = some s0 ∧
      ∀ fuels s, s0.run fuels = some s →
        ∀ lb, s.opened.count lb + s.labels.count lb
          = [(⟨str "A", str "<A>", str ""⟩ : SLabel)].count lb) ∧
    labelOutput [⟨str "A", str "<A>", str ""⟩] [str "a<A>b<A>c"] 20
      = some ([⟨str "", str "a"⟩, ⟨str "A", str "b<A>c"⟩], Error.EOF) := by
  refine ⟨⟨_, rfl, ?_⟩, by decide⟩
  intro fuels s hrun lb
  exact ((label_single_use (FromSlice [str "a<A>b<A>c"]) [⟨str "A", str "<A>", str ""⟩] _
    rfl).1 fuels s hrun).2.1 lb

/-- C10, the defect evaluated. Take the labels `A` (`<A>` ... `</A>`) and `B`
(`<BBBBBBBB>` ... `</B>`) and the text `<A></A><A>`, in one chunk or byte by
byte. The first `<A>` opens `A`, which leaves the candidate list; the second
`<A>` comes when no remaining candidate has that start token and opens
nothing, as C10 says, but it is never emitted: the first `Recv` returns
end-of-stream while the buffer still holds `</A><A>`. The long start token of
`B` keeps the whole text in the buffer until upstream has ended, and the one
pass made then meets the end token of `A` at offset 0 and returns an empty
chunk, which `Recv` takes for an empty buffer (the defect of C8). With the
label `A` alone the same text is processed before upstream ends, and the
second `<A>` is emitted as text under the label `""`. -/
theorem label_later_start_token_lost :
    (match NewLabelStream (FromSlice [str "<A></A><A>"])
        [⟨str "A", str "<A>", str "</A>"⟩, ⟨str "B", str "<BBBBBBBB>", str "</B>"⟩] with
      | none => none
      | some s => (s.Recv 3).map (fun r => (r.1, r.2.buffer, r.2.opened, r.2.labels)))
      = some ((⟨[], []⟩, some Error.EOF), str "</A><A>",
          [⟨str "A", str "<A>", str "</A>"⟩], [⟨str "B", str "<BBBBBBBB>", str "</B>"⟩]) ∧
    labelOutput [⟨str "A", str "<A>", str "</A>"⟩, ⟨str "B", str "<BBBBBBBB>", str "</B>"⟩]
        [str "<A></A><A>"] 20
      = some ([], Error.EOF) ∧
    labelOutput [⟨str "A", str "<A>", str "</A>"⟩, ⟨str "B", str "<BBBBBBBB>", str "</B>"⟩]
        [str "<", str "A", str ">", str "<", str "/", str "A", str ">", str "<", str "A",
          str ">"] 20
      = some ([], Error.EOF) ∧
    labelOutput [⟨str "A", str "<A>", str "</A>"⟩] [str "<A></A><A>"] 20
      = some ([⟨str "", str "</A><A>"⟩], Error.EOF) := by
  decide

/-- The bound `len(labels) + 1` on the nested calls of `cutOverflowBuffer` is
never reached: the call always returns. -/
theorem cutOverflowBufferAux_isSome (fuel : Nat) :
    ∀ s : labelStream, s.labels.length < fuel →
      ∃ r, s.cutOverflowBufferAux fuel = some r := by
  induction fuel with
  | zero => intro s h; omega
  | succ fuel ih =>
    intro s h
    by_cases hc : RuneCountInString s.buffer ≤ s.minBufferLen
    · exact ⟨_, L_cut_small fuel s hc⟩
    · cases hopen : s.cutOpenLabel with
      | some r' => exact ⟨_, L_cut_open fuel s r' hc hopen⟩
      | none =>
        cases hfind : findStartToken s.buffer 0 s.labels with
        | none => exact ⟨_, L_cut_runes fuel s hc hopen hfind⟩
        | some m =>
          obtain ⟨i, lb, index⟩ := m
          by_cases hd : (s.buffer.take index).length > 0
          · exact ⟨_, L_cut_start_emit fuel s i lb index hc hopen hfind hd⟩
          · rw [L_cut_start_rec fuel s i lb index hc hopen hfind hd]
            apply ih
            obtain ⟨_, hget, _⟩ := findStartToken_some s.buffer s.labels 0 i lb index hfind
            simp only [Nat.sub_zero] at hget
            have hi : i < s.labels.length := by
              by_contra hge
              rw [List.getElem?_eq_none (by omega)] at hget
              cases hget
            simp only [labelStream.openLabel, List.length_eraseIdx, hi, if_true]
            omega

theorem cutOverflowBuffer_isSome (s : labelStream) : ∃ r, s.cutOverflowBuffer = some r :=
  cutOverflowBufferAux_isSome _ s (Nat.lt_succ_self _)

/-! ## Label engine: priority of the candidates -/

theorem findStartToken_first (B : GoString) (labels : List SLabel) :
    ∀ (k i : Nat) (lb : SLabel) (index : Nat), labels[i]? = some lb →
      Index B lb.StartToken = some index →
      (∀ j lb', j < i → labels[j]? = some lb' → Index B lb'.StartToken = none) →
      findStartToken B k labels = some (k + i, lb, index) := by
  induction labels with
  | nil => intro k i lb index hi; simp at hi
  | cons a t ih =>
    intro k i lb index hi hocc hfirst
    cases i with
    | zero =>
      simp only [List.getElem?_cons_zero, Option.some.injEq] at hi
      subst hi
      simp only [findStartToken, hocc, Nat.add_zero]
    | succ i =>
      have ha : Index B a.StartToken = none := hfirst 0 a (by omega) (by simp)
      simp only [List.getElem?_cons_succ] at hi
      simp only [findStartToken, ha]
      rw [ih (k + 1) i lb index hi hocc (fun j lb' hj hlb =>
        hfirst (j + 1) lb' (by omega) (by simpa using hlb))]
      congr 2
      omega

/-- C11 (label priority follows list order). Take any state of the label
engine in which `cutOverflowBuffer` reaches the scan of the start tokens (the
buffer has more than `minBufferLen` code points and the block for the open
label does not return), and let `lb`, at position `i` of the remaining
candidates, be the first candidate in list order whose start token occurs in
the buffer, `index` being the offset of its first occurrence; other
candidates, later in the list, may occur in the buffer too, at any offset.
Then the call opens `lb`: with text before the token it returns that text
under the label `""` and the state in which `lb` is the current label and has
left the candidate list; with the token at offset 0 it goes on as a call on
that state. In both cases `lb` is the first label the call opens. The
remaining candidates are always a sublist of the supplied list, so the first
remaining candidate is the first in the supplied order. -/
theorem label_priority_list_order (s : labelStream)
    (hlen : s.minBufferLen < RuneCountInString s.buffer) (hscan : s.cutOpenLabel = none)
    (i : Nat) (lb : SLabel) (index : Nat) (hi : s.labels[i]? = some lb)
    (hocc : Index s.buffer lb.StartToken = some index)
    (hfirst : ∀ j lb', j < i → s.labels[j]? = some lb' →
      Index s.buffer lb'.StartToken = none) :
    (0 < index →
      s.cutOverflowBuffer = some (([], s.buffer.take index), s.openLabel i lb index)) ∧
    (index = 0 → s.cutOverflowBuffer = (s.openLabel i lb index).cutOverflowBuffer) ∧
    (s.openLabel i lb index).currentLabel = some lb ∧
    (s.openLabel i lb index).labels = s.labels.eraseIdx i ∧
    (∃ r rest, s.cutOverflowBuffer = some r ∧ r.2.opened = s.opened ++ lb :: rest) ∧
    (∀ (src : Stream GoString) (labels : List SLabel) (s0 s1 : labelStream) (fuels : List Nat),
      NewLabelStream src labels = some s0 → s0.run fuels = some s1 →
      s1.labels.Sublist labels) := by
  have hfind := findStartToken_first s.buffer s.labels 0 i lb index hi hocc hfirst
  rw [Nat.zero_add] at hfind
  have hlen' : ¬ RuneCountInString s.buffer ≤ s.minBufferLen := by omega
  obtain ⟨hle, _⟩ := Index_some_length s.buffer lb.StartToken index hocc
  have hilt : i < s.labels.length := by
    by_contra hx
    rw [List.getElem?_eq_none (by omega)] at hi
    cases hi
  have hfuel : (s.openLabel i lb index).labels.length + 1 = s.labels.length := by
    show (s.labels.eraseIdx i).length + 1 = s.labels.length
    rw [List.length_eraseIdx, if_pos hilt]
    omega
  have hpos : 0 < index →
      s.cutOverflowBuffer = some (([], s.buffer.take index), s.openLabel i lb index) := by
    intro h0
    have h4 : (s.buffer.take index).length > 0 := by
      simp only [List.length_take]
      omega
    exact L_cut_start_emit _ s i lb index hlen' hscan hfind h4
  have hzero : index = 0 →
      s.cutOverflowBuffer = (s.openLabel i lb index).cutOverflowBuffer := by
    intro h0
    have h4 : ¬ (s.buffer.take index).length > 0 := by simp [h0]
    have := L_cut_start_rec s.labels.length s i lb index hlen' hscan hfind h4
    simp only [labelStream.cutOverflowBuffer]
    rw [this, hfuel]
  refine ⟨hpos, hzero, rfl, rfl, ?_, ?_⟩
  · by_cases h0 : 0 < index
    · exact ⟨_, [], hpos h0, by simp [labelStream.openLabel]⟩
    · obtain ⟨r, hr⟩ := cutOverflowBuffer_isSome (s.openLabel i lb index)
      obtain ⟨newly, g1, _⟩ := cut_Step _ r hr
      refine ⟨r, newly, ?_, ?_⟩
      · rw [hzero (by omega)]; exact hr
      · rw [g1]
        simp [labelStream.openLabel]
  · intro src labels s0 s1 fuels h0 hrun
    obtain ⟨_, _, _, g3, _⟩ := run_Step fuels s0 s1 hrun
    simp only [NewLabelStream] at h0
    cases hch : checkLabels labels with
    | some m => rw [hch] at h0; simp at h0
    | none =>
      rw [hch] at h0
      simp only [Option.some.injEq] at h0
      subst h0
      exact g3

theorem label_priority_list_order_witness :
    labelStream.cutOverflowBuffer
        { src := FromSlice [], buffer := str "y<c>z<b>w", minBufferLen := 4,
          labels := [⟨str "A", str "<a>", str "</a>"⟩, ⟨str "B", str "<b>", str "</b>"⟩,
            ⟨str "C", str "<c>", str "</c>"⟩],
          currentLabel := none, opened := [] }
      = some (([], str "y<c>z"),
        { src := FromSlice [], buffer := str "w", minBufferLen := 4,
          labels := [⟨str "A", str "<a>", str "</a>"⟩, ⟨str "C", str "<c>", str "</c>"⟩],
          currentLabel := some ⟨str "B", str "<b>", str "</b>"⟩,
          opened := [⟨str "B", str "<b>", str "</b>"⟩] }) :=
  Eq.trans ((label_priority_list_order
    { src := FromSlice [], buffer := str "y<c>z<b>w", minBufferLen := 4,
      labels := [⟨str "A", str "<a>", str "</a>"⟩, ⟨str "B", str "<b>", str "</b>"⟩,
        ⟨str "C", str "<c>", str "</c>"⟩],
      currentLabel := none, opened := [] }
    (by decide) rfl 1 ⟨str "B", str "<b>", str "</b>"⟩ 5 (by decide) (by decide)
    (by
      intro j lb' hj hlb
      have hj0 : j = 0 := by omega
      subst hj0
      simp only [List.getElem?_cons_zero, Option.some.injEq] at hlb
      subst hlb
      decide)).1 (by decide)) rfl

/-! ## Remove-token engine: the scan of the tokens -/

theorem ScanInv_step (B : GoString) (pre : List GoString) (acc : Option Nat × GoString)
    (l : GoString) (h : ScanInv B pre acc) : ScanInv B (pre ++ [l]) (scanStep B acc l) := by
  cases hi : Index B l with
  | none =>
    have hs : scanStep B acc l = acc := by simp only [scanStep, hi]
    rw [hs]
    rcases h with ⟨h1, h2⟩ | ⟨index, k, h1, h2, h3, h4, h5⟩
    · refine Or.inl ⟨h1, ?_⟩
      intro t ht
      rcases List.mem_append.mp ht with ht | ht
      · exact h2 t ht
      · simp only [List.mem_singleton] at ht
        rw [ht]; exact hi
    · have hk : k < pre.length := by
        by_contra hx
        rw [List.getElem?_eq_none (by omega)] at h2
        cases h2
      refine Or.inr ⟨index, k, h1, ?_, h3, ?_, ?_⟩
      · rw [List.getElem?_append_left hk]; exact h2
      · intro t' ht' i' hi'
        rcases List.mem_append.mp ht' with ht' | ht'
        · exact h4 t' ht' i' hi'
        · simp only [List.mem_singleton] at ht'
          rw [ht', hi] at hi'
          cases hi'
      · intro j t' hj hjt
        rw [List.getElem?_append_left (by omega)] at hjt
        exact h5 j t' hj hjt
  | some i =>
    have hnew : (pre ++ [l])[pre.length]? = some l := by simp
    rcases h with ⟨h1, h2⟩ | ⟨index, k, h1, h2, h3, h4, h5⟩
    · have hs : scanStep B acc l = (some i, l) := by simp only [scanStep, hi, h1]
      rw [hs]
      refine Or.inr ⟨i, pre.length, rfl, hnew, hi, ?_, ?_⟩
      · intro t' ht' i' hi'
        rcases List.mem_append.mp ht' with ht' | ht'
        · rw [h2 t' ht'] at hi'; cases hi'
        · simp only [List.mem_singleton] at ht'
          rw [ht', hi] at hi'
          cases hi'
          exact le_refl _
      · intro j t' hj hjt
        rw [List.getElem?_append_left hj] at hjt
        rw [h2 t' (List.getElem?_mem hjt)]
        simp
    · have hk : k < pre.length := by
        by_contra hx
        rw [List.getElem?_eq_none (by omega)] at h2
        cases h2
      by_cases hlt : i < index
      · have hs : scanStep B acc l = (some i, l) := by simp only [scanStep, hi, h1, if_pos hlt]
        rw [hs]
        refine Or.inr ⟨i, pre.length, rfl, hnew, hi, ?_, ?_⟩
        · intro t' ht' i' hi'
          rcases List.mem_append.mp ht' with ht' | ht'
          · have := h4 t' ht' i' hi'
            omega
          · simp only [List.mem_singleton] at ht'
            rw [ht', hi] at hi'
            cases hi'
            exact le_refl _
        · intro j t' hj hjt hcontra
          rw [List.getElem?_append_left hj] at hjt
          have := h4 t' (List.getElem?_mem hjt) i hcontra
          omega
      · have hs : scanStep B acc l = acc := by simp only [scanStep, hi, h1, if_neg hlt]
        rw [hs]
        refine Or.inr ⟨index, k, h1, ?_, h3, ?_, ?_⟩
        · rw [List.getElem?_append_left hk]; exact h2
        · intro t' ht' i' hi'
          rcases List.mem_append.mp ht' with ht' | ht'
          · exact h4 t' ht' i' hi'
          · simp only [List.mem_singleton] at ht'
            rw [ht', hi] at hi'
            cases hi'
            omega
        · intro j t' hj hjt
          rw [List.getElem?_append_left (by omega)] at hjt
          exact h5 j t' hj hjt

theorem ScanInv_foldl (B : GoString) :
    ∀ (rest pre : List GoString) (acc : Option Nat × GoString), ScanInv B pre acc →
      ScanInv B (pre ++ rest) (rest.foldl (scanStep B) acc) := by
  intro rest
  induction rest with
  | nil => intro pre acc h; simpa using h
  | cons l rest ih =>
    intro pre acc h
    have := ih (pre ++ [l]) (scanStep B acc l) (ScanInv_step B pre acc l h)
    simpa using this

theorem scanTokens_spec (B : GoString) (tokens : List GoString) :
    ScanInv B tokens (scanTokens B tokens) := by
  have := ScanInv_foldl B tokens [] (none, []) (Or.inl ⟨rfl, by simp⟩)
  simpa [scanTokens] using this

theorem scanTokens_none (B : GoString) (tokens : List GoString)
    (h : ∀ t ∈ tokens, Index B t = none) : (scanTokens B tokens).1 = none := by
  rcases scanTokens_spec B tokens with ⟨h1, _⟩ | ⟨index, k, _, h2, h3, _, _⟩
  · exact h1
  · rw [h _ (List.getElem?_mem h2)] at h3
    cases h3


/-! ## Special-token engine: what the emitted chunks contain -/

theorem prefix_before_marker {α : Type} (X P B : List α) (m : α) (hm : m ∉ X)
    (h : X <+: P ++ m :: B) : X <+: P := by
  by_cases hl : X.length ≤ P.length
  · exact List.prefix_of_prefix_length_le h (List.prefix_append _ _) hl
  · exfalso
    apply hm
    have hx := List.prefix_iff_eq_take.mp h
    have hmem : m ∈ List.take X.length (P ++ m :: B) := by
      rw [List.take_append_eq_append_take]
      apply List.mem_append_right
      have : X.length - P.length = (X.length - P.length - 1) + 1 := by omega
      rw [this, List.take_succ_cons]
      exact List.mem_cons_self _ _
    rw [← hx] at hmem
    exact hmem

theorem infix_split_marker {α : Type} (X B : List α) (m : α) (hm : m ∉ X) :
    ∀ A : List α, X <:+: A ++ m :: B → X <:+: A ∨ X <:+: B := by
  intro A
  induction A with
  | nil =>
    intro h
    rw [List.nil_append, List.infix_cons_iff] at h
    rcases h with h | h
    · left
      have := prefix_before_marker X [] B m hm (by simpa using h)
      exact this.isInfix
    · exact Or.inr h
  | cons a A ih =>
    intro h
    rw [List.cons_append, List.infix_cons_iff] at h
    rcases h with h | h
    · left
      have := prefix_before_marker X (a :: A) B m hm (by simpa using h)
      exact this.isInfix
    · rcases ih h with h | h
      · exact Or.inl (h.trans (List.suffix_cons a A).isInfix)
      · exact Or.inr h

theorem textEvents_infix (l last c p : GoString)
    (h : textEvents l c <:+: textEvents last p) : c <:+: p := by
  obtain ⟨s, e, hse⟩ := h
  have h2 := congrArg (List.map Prod.snd) hse
  simp only [textEvents, List.map_append, List.map_map] at h2
  have hc : (Prod.snd ∘ fun b => (l, some b)) = (some : Nat → Option Nat) := rfl
  have hp : (Prod.snd ∘ fun b => (last, some b)) = (some : Nat → Option Nat) := rfl
  rw [hc, hp] at h2
  obtain ⟨p12, p3, hp1, hp2, _⟩ := List.map_eq_append_iff.mp h2.symm
  obtain ⟨p1, p2, hp3, _, hp5⟩ := List.map_eq_append_iff.mp hp2
  have : p2 = c := List.map_injective_iff.mpr (Option.some_injective _) hp5
  exact ⟨p1, p3, by rw [hp1, hp3, this]⟩

theorem marker_not_mem_textEvents (t l c : GoString) : (t, (none : Option Nat)) ∉ textEvents l c := by
  simp [textEvents]

/-- A text emitted in one piece lies between two markers of the reference
segmentation, so the token does not occur in it. -/
theorem segment_chunk_free (t : GoString) (ht : t ≠ []) :
    ∀ (n : Nat) (last text l c : GoString), text.length < n →
      textEvents l c <:+: segment t last text → ¬ t <:+: c := by
  intro n
  induction n with
  | zero => intro _ text _ _ h; omega
  | succ n ih =>
    intro last text l c hn hinf htc
    have htl : 1 ≤ t.length := List.length_pos.mpr ht
    cases hi : Index text t with
    | none =>
      rw [segment_none _ _ _ hi] at hinf
      have := textEvents_infix _ _ _ _ hinf
      exact (Index_none_iff _ _).mp hi (htc.trans this)
    | some i =>
      obtain ⟨hl, _⟩ := Index_some_length text t i hi
      obtain ⟨_, _, g3⟩ := Index_eq_some text t i hi
      rw [segment_some _ _ _ _ ht hi] at hinf
      rcases infix_split_marker _ _ _ (marker_not_mem_textEvents t l c) _ hinf with h | h
      · have hcp := textEvents_infix _ _ _ _ h
        obtain ⟨a, b, hab⟩ := htc.trans hcp
        have hlen : a.length + t.length + b.length = i := by
          have := congrArg List.length hab
          simp only [List.length_append, List.length_take] at this
          omega
        apply g3 a.length (by omega)
        have htext : text = a ++ t ++ b ++ text.drop i := by
          rw [hab, List.take_append_drop]
        refine ⟨b ++ text.drop i, ?_⟩
        conv_rhs => rw [htext]
        simp [List.append_assoc]
      · exact ih t (text.drop (i + t.length)) l c (by simp; omega) h htc

theorem itemEvents_infix_events (out : List LabeledChunk) (o : LabeledChunk) (h : o ∈ out) :
    itemEvents o.Label o.Chunk <:+: events out := by
  obtain ⟨l1, l2, rfl⟩ := List.append_of_mem h
  refine ⟨events l1, events l2, ?_⟩
  simp [events, List.flatMap_append]


/-! ## Go strings: rune counts -/

theorem runes_append_valid (a b : GoString) (ha : ValidString a = true) :
    runes (a ++ b) = runes a ++ runes b := by
  induction a using GoString.decode_induction with
  | hnil => simp [runes_nil]
  | hcons x rest ih =>
    obtain ⟨h1, h2⟩ := (ValidString_cons x rest).mp ha
    have hd : DecodeRuneInString (x :: (rest ++ b)) = DecodeRuneInString (x :: rest) :=
      DecodeRune_append x rest b h1
    have hle := DecodeRune_size_le (x :: rest)
    rw [List.cons_append, runes_cons, hd, runes_cons x rest, ← List.cons_append,
      List.drop_append_of_le_length hle, ih h2]
    rfl

theorem RuneCount_append_valid (a b : GoString) (ha : ValidString a = true) :
    RuneCountInString (a ++ b) = RuneCountInString a + RuneCountInString b := by
  simp [RuneCountInString, runes_append_valid a b ha]

theorem runes_drop_roundtrip (s : GoString) (h : ValidString s = true) :
    ∀ k, runes (stringOfRunes ((runes s).drop k)) = (runes s).drop k := by
  induction s using GoString.decode_induction with
  | hnil => intro k; simp [runes_nil, stringOfRunes]
  | hcons b rest ih =>
    intro k
    obtain ⟨h1, h2⟩ := (ValidString_cons b rest).mp h
    cases k with
    | zero => rw [List.drop_zero, ValidString_roundtrip _ h]
    | succ k =>
      rw [runes_cons, List.drop_succ_cons]
      exact ih h2 k

theorem RuneCount_le_length (s : GoString) : RuneCountInString s ≤ s.length := by
  induction s using GoString.decode_induction with
  | hnil => simp [RuneCountInString, runes_nil]
  | hcons b rest ih =>
    have hpos := DecodeRune_size_pos b rest
    have hle := DecodeRune_size_le (b :: rest)
    simp only [RuneCountInString, runes_cons, List.length_cons, List.length_drop] at ih ⊢
    omega

theorem ValidString_flatten (f : List GoString) (h : ∀ c ∈ f, ValidString c = true) :
    ValidString f.flatten = true := by
  induction f with
  | nil => exact ValidString_nil
  | cons c rest ih =>
    rw [List.flatten_cons]
    exact ValidString_append _ _ (h c (List.mem_cons_self _ _))
      (ih (fun x hx => h x (List.mem_cons_of_mem _ hx)))

/-- A valid prefix of a valid string leaves a valid rest, and a valid suffix
follows a valid start. -/
theorem ValidString_of_append_right (a b : GoString) (hb : ValidString b = true)
    (hab : ValidString (a ++ b) = true) : ValidString a = true := by
  have := (ValidString_split (a ++ b) hab a.length (by
    intro c hc
    rw [List.getElem?_append_right (le_refl _)] at hc
    simp only [Nat.sub_self] at hc
    cases b with
    | nil => simp at hc
    | cons b0 bt =>
      simp only [List.getElem?_cons_zero, Option.some.injEq] at hc
      rw [← hc]
      exact ValidString_head_not_cont b0 bt hb)).1
  simpa using this

theorem tokensMinBufferLen_foldl (tokens : List GoString) :
    ∀ acc : Nat,
      acc ≤ tokens.foldl (fun minBufferLen lb =>
        if RuneCountInString lb > minBufferLen then lb.length else minBufferLen) acc ∧
      ∀ t ∈ tokens, RuneCountInString t ≤ tokens.foldl (fun minBufferLen lb =>
        if RuneCountInString lb > minBufferLen then lb.length else minBufferLen) acc := by
  induction tokens with
  | nil => intro acc; simp
  | cons t rest ih =>
    intro acc
    have hle := RuneCount_le_length t
    simp only [List.foldl_cons]
    obtain ⟨g1, g2⟩ := ih (if RuneCountInString t > acc then t.length else acc)
    have hacc : acc ≤ (if RuneCountInString t > acc then t.length else acc) ∧
        RuneCountInString t ≤ (if RuneCountInString t > acc then t.length else acc) := by
      split_ifs with h <;> omega
    refine ⟨by omega, ?_⟩
    intro x hx
    rcases List.mem_cons.mp hx with rfl | hx
    · omega
    · exact g2 x hx

/-- The lookahead bound of the special-token engine is at least the number of
code points of every token. -/
theorem tokensMinBufferLen_ge (tokens : List GoString) (t : GoString) (h : t ∈ tokens) :
    RuneCountInString t ≤ tokensMinBufferLen tokens :=
  (tokensMinBufferLen_foldl tokens 0).2 t h

/-- After the release of the runes in excess of `m`, what is kept has exactly
`m` code points. -/
theorem cut_runes_count (B : GoString) (m : Nat) (hv : ValidString B = true)
    (hc : m < RuneCountInString B) :
    RuneCountInString (stringOfRunes ((runes B).drop (RuneCountInString B - m))) = m := by
  simp only [RuneCountInString] at hc ⊢
  rw [runes_drop_roundtrip B hv, List.length_drop]
  omega

/-- On a valid buffer from which the runes in excess of `m` are released, a
valid token of at most `m` code points that starts inside the released part and
is a prefix of the buffer continued by further text lies inside the buffer. -/
theorem token_within_buffer (B F t chunk kept : GoString) (j : Nat)
    (hB : ValidString B = true) (hF : ValidString F = true) (ht : ValidString t = true)
    (hne : t ≠ []) (hsplit : chunk ++ kept = B) (hkv : ValidString kept = true)
    (hcount : RuneCountInString t ≤ RuneCountInString kept) (hj : j < chunk.length)
    (hocc : t <+: (B ++ F).drop j) : j + t.length ≤ B.length := by
  by_contra hcon
  have hjB : j ≤ B.length := by rw [← hsplit]; simp; omega
  have hR : ValidString (B ++ F) = true := ValidString_append _ _ hB hF
  obtain ⟨v1, _, _⟩ := ValidString_at_occurrence (B ++ F) t j hR ht hne hocc
  rw [List.take_append_of_le_length hjB] at v1
  have hBd : ValidString (B.drop j) = true := by
    apply ValidString_of_append (B.take j) _ v1
    rw [List.take_append_drop]; exact hB
  rw [List.drop_append_of_le_length hjB] at hocc
  have hpre : B.drop j <+: t :=
    List.prefix_of_prefix_length_le (List.prefix_append _ _) hocc (by simp; omega)
  obtain ⟨w, hw⟩ := hpre
  have hdrop : B.drop j = chunk.drop j ++ kept := by
    rw [← hsplit, List.drop_append_of_le_length (by omega)]
  have hcv : ValidString (chunk.drop j) = true := by
    apply ValidString_of_append_right _ kept hkv
    rw [← hdrop]; exact hBd
  have hcne : chunk.drop j ≠ [] := by
    intro h0
    have := congrArg List.length h0
    simp only [List.length_drop, List.length_nil] at this
    omega
  have h1 : RuneCountInString t = RuneCountInString (B.drop j) + RuneCountInString w := by
    rw [← hw, RuneCount_append_valid _ _ hBd]
  have h2 : RuneCountInString (B.drop j)
      = RuneCountInString (chunk.drop j) + RuneCountInString kept := by
    rw [hdrop, RuneCount_append_valid _ _ hcv]
  have h3 := RuneCount_pos_of_ne_nil _ hcne
  omega

/-! ## The earliest token occurrence -/

theorem earliestToken_spec (text : GoString) (tokens : List GoString) :
    ScanInv text tokens
      (match earliestToken text tokens with
       | none => (none, [])
       | some (i, t) => (some i, t)) := by
  induction tokens with
  | nil => exact Or.inl ⟨rfl, by simp⟩
  | cons t rest ih =>
    simp only [earliestToken]
    cases hi : Index text t with
    | none =>
      cases hr : earliestToken text rest with
      | none =>
        rw [hr] at ih
        rcases ih with ⟨_, h2⟩ | ⟨index, k, h1, _⟩
        · refine Or.inl ⟨rfl, ?_⟩
          intro t' ht'
          rcases List.mem_cons.mp ht' with rfl | ht'
          · exact hi
          · exact h2 t' ht'
        · cases h1
      | some r =>
        obtain ⟨j, u⟩ := r
        rw [hr] at ih
        rcases ih with ⟨h1, _⟩ | ⟨index, k, h1, h2, h3, h4, h5⟩
        · cases h1
        · simp only [Option.some.injEq] at h1
          subst h1
          refine Or.inr ⟨j, k + 1, rfl, by simpa using h2, h3, ?_, ?_⟩
          · intro t' ht' i' hi'
            rcases List.mem_cons.mp ht' with rfl | ht'
            · rw [hi] at hi'; cases hi'
            · exact h4 t' ht' i' hi'
          · intro j' t' hj' hjt
            cases j' with
            | zero =>
              simp only [List.getElem?_cons_zero, Option.some.injEq] at hjt
              subst hjt
              rw [hi]; simp
            | succ j' =>
              simp only [List.getElem?_cons_succ] at hjt
              exact h5 j' t' (by omega) hjt
    | some i =>
      cases hr : earliestToken text rest with
      | none =>
        rw [hr] at ih
        rcases ih with ⟨_, h2⟩ | ⟨index, k, h1, _⟩
        · refine Or.inr ⟨i, 0, rfl, by simp, hi, ?_, ?_⟩
          · intro t' ht' i' hi'
            rcases List.mem_cons.mp ht' with rfl | ht'
            · rw [hi] at hi'; cases hi'; exact le_refl _
            · rw [h2 t' ht'] at hi'; cases hi'
          · intro j' t' hj'; omega
        · cases h1
      | some r =>
        obtain ⟨j, u⟩ := r
        rw [hr] at ih
        rcases ih with ⟨h1, _⟩ | ⟨index, k, h1, h2, h3, h4, h5⟩
        · cases h1
        · simp only [Option.some.injEq] at h1
          subst h1
          by_cases hle : i ≤ j
          · simp only [hle, if_true]
            refine Or.inr ⟨i, 0, rfl, by simp, hi, ?_, ?_⟩
            · intro t' ht' i' hi'
              rcases List.mem_cons.mp ht' with rfl | ht'
              · rw [hi] at hi'; cases hi'; exact le_refl _
              · have := h4 t' ht' i' hi'
                omega
            · intro j' t' hj'; omega
          · simp only [hle, if_false]
            refine Or.inr ⟨j, k + 1, rfl, by simpa using h2, h3, ?_, ?_⟩
            · intro t' ht' i' hi'
              rcases List.mem_cons.mp ht' with rfl | ht'
              · rw [hi] at hi'; cases hi'; omega
              · exact h4 t' ht' i' hi'
            · intro j' t' hj' hjt
              cases j' with
              | zero =>
                simp only [List.getElem?_cons_zero, Option.some.injEq] at hjt
                subst hjt
                rw [hi]
                intro hx
                cases hx
                omega
              | succ j' =>
                simp only [List.getElem?_cons_succ] at hjt
                exact h5 j' t' (by omega) hjt

theorem earliestToken_none (text : GoString) (tokens : List GoString)
    (h : ∀ t ∈ tokens, Index text t = none) : earliestToken text tokens = none := by
  have hs := earliestToken_spec text tokens
  cases he : earliestToken text tokens with
  | none => rfl
  | some r =>
    obtain ⟨i, t⟩ := r
    rw [he] at hs
    rcases hs with ⟨h1, _⟩ | ⟨_, k, _, h2, h3, _, _⟩
    · cases h1
    · rw [h t (List.getElem?_mem h2)] at h3
      cases h3

theorem earliestToken_some (text : GoString) (tokens : List GoString) (i : Nat) (t : GoString)
    (h : earliestToken text tokens = some (i, t)) :
    t ∈ tokens ∧ Index text t = some i ∧
      ∀ t' ∈ tokens, ∀ i', Index text t' = some i' → i ≤ i' := by
  have hs := earliestToken_spec text tokens
  rw [h] at hs
  rcases hs with ⟨h1, _⟩ | ⟨index, k, h1, h2, h3, h4, _⟩
  · cases h1
  · simp only [Option.some.injEq] at h1
    subst h1
    exact ⟨List.getElem?_mem h2, h3, h4⟩

/-- The token at position `k` of the list is the earliest one when it first
occurs at the offset `i`, no token occurs before that offset, and no token
listed before it first occurs at `i`. -/
theorem earliestToken_unique (text : GoString) (tokens : List GoString) (k i : Nat)
    (st : GoString) (hk : tokens[k]? = some st) (hi : Index text st = some i)
    (hmin : ∀ t' ∈ tokens, ∀ i', Index text t' = some i' → i ≤ i')
    (htie : ∀ (j : Nat) (t' : GoString), j < k → tokens[j]? = some t' →
      Index text t' ≠ some i) :
    earliestToken text tokens = some (i, st) := by
  have hs := earliestToken_spec text tokens
  cases he : earliestToken text tokens with
  | none =>
    rw [he] at hs
    rcases hs with ⟨_, h2⟩ | ⟨_, _, h1, _⟩
    · rw [h2 st (List.getElem?_mem hk)] at hi
      cases hi
    · cases h1
  | some r =>
    obtain ⟨i2, t2⟩ := r
    rw [he] at hs
    rcases hs with ⟨h1, _⟩ | ⟨index, k2, h1, h2, h3, h4, h5⟩
    · cases h1
    · simp only [Option.some.injEq] at h1
      subst h1
      have e1 : i2 ≤ i := h4 st (List.getElem?_mem hk) i hi
      have e2 : i ≤ i2 := hmin t2 (List.getElem?_mem h2) i2 h3
      have e3 : i2 = i := by omega
      subst e3
      have hkk : k2 = k := by
        rcases Nat.lt_trichotomy k2 k with hlt | heq | hgt
        · exact absurd h3 (htie k2 t2 hlt h2)
        · exact heq
        · exact absurd hi (h5 k st hgt hk)
      subst hkk
      rw [hk] at h2
      simp only [Option.some.injEq] at h2
      rw [h2]

theorem findToken_spec (B : GoString) (tokens : List GoString) (st : GoString) (i : Nat)
    (h : findToken B tokens = some (st, i)) :
    ∃ k, tokens[k]? = some st ∧ Index B st = some i ∧
      ∀ (j : Nat) (t' : GoString), j < k → tokens[j]? = some t' → Index B t' = none := by
  induction tokens with
  | nil => simp [findToken] at h
  | cons a rest ih =>
    simp only [findToken] at h
    cases hi : Index B a with
    | none =>
      rw [hi] at h
      obtain ⟨k, h1, h2, h3⟩ := ih h
      refine ⟨k + 1, by simpa using h1, h2, ?_⟩
      intro j t' hj hjt
      cases j with
      | zero =>
        simp only [List.getElem?_cons_zero, Option.some.injEq] at hjt
        subst hjt
        exact hi
      | succ j =>
        simp only [List.getElem?_cons_succ] at hjt
        exact h3 j t' (by omega) hjt
    | some idx =>
      rw [hi] at h
      simp only [Option.some.injEq, Prod.mk.injEq] at h
      obtain ⟨rfl, rfl⟩ := h
      exact ⟨0, by simp, hi, fun j t' hj => by omega⟩

theorem findToken_eq_none (B : GoString) (tokens : List GoString)
    (h : findToken B tokens = none) : ∀ t ∈ tokens, Index B t = none := by
  induction tokens with
  | nil => intro t ht; simp at ht
  | cons a rest ih =>
    simp only [findToken] at h
    cases hi : Index B a with
    | none =>
      rw [hi] at h
      intro t ht
      rcases List.mem_cons.mp ht with rfl | ht
      · exact hi
      · exact ih h t ht
    | some idx => rw [hi] at h; simp at h

theorem findToken_isSome (B : GoString) (tokens : List GoString) (t : GoString)
    (ht : t ∈ tokens) (i : Nat) (hi : Index B t = some i) :
    ∃ st i0, findToken B tokens = some (st, i0) := by
  cases hf : findToken B tokens with
  | none =>
    rw [findToken_eq_none B tokens hf t ht] at hi
    cases hi
  | some r => exact ⟨r.1, r.2, rfl⟩

/-- A prefix in which no occurrence of `t` starts shifts the first occurrence
of `t`. -/
theorem Index_skip (t p R : GoString) (h : ∀ j, j < p.length → ¬ t <+: (p ++ R).drop j) :
    Index (p ++ R) t = (Index R t).map (fun i => i + p.length) := by
  cases hi : Index R t with
  | none =>
    simp only [Option.map_none']
    cases hi2 : Index (p ++ R) t with
    | none => rfl
    | some i =>
      exfalso
      obtain ⟨g1, _, _⟩ := Index_eq_some _ _ _ hi2
      have hip : p.length ≤ i := by
        by_contra hlt
        exact h i (by omega) g1
      rw [drop_append_ge p R i hip] at g1
      exact Index_eq_none R t hi _ g1
  | some i =>
    simp only [Option.map_some']
    obtain ⟨g1, _, g3⟩ := Index_eq_some _ _ _ hi
    apply Index_of_first
    · rw [drop_append_ge p R _ (by omega)]
      have : i + p.length - p.length = i := by omega
      rw [this]; exact g1
    · intro j hj hp
      by_cases hjp : j < p.length
      · exact h j hjp hp
      · rw [drop_append_ge p R j (by omega)] at hp
        exact g3 (j - p.length) (by omega) hp

theorem earliestToken_skip (tokens : List GoString) (p R : GoString)
    (h : ∀ t ∈ tokens, ∀ j, j < p.length → ¬ t <+: (p ++ R).drop j) :
    earliestToken (p ++ R) tokens
      = (earliestToken R tokens).map (fun x => (x.1 + p.length, x.2)) := by
  induction tokens with
  | nil => rfl
  | cons t rest ih =>
    have ih' := ih (fun t' ht' => h t' (List.mem_cons_of_mem _ ht'))
    have hidx := Index_skip t p R (h t (List.mem_cons_self _ _))
    simp only [earliestToken, hidx, ih']
    cases Index R t with
    | none => simp
    | some i =>
      cases earliestToken R rest with
      | none => simp
      | some r =>
        obtain ⟨j, u⟩ := r
        simp only [Option.map_some']
        by_cases hle : i ≤ j
        · have : i + p.length ≤ j + p.length := by omega
          simp [hle, this]
        · have : ¬ i + p.length ≤ j + p.length := by omega
          simp [hle, this]
/-- C15 (remove-token tie-break in one step). When
`removeTokensStream.cutOverflowBuffer` runs on a buffer with more than
`minBufferLen` code points in which at least one token occurs, there is a
token `t`, at position `k` of the token list, with first occurrence at byte
offset `index`, such that no token first occurs at a smaller offset, no token
listed before `t` first occurs at `index`, the returned chunk is the buffer
before that occurrence, the new buffer is the text after it, and nothing else
of the state changes: the token list in particular is the same. The
occurrence removed is the one the reference `earliestToken` names. -/
theorem removeTokens_tie_break (s : removeTokensStream)
    (hlen : s.minBufferLen < RuneCountInString s.buffer)
    (hocc : ∃ t ∈ s.tokens, Index s.buffer t ≠ none) :
    ∃ k t index, s.tokens[k]? = some t ∧ Index s.buffer t = some index ∧
      (∀ t' ∈ s.tokens, ∀ i' : Nat, Index s.buffer t' = some i' → index ≤ i') ∧
      (∀ (j : Nat) (t' : GoString), j < k → s.tokens[j]? = some t' →
        Index s.buffer t' ≠ some index) ∧
      s.cutOverflowBuffer
        = (s.buffer.take index, { s with buffer := s.buffer.drop (index + t.length) }) ∧
      (s.cutOverflowBuffer).2.tokens = s.tokens ∧
      earliestToken s.buffer s.tokens = some (index, t) := by
  have hlen' : ¬ RuneCountInString s.buffer ≤ s.minBufferLen := by omega
  rcases scanTokens_spec s.buffer s.tokens with ⟨_, h2⟩ | ⟨index, k, h1, h2, h3, h4, h5⟩
  · obtain ⟨t, ht, hne⟩ := hocc
    exact absurd (h2 t ht) hne
  · have hcut : s.cutOverflowBuffer = (s.buffer.take index,
        { s with buffer := s.buffer.drop (index + (scanTokens s.buffer s.tokens).2.length) }) := by
      have hpair : scanTokens s.buffer s.tokens
          = (some index, (scanTokens s.buffer s.tokens).2) := by
        rw [← h1]
      simp only [removeTokensStream.cutOverflowBuffer, if_neg hlen']
      rw [hpair]
    exact ⟨k, _, index, h2, h3, h4, h5, hcut, by rw [hcut],
      earliestToken_unique _ _ k index _ h2 h3 h4 h5⟩

theorem removeTokens_tie_break_witness :
    removeTokensStream.cutOverflowBuffer
        { src := FromSlice [], tokens := [str "bc", str "cd", str "ab", str "abc"],
          buffer := str "xabcd", minBufferLen := 3 }
      = (str "x",
          { src := FromSlice [], tokens := [str "bc", str "cd", str "ab", str "abc"],
            buffer := str "cd", minBufferLen := 3 }) := by
  obtain ⟨k, t, index, h1, h2, h3, h4, h5, _⟩ := removeTokens_tie_break
    { src := FromSlice [], tokens := [str "bc", str "cd", str "ab", str "abc"],
      buffer := str "xabcd", minBufferLen := 3 } (by decide)
    ⟨str "bc", by decide, by decide⟩
  have hidx : index = 1 := by
    have a1 := h3 (str "ab") (by decide) 1 (by decide)
    have hk : k < 4 := by
      by_contra hx
      rw [List.getElem?_eq_none (by simp; omega)] at h1
      cases h1
    interval_cases k
    · simp only [List.getElem?_cons_zero, Option.some.injEq] at h1
      subst h1
      have := h3 (str "ab") (by decide) 1 (by decide)
      have h2' : Index (str "xabcd") (str "bc") = some 2 := by decide
      rw [h2'] at h2
      cases h2
      omega
    · simp only [List.getElem?_cons_succ, List.getElem?_cons_zero, Option.some.injEq] at h1
      subst h1
      have h2' : Index (str "xabcd") (str "cd") = some 3 := by decide
      rw [h2'] at h2
      cases h2
      omega
    · simp only [List.getElem?_cons_succ, List.getElem?_cons_zero, Option.some.injEq] at h1
      subst h1
      have h2' : Index (str "xabcd") (str "ab") = some 1 := by decide
      rw [h2'] at h2
      cases h2
      rfl
    · simp only [List.getElem?_cons_succ, List.getElem?_cons_zero, Option.some.injEq] at h1
      subst h1
      have h2' : Index (str "xabcd") (str "abc") = some 1 := by decide
      rw [h2'] at h2
      cases h2
      rfl
  subst hidx
  have ht : t = str "ab" := by
    have hk : k < 4 := by
      by_contra hx
      rw [List.getElem?_eq_none (by simp; omega)] at h1
      cases h1
    interval_cases k
    · simp only [List.getElem?_cons_zero, Option.some.injEq] at h1
      subst h1
      revert h2; decide
    · simp only [List.getElem?_cons_succ, List.getElem?_cons_zero, Option.some.injEq] at h1
      subst h1
      revert h2; decide
    · simp only [List.getElem?_cons_succ, List.getElem?_cons_zero, Option.some.injEq] at h1
      exact h1.symm
    · exact absurd (by decide) (h4 2 (str "ab") (by omega) (by decide))
  subst ht
  exact h5

/-! ## The reference segmentation of a text at the tokens of a list -/

theorem earliestToken_bounds (tokens : List GoString) (hne : ∀ t ∈ tokens, t ≠ [])
    (text : GoString) (i : Nat) (t : GoString) (h : earliestToken text tokens = some (i, t)) :
    i + t.length ≤ text.length ∧ 1 ≤ t.length ∧ i ≤ text.length := by
  obtain ⟨h1, h2, _⟩ := earliestToken_some text tokens i t h
  obtain ⟨hl, _⟩ := Index_some_length text t i h2
  have := List.length_pos.mpr (hne t h1)
  omega

theorem segmentListAux_fuel (tokens : List GoString) (hne : ∀ t ∈ tokens, t ≠ []) :
    ∀ (n m : Nat) (last text : GoString), text.length < n → text.length < m →
      segmentListAux tokens n last text = segmentListAux tokens m last text := by
  intro n
  induction n with
  | zero => intro m last text h; omega
  | succ n ih =>
    intro m last text hn hm
    cases m with
    | zero => omega
    | succ m =>
      cases hi : earliestToken text tokens with
      | none => simp only [segmentListAux, hi]
      | some r =>
        obtain ⟨i, t⟩ := r
        obtain ⟨hl, htl, _⟩ := earliestToken_bounds tokens hne text i t hi
        simp only [segmentListAux, hi]
        rw [ih m t (text.drop (i + t.length)) (by simp; omega) (by simp; omega)]

theorem segmentList_none (tokens : List GoString) (last text : GoString)
    (h : earliestToken text tokens = none) :
    segmentList tokens last text = textEvents last text := by
  simp only [segmentList, segmentListAux, h]

theorem segmentList_some (tokens : List GoString) (hne : ∀ t ∈ tokens, t ≠ [])
    (last text : GoString) (i : Nat) (t : GoString)
    (h : earliestToken text tokens = some (i, t)) :
    segmentList tokens last text =
      textEvents last (text.take i) ++
        (t, none) :: segmentList tokens t (text.drop (i + t.length)) := by
  obtain ⟨hl, htl, _⟩ := earliestToken_bounds tokens hne text i t h
  have e1 : segmentList tokens last text
      = segmentListAux tokens (text.length + 1) last text := rfl
  have e2 : segmentList tokens t (text.drop (i + t.length))
      = segmentListAux tokens ((text.drop (i + t.length)).length + 1) t
          (text.drop (i + t.length)) := rfl
  have e3 : segmentListAux tokens (text.length + 1) last text
      = textEvents last (text.take i) ++
          (t, none) :: segmentListAux tokens text.length t (text.drop (i + t.length)) := by
    simp only [segmentListAux, h]
  rw [e1, e3, e2, segmentListAux_fuel tokens hne text.length
    ((text.drop (i + t.length)).length + 1) t _ (by simp; omega) (by omega)]

theorem segmentList_nil (tokens : List GoString) (hne : ∀ t ∈ tokens, t ≠ [])
    (last : GoString) : segmentList tokens last [] = [] := by
  rw [segmentList_none tokens last [] (earliestToken_none _ _
    (fun t ht => Index_nil_text t (hne t ht)))]
  rfl

/-- A prefix in which no token occurrence starts is plain text. -/
theorem segmentList_skip (tokens : List GoString) (hne : ∀ t ∈ tokens, t ≠ [])
    (last p R : GoString)
    (h : ∀ t ∈ tokens, ∀ j, j < p.length → ¬ t <+: (p ++ R).drop j) :
    segmentList tokens last (p ++ R) = textEvents last p ++ segmentList tokens last R := by
  have hsk := earliestToken_skip tokens p R h
  cases hi : earliestToken R tokens with
  | none =>
    rw [hi] at hsk
    rw [segmentList_none _ _ _ hsk, segmentList_none _ _ _ hi, textEvents_append]
  | some r =>
    obtain ⟨i, t⟩ := r
    rw [hi] at hsk
    simp only [Option.map_some'] at hsk
    rw [segmentList_some tokens hne _ _ _ _ hsk, segmentList_some tokens hne _ _ _ _ hi]
    have htake : (p ++ R).take (i + p.length) = p ++ R.take i := by
      rw [List.take_append_eq_append_take, List.take_of_length_le (by omega)]
      congr 2
      omega
    have hdrop : (p ++ R).drop (i + p.length + t.length) = R.drop (i + t.length) := by
      rw [drop_append_ge p R _ (by omega)]
      congr 1
      omega
    rw [htake, hdrop, textEvents_append, List.append_assoc]

theorem segmentList_length (tokens : List GoString) (hne : ∀ t ∈ tokens, t ≠ []) :
    ∀ (n : Nat) (last text : GoString), text.length < n →
      (segmentList tokens last text).length ≤ 2 * text.length := by
  intro n
  induction n with
  | zero => intro _ _ h; omega
  | succ n ih =>
    intro last text h
    cases hi : earliestToken text tokens with
    | none => rw [segmentList_none _ _ _ hi, textEvents_length]; omega
    | some r =>
      obtain ⟨i, t⟩ := r
      obtain ⟨hl, htl, _⟩ := earliestToken_bounds tokens hne text i t hi
      have := ih t (text.drop (i + t.length)) (by simp; omega)
      rw [segmentList_some tokens hne _ _ _ _ hi]
      simp only [List.length_append, List.length_cons, textEvents_length, List.length_take]
      simp only [List.length_drop] at this
      omega

/-- A text emitted in one piece lies between two markers of the reference
segmentation, so no token occurs in it. -/
theorem segmentList_chunk_free (tokens : List GoString) (hne : ∀ t ∈ tokens, t ≠ []) :
    ∀ (n : Nat) (last text l c : GoString), text.length < n →
      textEvents l c <:+: segmentList tokens last text → ∀ t ∈ tokens, ¬ t <:+: c := by
  intro n
  induction n with
  | zero => intro _ text _ _ h; omega
  | succ n ih =>
    intro last text l c hn hinf t ht htc
    have htl : 1 ≤ t.length := List.length_pos.mpr (hne t ht)
    cases hi : earliestToken text tokens with
    | none =>
      rw [segmentList_none _ _ _ hi] at hinf
      have hcp := textEvents_infix _ _ _ _ hinf
      have hs := earliestToken_spec text tokens
      rw [hi] at hs
      rcases hs with ⟨_, h2⟩ | ⟨_, _, h1, _⟩
      · exact (Index_none_iff _ _).mp (h2 t ht) (htc.trans hcp)
      · cases h1
    | some r =>
      obtain ⟨i, st⟩ := r
      obtain ⟨hl, hstl, _⟩ := earliestToken_bounds tokens hne text i st hi
      obtain ⟨_, _, hmin⟩ := earliestToken_some text tokens i st hi
      rw [segmentList_some tokens hne _ _ _ _ hi] at hinf
      rcases infix_split_marker _ _ _ (marker_not_mem_textEvents st l c) _ hinf with h | h
      · have hcp := textEvents_infix _ _ _ _ h
        have hin : t <:+: text := (htc.trans hcp).trans (List.take_prefix i text).isInfix
        cases hti : Index text t with
        | none => exact (Index_none_iff _ _).mp hti hin
        | some i' =>
          have hle := hmin t ht i' hti
          obtain ⟨a, b, hab⟩ := htc.trans hcp
          have hlen : a.length + t.length + b.length = i := by
            have := congrArg List.length hab
            simp only [List.length_append, List.length_take] at this
            omega
          obtain ⟨_, _, g3⟩ := Index_eq_some text t i' hti
          apply g3 a.length (by omega)
          have htext : text = a ++ t ++ b ++ text.drop i := by
            rw [hab, List.take_append_drop]
          refine ⟨b ++ text.drop i, ?_⟩
          conv_rhs => rw [htext]
          simp [List.append_assoc]
      · exact ih st (text.drop (i + st.length)) l c (by simp; omega) h t ht htc

/-! ## Special-token engine with several tokens -/

theorem findToken_of_spec (B : GoString) (tokens : List GoString) :
    ∀ (k i : Nat) (st : GoString), tokens[k]? = some st → Index B st = some i →
      (∀ (j : Nat) (t' : GoString), j < k → tokens[j]? = some t' → Index B t' = none) →
      findToken B tokens = some (st, i) := by
  induction tokens with
  | nil => intro k i st hk; simp at hk
  | cons a rest ih =>
    intro k i st hk hi hb
    cases k with
    | zero =>
      simp only [List.getElem?_cons_zero, Option.some.injEq] at hk
      subst hk
      simp only [findToken, hi]
    | succ k =>
      have ha : Index B a = none := hb 0 a (by omega) (by simp)
      simp only [List.getElem?_cons_succ] at hk
      simp only [findToken, ha]
      exact ih k i st hk hi (fun j t' hj hjt => hb (j + 1) t' (by omega) (by simpa using hjt))

theorem Index_none_drop (R t : GoString) (i : Nat) (h : Index R t = none) :
    Index (R.drop i) t = none :=
  Index_none_of_absent _ _
    (fun hin => (Index_none_iff _ _).mp h (hin.trans (List.drop_suffix i R).isInfix))

/-- When the first token in list order that occurs in the buffer `B` is `st`
at offset `i`, it is also the earliest token occurrence of the buffer
continued by the text `F` still to come. -/
theorem found_is_earliest (tokens : List GoString) (text : GoString)
    (hne : ∀ t ∈ tokens, t ≠ [])
    (hord : ∀ p st i, findToken (text.drop p) tokens = some (st, i) →
      ∀ t ∈ tokens, ∀ j, t <+: text.drop (p + j) → i ≤ j)
    (hap : ∀ u ∈ tokens, ∀ v ∈ tokens, u ≠ v → ∀ j k, u <+: text.drop j →
      v <+: text.drop k → j + u.length ≤ k ∨ k + v.length ≤ j)
    (B F : GoString) (q : Nat) (hq : B ++ F = text.drop q) (st : GoString) (i : Nat)
    (hfind : findToken B tokens = some (st, i)) :
    earliestToken (B ++ F) tokens = some (i, st) ∧
    earliestToken ((B ++ F).drop i) tokens = some (0, st) := by
  obtain ⟨k, hk, hiB, hbefore⟩ := findToken_spec B tokens st i hfind
  have hst : st ∈ tokens := List.getElem?_mem hk
  have hiR := Index_append_left B F st i hiB
  obtain ⟨hlB, _⟩ := Index_some_length B st i hiB
  have hdd : ∀ j, text.drop (q + j) = (B ++ F).drop j := by
    intro j
    rw [hq, List.drop_drop]
  have hoccst : st <+: (B ++ F).drop i := (Index_eq_some _ _ _ hiR).1
  have hbeforeR : ∀ (j : Nat) (t' : GoString), j < k → tokens[j]? = some t' →
      Index (B ++ F) t' = none := by
    obtain ⟨st0, i0, hf0⟩ := findToken_isSome (B ++ F) tokens st hst i hiR
    obtain ⟨k0, hk0, hi0, hb0⟩ := findToken_spec (B ++ F) tokens st0 i0 hf0
    have hk0k : k0 = k := by
      rcases Nat.lt_trichotomy k0 k with hlt | heq | hgt
      · exfalso
        have hB0 : Index B st0 = none := hbefore k0 st0 hlt hk0
        have hne0 : st0 ≠ st := by
          intro he
          rw [he, hiB] at hB0
          cases hB0
        have hst0 : st0 ∈ tokens := List.getElem?_mem hk0
        have hocc0 : st0 <+: (B ++ F).drop i0 := (Index_eq_some _ _ _ hi0).1
        have hle : i0 ≤ i := by
          apply hord q st0 i0 (by rw [← hq]; exact hf0) st hst i
          rw [hdd]; exact hoccst
        have := hap st0 hst0 st hst hne0 (q + i0) (q + i)
          (by rw [hdd]; exact hocc0) (by rw [hdd]; exact hoccst)
        rcases this with h1 | h1
        · have hin := prefix_of_drop_append B F st0 i0 (by omega) hocc0
          exact Index_eq_none B st0 hB0 i0 hin
        · have := List.length_pos.mpr (hne st hst)
          omega
      · exact heq
      · have := hb0 k st hgt hk
        rw [hiR] at this
        cases this
    subst hk0k
    exact hb0
  have hfR : findToken (B ++ F) tokens = some (st, i) :=
    findToken_of_spec _ _ k i st hk hiR hbeforeR
  have hminR : ∀ t' ∈ tokens, ∀ i', Index (B ++ F) t' = some i' → i ≤ i' := by
    intro t' ht' i' hi'
    apply hord q st i (by rw [← hq]; exact hfR) t' ht' i'
    rw [hdd]
    exact (Index_eq_some _ _ _ hi').1
  refine ⟨earliestToken_unique _ _ k i st hk hiR hminR ?_,
    earliestToken_unique _ _ k 0 st hk ?_ (fun _ _ _ _ => Nat.zero_le _) ?_⟩
  · intro j t' hj hjt
    rw [hbeforeR j t' hj hjt]
    simp
  · apply Index_of_first
    · exact hoccst
    · intro j hj; omega
  · intro j t' hj hjt
    rw [Index_none_drop _ _ _ (hbeforeR j t' hj hjt)]
    simp

theorem Tok_cut (tokens : List GoString) (text : GoString)
    (hne : ∀ t ∈ tokens, t ≠ []) (hval : ∀ t ∈ tokens, ValidString t = true)
    (hord : ∀ p st i, findToken (text.drop p) tokens = some (st, i) →
      ∀ t ∈ tokens, ∀ j, t <+: text.drop (p + j) → i ≤ j)
    (hap : ∀ u ∈ tokens, ∀ v ∈ tokens, u ≠ v → ∀ j k, u <+: text.drop j →
      v <+: text.drop k → j + u.length ≤ k ∨ k + v.length ≤ j)
    {s : specialTokenParserStream} {D : List (GoString × Option Nat)} {f : List GoString}
    (h : TokInv tokens text s D f) :
    ∃ D', D = itemEvents (s.cutOverflowBuffer).1.1 (s.cutOverflowBuffer).1.2 ++ D' ∧
      TokInv tokens text (s.cutOverflowBuffer).2 D' f ∧
      (s.minBufferLen = 0 → f = [] → (s.cutOverflowBuffer).1.2 = [] →
        (s.cutOverflowBuffer).1.1 = [] → D = []) := by
  obtain ⟨q, hq⟩ := h.suffix
  by_cases hc : RuneCountInString s.buffer ≤ s.minBufferLen
  · have he : s.cutOverflowBuffer = (([], []), s) := by
      simp [specialTokenParserStream.cutOverflowBuffer, hc]
    rw [he]
    refine ⟨D, by simp [itemEvents_nil], h, ?_⟩
    intro h0 hf _ _
    have hb : s.buffer = [] := runes_eq_nil _ (by omega)
    rw [h.todo, hb, hf]
    exact segmentList_nil tokens hne _
  · cases hfind : findToken s.buffer tokens with
    | none =>
      have hnone : findToken s.buffer s.specialTokens = none := by rw [h.toks]; exact hfind
      have hnoneB := findToken_eq_none _ _ hfind
      have hpos : RuneCountInString s.buffer - s.minBufferLen > 0 := by omega
      have he : s.cutOverflowBuffer =
          ((s.lastToken, stringOfRunes ((runes s.buffer).take
              (RuneCountInString s.buffer - s.minBufferLen))),
            { s with buffer := stringOfRunes ((runes s.buffer).drop
              (RuneCountInString s.buffer - s.minBufferLen)) }) := by
        simp [specialTokenParserStream.cutOverflowBuffer, hc, hnone, hpos]
      obtain ⟨g1, g2, g3, g4⟩ := cut_runes_valid s.buffer s.minBufferLen h.valid (by omega)
      have g5 := cut_runes_count s.buffer s.minBufferLen h.valid (by omega)
      rw [he]
      generalize stringOfRunes ((runes s.buffer).take
        (RuneCountInString s.buffer - s.minBufferLen)) = chunk at g1 g2
      generalize stringOfRunes ((runes s.buffer).drop
        (RuneCountInString s.buffer - s.minBufferLen)) = kept at g1 g3 g4 g5
      have hlenB : s.buffer.length = chunk.length + kept.length := by rw [← g1]; simp
      refine ⟨segmentList tokens s.lastToken (kept ++ f.flatten), ?_,
        ⟨h.toks, h.src, g4, h.fvalid, h.min, rfl, ⟨q + chunk.length, ?_⟩⟩, ?_⟩
      · rw [itemEvents_text _ _ g2, h.todo, ← g1, List.append_assoc]
        apply segmentList_skip tokens hne
        intro t ht j hj hp
        rw [← List.append_assoc, g1] at hp
        rcases h.min with hm | ⟨_, hf⟩
        · have hwithin := token_within_buffer s.buffer f.flatten t chunk kept j h.valid
            (ValidString_flatten f h.fvalid) (hval t ht) (hne t ht) g1 g4
            (by rw [g5, hm]; exact tokensMinBufferLen_ge tokens t ht) hj hp
          exact Index_eq_none s.buffer t (hnoneB t ht) j
            (prefix_of_drop_append s.buffer _ t j hwithin hp)
        · rw [hf] at hp
          simp only [List.flatten_nil, List.append_nil] at hp
          exact Index_eq_none s.buffer t (hnoneB t ht) j hp
      · show kept ++ f.flatten = text.drop (q + chunk.length)
        rw [← List.drop_drop, ← hq, ← g1, List.append_assoc,
          List.drop_left]
      · intro _ _ hnil
        exact absurd hnil g2
    | some r =>
      obtain ⟨st, i⟩ := r
      have hfind' : findToken s.buffer s.specialTokens = some (st, i) := by
        rw [h.toks]; exact hfind
      obtain ⟨k, hk, hiB, _⟩ := findToken_spec s.buffer tokens st i hfind
      have hst : st ∈ tokens := List.getElem?_mem hk
      have hstne := hne st hst
      have htl : 1 ≤ st.length := List.length_pos.mpr hstne
      obtain ⟨g1, g2, _⟩ := Index_eq_some _ _ _ hiB
      obtain ⟨hl, _⟩ := Index_some_length s.buffer st i hiB
      obtain ⟨v1, v2, v3⟩ := ValidString_at_occurrence s.buffer st i h.valid (hval st hst)
        hstne g1
      obtain ⟨hearl, hearl0⟩ := found_is_earliest tokens text hne hord hap s.buffer
        f.flatten q hq st i hfind
      have hD := segmentList_some tokens hne s.lastToken _ i st hearl
      rw [← h.todo, List.take_append_of_le_length g2,
        List.drop_append_of_le_length hl] at hD
      rw [List.drop_append_of_le_length g2] at hearl0
      by_cases hpos : (s.buffer.take i).length > 0
      · have he : s.cutOverflowBuffer =
            ((s.lastToken, s.buffer.take i),
              { s with lastToken := st, buffer := s.buffer.drop i }) := by
          simp only [specialTokenParserStream.cutOverflowBuffer, if_neg hc, hfind', if_pos hpos]
        rw [he]
        have hne2 : s.buffer.take i ≠ [] := List.length_pos.mp hpos
        have hD2 := segmentList_some tokens hne st _ 0 st hearl0
        have hdd : List.drop (0 + st.length) (s.buffer.drop i ++ f.flatten)
            = s.buffer.drop (i + st.length) ++ f.flatten := by
          rw [List.drop_append_of_le_length (by simp; omega), List.drop_drop]
          congr 2
          omega
        rw [hdd] at hD2
        refine ⟨segmentList tokens st (s.buffer.drop i ++ f.flatten), ?_,
          ⟨h.toks, h.src, v2, h.fvalid, h.min, rfl, ⟨q + i, ?_⟩⟩, ?_⟩
        · rw [itemEvents_text _ _ hne2, hD, hD2]
          simp [textEvents]
        · show s.buffer.drop i ++ f.flatten = text.drop (q + i)
          rw [← List.drop_drop, ← hq, List.drop_append_of_le_length g2]
        · intro _ _ hnil
          exact absurd hnil hne2
      · have hi0 : i = 0 := by
          simp only [List.length_take] at hpos
          omega
        have he : s.cutOverflowBuffer =
            ((st, []), { s with lastToken := st,
                                buffer := (s.buffer.drop i).drop st.length }) := by
          simp only [specialTokenParserStream.cutOverflowBuffer, if_neg hc, hfind', if_neg hpos]
        rw [he]
        have hbuf : (s.buffer.drop i).drop st.length = s.buffer.drop (i + st.length) := by
          rw [List.drop_drop]
        refine ⟨segmentList tokens st (s.buffer.drop (i + st.length) ++ f.flatten), ?_,
          ⟨h.toks, h.src, ?_, h.fvalid, h.min, ?_, ⟨q + (i + st.length), ?_⟩⟩, ?_⟩
        · rw [itemEvents_marker st hstne, hD, hi0]
          simp [textEvents]
        · show ValidString ((s.buffer.drop i).drop st.length) = true
          rw [hbuf]; exact v3
        · show _ = segmentList tokens st ((s.buffer.drop i).drop st.length ++ f.flatten)
          rw [hbuf]
        · show (s.buffer.drop i).drop st.length ++ f.flatten = text.drop (q + (i + st.length))
          have hdq : text.drop (q + (i + st.length)) = (text.drop q).drop (i + st.length) := by
            rw [List.drop_drop]
          rw [hbuf, hdq, ← hq, List.drop_append_of_le_length hl]
        · intro _ _ _ hl0
          exact absurd hl0 hstne

theorem Tok_chunk {tokens : List GoString} {text : GoString} {s : specialTokenParserStream}
    {D : List (GoString × Option Nat)} {x : GoString} {f : List GoString}
    (h : TokInv tokens text s D (x :: f)) : TokInv tokens text s.onChunk D f := by
  obtain ⟨e1, e2⟩ := GivesThenEOF_cons _ x f h.src
  obtain ⟨q, hq⟩ := h.suffix
  refine ⟨h.toks, e2, ?_, fun c hc => h.fvalid c (List.mem_cons_of_mem _ hc), ?_, ?_, ⟨q, ?_⟩⟩
  · show ValidString (s.buffer ++ (s.src.Recv).1.1) = true
    rw [e1]
    exact ValidString_append _ _ h.valid (h.fvalid x (List.mem_cons_self _ _))
  · rcases h.min with hm | ⟨_, hf⟩
    · exact Or.inl hm
    · cases hf
  · show D = segmentList tokens s.lastToken ((s.buffer ++ (s.src.Recv).1.1) ++ f.flatten)
    rw [e1, h.todo]
    simp
  · show (s.buffer ++ (s.src.Recv).1.1) ++ f.flatten = text.drop q
    rw [e1, ← hq]
    simp

theorem Tok_eof {tokens : List GoString} {text : GoString} {s : specialTokenParserStream}
    {D : List (GoString × Option Nat)} (h : TokInv tokens text s D []) :
    TokInv tokens text s.onEOF D [] := by
  obtain ⟨_, e2⟩ := GivesThenEOF_nil _ h.src
  exact ⟨h.toks, e2, h.valid, h.fvalid, Or.inr ⟨rfl, rfl⟩, h.todo, h.suffix⟩
/-- C12, as stated, fails. With the tokens `<a>`, `<b>` and the text
`x<b>y<a>z` in one chunk, the engine takes the first token in list order that
occurs in its buffer: it emits `x<b>y`, a chunk that contains the special token
`<b>`, and no marker for `<b>`. And a chunking that cuts a multi-byte character
(here the character of the token `<你>`) makes the rune-wise release re-encode
the stray bytes, so that the occurrence of the token gets no marker. -/
theorem specialToken_segmentation_counterexample :
    specialTokenOutput [str "<a>", str "<b>"] [str "x<b>y<a>z"] 20
      = some ([⟨str "", str "x<b>y"⟩, ⟨str "<a>", str ""⟩, ⟨str "<a>", str "z"⟩],
          Error.EOF) ∧
    Index (str "x<b>y") (str "<b>") = some 1 ∧
    [str "abcd<" ++ [0xE4], [0xBD, 0xA0] ++ str ">"].flatten = str "abcd<你>" ∧
    specialTokenOutput [str "<你>"] [str "abcd<" ++ [0xE4], [0xBD, 0xA0] ++ str ">"] 20
      = some ([⟨str "", str "a"⟩, ⟨str "", str "bcd"⟩,
          ⟨str "", [60, 239, 191, 189, 239, 191, 189, 239, 191, 189, 62]⟩], Error.EOF) ∧
    specialTokenOutput [str "<你>"] [str "abcd<你>"] 20
      = some ([⟨str "", str "abcd"⟩, ⟨str "<你>", str ""⟩], Error.EOF) := by
  decide

/-- C12, amended (special-token segmentation). Take a list of non-empty valid
UTF-8 special tokens and a text in which occurrences of different tokens never
overlap and in every suffix of which the first token in list order that occurs
is also the one that occurs earliest. For every chunking of the text into
valid UTF-8 chunks, draining the special-token engine ends with end-of-stream,
and the items emitted say exactly the reference segmentation of the text:
scanning from the left, the text before the earliest token occurrence as bytes
under the label of the most recent marker (`""` before the first), then one
marker `(token, "")` for that occurrence, the scan resuming right after it.
No emitted chunk contains a special token. -/
theorem specialToken_segmentation (tokens : List GoString) (hne : ∀ t ∈ tokens, t ≠ [])
    (hval : ∀ t ∈ tokens, ValidString t = true) (chunks : List GoString)
    (hv : ∀ c ∈ chunks, ValidString c = true)
    (hap : NoOverlap tokens chunks.flatten)
    (hord : ListedFirstIsEarliest tokens chunks.flatten) (fuel : Nat)
    (hfuel : chunks.length + 2 * chunks.flatten.length < fuel) :
    ∃ out, specialTokenOutput tokens chunks fuel = some (out, Error.EOF) ∧
      events out = segmentList tokens [] chunks.flatten ∧
      (∀ o ∈ out, ∀ t ∈ tokens, ¬ t <:+: o.Chunk) := by
  have hoccurs : ∀ t ∈ tokens, ∀ (text : GoString) (j : Nat), t <+: text.drop j →
      j ∈ occurrences t text := by
    intro t ht text j hocc
    have hj : j < text.length := by
      by_contra hx
      rw [List.drop_eq_nil_of_le (by omega)] at hocc
      exact hne t ht (List.prefix_nil.mp hocc)
    simp only [occurrences, List.mem_filter, List.mem_range, List.isPrefixOf_iff_prefix]
    exact ⟨hj, hocc⟩
  have hordU : ∀ p st i, findToken (chunks.flatten.drop p) tokens = some (st, i) →
      ∀ t ∈ tokens, ∀ j, t <+: chunks.flatten.drop (p + j) → i ≤ j := by
    intro p st i hf t ht j hocc
    have hp : p < chunks.flatten.length := by
      have := hoccurs t ht chunks.flatten (p + j) hocc
      simp only [occurrences, List.mem_filter, List.mem_range] at this
      omega
    rw [← List.drop_drop] at hocc
    exact hord p hp (st, i) (Option.mem_def.mpr hf) t ht j (hoccurs t ht _ j hocc)
  have hapU : ∀ u ∈ tokens, ∀ v ∈ tokens, u ≠ v → ∀ j k, u <+: chunks.flatten.drop j →
      v <+: chunks.flatten.drop k → j + u.length ≤ k ∨ k + v.length ≤ j := by
    intro u hu v hv' huv j k h1 h2
    exact hap u hu v hv' huv j (hoccurs u hu _ j h1) k (hoccurs v hv' _ k h2)
  have hinit : TokInv tokens chunks.flatten (NewSpecialTokenParserStream (FromSlice chunks) tokens)
      (segmentList tokens [] chunks.flatten) chunks :=
    ⟨rfl, FromSlice_GivesThenEOF chunks, ValidString_nil, hv, Or.inl rfl,
      by simp [NewSpecialTokenParserStream], ⟨0, by simp [NewSpecialTokenParserStream]⟩⟩
  have hlen := segmentList_length tokens hne (chunks.flatten.length + 1) [] chunks.flatten
    (by omega)
  obtain ⟨out, s', h1, h2⟩ := ST_drain_generic (TokInv tokens chunks.flatten)
    (fun s D f h => h.src)
    (fun s D f h => Tok_cut tokens chunks.flatten hne hval hordU hapU h)
    (fun s D x f h => Tok_chunk h) (fun s D h => Tok_eof h) fuel fuel _ _ _ hinit
    (by omega) (by omega)
  refine ⟨out, by simp [specialTokenOutput, h1], h2, ?_⟩
  intro o ho t ht htc
  have hne2 : o.Chunk ≠ [] := by
    intro h0
    rw [h0] at htc
    exact hne t ht (List.eq_nil_of_infix_nil htc)
  have hinf := itemEvents_infix_events out o ho
  rw [itemEvents_text _ _ hne2, h2] at hinf
  exact segmentList_chunk_free tokens hne (chunks.flatten.length + 1) [] _ _ _ (by omega) hinf
    t ht htc

theorem specialToken_segmentation_witness :
    ∃ out, specialTokenOutput [str "<a>", str "<b>"] [str "x<a>y<", str "b>z"] 40
        = some (out, Error.EOF) ∧
      events out = segmentList [str "<a>", str "<b>"] [] (str "x<a>y<b>z") ∧
      (∀ o ∈ out, ∀ t ∈ [str "<a>", str "<b>"], ¬ t <:+: o.Chunk) :=
  specialToken_segmentation [str "<a>", str "<b>"] (by decide) (by decide)
    [str "x<a>y<", str "b>z"] (by decide) (by unfold NoOverlap; decide)
    (by unfold ListedFirstIsEarliest; decide) 40 (by decide)

/-- C13 (special-token pass-through when no marker occurs). For every token
list and every list of valid UTF-8 chunks whose concatenation contains no
special token as a substring, draining the special-token engine ends with
end-of-stream, every item emitted before it has the label `""`, and the
emitted chunks concatenate exactly to the concatenation of the input
chunks. -/
theorem specialToken_passthrough (tokens : List GoString) (chunks : List GoString)
    (hv : ∀ c ∈ chunks, ValidString c = true)
    (hno : ∀ t ∈ tokens, ¬ t <:+: chunks.flatten)
    (fuel : Nat) (hf : chunks.length + chunks.flatten.length < fuel) :
    ∃ out, specialTokenOutput tokens chunks fuel = some (out, Error.EOF) ∧
      (∀ o ∈ out, o.Label = []) ∧ (out.map (fun o => o.Chunk)).flatten = chunks.flatten :=
  specialTokenOutput_pass tokens chunks hv
    (fun t ht => Index_none_of_absent _ _ (hno t ht)) fuel (by omega) (by omega)

theorem specialToken_passthrough_witness :
    ∃ out, specialTokenOutput [str "<|end|>"] [str "hello", str "world"] 20
        = some (out, Error.EOF) ∧
      (∀ o ∈ out, o.Label = []) ∧
      (out.map (fun o => o.Chunk)).flatten = str "helloworld" :=
  specialToken_passthrough [str "<|end|>"] [str "hello", str "world"] (by decide) (by decide)
    20 (by decide)

/-! ## Remove-token engine on a text without tokens -/

theorem PassInvR_cut {tokens : List GoString} {s : removeTokensStream}
    {d : GoString} {future : List GoString} (h : PassInvR tokens s d future) :
    (s.cutOverflowBuffer).2.src = s.src ∧
    (∃ d', d = (s.cutOverflowBuffer).1 ++ d' ∧
      PassInvR tokens (s.cutOverflowBuffer).2 d' future) ∧
    (s.minBufferLen = 0 → (s.cutOverflowBuffer).1 = [] → s.buffer = []) := by
  by_cases hc : RuneCountInString s.buffer ≤ s.minBufferLen
  · have he : s.cutOverflowBuffer = ([], s) := by
      simp [removeTokensStream.cutOverflowBuffer, hc]
    rw [he]
    refine ⟨rfl, ⟨d, by simp, h⟩, ?_⟩
    intro h0 _
    exact runes_eq_nil _ (by omega)
  · have hnone : (scanTokens s.buffer s.tokens).1 = none := by
      apply scanTokens_none
      intro t ht
      rw [h.toks] at ht
      have := h.absent t ht
      rw [← h.text] at this
      exact Index_none_of_absent _ _ (absent_of_append_left this)
    have hpair : scanTokens s.buffer s.tokens = (none, (scanTokens s.buffer s.tokens).2) := by
      rw [← hnone]
    have hpos : RuneCountInString s.buffer - s.minBufferLen > 0 := by omega
    have he : s.cutOverflowBuffer =
        (stringOfRunes ((runes s.buffer).take (RuneCountInString s.buffer - s.minBufferLen)),
          { s with buffer := stringOfRunes ((runes s.buffer).drop
            (RuneCountInString s.buffer - s.minBufferLen)) }) := by
      simp only [removeTokensStream.cutOverflowBuffer, if_neg hc]
      rw [hpair]
      simp only [hpos, if_true]
    obtain ⟨g1, g2, g3, g4⟩ := cut_runes_valid s.buffer s.minBufferLen h.valid (by omega)
    rw [he]
    refine ⟨rfl, ⟨stringOfRunes ((runes s.buffer).drop
        (RuneCountInString s.buffer - s.minBufferLen)) ++ future.flatten, ?_, ?_⟩, ?_⟩
    · rw [← List.append_assoc, g1, h.text]
    · refine ⟨h.toks, rfl, g4, h.fvalid, h.src, ?_⟩
      intro t ht
      have := h.absent t ht
      rw [← h.text, ← g1, List.append_assoc] at this
      exact absent_of_append_right this
    · intro _ hnil
      exact absurd hnil g2

theorem R_Recv_emit (fuel : Nat) (s : removeTokensStream) (h : (s.cutOverflowBuffer).1 ≠ []) :
    s.Recv (fuel + 1) = some (((s.cutOverflowBuffer).1, none), (s.cutOverflowBuffer).2) := by
  simp only [removeTokensStream.Recv, h, ne_eq, not_false_eq_true, if_true]

theorem R_Recv_chunk (fuel : Nat) (s : removeTokensStream) (h1 : (s.cutOverflowBuffer).1 = [])
    (h3 : ((s.cutOverflowBuffer).2.src.Recv).1.2 = none) :
    s.Recv (fuel + 1) = removeTokensStream.Recv fuel (s.cutOverflowBuffer).2.onChunk := by
  simp only [removeTokensStream.Recv, h1, h3, ne_eq, not_true_eq_false, if_false]

theorem R_Recv_eof (fuel : Nat) (s : removeTokensStream) (h1 : (s.cutOverflowBuffer).1 = [])
    (h3 : ((s.cutOverflowBuffer).2.src.Recv).1.2 = some Error.EOF) :
    s.Recv (fuel + 1) =
      if ((s.cutOverflowBuffer).2.onEOF.cutOverflowBuffer).1 ≠ [] then
        some ((((s.cutOverflowBuffer).2.onEOF.cutOverflowBuffer).1, none),
          ((s.cutOverflowBuffer).2.onEOF.cutOverflowBuffer).2)
      else
        some (([], some Error.EOF), ((s.cutOverflowBuffer).2.onEOF.cutOverflowBuffer).2) := by
  simp only [removeTokensStream.Recv, h1, h3, ne_eq, not_true_eq_false, if_false]

theorem PassInvR_Recv {tokens : List GoString} (fuel : Nat) :
    ∀ (s : removeTokensStream) (d : GoString) (future : List GoString),
    PassInvR tokens s d future → future.length < fuel →
    ∃ res s', s.Recv fuel = some (res, s') ∧
      ((∃ c d' future', res = (c, none) ∧ c ≠ [] ∧ d = c ++ d' ∧
          future'.length ≤ future.length ∧ PassInvR tokens s' d' future') ∨
       (res = ([], some Error.EOF) ∧ d = [])) := by
  induction fuel with
  | zero => intro s d future _ h; omega
  | succ fuel ih =>
    intro s d future h hf
    obtain ⟨c2, ⟨d', hd, hinv⟩, c4⟩ := PassInvR_cut h
    by_cases hne : (s.cutOverflowBuffer).1 ≠ []
    · exact ⟨_, _, R_Recv_emit fuel s hne, Or.inl ⟨_, d', future, rfl, hne, hd,
        le_refl _, hinv⟩⟩
    · have hnil : (s.cutOverflowBuffer).1 = [] := by simpa using hne
      have hd' : d' = d := by rw [hd, hnil]; rfl
      subst hd'
      cases future with
      | nil =>
        obtain ⟨e1, e2⟩ := GivesThenEOF_nil _ hinv.src
        have hinv2 : PassInvR tokens (s.cutOverflowBuffer).2.onEOF d' [] :=
          ⟨hinv.toks, hinv.text, hinv.valid, hinv.fvalid, e2, hinv.absent⟩
        obtain ⟨k2, ⟨d2, hd2, hinv3⟩, k4⟩ := PassInvR_cut hinv2
        rw [R_Recv_eof fuel s hnil e1]
        by_cases hne2 : ((s.cutOverflowBuffer).2.onEOF.cutOverflowBuffer).1 = []
        · rw [if_neg (by simp [hne2])]
          refine ⟨_, _, rfl, Or.inr ⟨rfl, ?_⟩⟩
          have hb := k4 rfl hne2
          have := hinv2.text
          simp only [List.flatten_nil, List.append_nil] at this
          rw [← this]; exact hb
        · rw [if_pos hne2]
          exact ⟨_, _, rfl, Or.inl ⟨_, d2, [], rfl, hne2, hd2, le_refl _, hinv3⟩⟩
      | cons x fut =>
        obtain ⟨e1, e2⟩ := GivesThenEOF_cons _ x fut hinv.src
        have e1' : ((s.cutOverflowBuffer).2.src.Recv).1.2 = none := by rw [e1]
        have hinv2 : PassInvR tokens (s.cutOverflowBuffer).2.onChunk d' fut := by
          refine ⟨hinv.toks, ?_, ?_, fun c hc => hinv.fvalid c (by simp [hc]), e2,
            hinv.absent⟩
          · have := hinv.text
            simp only [List.flatten_cons] at this
            simp only [removeTokensStream.onChunk, e1, List.append_assoc]
            exact this
          · simp only [removeTokensStream.onChunk, e1]
            exact ValidString_append _ _ hinv.valid (hinv.fvalid x (by simp))
        obtain ⟨res, s', r1, r2⟩ := ih _ d' fut hinv2 (by simp at hf; omega)
        refine ⟨res, s', ?_, ?_⟩
        · rw [R_Recv_chunk fuel s hnil e1']
          exact r1
        · rcases r2 with ⟨c, d2, f2, q1, q2, q3, q4, q5⟩ | q
          · exact Or.inl ⟨c, d2, f2, q1, q2, q3, by simp; omega, q5⟩
          · exact Or.inr q

theorem PassInvR_drain {tokens : List GoString} (fuel : Nat) (n : Nat) :
    ∀ (s : removeTokensStream) (d : GoString) (future : List GoString),
    PassInvR tokens s d future → future.length < fuel → d.length < n →
    ∃ out s', RemoveTokens.drain fuel n (RemoveTokens.engine s) = some ((out, Error.EOF), s') ∧
      out.flatten = d := by
  induction n with
  | zero => intro s d future _ _ h; omega
  | succ n ih =>
    intro s d future h hf hn
    obtain ⟨res, s1, r1, r2⟩ := PassInvR_Recv fuel s d future h hf
    rcases r2 with ⟨c, d2, f2, q1, q2, q3, q4, q5⟩ | ⟨q1, q2⟩
    · have hclen : 1 ≤ c.length := by
        cases c with
        | nil => exact absurd rfl q2
        | cons a t => simp
      obtain ⟨out, s2, g1, g3⟩ := ih s1 d2 f2 q5 (by omega)
        (by rw [q3, List.length_append] at hn; omega)
      refine ⟨c :: out, s2, ?_, ?_⟩
      · simp only [RemoveTokens.drain, RemoveTokens.Recv, r1, q1, Option.map_some', g1]
      · simp only [List.flatten_cons, g3, q3]
    · refine ⟨[], RemoveTokens.engine s1, ?_, by simp [q2]⟩
      simp only [RemoveTokens.drain, RemoveTokens.Recv, r1, q1, Option.map_some']

/-- Draining a source that gives `xs` and then end-of-stream, unchanged. -/
theorem source_drain (fuel : Nat) :
    ∀ (xs : List GoString) (n : Nat) (src : Stream GoString), src.GivesThenEOF xs →
      xs.length < n →
      ∃ s', RemoveTokens.drain fuel n (RemoveTokens.source src) = some ((xs, Error.EOF), s') := by
  intro xs
  induction xs with
  | nil =>
    intro n src h hn
    obtain ⟨e1, _⟩ := GivesThenEOF_nil _ h
    cases n with
    | zero => omega
    | succ n =>
      refine ⟨RemoveTokens.source (src.Recv).2, ?_⟩
      simp only [RemoveTokens.drain, RemoveTokens.Recv]
      rw [show (src.Recv).1 = ((src.Recv).1.1, (src.Recv).1.2) from rfl, e1]
  | cons x rest ih =>
    intro n src h hn
    obtain ⟨e1, e2⟩ := GivesThenEOF_cons _ x rest h
    cases n with
    | zero => omega
    | succ n =>
      obtain ⟨s', hs'⟩ := ih n _ e2 (by simp at hn; omega)
      refine ⟨s', ?_⟩
      simp only [RemoveTokens.drain, RemoveTokens.Recv, e1, hs']

/-- C16 (remove-token pass-through when no token occurs). For every token
list and every list of valid UTF-8 chunks whose concatenation contains none of
the tokens as a substring, draining `NewRemoveTokensStream` on the chunks
ends with end-of-stream and the strings emitted before it concatenate exactly
to the concatenation of the chunks. -/
theorem removeTokens_passthrough (tokens : List GoString) (chunks : List GoString)
    (hv : ∀ c ∈ chunks, ValidString c = true)
    (hno : ∀ t ∈ tokens, ¬ t <:+: chunks.flatten)
    (fuel : Nat) (hf : chunks.length + chunks.flatten.length < fuel) :
    ∃ out, removeOutput tokens chunks fuel = some (out, Error.EOF) ∧
      out.flatten = chunks.flatten := by
  have hfilter : tokens.filter (fun token => token ≠ []) = tokens := by
    apply List.filter_eq_self.mpr
    intro t ht
    have : t ≠ [] := by
      intro h0
      apply hno t ht
      rw [h0]
      exact List.nil_infix
    simpa using this
  by_cases hnil : tokens = []
  · obtain ⟨s', hs'⟩ := source_drain fuel chunks fuel (FromSlice chunks)
      (FromSlice_GivesThenEOF chunks) (by omega)
    refine ⟨chunks, ?_, rfl⟩
    simp only [removeOutput, NewRemoveTokensStream, hnil, List.filter_nil, List.length_nil,
      if_true, hs', Option.map_some']
  · have hlen : ¬ (tokens.filter (fun token => token ≠ [])).length = 0 := by
      rw [hfilter]
      intro h0
      exact hnil (List.length_eq_zero.mp h0)
    have hinv : PassInvR tokens
        { src := FromSlice chunks, tokens := tokens, buffer := [],
          minBufferLen := removeMinBufferLen tokens } chunks.flatten chunks :=
      ⟨rfl, by simp, ValidString_nil, hv, FromSlice_GivesThenEOF chunks, hno⟩
    obtain ⟨out, s', h1, h2⟩ := PassInvR_drain fuel fuel _ _ _ hinv (by omega) (by omega)
    refine ⟨out, ?_, h2⟩
    simp only [removeOutput, NewRemoveTokensStream, if_neg hlen]
    rw [hfilter, h1]
    rfl

theorem removeTokens_passthrough_witness :
    ∃ out, removeOutput [str "foo"] [str "le", str "ft"] 20 = some (out, Error.EOF) ∧
      out.flatten = str "left" :=
  removeTokens_passthrough [str "foo"] [str "le", str "ft"] (by decide) (by decide) 20
    (by decide)

/-- C14: the remove-token engine drops the rest of its buffer at the end of
the input. With the tokens `<med>` and `</med>` and the single chunk
`</med><med>x`, the first `Recv` removes `</med>` at offset 0 of the buffer
and, finding nothing to return, asks upstream; upstream answers end-of-stream,
the one pass of `cutOverflowBuffer` that follows removes `<med>` at offset 0
and again returns the empty string, which `Recv` takes to mean that nothing is
left: it returns end-of-stream while the buffer holds `x`. The emitted strings
concatenate to the empty text, whereas `strip` of the input is `x`. -/
theorem removeTokens_EOF_drops_buffer :
    removeOutput [str "<med>", str "</med>"] [str "</med><med>x"] 20
      = some ([], Error.EOF) ∧
    (RemoveTokens.drain 20 20
        (NewRemoveTokensStream (FromSlice [str "</med><med>x"])
          [str "<med>", str "</med>"])).map (fun r => r.2.buffer) = some (str "x") ∧
    strip [str "<med>", str "</med>"] (str "</med><med>x") = str "x" := by
  decide

/-! ## ThrottleMerge -/

/-- C17 (ThrottleMerge emits the first item standalone). For every source
whose first answer is an item `x`, every merge function and every window
shorter than the time elapsed since the zero time (as the first reading of the
clock gives it), the first `Recv` on `ThrottleMerge(src, merge, window)`
returns `x` unchanged with a nil error, having called the source exactly once
and `merge` not at all; nothing is left pending. -/
theorem ThrottleMerge_first_item {T : Type} [Inhabited T] (src : Stream T)
    (merge : T → T → T × Bool) (window : Int) (clock : Clock) (x : T) (fuel : Nat)
    (hsrc : (src.Recv).1 = (x, none))
    (hwin : window < Sub (clock.Now).1 0) :
    ∃ m', (ThrottleMerge src merge window clock).Recv (fuel + 1) = some ((x, none), m') ∧
      m'.s.calls = src.calls + 1 ∧ m'.merges = 0 ∧ m'.buf = none ∧ m'.bufErr = none := by
  have h1 : (src.Recv).1.2 = none := by rw [hsrc]
  have h2 : (src.Recv).1.1 = x := by rw [hsrc]
  refine ⟨{ s := (src.Recv).2, merge := merge, throttleDuration := window, buf := none,
            bufErr := none, lastSendAt := ((clock.Now).2.Now).1,
            clock := ((clock.Now).2.Now).2, merges := 0 }, ?_, rfl, rfl, rfl, rfl⟩
  simp only [throttleMerge.Recv, ThrottleMerge, h1, throttleMerge.loop, gt_iff_lt, hwin,
    if_true, throttleMerge.sendBuf, h2]

theorem ThrottleMerge_first_item_witness :
    ∃ m', (ThrottleMerge (FromSlice [str "a", str "b"]) (fun a b => (a ++ b, true)) 50000000
        { readings := fun _ => 63000000000000000000, reads := 0 }).Recv 1
        = some ((str "a", none), m') ∧
      m'.s.calls = 1 ∧ m'.merges = 0 ∧ m'.buf = none ∧ m'.bufErr = none :=
  ThrottleMerge_first_item (FromSlice [str "a", str "b"]) (fun a b => (a ++ b, true))
    50000000 { readings := fun _ => 63000000000000000000, reads := 0 } (str "a") 0 rfl
    (by decide)

theorem Yields_cons {T : Type} (s : Stream T) (x : T) (xs : List T) (e : Error)
    (h : s.Yields (x :: xs) e) : (s.Recv).1 = (x, none) ∧ (s.Recv).2.Yields xs e := by
  obtain ⟨h1, h2⟩ := h
  refine ⟨?_, ?_, ?_⟩
  · have := h1 0 (by simp)
    simpa [Stream.Recv] using this
  · intro j hj
    have := h1 (j + 1) (by simpa using hj)
    simp only [Stream.Recv]
    rw [show s.calls + 1 + j = s.calls + (j + 1) by omega]
    simpa using this
  · simp only [Stream.Recv]
    rw [show s.calls + 1 + xs.length = s.calls + (x :: xs).length by simp; omega]
    exact h2

theorem Yields_nil {T : Type} (s : Stream T) (e : Error) (h : s.Yields [] e) :
    (s.Recv).1.2 = some e := by
  simpa [Stream.Recv] using h.2

/-- The loop of `ThrottleMerge` entered with the pending item `b` on a source
that has the items `rem` and then the error `e` to give: it returns the fold
`y` of `merge` over `b` and a prefix `g` of `rem`, with a nil error, and ends in
one of three ways: the window elapsed (nothing pending, the rest `rem'` still
in the source), `merge` declined the next item `x` (which is now pending), or
the source gave its error (recorded in `bufErr`). -/
theorem TM_loop_spec {T : Type} (e : Error) :
    ∀ (fuel : Nat) (m : throttleMerge T) (b : T) (rem : List T),
    m.buf = some b → m.s.Yields rem e → rem.length < fuel →
    ∃ g rem' y m', rem = g ++ rem' ∧ mergeFold m.merge b g = some y ∧
      throttleMerge.loop fuel m = some ((y, none), m') ∧ m'.merge = m.merge ∧
      m'.throttleDuration = m.throttleDuration ∧ m'.s.answers = m.s.answers ∧
      ((m'.bufErr = m.bufErr ∧ m'.buf = none ∧ m'.s.Yields rem' e ∧
          m'.s.calls = m.s.calls + g.length) ∨
       (∃ x rem'', rem' = x :: rem'' ∧ m'.bufErr = m.bufErr ∧ m'.buf = some x ∧
          (m.merge y x).2 = false ∧ m'.s.Yields rem'' e ∧
          m'.s.calls = m.s.calls + g.length + 1) ∨
       (rem' = [] ∧ m'.bufErr = some e ∧ m'.buf = none ∧
          m'.s.calls = m.s.calls + g.length + 1)) := by
  intro fuel
  induction fuel with
  | zero => intro m b rem _ _ h; omega
  | succ fuel ih =>
    intro m b rem hbuf hsrc hf
    by_cases hto : Sub (m.clock.Now).1 m.lastSendAt > m.throttleDuration
    · refine ⟨[], rem, b,
        { m with clock := ((m.clock.Now).2.Now).2, buf := none,
                 lastSendAt := ((m.clock.Now).2.Now).1 }, rfl, rfl, ?_, rfl, rfl, rfl,
        Or.inl ⟨rfl, rfl, hsrc, rfl⟩⟩
      simp only [throttleMerge.loop, hto, if_true, throttleMerge.sendBuf, hbuf]
    · cases rem with
      | nil =>
        have he := Yields_nil _ e hsrc
        refine ⟨[], [], b,
          { m with clock := ((m.clock.Now).2.Now).2, s := (m.s.Recv).2, bufErr := some e,
                   buf := none, lastSendAt := ((m.clock.Now).2.Now).1 }, rfl, rfl, ?_, rfl,
          rfl, rfl, Or.inr (Or.inr ⟨rfl, rfl, rfl, rfl⟩)⟩
        simp only [throttleMerge.loop, hto, if_false, he, throttleMerge.sendBuf, hbuf]
      | cons x rem1 =>
        obtain ⟨e1, e2⟩ := Yields_cons _ x rem1 e hsrc
        have e1a : (m.s.Recv).1.2 = none := by rw [e1]
        have e1b : (m.s.Recv).1.1 = x := by rw [e1]
        by_cases hm : (m.merge b x).2 = false
        · refine ⟨[], x :: rem1, b,
            { m with clock := ((m.clock.Now).2.Now).2, s := (m.s.Recv).2,
                     merges := m.merges + 1, buf := some x,
                     lastSendAt := ((m.clock.Now).2.Now).1 }, rfl, rfl, ?_, rfl, rfl, rfl,
            Or.inr (Or.inl ⟨x, rem1, rfl, rfl, rfl, hm, e2, rfl⟩)⟩
          simp only [throttleMerge.loop, hto, if_false, e1a, hbuf, e1b, hm, if_true,
            throttleMerge.sendBuf]
        · obtain ⟨g, rem', y, m', h1, h2, h3, h4, h5, h5a, h6⟩ := ih
            { m with clock := (m.clock.Now).2, s := (m.s.Recv).2, merges := m.merges + 1,
                     buf := some (m.merge b x).1 } (m.merge b x).1 rem1 rfl e2
            (by simp at hf; omega)
          refine ⟨x :: g, rem', y, m', by rw [h1]; rfl, ?_, ?_, h4, h5, h5a, ?_⟩
          · simp only [mergeFold, hm, if_false]
            exact h2
          · simp only [throttleMerge.loop, hto, if_false, e1a, hbuf, e1b, hm]
            exact h3
          · have hc : (m.s.Recv).2.calls = m.s.calls + 1 := rfl
            rcases h6 with ⟨a1, a2, a3, a4⟩ | ⟨x', r'', a1, a2, a3, a4, a5, a6⟩ |
                ⟨a1, a2, a3, a4⟩
            · refine Or.inl ⟨a1, a2, a3, ?_⟩
              rw [a4]
              simp only [hc, List.length_cons]
              omega
            · refine Or.inr (Or.inl ⟨x', r'', a1, a2, a3, a4, a5, ?_⟩)
              rw [a6]
              simp only [hc, List.length_cons]
              omega
            · refine Or.inr (Or.inr ⟨a1, a2, a3, ?_⟩)
              rw [a4]
              simp only [hc, List.length_cons]
              omega

/-- How `Recv` of `ThrottleMerge` enters its loop when no error is recorded
and the pending item `b` is either in `buf` or the next item of the source. -/
theorem TM_Recv_enter {T : Type} [Inhabited T] (m : throttleMerge T) (b : T) (rem : List T)
    (e : Error) (fuel : Nat) (herr : m.bufErr = none)
    (hpend : (m.buf = some b ∧ m.s.Yields rem e) ∨ (m.buf = none ∧ m.s.Yields (b :: rem) e)) :
    ∃ m1, m.Recv fuel = throttleMerge.loop fuel m1 ∧ m1.buf = some b ∧ m1.s.Yields rem e ∧
      m1.merge = m.merge ∧ m1.bufErr = none ∧ m1.s.answers = m.s.answers ∧
      m.s.calls ≤ m1.s.calls ∧ m1.throttleDuration = m.throttleDuration := by
  rcases hpend with ⟨h1, h2⟩ | ⟨h1, h2⟩
  · refine ⟨m, ?_, h1, h2, rfl, herr, rfl, le_refl _, rfl⟩
    simp only [throttleMerge.Recv, herr, h1]
  · obtain ⟨e1, e2⟩ := Yields_cons _ b rem e h2
    have e1a : (m.s.Recv).1.2 = none := by rw [e1]
    have e1b : (m.s.Recv).1.1 = b := by rw [e1]
    refine ⟨{ m with s := (m.s.Recv).2, buf := some b }, ?_, rfl, e2, rfl, herr, rfl, ?_, rfl⟩
    · simp only [throttleMerge.Recv, herr, h1, e1a, e1b]
    · show m.s.calls ≤ m.s.calls + 1
      omega

/-- C19 (ThrottleMerge flushes before reporting a terminal outcome). Take a
state of `ThrottleMerge` with no error recorded and a pending item `b` (held
in `buf`, or the next item of the source, which `Recv` then pulls first), on a
source that has the items `rem` and then the error `e` to give (end-of-stream
included). Whatever the clock and `merge` do, `Recv` returns with a nil error
the fold `y` of `merge` over `b` and the items `g` it pulled, and either the
source has not yet given its error, or the source gave `e` during this call:
then `g` is all of `rem`, the last answer of the source is `e`, and every
later `Recv` returns `e` and leaves the state, the source included, as it
is. -/
theorem ThrottleMerge_flush_then_error {T : Type} [Inhabited T] (m : throttleMerge T) (b : T)
    (rem : List T) (e : Error) (fuel : Nat) (herr : m.bufErr = none)
    (hpend : (m.buf = some b ∧ m.s.Yields rem e) ∨ (m.buf = none ∧ m.s.Yields (b :: rem) e))
    (hfuel : rem.length < fuel) :
    ∃ g rem' y m', rem = g ++ rem' ∧ mergeFold m.merge b g = some y ∧
      m.Recv fuel = some ((y, none), m') ∧
      ((m'.bufErr = none ∧ ∃ rem'', m'.s.Yields rem'' e) ∨
       (rem' = [] ∧ m'.bufErr = some e ∧ m.s.calls < m'.s.calls ∧
        (m.s.answers (m'.s.calls - 1)).2 = some e ∧
        ∀ fuel', m'.Recv fuel' = some ((default, some e), m'))) := by
  obtain ⟨m1, k1, k2, k3, k4, k5, k6, k7, _⟩ := TM_Recv_enter m b rem e fuel herr hpend
  obtain ⟨g, rem', y, m', h1, h2, h3, h4, h5, h5a, h6⟩ := TM_loop_spec e fuel m1 b rem k2 k3 hfuel
  refine ⟨g, rem', y, m', h1, by rw [← k4]; exact h2, by rw [k1]; exact h3, ?_⟩
  rcases h6 with ⟨a1, a2, a3, a4⟩ | ⟨x', r'', a1, a2, a3, a4, a5, a6⟩ | ⟨a1, a2, a3, a4⟩
  · exact Or.inl ⟨by rw [a1, k5], rem', a3⟩
  · exact Or.inl ⟨by rw [a2, k5], r'', a5⟩
  · refine Or.inr ⟨a1, a2, by omega, ?_, ?_⟩
    · have hy := k3.2
      rw [a1, List.append_nil] at h1
      rw [a4, ← h1, ← k6]
      have : m1.s.calls + rem.length + 1 - 1 = m1.s.calls + rem.length := by omega
      rw [this]
      exact hy
    · intro fuel'
      simp only [throttleMerge.Recv, a2]

theorem ThrottleMerge_flush_then_error_witness :
    ∃ m', (ThrottleMerge (FromSlice [str "b", str "c"]) (fun a b => (a ++ b, true)) 50
          { readings := fun _ => 7, reads := 0 }).Recv 5 = some ((str "bc", none), m') ∧
      m'.bufErr = some Error.EOF ∧
      ∀ fuel', m'.Recv fuel' = some (([], some Error.EOF), m') := by
  obtain ⟨g, rem', y, m', h1, h2, h3, h4⟩ := ThrottleMerge_flush_then_error
    (ThrottleMerge (FromSlice [str "b", str "c"]) (fun a b => (a ++ b, true)) 50
      { readings := fun _ => 7, reads := 0 }) (str "b") [str "c"] Error.EOF 5 rfl
    (Or.inr ⟨rfl, FromSlice_Yields _⟩) (by decide)
  have hr : (ThrottleMerge (FromSlice [str "b", str "c"]) (fun a b => (a ++ b, true)) 50
      { readings := fun _ => 7, reads := 0 }).Recv 5 = some ((str "bc", none),
        { s := { answers := (FromSlice [str "b", str "c"]).answers, calls := 3 },
          merge := fun a b => (a ++ b, true), throttleDuration := 50, buf := none,
          bufErr := some Error.EOF, lastSendAt := 7,
          clock := { readings := fun _ => 7, reads := 3 }, merges := 1 }) := by
    rfl
  rw [hr] at h3
  simp only [Option.some.injEq, Prod.mk.injEq] at h3
  obtain ⟨⟨hy, _⟩, hm⟩ := h3
  subst hm
  refine ⟨_, hr, rfl, ?_⟩
  rcases h4 with ⟨h5, _⟩ | ⟨_, _, _, _, h9⟩
  · cases h5
  · exact h9

theorem TM_Recv_error {T : Type} [Inhabited T] (m : throttleMerge T) (e : Error) (fuel : Nat)
    (h : m.bufErr = some e) : m.Recv fuel = some ((default, some e), m) := by
  simp only [throttleMerge.Recv, h]

/-- Draining `ThrottleMerge` from any state: the items received before the
terminal error are the folds of `merge` over consecutive non-empty groups of
the pending item and the items the source still gives. -/
theorem TM_drain {T : Type} [Inhabited T] (e : Error) (fuel : Nat) :
    ∀ (n : Nat) (m : throttleMerge T) (rem : List T),
    ((m.bufErr = none ∧ m.s.Yields rem e) ∨ (m.bufErr = some e ∧ m.buf = none ∧ rem = [])) →
    rem.length < fuel → (m.buf.toList ++ rem).length < n →
    ∃ groups out m', (∀ g ∈ groups, g ≠ []) ∧ groups.flatten = m.buf.toList ++ rem ∧
      List.Forall₂ (fun g y => mergeGroup m.merge g = some y) groups out ∧
      throttleMerge.drain fuel n m = some ((out, e), m') := by
  intro n
  induction n with
  | zero => intro m rem _ _ h; omega
  | succ n ih =>
    intro m rem hst hf hn
    rcases hst with ⟨herr, hsrc⟩ | ⟨herr, hbuf, hrem⟩
    · have hcase : (m.buf = none ∧ rem = []) ∨
          ∃ b rem1, m.buf.toList ++ rem = b :: rem1 ∧ rem1.length ≤ rem.length ∧
            ((m.buf = some b ∧ m.s.Yields rem1 e) ∨ (m.buf = none ∧ m.s.Yields (b :: rem1) e)) := by
        cases hb : m.buf with
        | none =>
          cases rem with
          | nil => exact Or.inl ⟨rfl, rfl⟩
          | cons x rem1 => exact Or.inr ⟨x, rem1, by simp, by simp, Or.inr ⟨rfl, hsrc⟩⟩
        | some b => exact Or.inr ⟨b, rem, by simp, le_refl _, Or.inl ⟨rfl, hsrc⟩⟩
      rcases hcase with ⟨hb, hr⟩ | ⟨b, rem1, hsplit, hle1, hpend⟩
      · subst hr
        have he := Yields_nil _ e hsrc
        refine ⟨[], [], { m with s := (m.s.Recv).2 }, by simp, by simp [hb], List.Forall₂.nil, ?_⟩
        simp only [throttleMerge.drain, throttleMerge.Recv, herr, hb, he]
      · have hlen1 : rem1.length < fuel := by omega
        obtain ⟨m1, k1, k2, k3, k4, k5, _, _, _⟩ := TM_Recv_enter m b rem1 e fuel herr hpend
        obtain ⟨g, rem', y, m', h1, h2, h3, h4, _, _, h6⟩ :=
          TM_loop_spec e fuel m1 b rem1 k2 k3 hlen1
        have hmerge : m'.merge = m.merge := by rw [h4, k4]
        have hrecv : m.Recv fuel = some ((y, none), m') := by rw [k1]; exact h3
        have hnlen : (g ++ rem').length + 1 < n + 1 := by
          have := congrArg List.length hsplit
          rw [this, h1] at hn
          simpa using hn
        have hgroup : mergeGroup m.merge (b :: g) = some y := by
          rw [← k4]; exact h2
        have hstep : ∀ (rem2 : List T),
            ((m'.bufErr = none ∧ m'.s.Yields rem2 e) ∨
              (m'.bufErr = some e ∧ m'.buf = none ∧ rem2 = [])) →
            m'.buf.toList ++ rem2 = rem' →
            ∃ groups out m'', (∀ g ∈ groups, g ≠ []) ∧ groups.flatten = m.buf.toList ++ rem ∧
              List.Forall₂ (fun g y => mergeGroup m.merge g = some y) groups out ∧
              throttleMerge.drain fuel (n + 1) m = some ((out, e), m'') := by
          intro rem2 hst2 hrem2
          have hl2 : rem2.length ≤ rem'.length := by
            rw [← hrem2]; simp
          have hl3 : rem'.length ≤ rem1.length := by rw [h1]; simp
          obtain ⟨groups, out, m'', g1, g2, g3, g4⟩ := ih m' rem2 hst2 (by omega)
            (by rw [hrem2]; simp only [List.length_append] at hnlen; omega)
          refine ⟨(b :: g) :: groups, y :: out, m'', ?_, ?_, ?_, ?_⟩
          · intro x hx
            rcases List.mem_cons.mp hx with rfl | hx
            · simp
            · exact g1 x hx
          · rw [List.flatten_cons, g2, hrem2, hsplit, h1]
            simp
          · refine List.Forall₂.cons hgroup ?_
            rw [hmerge] at g3
            exact g3
          · simp only [throttleMerge.drain, hrecv, g4]
        rcases h6 with ⟨a1, a2, a3, _⟩ | ⟨x', r'', a1, a2, a3, _, a5, _⟩ | ⟨a1, a2, a3, _⟩
        · exact hstep rem' (Or.inl ⟨by rw [a1, k5], a3⟩) (by simp [a2])
        · exact hstep r'' (Or.inl ⟨by rw [a2, k5], a5⟩) (by simp [a3, a1])
        · exact hstep [] (Or.inr ⟨a2, a3, rfl⟩) (by simp [a3, a1])
    · subst hrem
      refine ⟨[], [], m, by simp, by simp [hbuf], List.Forall₂.nil, ?_⟩
      simp only [throttleMerge.drain, TM_Recv_error m e fuel herr]

theorem mergeFold_hom {T α : Type} (merge : T → T → T × Bool) (f : T → List α)
    (hf : ∀ a b, (merge a b).2 = true → f (merge a b).1 = f a ++ f b) :
    ∀ (g : List T) (a y : T), mergeFold merge a g = some y → f y = f a ++ (g.map f).flatten := by
  intro g
  induction g with
  | nil =>
    intro a y h
    simp only [mergeFold, Option.some.injEq] at h
    simp [h]
  | cons x rest ih =>
    intro a y h
    simp only [mergeFold] at h
    by_cases hm : (merge a x).2 = false
    · simp [hm] at h
    · simp only [hm, if_false] at h
      have := ih _ _ h
      rw [this, hf a x (by simpa using hm)]
      simp

theorem groups_hom {T α : Type} (merge : T → T → T × Bool) (f : T → List α)
    (hf : ∀ a b, (merge a b).2 = true → f (merge a b).1 = f a ++ f b)
    (groups : List (List T)) (out : List T)
    (h : List.Forall₂ (fun g y => mergeGroup merge g = some y) groups out) :
    (out.map f).flatten = (groups.flatten.map f).flatten := by
  induction h with
  | nil => rfl
  | @cons g y gs ys hg _ ih =>
    cases g with
    | nil => simp [mergeGroup] at hg
    | cons a rest =>
      simp only [mergeGroup] at hg
      have := mergeFold_hom merge f hf rest a y hg
      simp only [List.map_cons, List.flatten_cons, ih, this, List.map_append,
        List.flatten_append, List.append_assoc]

/-- C18 (ThrottleMerge only coalesces adjacent items). For every behaviour of
the clock, every merge function, every window and every source that gives the
items `xs` and then the terminal error `e` (end-of-stream included), draining
`ThrottleMerge` returns items `out` and then `e`, where `xs` splits into
consecutive non-empty groups, one for each item of `out`, in order, and each
item is the left fold of `merge` over its group with every fold step reported
mergeable, so no two items for which `merge` declines are combined. Hence for
every content function `f` that `merge` preserves (`f` of an accepted merge is
the concatenation), the contents of the outputs concatenate to the contents
of the inputs; with `merge` the string concatenation, `f` is the identity. -/
theorem ThrottleMerge_coalesces {T : Type} [Inhabited T] (src : Stream T)
    (merge : T → T → T × Bool) (window : Int) (clock : Clock) (xs : List T) (e : Error)
    (hsrc : src.Yields xs e) (fuel n : Nat) (hfuel : xs.length < fuel)
    (hn : xs.length < n) :
    ∃ groups out m', (∀ g ∈ groups, g ≠ []) ∧ groups.flatten = xs ∧
      List.Forall₂ (fun g y => mergeGroup merge g = some y) groups out ∧
      (ThrottleMerge src merge window clock).drain fuel n = some ((out, e), m') ∧
      (∀ (α : Type) (f : T → List α),
        (∀ a b, (merge a b).2 = true → f (merge a b).1 = f a ++ f b) →
        (out.map f).flatten = (xs.map f).flatten) := by
  obtain ⟨groups, out, m', h1, h2, h3, h4⟩ := TM_drain e fuel n
    (ThrottleMerge src merge window clock) xs (Or.inl ⟨rfl, hsrc⟩) hfuel
    (by simpa [ThrottleMerge] using hn)
  have h2' : groups.flatten = xs := by simpa [ThrottleMerge] using h2
  refine ⟨groups, out, m', h1, h2', h3, h4, ?_⟩
  intro α f hf
  rw [groups_hom merge f hf groups out h3, h2']

theorem ThrottleMerge_coalesces_witness :
    ∃ out m', (ThrottleMerge (FromSlice [str "hello", str " ", str "world", str "!"])
          (fun a b => (a ++ b, true)) 10000000
          { readings := fun k => 63000000000000000000 + k, reads := 0 }).drain 5 5
        = some ((out, Error.EOF), m') ∧
      out.flatten = str "hello world!" := by
  obtain ⟨groups, out, m', _, _, _, h4, h5⟩ := ThrottleMerge_coalesces
    (FromSlice [str "hello", str " ", str "world", str "!"]) (fun a b => (a ++ b, true))
    10000000 { readings := fun k => 63000000000000000000 + k, reads := 0 }
    [str "hello", str " ", str "world", str "!"] Error.EOF (FromSlice_Yields _) 5 5
    (by decide) (by decide)
  refine ⟨out, m', h4, ?_⟩
  have := h5 Nat id (by intro a b _; rfl)
  simpa using this

/-! ## ThrottleMerge2 -/

theorem TM2_Recv_pop {T : Type} [Inhabited T] (fuel : Nat) (m : throttleMerge2 T) (x : T)
    (rest : List T) (h : m.sendBuf = x :: rest) :
    m.Recv (fuel + 1) = some ((x, none), { m with sendBuf := rest }) := by
  simp only [throttleMerge2.Recv, h]

theorem TM2_Recv_err {T : Type} [Inhabited T] (fuel : Nat) (m : throttleMerge2 T) (e : Error)
    (h : m.sendBuf = []) (he : m.sendErr = some e) :
    m.Recv (fuel + 1) = some ((default, some e), m) := by
  simp only [throttleMerge2.Recv, h, he]

theorem TM2_Recv_adv {T : Type} [Inhabited T] (fuel : Nat) (m : throttleMerge2 T)
    (h : m.sendBuf = []) (he : m.sendErr = none) :
    m.Recv (fuel + 1) = throttleMerge2.Recv fuel m.advance := by
  simp only [throttleMerge2.Recv, h, he]

theorem TM2_Recv_mono {T : Type} [Inhabited T] :
    ∀ (fuel : Nat) (m : throttleMerge2 T) (r : (T × Option Error) × throttleMerge2 T),
    m.Recv fuel = some r → m.Recv (fuel + 1) = some r := by
  intro fuel
  induction fuel with
  | zero => intro m r h; simp [throttleMerge2.Recv] at h
  | succ fuel ih =>
    intro m r h
    cases hs : m.sendBuf with
    | cons x rest =>
      rw [TM2_Recv_pop _ m x rest hs] at h ⊢
      exact h
    | nil =>
      cases he : m.sendErr with
      | some e =>
        rw [TM2_Recv_err _ m e hs he] at h ⊢
        exact h
      | none =>
        rw [TM2_Recv_adv _ m hs he] at h ⊢
        exact ih _ _ h

theorem TM2_drain_mono {T : Type} [Inhabited T] (fuel : Nat) :
    ∀ (n : Nat) (m : throttleMerge2 T) (r : (List T × Error) × throttleMerge2 T),
    throttleMerge2.drain fuel n m = some r → throttleMerge2.drain (fuel + 1) n m = some r := by
  intro n
  induction n with
  | zero => intro m r h; simp [throttleMerge2.drain] at h
  | succ n ih =>
    intro m r h
    simp only [throttleMerge2.drain] at h ⊢
    cases hr : m.Recv fuel with
    | none => rw [hr] at h; simp at h
    | some q =>
      rw [hr] at h
      rw [TM2_Recv_mono fuel m q hr]
      obtain ⟨⟨v, err⟩, m1⟩ := q
      cases err with
      | some e => exact h
      | none =>
        simp only at h ⊢
        cases hd : throttleMerge2.drain fuel n m1 with
        | none => rw [hd] at h; simp at h
        | some q2 =>
          rw [hd] at h
          rw [ih m1 q2 hd]
          exact h

/-- A loop iteration that does not return costs one unit of fuel. -/
theorem TM2_drain_silent {T : Type} [Inhabited T] (fuel n : Nat) (m : throttleMerge2 T)
    (r : (List T × Error) × throttleMerge2 T) (h : m.sendBuf = []) (he : m.sendErr = none)
    (hd : throttleMerge2.drain fuel n m.advance = some r) :
    throttleMerge2.drain (fuel + 1) n m = some r := by
  cases n with
  | zero => simp [throttleMerge2.drain] at hd
  | succ n =>
    simp only [throttleMerge2.drain] at hd ⊢
    rw [TM2_Recv_adv fuel m h he]
    cases hr : throttleMerge2.Recv fuel m.advance with
    | none => rw [hr] at hd; simp at hd
    | some q =>
      rw [hr] at hd
      obtain ⟨⟨v, err⟩, m1⟩ := q
      cases err with
      | some e => exact hd
      | none =>
        simp only at hd ⊢
        cases hd2 : throttleMerge2.drain fuel n m1 with
        | none => rw [hd2] at hd; simp at hd
        | some q2 =>
          rw [hd2] at hd
          rw [TM2_drain_mono fuel n m1 q2 hd2]
          exact hd

/-- The items waiting in `sendBuf` are returned first, one for each call. -/
theorem TM2_drain_pops {T : Type} [Inhabited T] (fuel : Nat) :
    ∀ (sb : List T) (m : throttleMerge2 T) (n : Nat) (out : List T) (e : Error)
      (m' : throttleMerge2 T), m.sendBuf = sb →
      throttleMerge2.drain (fuel + 1) n { m with sendBuf := [] } = some ((out, e), m') →
      throttleMerge2.drain (fuel + 1) (sb.length + n) m = some ((sb ++ out, e), m') := by
  intro sb
  induction sb with
  | nil =>
    intro m n out e m' h hd
    have : m = { m with sendBuf := [] } := by
      cases m
      simp only at h
      subst h
      rfl
    rw [this]
    simpa using hd
  | cons x rest ih =>
    intro m n out e m' h hd
    have hn : (x :: rest).length + n = (rest.length + n) + 1 := by simp; omega
    rw [hn]
    simp only [throttleMerge2.drain, TM2_Recv_pop fuel m x rest h]
    rw [ih { m with sendBuf := rest } n out e m' rfl hd]
    rfl

/-- One loop iteration of `ThrottleMerge2` that does not return, on a source
that has the items `rem` and then the error `e` to give: the batches `nb` (none
or one) it passes through `merge`, and the items `rem'` left in the source. -/
theorem TM2_advance {T : Type} (e : Error) (m : throttleMerge2 T) (rem : List T)
    (hs : m.sendBuf = []) (hsrc : m.s.Yields rem e) :
    ∃ (nb : List (List T)) (rem' : List T), (∀ b ∈ nb, b ≠ []) ∧
      nb.flatten ++ m.advance.origBuf ++ rem' = m.origBuf ++ rem ∧
      m.advance.sendBuf = nb.flatMap m.merge ∧ m.advance.merge = m.merge ∧
      ((m.advance.sendErr = m.sendErr ∧ m.advance.s.Yields rem' e ∧
          2 * rem'.length + min m.advance.origBuf.length 1
            < 2 * rem.length + min m.origBuf.length 1) ∨
       (m.advance.sendErr = some e ∧ rem' = [] ∧ m.advance.origBuf = [])) := by
  by_cases hto : Sub (m.clock.Now).1 m.lastMergeAt > m.throttleDuration
  · by_cases ho : m.origBuf.length = 0
    · have ho' : m.origBuf = [] := List.length_eq_zero.mp ho
      cases rem with
      | nil =>
        have he := Yields_nil _ e hsrc
        refine ⟨[], [], by simp, ?_, ?_, ?_, Or.inr ⟨?_, rfl, ?_⟩⟩ <;>
          simp [throttleMerge2.advance, hto, ho, throttleMerge2.receiveOrigBuf, he,
            throttleMerge2.mergeOrigBuf, ho', hs]
      | cons x rem1 =>
        obtain ⟨e1, e2⟩ := Yields_cons _ x rem1 e hsrc
        have e1a : (m.s.Recv).1.2 = none := by rw [e1]
        have e1b : (m.s.Recv).1.1 = x := by rw [e1]
        refine ⟨[[x]], rem1, by simp, ?_, ?_, ?_, Or.inl ⟨?_, ?_, ?_⟩⟩
        · simp [throttleMerge2.advance, hto, ho, throttleMerge2.receiveOrigBuf, e1a, e1b,
            throttleMerge2.mergeOrigBuf, ho', hs]
        · simp [throttleMerge2.advance, hto, ho, throttleMerge2.receiveOrigBuf, e1a, e1b,
            throttleMerge2.mergeOrigBuf, ho', hs]
        · simp [throttleMerge2.advance, hto, ho, throttleMerge2.receiveOrigBuf, e1a, e1b,
            throttleMerge2.mergeOrigBuf, ho', hs]
        · simp [throttleMerge2.advance, hto, ho, throttleMerge2.receiveOrigBuf, e1a, e1b,
            throttleMerge2.mergeOrigBuf, ho', hs]
        · have : m.advance.s = (m.s.Recv).2 := by
            simp [throttleMerge2.advance, hto, ho, throttleMerge2.receiveOrigBuf, e1a, e1b,
              throttleMerge2.mergeOrigBuf, ho', hs]
          rw [this]; exact e2
        · simp [throttleMerge2.advance, hto, ho, throttleMerge2.receiveOrigBuf, e1a, e1b,
            throttleMerge2.mergeOrigBuf, ho', hs]
    · have hpos : m.origBuf.length > 0 := by omega
      have hne : m.origBuf ≠ [] := List.length_pos.mp hpos
      refine ⟨[m.origBuf], rem, by simp [hne], ?_, ?_, ?_, Or.inl ⟨?_, ?_, ?_⟩⟩
      · simp [throttleMerge2.advance, hto, ho, throttleMerge2.mergeOrigBuf, hpos]
      · simp [throttleMerge2.advance, hto, ho, throttleMerge2.mergeOrigBuf, hpos, hs]
      · simp [throttleMerge2.advance, hto, ho, throttleMerge2.mergeOrigBuf, hpos]
      · simp [throttleMerge2.advance, hto, ho, throttleMerge2.mergeOrigBuf, hpos]
      · have : m.advance.s = m.s := by
          simp [throttleMerge2.advance, hto, ho, throttleMerge2.mergeOrigBuf, hpos]
        rw [this]; exact hsrc
      · have : m.advance.origBuf = [] := by
          simp [throttleMerge2.advance, hto, ho, throttleMerge2.mergeOrigBuf, hpos]
        rw [this]
        have : min m.origBuf.length 1 = 1 := by omega
        simp only [List.length_nil]
        omega
  · cases rem with
    | nil =>
      have he := Yields_nil _ e hsrc
      by_cases ho : m.origBuf.length = 0
      · have ho' : m.origBuf = [] := List.length_eq_zero.mp ho
        refine ⟨[], [], by simp, ?_, ?_, ?_, Or.inr ⟨?_, rfl, ?_⟩⟩ <;>
          simp [throttleMerge2.advance, hto, throttleMerge2.receiveOrigBuf, he,
            throttleMerge2.mergeOrigBuf, ho', hs]
      · have hpos : m.origBuf.length > 0 := by omega
        have hne : m.origBuf ≠ [] := List.length_pos.mp hpos
        refine ⟨[m.origBuf], [], by simp [hne], ?_, ?_, ?_, Or.inr ⟨?_, rfl, ?_⟩⟩ <;>
          simp [throttleMerge2.advance, hto, throttleMerge2.receiveOrigBuf, he,
            throttleMerge2.mergeOrigBuf, hpos, hs]
    | cons x rem1 =>
      obtain ⟨e1, e2⟩ := Yields_cons _ x rem1 e hsrc
      have e1a : (m.s.Recv).1.2 = none := by rw [e1]
      have e1b : (m.s.Recv).1.1 = x := by rw [e1]
      refine ⟨[], rem1, by simp, ?_, ?_, ?_, Or.inl ⟨?_, ?_, ?_⟩⟩
      · simp [throttleMerge2.advance, hto, throttleMerge2.receiveOrigBuf, e1a, e1b]
      · simp [throttleMerge2.advance, hto, throttleMerge2.receiveOrigBuf, e1a, e1b, hs]
      · simp [throttleMerge2.advance, hto, throttleMerge2.receiveOrigBuf, e1a, e1b]
      · simp [throttleMerge2.advance, hto, throttleMerge2.receiveOrigBuf, e1a, e1b]
      · have : m.advance.s = (m.s.Recv).2 := by
          simp [throttleMerge2.advance, hto, throttleMerge2.receiveOrigBuf, e1a, e1b]
        rw [this]; exact e2
      · have : m.advance.origBuf = m.origBuf ++ [x] := by
          simp [throttleMerge2.advance, hto, throttleMerge2.receiveOrigBuf, e1a, e1b]
        rw [this]
        simp only [List.length_append, List.length_cons, List.length_nil]
        omega

/-- Draining `ThrottleMerge2` from a state with an empty `sendBuf`: the items
received are the results of `merge` on consecutive non-empty batches of the
items accumulated in `origBuf` and the items the source still gives. -/
theorem TM2_drain {T : Type} [Inhabited T] (e : Error) :
    ∀ (k : Nat) (m : throttleMerge2 T) (rem : List T), m.sendBuf = [] →
    ((m.sendErr = none ∧ m.s.Yields rem e ∧
        2 * rem.length + min m.origBuf.length 1 + 1 ≤ k) ∨
      (m.sendErr = some e ∧ rem = [] ∧ m.origBuf = [])) →
    ∃ batches : List (List T), (∀ b ∈ batches, b ≠ []) ∧
      batches.flatten = m.origBuf ++ rem ∧
      ∀ fuel n, k + 1 ≤ fuel → (batches.flatMap m.merge).length < n →
        ∃ m', throttleMerge2.drain fuel n m = some ((batches.flatMap m.merge, e), m') := by
  intro k
  induction k with
  | zero =>
    intro m rem hs hst
    rcases hst with ⟨_, _, h⟩ | ⟨he, hr, ho⟩
    · omega
    · refine ⟨[], by simp, by simp [hr, ho], ?_⟩
      intro fuel n hf hn
      obtain ⟨f, rfl⟩ : ∃ f, fuel = f + 1 := ⟨fuel - 1, by omega⟩
      obtain ⟨n', rfl⟩ : ∃ n', n = n' + 1 := ⟨n - 1, by omega⟩
      exact ⟨m, by simp [throttleMerge2.drain, TM2_Recv_err f m e hs he]⟩
  | succ k ih =>
    intro m rem hs hst
    rcases hst with ⟨he, hsrc, hk⟩ | ⟨he, hr, ho⟩
    · obtain ⟨nb, rem', b1, b2, b3, b4, b5⟩ := TM2_advance e m rem hs hsrc
      have hst0 : (({ m.advance with sendBuf := [] } : throttleMerge2 T).sendErr = none ∧
            ({ m.advance with sendBuf := [] } : throttleMerge2 T).s.Yields rem' e ∧
            2 * rem'.length +
              min ({ m.advance with sendBuf := [] } : throttleMerge2 T).origBuf.length 1 + 1
              ≤ k) ∨
          (({ m.advance with sendBuf := [] } : throttleMerge2 T).sendErr = some e ∧
            rem' = [] ∧ ({ m.advance with sendBuf := [] } : throttleMerge2 T).origBuf = []) := by
        rcases b5 with ⟨c1, c2, c3⟩ | ⟨c1, c2, c3⟩
        · refine Or.inl ⟨by rw [← he, ← c1], c2, ?_⟩
          show 2 * rem'.length + min m.advance.origBuf.length 1 + 1 ≤ k
          omega
        · exact Or.inr ⟨c1, c2, c3⟩
      obtain ⟨batches', g1, g2, g3⟩ := ih { m.advance with sendBuf := [] } rem' rfl hst0
      have g2' : batches'.flatten = m.advance.origBuf ++ rem' := g2
      have g3' : ∀ fuel n, k + 1 ≤ fuel → (batches'.flatMap m.merge).length < n →
          ∃ m', throttleMerge2.drain fuel n { m.advance with sendBuf := [] }
            = some ((batches'.flatMap m.merge, e), m') := by
        intro fuel n hf hn
        have := g3 fuel n hf (by show (batches'.flatMap m.advance.merge).length < n; rw [b4]; exact hn)
        obtain ⟨m', hm'⟩ := this
        refine ⟨m', ?_⟩
        rw [hm']
        show some ((batches'.flatMap m.advance.merge, e), m') = _
        rw [b4]
      refine ⟨nb ++ batches', ?_, ?_, ?_⟩
      · intro b hb
        rcases List.mem_append.mp hb with hb | hb
        · exact b1 b hb
        · exact g1 b hb
      · rw [List.flatten_append, g2', ← List.append_assoc, b2]
      · intro fuel n hf hn
        obtain ⟨f, rfl⟩ : ∃ f, fuel = f + 1 := ⟨fuel - 1, by omega⟩
        obtain ⟨f', rfl⟩ : ∃ f', f = f' + 1 := ⟨f - 1, by omega⟩
        have hout : (nb ++ batches').flatMap m.merge
            = nb.flatMap m.merge ++ batches'.flatMap m.merge := by
          simp [List.flatMap_append]
        rw [hout] at hn ⊢
        rw [List.length_append] at hn
        obtain ⟨m', hm'⟩ := g3' (f' + 1) (n - (nb.flatMap m.merge).length) (by omega) (by omega)
        have hp := TM2_drain_pops f' (nb.flatMap m.merge) m.advance
          (n - (nb.flatMap m.merge).length) _ e m' b3 hm'
        have hn' : (nb.flatMap m.merge).length + (n - (nb.flatMap m.merge).length) = n := by
          omega
        rw [hn'] at hp
        exact ⟨m', TM2_drain_silent (f' + 1) n m _ hs he hp⟩
    · refine ⟨[], by simp, by simp [hr, ho], ?_⟩
      intro fuel n hf hn
      obtain ⟨f, rfl⟩ : ∃ f, fuel = f + 1 := ⟨fuel - 1, by omega⟩
      obtain ⟨n', rfl⟩ : ∃ n', n = n' + 1 := ⟨n - 1, by omega⟩
      exact ⟨m, by simp [throttleMerge2.drain, TM2_Recv_err f m e hs he]⟩

/-- C20 (ThrottleMerge2 emits merged batches in order). For every behaviour
of the clock, every merge function, every window and every source that gives
the items `xs` and then the terminal error `e`, the items `xs` split into
consecutive non-empty batches, taken in input order, such that draining
`ThrottleMerge2` returns exactly the results of `merge` on the batches, one
batch after the other, and then `e`. -/
theorem ThrottleMerge2_batches {T : Type} [Inhabited T] (src : Stream T)
    (merge : List T → List T) (window : Int) (clock : Clock) (xs : List T) (e : Error)
    (hsrc : src.Yields xs e) :
    ∃ batches : List (List T), (∀ b ∈ batches, b ≠ []) ∧ batches.flatten = xs ∧
      ∀ fuel n, 2 * xs.length + 2 ≤ fuel → (batches.flatMap merge).length < n →
        ∃ m', (ThrottleMerge2 src merge window clock).drain fuel n
          = some ((batches.flatMap merge, e), m') := by
  obtain ⟨batches, h1, h2, h3⟩ := TM2_drain e (2 * xs.length + 1)
    (ThrottleMerge2 src merge window clock) xs rfl
    (Or.inl ⟨rfl, hsrc, by simp [ThrottleMerge2]⟩)
  refine ⟨batches, h1, by simpa [ThrottleMerge2] using h2, ?_⟩
  intro fuel n hf hn
  exact h3 fuel n (by omega) hn

theorem ThrottleMerge2_batches_witness :
    ∃ batches : List (List GoString), (∀ b ∈ batches, b ≠ []) ∧
      batches.flatten = [str "ab", str "cd", str "ef"] ∧
      ∀ fuel n, 8 ≤ fuel →
        (batches.flatMap (fun packets => if packets.length = 0 then [] else [packets.flatten])).length
          < n →
        ∃ m', (ThrottleMerge2 (FromSlice [str "ab", str "cd", str "ef"])
            (fun packets => if packets.length = 0 then [] else [packets.flatten]) 10000000
            { readings := fun _ => 63000000000000000000, reads := 0 }).drain fuel n
          = some ((batches.flatMap
              (fun packets => if packets.length = 0 then [] else [packets.flatten]),
            Error.EOF), m') :=
  ThrottleMerge2_batches (FromSlice [str "ab", str "cd", str "ef"])
    (fun packets => if packets.length = 0 then [] else [packets.flatten]) 10000000
    { readings := fun _ => 63000000000000000000, reads := 0 }
    [str "ab", str "cd", str "ef"] Error.EOF (FromSlice_Yields _)

/-! ## NewLabelStream: construction -/

/-- C24 (label configuration errors abort construction). `NewLabelStream`
panics exactly when the label list is empty; for every other label list it
returns an engine, which holds the given source and labels, an empty buffer
and no open label. -/
theorem NewLabelStream_panics_iff_empty (src : Stream GoString) (labels : List SLabel) :
    (NewLabelStream src labels = none ↔ labels = []) ∧
    ((∃ s, NewLabelStream src labels = some s ∧ s.src = src ∧ s.labels = labels ∧
        s.buffer = [] ∧ s.currentLabel = none) ↔ labels ≠ []) := by
  cases labels with
  | nil => simp [NewLabelStream, checkLabels]
  | cons lb rest => simp [NewLabelStream, checkLabels]

/-! ## Concat -/

theorem set_append_middle {α : Type} (done : List α) (s s' : α) (rest : List α) :
    (done ++ s :: rest).set done.length s' = done ++ s' :: rest := by
  induction done with
  | nil => rfl
  | cons d done ih => simp [ih]

theorem get_append_middle {α : Type} (done : List α) (s : α) (rest : List α)
    (h : done.length < (done ++ s :: rest).length) :
    (done ++ s :: rest).get ⟨done.length, h⟩ = s := by
  induction done with
  | nil => rfl
  | cons d done ih => simpa using ih (by simp)

theorem concat_Recv_mono {T : Type} [Inhabited T] :
    ∀ (fuel : Nat) (m : concatStream T) (r : (T × Option Error) × concatStream T),
    m.Recv fuel = some r → m.Recv (fuel + 1) = some r := by
  intro fuel
  induction fuel with
  | zero => intro m r h; simp [concatStream.Recv] at h
  | succ fuel ih =>
    intro m r h
    rw [concatStream.Recv] at h ⊢
    by_cases hlt : m.index < m.streams.length
    · rw [dif_pos hlt] at h ⊢
      rcases hq : ((m.streams.get ⟨m.index, hlt⟩).Recv).1.2 with _ | e
      · simp only [hq] at h ⊢
        exact h
      · cases e with
        | EOF =>
          simp only [hq] at h ⊢
          by_cases c : (m.firstNonEmptyUsage && m.nonEmpty) = true
          · rw [if_pos c] at h ⊢
            exact h
          · rw [if_neg c] at h ⊢
            exact ih _ _ h
        | other msg =>
          simp only [hq] at h ⊢
          exact h
    · rw [dif_neg hlt] at h ⊢
      exact h

theorem concat_drain_mono {T : Type} [Inhabited T] (fuel : Nat) :
    ∀ (n : Nat) (m : concatStream T) (r : (List T × Error) × concatStream T),
    concatStream.drain fuel n m = some r → concatStream.drain (fuel + 1) n m = some r := by
  intro n
  induction n with
  | zero => intro m r h; simp [concatStream.drain] at h
  | succ n ih =>
    intro m r h
    simp only [concatStream.drain] at h ⊢
    cases hr : m.Recv fuel with
    | none => rw [hr] at h; simp at h
    | some q =>
      rw [hr] at h
      rw [concat_Recv_mono fuel m q hr]
      obtain ⟨⟨v, err⟩, m1⟩ := q
      cases err with
      | some e => exact h
      | none =>
        simp only at h ⊢
        cases hd : concatStream.drain fuel n m1 with
        | none => rw [hd] at h; simp at h
        | some q2 =>
          rw [hd] at h
          rw [ih m1 q2 hd]
          exact h

theorem concat_Recv_end {T : Type} [Inhabited T] (fuel : Nat) (m : concatStream T)
    (h : m.streams.length ≤ m.index) :
    m.Recv (fuel + 1) = some ((default, some Error.EOF), m) := by
  rw [concatStream.Recv, dif_neg (by omega)]

theorem concat_Recv_item {T : Type} [Inhabited T] (fuel : Nat)
    (done rest : List (Stream T)) (s : Stream T) (x : T) (ne : Bool)
    (hr : (s.Recv).1 = (x, none)) :
    concatStream.Recv (fuel + 1)
        { streams := done ++ s :: rest, index := done.length, nonEmpty := ne,
          firstNonEmptyUsage := false }
      = some ((x, none), { streams := done ++ (s.Recv).2 :: rest, index := done.length,
                           nonEmpty := ne, firstNonEmptyUsage := false }) := by
  have hlt : done.length < (done ++ s :: rest).length := by simp
  rw [concatStream.Recv, dif_pos hlt]
  simp only [get_append_middle done s rest hlt, hr, set_append_middle]
  simp

theorem concat_Recv_skip {T : Type} [Inhabited T] (fuel : Nat)
    (done rest : List (Stream T)) (s : Stream T) (ne : Bool)
    (hr : (s.Recv).1.2 = some Error.EOF) :
    concatStream.Recv (fuel + 1)
        { streams := done ++ s :: rest, index := done.length, nonEmpty := ne,
          firstNonEmptyUsage := false }
      = concatStream.Recv fuel
        { streams := (done ++ [(s.Recv).2]) ++ rest, index := (done ++ [(s.Recv).2]).length,
          nonEmpty := ne, firstNonEmptyUsage := false } := by
  have hlt : done.length < (done ++ s :: rest).length := by simp
  rw [concatStream.Recv, dif_pos hlt]
  simp only [get_append_middle done s rest hlt, hr, set_append_middle]
  simp

/-- Draining a `concatStream` of `Concat` that stands at the beginning of
the streams `ss`, each of which has the items of the corresponding list of
`xss` and then `io.EOF` to give. -/
theorem concat_drain {T : Type} [Inhabited T] :
    ∀ (ss : List (Stream T)) (xss : List (List T)),
    List.Forall₂ (fun s xs => s.Yields xs Error.EOF) ss xss →
    ∀ (done : List (Stream T)) (ne : Bool) (fuel n : Nat),
    ss.length + 1 ≤ fuel → xss.flatten.length < n →
    ∃ m', concatStream.drain fuel n
        { streams := done ++ ss, index := done.length, nonEmpty := ne,
          firstNonEmptyUsage := false }
        = some ((xss.flatten, Error.EOF), m') ∧
      m'.streams.length ≤ m'.index ∧ m'.streams.length = done.length + ss.length := by
  intro ss xss h
  induction h with
  | nil =>
    intro done ne fuel n hfuel hn
    obtain ⟨f, rfl⟩ : ∃ f, fuel = f + 1 := ⟨fuel - 1, by omega⟩
    obtain ⟨n', rfl⟩ : ∃ n', n = n' + 1 := ⟨n - 1, by omega⟩
    refine ⟨{ streams := done ++ [], index := done.length, nonEmpty := ne,
              firstNonEmptyUsage := false }, ?_, ?_, ?_⟩
    · simp only [concatStream.drain]
      rw [concat_Recv_end f _ (by simp)]
      simp
    · simp
    · simp
  | @cons s xs ss xss hsx _ ih =>
    induction xs generalizing s with
    | nil =>
      intro done ne fuel n hfuel hn
      obtain ⟨f, rfl⟩ : ∃ f, fuel = f + 1 := ⟨fuel - 1, by omega⟩
      have hr := Yields_nil s _ hsx
      have hskip := concat_Recv_skip f done ss s ne hr
      obtain ⟨m', hd, hend, hlen⟩ := ih (done ++ [(s.Recv).2]) ne f n
        (by simp at hfuel; omega) (by simpa using hn)
      refine ⟨m', ?_, hend, by simp at hlen ⊢; omega⟩
      cases n with
      | zero => simp [concatStream.drain] at hd
      | succ n =>
        simp only [concatStream.drain] at hd ⊢
        rw [hskip]
        cases hq : concatStream.Recv f
            { streams := (done ++ [(s.Recv).2]) ++ ss, index := (done ++ [(s.Recv).2]).length,
              nonEmpty := ne, firstNonEmptyUsage := false } with
        | none => rw [hq] at hd; simp at hd
        | some q =>
          rw [hq] at hd
          obtain ⟨⟨v, err⟩, m1⟩ := q
          cases err with
          | some e => simpa using hd
          | none =>
            simp only at hd ⊢
            cases hd2 : concatStream.drain f n m1 with
            | none => rw [hd2] at hd; simp at hd
            | some q2 =>
              rw [hd2] at hd
              rw [concat_drain_mono f n m1 q2 hd2]
              exact hd
    | cons x xs ihx =>
      intro done ne fuel n hfuel hn
      obtain ⟨f, rfl⟩ : ∃ f, fuel = f + 1 := ⟨fuel - 1, by omega⟩
      obtain ⟨n', rfl⟩ : ∃ n', n = n' + 1 := ⟨n - 1, by omega⟩
      obtain ⟨e1, e2⟩ := Yields_cons s x xs _ hsx
      obtain ⟨m', hd, hend, hlen⟩ := ihx e2 done ne (f + 1) n' hfuel
        (by simp at hn ⊢; omega)
      refine ⟨m', ?_, hend, by simpa using hlen⟩
      simp only [concatStream.drain]
      rw [concat_Recv_item f done ss s x ne e1]
      simp only
      rw [hd]
      simp

theorem avoidNil_gives {T : Type} [Inhabited T] (s : Option (Stream T)) (xs : List T)
    (h : EntryGives s xs) : (avoidNil s).Yields xs Error.EOF := by
  cases s with
  | none =>
    simp only [EntryGives] at h
    subst h
    exact ⟨by intro j hj; simp at hj, rfl⟩
  | some s => exact h

/-- C30 (Concat is list concatenation). When every argument of `Concat` has
finitely many items and then `io.EOF` to give (a nil argument counting as a
stream without items), the stream of `Concat` gives all the items of the
first argument, then all those of the second, and so on, then `io.EOF`, and
`io.EOF` again on every later call; without arguments the first call
returns `io.EOF`. -/
theorem Concat_is_concatenation {T : Type} [Inhabited T] (streams : List (Option (Stream T)))
    (xss : List (List T)) (h : List.Forall₂ EntryGives streams xss) :
    (∀ fuel n, streams.length + 1 ≤ fuel → xss.flatten.length < n →
      ∃ m', (Concat streams).drain fuel n = some ((xss.flatten, Error.EOF), m') ∧
        ∀ k, m'.Recv (k + 1) = some ((default, some Error.EOF), m')) ∧
    ∀ k, (Concat ([] : List (Option (Stream T)))).Recv (k + 1)
      = some ((default, some Error.EOF), Concat []) := by
  constructor
  · intro fuel n hf hn
    have h2 : List.Forall₂ (fun s xs => s.Yields xs Error.EOF) (avoidNils streams) xss := by
      simp only [avoidNils]
      rw [List.forall₂_map_left_iff]
      exact h.imp (fun {s xs} hs => avoidNil_gives s xs hs)
    obtain ⟨m', hd, hend, _⟩ := concat_drain (avoidNils streams) xss h2 [] false fuel n
      (by simpa [avoidNils] using hf) hn
    exact ⟨m', by simpa [Concat] using hd, fun k => concat_Recv_end k m' hend⟩
  · intro k
    exact concat_Recv_end k _ (by simp [Concat, avoidNils])

theorem Concat_is_concatenation_witness :
    ∃ m', (Concat [some (FromSlice [1, 2]), none, some (FromSlice [3])]).drain 4 4
        = some (([[1, 2], [], [3]].flatten, Error.EOF), m') ∧
      ∀ k, m'.Recv (k + 1) = some ((default, some Error.EOF), m') :=
  (Concat_is_concatenation [some (FromSlice [1, 2]), none, some (FromSlice [3])]
    [[1, 2], [], [3]]
    (List.Forall₂.cons (FromSlice_Yields _)
      (List.Forall₂.cons rfl (List.Forall₂.cons (FromSlice_Yields _) List.Forall₂.nil)))).1
    4 4 (by decide) (by decide)
/-! ## SubstituteStream -/

theorem recvAt_get {T : Type} [Inhabited T] (heap : List (Stream T)) (a : Nat) (st : Stream T)
    (h : heap.get? a = some st) :
    recvAt heap a = ((st.answers st.calls, heap.set a ⟨st.answers, st.calls + 1⟩)) := by
  simp only [recvAt, h, Stream.Recv]

theorem recvAt_keeps {T : Type} [Inhabited T] (heap : List (Stream T)) (a b : Nat)
    (hab : a ≠ b) : (recvAt heap a).2.get? b = heap.get? b := by
  simp only [recvAt]
  cases h : heap.get? a with
  | none => rfl
  | some st => simp only [List.get?_eq_getElem?, List.getElem?_set_ne hab]

theorem recvAt_length {T : Type} [Inhabited T] (heap : List (Stream T)) (a : Nat) :
    (recvAt heap a).2.length = heap.length := by
  simp only [recvAt]
  cases h : heap.get? a with
  | none => rfl
  | some st => simp

theorem recvAt_append_last {T : Type} [Inhabited T] (heap : List (Stream T)) (st : Stream T) :
    recvAt (heap ++ [st]) heap.length = ((st.Recv).1, heap ++ [(st.Recv).2]) := by
  have h : (heap ++ [st]).get? heap.length = some st := by simp
  simp only [recvAt, h]
  congr 1
  simp

theorem set_same_get {α : Type} (l : List α) (a : Nat) (v : α) (h : l.get? a = some v) :
    l.set a v = l := by
  induction l generalizing a with
  | nil => rfl
  | cons b t ih =>
    cases a with
    | zero => simp at h; simp [h]
    | succ a => simp at h; simp [List.set, ih a (by simpa using h)]

/-- While `replace` declines the items the source gives, they are passed
on unchanged, the source is read once for each of them, and `replace` is
asked about each of them. -/
theorem subst_recvs_before {T : Type} [Inhabited T] (replace : T → Option (Replacement T))
    (src : Nat) :
    ∀ (pre : List T) (heap : List (Stream T)) (st : Stream T) (a : List T) (w : Nat),
    heap.get? src = some st →
    (∀ j, ∀ h : j < pre.length, st.answers (st.calls + j) = (pre.get ⟨j, h⟩, none)) →
    (∀ p ∈ pre, replace p = none) →
    substitutingStream.recvs pre.length ⟨heap, src, some replace, a, w⟩
      = (pre.map (fun p => (p, none)),
         ⟨heap.set src ⟨st.answers, st.calls + pre.length⟩, src, some replace, a ++ pre, w⟩) := by
  intro pre
  induction pre with
  | nil =>
    intro heap st a w hst _ _
    have : heap.set src ⟨st.answers, st.calls + 0⟩ = heap := set_same_get heap src st hst
    simp only [List.length_nil, substitutingStream.recvs, List.map_nil, List.append_nil]
    rw [this]
  | cons p pre ih =>
    intro heap st a w hst hans hno
    have h0 : st.answers st.calls = (p, none) := by
      simpa using hans 0 (by simp)
    have hp : replace p = none := hno p (by simp)
    have hrecv : (⟨heap, src, some replace, a, w⟩ : substitutingStream T).Recv
        = ((p, none), ⟨heap.set src ⟨st.answers, st.calls + 1⟩, src, some replace, a ++ [p],
            w⟩) := by
      simp only [substitutingStream.Recv, recvAt_get heap src st hst, h0, hp]
    have hlt : src < heap.length := by
      by_contra hge
      rw [List.get?_eq_getElem?, List.getElem?_eq_none (by omega)] at hst
      cases hst
    have hih := ih (heap.set src ⟨st.answers, st.calls + 1⟩) ⟨st.answers, st.calls + 1⟩
      (a ++ [p]) w
      (by simp [List.getElem?_set_self, hlt])
      (by
        intro j h
        have := hans (j + 1) (by simpa using h)
        simp only [List.get_eq_getElem, List.getElem_cons_succ] at this ⊢
        rw [← this]
        congr 1
        omega)
      (fun q hq => hno q (by simp [hq]))
    simp only [List.length_cons, substitutingStream.recvs, hrecv, hih]
    simp [Nat.add_assoc, Nat.add_comm 1, List.set_set]

theorem subst_recvs_add {T : Type} [Inhabited T] : ∀ (a b : Nat) (s : substitutingStream T),
    s.recvs (a + b) = ((s.recvs a).1 ++ ((s.recvs a).2.recvs b).1, ((s.recvs a).2.recvs b).2) := by
  intro a
  induction a with
  | zero => intro b s; simp [substitutingStream.recvs]
  | succ a ih =>
    intro b s
    rw [show a + 1 + b = (a + b) + 1 by omega]
    simp only [substitutingStream.recvs, ih, List.cons_append]

/-- When `replace` never returns the stream object at the address `src`, a
`substitutingStream` that does not hold this address never comes to hold it,
and its calls of `Recv` leave the object as it is. -/
theorem subst_keeps_object {T : Type} [Inhabited T] (replace : T → Option (Replacement T))
    (src : Nat) (obj : Stream T)
    (hnot : ∀ y, replace y ≠ some (Replacement.existing src)) :
    ∀ (n : Nat) (s : substitutingStream T), s.replace = some replace → s.Stream ≠ src →
      s.heap.get? src = some obj →
      (s.recvs n).2.Stream ≠ src ∧ (s.recvs n).2.heap.get? src = some obj := by
  intro n
  induction n with
  | zero => intro s _ h1 h2; exact ⟨h1, h2⟩
  | succ n ih =>
    intro s hrep h1 h2
    have hlt : src < s.heap.length := by
      by_contra hge
      rw [List.get?_eq_getElem?, List.getElem?_eq_none (by omega)] at h2
      cases h2
    have hstep : (s.Recv).2.replace = some replace ∧ (s.Recv).2.Stream ≠ src ∧
        (s.Recv).2.heap.get? src = some obj := by
      have k1 : (recvAt s.heap s.Stream).2.get? src = some obj := by
        rw [recvAt_keeps _ _ _ h1, h2]
      have l1 : (recvAt s.heap s.Stream).2.length = s.heap.length := recvAt_length _ _
      simp only [substitutingStream.Recv, hrep]
      cases he : (recvAt s.heap s.Stream).1.2 with
      | some err => exact ⟨rfl, h1, k1⟩
      | none =>
        cases hr : replace (recvAt s.heap s.Stream).1.1 with
        | none => exact ⟨rfl, h1, k1⟩
        | some rep =>
          cases rep with
          | existing a =>
            have ha : a ≠ src := by
              intro hx
              rw [hx] at hr
              exact hnot _ hr
            refine ⟨rfl, ha, ?_⟩
            show (recvAt (recvAt s.heap s.Stream).2 a).2.get? src = some obj
            rw [recvAt_keeps _ _ _ ha, k1]
          | created st =>
            have ha : (recvAt s.heap s.Stream).2.length ≠ src := by omega
            refine ⟨rfl, ha, ?_⟩
            show (recvAt ((recvAt s.heap s.Stream).2 ++ [st])
              (recvAt s.heap s.Stream).2.length).2.get? src = some obj
            rw [recvAt_keeps _ _ _ ha, List.get?_eq_getElem?,
              List.getElem?_append_left (by omega), ← List.get?_eq_getElem?, k1]
    simp only [substitutingStream.recvs]
    exact ih _ hstep.1 hstep.2.1 hstep.2.2

/-- C26, as stated, fails in its last clause. Let `replace` return the source
itself on the item 2 of the source 1, 2, 3. The call of `Recv` that reads 2
sets the field `Stream` to the source and returns what the source gives next,
the item 3: the original source, read twice up to the item 2, is read a third
time by that call and a fourth time by the next one. -/
theorem SubstituteStream_source_read_again :
    ((SubstituteStream [FromSlice [1, 2, 3]] (some 0)
        (some (fun item => if item = 2 then some (Replacement.existing 0) else none))).recvs
          3).1 = [(1, none), (3, none), (0, some Error.EOF)] ∧
    ((SubstituteStream [FromSlice [1, 2, 3]] (some 0)
        (some (fun item => if item = 2 then some (Replacement.existing 0) else none))).recvs
          1).2.heap.map (fun o => o.calls) = [1] ∧
    ((SubstituteStream [FromSlice [1, 2, 3]] (some 0)
        (some (fun item => if item = 2 then some (Replacement.existing 0) else none))).recvs
          2).2.heap.map (fun o => o.calls) = [3] ∧
    ((SubstituteStream [FromSlice [1, 2, 3]] (some 0)
        (some (fun item => if item = 2 then some (Replacement.existing 0) else none))).recvs
          3).2.heap.map (fun o => o.calls) = [4] ∧
    ((SubstituteStream [FromSlice [1, 2, 3]] (some 0)
        (some (fun item => if item = 2 then some (Replacement.existing 0) else none))).recvs
          3).2.asked = [1, 2] := by
  decide

/-- C26, amended (SubstituteStream swaps at the first triggering item). Let
the source, the stream object at the address `src`, give the items `pre`, on
none of which `replace` returns a stream, and then the item `x`, on which
`replace` returns a stream `r`. Then the first calls of `Recv` return the
items `pre`, in order and with a nil error, reading the source once each and
no other stream; the next call reads `x` and returns, instead of `x`, the
first result of the stream `r`: of its initial state when the call of
`replace` has created it, of the object at its address otherwise. And when
`replace` never returns the source itself, no later call of `Recv` reads the
source: after any number of calls it is as the read of `x` left it. -/
theorem SubstituteStream_swaps_at_first_trigger {T : Type} [Inhabited T]
    (heap : List (Stream T)) (src : Nat) (s0 : Stream T)
    (replace : T → Option (Replacement T)) (pre : List T) (x : T) (r : Replacement T)
    (hsrc : heap.get? src = some s0)
    (hpre : ∀ j, ∀ h : j < pre.length, s0.answers (s0.calls + j) = (pre.get ⟨j, h⟩, none))
    (hx : s0.answers (s0.calls + pre.length) = (x, none))
    (hno : ∀ p ∈ pre, replace p = none) (hr : replace x = some r) :
    ((SubstituteStream heap (some src) (some replace)).recvs pre.length).1
        = pre.map (fun p => (p, none)) ∧
    ((SubstituteStream heap (some src) (some replace)).recvs pre.length).2.heap
        = heap.set src ⟨s0.answers, s0.calls + pre.length⟩ ∧
    (((SubstituteStream heap (some src) (some replace)).recvs pre.length).2.Recv).1
        = (recvAt (r.place (heap.set src ⟨s0.answers, s0.calls + pre.length + 1⟩)).1
            (r.place (heap.set src ⟨s0.answers, s0.calls + pre.length + 1⟩)).2).1 ∧
    (∀ st, r = Replacement.created st →
      (((SubstituteStream heap (some src) (some replace)).recvs pre.length).2.Recv).1
        = (st.Recv).1) ∧
    (∀ a st, r = Replacement.existing a → a ≠ src → heap.get? a = some st →
      (((SubstituteStream heap (some src) (some replace)).recvs pre.length).2.Recv).1
        = (st.Recv).1) ∧
    ((∀ y, replace y ≠ some (Replacement.existing src)) →
      ∀ n, ((SubstituteStream heap (some src) (some replace)).recvs
          (pre.length + 1 + n)).2.heap.get? src
        = some ⟨s0.answers, s0.calls + pre.length + 1⟩) := by
  have hlt : src < heap.length := by
    by_contra hge
    rw [List.get?_eq_getElem?, List.getElem?_eq_none (by omega)] at hsrc
    cases hsrc
  have hb : (SubstituteStream heap (some src) (some replace)).recvs pre.length
      = (pre.map (fun p => (p, none)),
         ⟨heap.set src ⟨s0.answers, s0.calls + pre.length⟩, src, some replace, pre, 0⟩) := by
    have := subst_recvs_before replace src pre heap s0 [] 0 hsrc hpre hno
    simpa [SubstituteStream] using this
  have hget : (heap.set src ⟨s0.answers, s0.calls + pre.length⟩).get? src
      = some ⟨s0.answers, s0.calls + pre.length⟩ := by
    simp [List.getElem?_set_self, hlt]
  have hstep : (⟨heap.set src ⟨s0.answers, s0.calls + pre.length⟩, src, some replace, pre,
        0⟩ : substitutingStream T).Recv
      = ((recvAt (r.place (heap.set src ⟨s0.answers, s0.calls + pre.length + 1⟩)).1
            (r.place (heap.set src ⟨s0.answers, s0.calls + pre.length + 1⟩)).2).1,
         ⟨(recvAt (r.place (heap.set src ⟨s0.answers, s0.calls + pre.length + 1⟩)).1
            (r.place (heap.set src ⟨s0.answers, s0.calls + pre.length + 1⟩)).2).2,
          (r.place (heap.set src ⟨s0.answers, s0.calls + pre.length + 1⟩)).2,
          some replace, pre ++ [x], 1⟩) := by
    simp only [substitutingStream.Recv, recvAt_get _ src _ hget, hx, hr, List.set_set,
      Nat.zero_add]
  have hget1 : (heap.set src ⟨s0.answers, s0.calls + pre.length + 1⟩).get? src
      = some ⟨s0.answers, s0.calls + pre.length + 1⟩ := by
    simp [List.getElem?_set_self, hlt]
  refine ⟨by rw [hb], by rw [hb], by rw [hb, hstep], ?_, ?_, ?_⟩
  · intro st hst
    rw [hb, hstep, hst]
    simp only [Replacement.place]
    rw [recvAt_get _ _ st (by simp)]
    rfl
  · intro a st ha hne hst
    rw [hb, hstep, ha]
    simp only [Replacement.place]
    rw [recvAt_get _ _ st (by
      rw [List.get?_eq_getElem?, List.getElem?_set_ne (Ne.symm hne), ← List.get?_eq_getElem?,
        hst])]
    rfl
  · intro hnot n
    rw [Nat.add_assoc, subst_recvs_add, hb]
    simp only [show 1 + n = n + 1 by omega, substitutingStream.recvs, hstep]
    cases r with
    | existing a =>
      have ha : a ≠ src := by
        intro hx2
        rw [hx2] at hr
        exact hnot _ hr
      refine (subst_keeps_object replace src _ hnot n _ rfl ha ?_).2
      show (recvAt (heap.set src ⟨s0.answers, s0.calls + pre.length + 1⟩) a).2.get? src = _
      rw [recvAt_keeps _ _ _ ha, hget1]
    | created st =>
      have ha : (heap.set src ⟨s0.answers, s0.calls + pre.length + 1⟩).length ≠ src := by
        simp only [List.length_set]; omega
      refine (subst_keeps_object replace src _ hnot n _ rfl ha ?_).2
      show (recvAt ((heap.set src ⟨s0.answers, s0.calls + pre.length + 1⟩) ++ [st])
        (heap.set src ⟨s0.answers, s0.calls + pre.length + 1⟩).length).2.get? src = _
      rw [recvAt_keeps _ _ _ ha, List.get?_eq_getElem?,
        List.getElem?_append_left (by simp only [List.length_set]; omega),
        ← List.get?_eq_getElem?, hget1]

theorem SubstituteStream_swaps_at_first_trigger_witness :
    ((SubstituteStream [FromSlice [1, 2, 3]] (some 0)
        (some (fun item =>
          if item = 2 then some (Replacement.created (FromSlice [20, 21, 22])) else none))).recvs
          [1].length).1 = [1].map (fun p => (p, none)) ∧
    (((SubstituteStream [FromSlice [1, 2, 3]] (some 0)
        (some (fun item =>
          if item = 2 then some (Replacement.created (FromSlice [20, 21, 22])) else none))).recvs
          [1].length).2.Recv).1 = ((FromSlice [20, 21, 22]).Recv).1 ∧
    (∀ n, ((SubstituteStream [FromSlice [1, 2, 3]] (some 0)
        (some (fun item =>
          if item = 2 then some (Replacement.created (FromSlice [20, 21, 22])) else none))).recvs
          ([1].length + 1 + n)).2.heap.get? 0
        = some ⟨(FromSlice [1, 2, 3]).answers, (FromSlice [1, 2, 3]).calls + [1].length + 1⟩) :=
  ⟨(SubstituteStream_swaps_at_first_trigger [FromSlice [1, 2, 3]] 0 (FromSlice [1, 2, 3])
      (fun item =>
        if item = 2 then some (Replacement.created (FromSlice [20, 21, 22])) else none)
      [1] 2 (Replacement.created (FromSlice [20, 21, 22])) rfl
      (by intro j h; have : j = 0 := by simpa using h
          subst this; rfl)
      rfl (by intro p hp; simp at hp; subst hp; rfl) (if_pos rfl)).1,
    (SubstituteStream_swaps_at_first_trigger [FromSlice [1, 2, 3]] 0 (FromSlice [1, 2, 3])
      (fun item =>
        if item = 2 then some (Replacement.created (FromSlice [20, 21, 22])) else none)
      [1] 2 (Replacement.created (FromSlice [20, 21, 22])) rfl
      (by intro j h; have : j = 0 := by simpa using h
          subst this; rfl)
      rfl (by intro p hp; simp at hp; subst hp; rfl) (if_pos rfl)).2.2.2.1 _ rfl,
    (SubstituteStream_swaps_at_first_trigger [FromSlice [1, 2, 3]] 0 (FromSlice [1, 2, 3])
      (fun item =>
        if item = 2 then some (Replacement.created (FromSlice [20, 21, 22])) else none)
      [1] 2 (Replacement.created (FromSlice [20, 21, 22])) rfl
      (by intro j h; have : j = 0 := by simpa using h
          subst this; rfl)
      rfl (by intro p hp; simp at hp; subst hp; rfl) (if_pos rfl)).2.2.2.2.2
      (by intro y; by_cases hy : y = 2 <;> simp [hy])⟩

/-- C25 (SubstituteStream keeps consulting replace after a substitution).
With the source `FromSlice([]int{1, 2, 3})` and a `replace` that returns a new
`FromSlice([]int{20, 2, 22})` on the item 2 and nil otherwise, the second
`Recv` replaces the stream and returns 20; every later `Recv` reads the item 2
from the replacement, calls `replace` on it and replaces the stream again, so
the calls return 1, 20, 20, 20, ... without end, where a `replace` that is not
called after the substitution would give 1, 20, 2, 22 and `io.EOF`. -/
theorem SubstituteStream_replace_called_again :
    ∀ n : Nat,
    ((SubstituteStream [FromSlice [1, 2, 3]] (some 0)
        (some (fun item =>
          if item = 2 then some (Replacement.created (FromSlice [20, 2, 22])) else none))).recvs
          (2 + n)).1 = (1, none) :: (20, none) :: List.replicate n (20, none) ∧
    ((SubstituteStream [FromSlice [1, 2, 3]] (some 0)
        (some (fun item =>
          if item = 2 then some (Replacement.created (FromSlice [20, 2, 22])) else none))).recvs
          (2 + n)).2.asked = 1 :: 2 :: List.replicate n 2 ∧
    ((SubstituteStream [FromSlice [1, 2, 3]] (some 0)
        (some (fun item =>
          if item = 2 then some (Replacement.created (FromSlice [20, 2, 22])) else none))).recvs
          (2 + n)).2.swaps = 1 + n := by
  have key : ∀ (n : Nat) (h : List (Stream Nat)) (a : List Nat) (w : Nat),
      (substitutingStream.recvs n
        ⟨h ++ [((FromSlice [20, 2, 22]).Recv).2], h.length,
          some (fun item =>
            if item = 2 then some (Replacement.created (FromSlice [20, 2, 22])) else none),
          a, w⟩).1 = List.replicate n (20, none) ∧
      (substitutingStream.recvs n
        ⟨h ++ [((FromSlice [20, 2, 22]).Recv).2], h.length,
          some (fun item =>
            if item = 2 then some (Replacement.created (FromSlice [20, 2, 22])) else none),
          a, w⟩).2.asked = a ++ List.replicate n 2 ∧
      (substitutingStream.recvs n
        ⟨h ++ [((FromSlice [20, 2, 22]).Recv).2], h.length,
          some (fun item =>
            if item = 2 then some (Replacement.created (FromSlice [20, 2, 22])) else none),
          a, w⟩).2.swaps = w + n := by
    intro n
    induction n with
    | zero => intro h a w; simp [substitutingStream.recvs]
    | succ n ih =>
      intro h a w
      have hstep : (⟨h ++ [((FromSlice [20, 2, 22]).Recv).2], h.length,
            some (fun item =>
              if item = 2 then some (Replacement.created (FromSlice [20, 2, 22])) else none),
            a, w⟩ : substitutingStream Nat).Recv
          = ((20, none),
             ⟨(h ++ [(((FromSlice [20, 2, 22]).Recv).2.Recv).2]) ++
                [((FromSlice [20, 2, 22]).Recv).2],
              (h ++ [(((FromSlice [20, 2, 22]).Recv).2.Recv).2]).length,
              some (fun item =>
                if item = 2 then some (Replacement.created (FromSlice [20, 2, 22])) else none),
              a ++ [2], w + 1⟩) := by
        have e1 := recvAt_append_last h ((FromSlice [20, 2, 22]).Recv).2
        have e2 := recvAt_append_last (h ++ [(((FromSlice [20, 2, 22]).Recv).2.Recv).2])
          (FromSlice [20, 2, 22])
        have a1 : (((FromSlice [20, 2, 22]).Recv).2.Recv).1 = ((2 : Nat), none) := rfl
        have a2 : ((FromSlice [20, 2, 22]).Recv).1 = ((20 : Nat), none) := rfl
        rw [a1] at e1
        rw [a2] at e2
        simp only [substitutingStream.Recv, e1, if_true, Replacement.place, e2]
      have hih := ih (h ++ [(((FromSlice [20, 2, 22]).Recv).2.Recv).2]) (a ++ [2]) (w + 1)
      simp only [substitutingStream.recvs, hstep]
      refine ⟨?_, ?_, ?_⟩
      · rw [hih.1]; simp [List.replicate_succ]
      · rw [hih.2.1]; simp [List.replicate_succ]
      · rw [hih.2.2]; omega
  intro n
  have e1 : ((SubstituteStream [FromSlice [1, 2, 3]] (some 0)
        (some (fun item =>
          if item = 2 then some (Replacement.created (FromSlice [20, 2, 22])) else none))).recvs
          2)
      = ([(1, none), (20, none)],
         ⟨[(⟨(FromSlice [1, 2, 3]).answers, 2⟩ : Stream Nat)] ++
            [((FromSlice [20, 2, 22]).Recv).2],
          [(⟨(FromSlice [1, 2, 3]).answers, 2⟩ : Stream Nat)].length,
           some (fun item =>
             if item = 2 then some (Replacement.created (FromSlice [20, 2, 22])) else none),
           [1, 2], 1⟩) := rfl
  rw [subst_recvs_add, e1]
  obtain ⟨k1, k2, k3⟩ := key n [⟨(FromSlice [1, 2, 3]).answers, 2⟩] [1, 2] 1
  exact ⟨by simp only [k1]; rfl, by simp only [k2]; rfl, by simp only [k3]⟩

/-! ## ThrottleMerge2: the error of the source -/

/-- A loop iteration of `ThrottleMerge2` with nothing accumulated, when the
next answer of the source is the error `e`: the source is read once and `e`
is recorded. -/
theorem TM2_advance_error_empty {T : Type} (m : throttleMerge2 T) (e : Error)
    (hs : m.sendBuf = []) (ho : m.origBuf = [])
    (hsrc : (m.s.answers m.s.calls).2 = some e) :
    m.advance.sendBuf = [] ∧ m.advance.sendErr = some e ∧ m.advance.origBuf = [] ∧
      m.advance.s.calls = m.s.calls + 1 ∧ m.advance.s.answers = m.s.answers := by
  have he : (m.s.Recv).1.2 = some e := hsrc
  by_cases hto : Sub (m.clock.Now).1 m.lastMergeAt > m.throttleDuration
  · refine ⟨?_, ?_, ?_, ?_, ?_⟩ <;>
      simp [throttleMerge2.advance, hto, ho, throttleMerge2.receiveOrigBuf, he,
        throttleMerge2.mergeOrigBuf, hs] <;> (try simp [Stream.Recv])
  · refine ⟨?_, ?_, ?_, ?_, ?_⟩ <;>
      simp [throttleMerge2.advance, hto, ho, throttleMerge2.receiveOrigBuf, he,
        throttleMerge2.mergeOrigBuf, hs] <;> (try simp [Stream.Recv])

/-- A loop iteration of `ThrottleMerge2` with items accumulated, when the
next answer of the source is the error `e`: the accumulated items are passed
through `merge`; either the source was not read yet, or it was read once and
`e` is recorded. -/
theorem TM2_advance_error_flush {T : Type} (m : throttleMerge2 T) (e : Error)
    (hs : m.sendBuf = []) (he0 : m.sendErr = none) (ho : m.origBuf.length > 0)
    (hsrc : (m.s.answers m.s.calls).2 = some e) :
    m.advance.sendBuf = m.merge m.origBuf ∧ m.advance.origBuf = [] ∧
      m.advance.s.answers = m.s.answers ∧
      ((m.advance.sendErr = none ∧ m.advance.s.calls = m.s.calls) ∨
       (m.advance.sendErr = some e ∧ m.advance.s.calls = m.s.calls + 1)) := by
  have he : (m.s.Recv).1.2 = some e := hsrc
  have ho' : ¬ m.origBuf.length = 0 := by omega
  by_cases hto : Sub (m.clock.Now).1 m.lastMergeAt > m.throttleDuration
  · refine ⟨?_, ?_, ?_, Or.inl ⟨?_, ?_⟩⟩ <;>
      simp [throttleMerge2.advance, hto, ho, ho', throttleMerge2.mergeOrigBuf, hs, he0]
  · refine ⟨?_, ?_, ?_, Or.inr ⟨?_, ?_⟩⟩ <;>
      simp [throttleMerge2.advance, hto, ho, ho', throttleMerge2.receiveOrigBuf, he,
        throttleMerge2.mergeOrigBuf, hs] <;> (try simp [Stream.Recv])

theorem TM2_drain_error {T : Type} [Inhabited T] (fuel n : Nat) (m : throttleMerge2 T)
    (e : Error) (hs : m.sendBuf = []) (he : m.sendErr = some e) :
    throttleMerge2.drain (fuel + 1) (n + 1) m = some (([], e), m) := by
  simp [throttleMerge2.drain, TM2_Recv_err fuel m e hs he]

/-- The case of an empty `sendBuf`. -/
theorem TM2_error_from_empty {T : Type} [Inhabited T] (m : throttleMerge2 T) (e : Error)
    (hs : m.sendBuf = []) (he : m.sendErr = none)
    (hsrc : (m.s.answers m.s.calls).2 = some e) :
    ∃ m', m'.sendBuf = [] ∧ m'.sendErr = some e ∧ m'.s.calls = m.s.calls + 1 ∧
      ∀ fuel n,
        throttleMerge2.drain (fuel + 3)
            ((if m.origBuf.length > 0 then m.merge m.origBuf else []).length + (n + 1)) m
          = some ((if m.origBuf.length > 0 then m.merge m.origBuf else [], e), m') := by
  by_cases ho : m.origBuf.length > 0
  · obtain ⟨a1, a2, a3, a4⟩ := TM2_advance_error_flush m e hs he ho hsrc
    rcases a4 with ⟨b1, b2⟩ | ⟨b1, b2⟩
    · have hsrc2 : (({ m.advance with sendBuf := [] } : throttleMerge2 T).s.answers
          ({ m.advance with sendBuf := [] } : throttleMerge2 T).s.calls).2 = some e := by
        show (m.advance.s.answers m.advance.s.calls).2 = some e
        rw [a3, b2]; exact hsrc
      obtain ⟨c1, c2, _, c4, _⟩ := TM2_advance_error_empty
        ({ m.advance with sendBuf := [] } : throttleMerge2 T) e rfl a2 hsrc2
      refine ⟨({ m.advance with sendBuf := [] } : throttleMerge2 T).advance, c1, c2, ?_, ?_⟩
      · rw [c4]; show m.advance.s.calls + 1 = _; rw [b2]
      · intro fuel n
        rw [if_pos ho]
        have hd0 := TM2_drain_error fuel n _ e c1 c2
        have hd1 := TM2_drain_silent (fuel + 1) (n + 1)
          ({ m.advance with sendBuf := [] } : throttleMerge2 T) _ rfl b1 hd0
        have hd2 := TM2_drain_pops (fuel + 1) (m.merge m.origBuf) m.advance (n + 1) [] e _ a1 hd1
        have hd3 := TM2_drain_silent (fuel + 2) _ m _ hs he hd2
        simpa using hd3
    · refine ⟨({ m.advance with sendBuf := [] } : throttleMerge2 T), rfl, b1, b2, ?_⟩
      intro fuel n
      rw [if_pos ho]
      have hd0 := TM2_drain_error (fuel + 1) n
        ({ m.advance with sendBuf := [] } : throttleMerge2 T) e rfl b1
      have hd2 := TM2_drain_pops (fuel + 1) (m.merge m.origBuf) m.advance (n + 1) [] e _ a1 hd0
      have hd3 := TM2_drain_silent (fuel + 2) _ m _ hs he hd2
      simpa using hd3
  · have ho' : m.origBuf = [] := List.length_eq_zero.mp (by omega)
    obtain ⟨c1, c2, _, c4, _⟩ := TM2_advance_error_empty m e hs ho' hsrc
    refine ⟨m.advance, c1, c2, c4, ?_⟩
    intro fuel n
    rw [if_neg ho]
    have hd0 := TM2_drain_error (fuel + 1) n _ e c1 c2
    have hd1 := TM2_drain_silent (fuel + 2) (n + 1) m _ hs he hd0
    simpa using hd1

/-- C21 (ThrottleMerge2 queues the error behind flushed output). In any state
in which no error is recorded yet, let the next answer of the source be the
error `e` (end-of-stream included). Then the calls of `Recv` return first the
items already waiting in `sendBuf`, then the items `merge` makes of the raw
items accumulated in `origBuf` (nothing when none is accumulated), each with
a nil error, and then `e`; in the state reached the source has been read
exactly once more, and every later `Recv` returns `e` and leaves the state,
the source included, as it is. -/
theorem ThrottleMerge2_error_after_flush {T : Type} [Inhabited T] (m : throttleMerge2 T)
    (e : Error) (he : m.sendErr = none) (hsrc : (m.s.answers m.s.calls).2 = some e) :
    ∃ m', m'.sendBuf = [] ∧ m'.sendErr = some e ∧ m'.s.calls = m.s.calls + 1 ∧
      (∀ fuel n, 3 ≤ fuel →
        (m.sendBuf ++ (if m.origBuf.length > 0 then m.merge m.origBuf else [])).length < n →
        throttleMerge2.drain fuel n m
          = some ((m.sendBuf ++ (if m.origBuf.length > 0 then m.merge m.origBuf else []), e),
                  m')) ∧
      ∀ k, m'.Recv (k + 1) = some ((default, some e), m') := by
  obtain ⟨m', h1, h2, h3, h4⟩ := TM2_error_from_empty
    ({ m with sendBuf := [] } : throttleMerge2 T) e rfl he hsrc
  refine ⟨m', h1, h2, h3, ?_, fun k => TM2_Recv_err k m' e h1 h2⟩
  intro fuel n hf hn
  obtain ⟨f, rfl⟩ : ∃ f, fuel = f + 3 := ⟨fuel - 3, by omega⟩
  rw [List.length_append] at hn
  obtain ⟨n', rfl⟩ : ∃ n', n = m.sendBuf.length +
      ((if m.origBuf.length > 0 then m.merge m.origBuf else []).length + (n' + 1)) :=
    ⟨n - m.sendBuf.length - (if m.origBuf.length > 0 then m.merge m.origBuf else []).length - 1,
      by omega⟩
  exact TM2_drain_pops (f + 2) m.sendBuf m _ _ e m' rfl (h4 f n')

theorem ThrottleMerge2_error_after_flush_witness :
    ∃ m' : throttleMerge2 GoString, m'.sendBuf = [] ∧ m'.sendErr = some Error.EOF ∧
      m'.s.calls = (FromSlice ([] : List GoString)).calls + 1 ∧
      (∀ fuel n, 3 ≤ fuel →
        ([str "a"] ++ (if [str "b", str "c"].length > 0 then
            (fun packets : List GoString =>
              if packets.length = 0 then [] else [packets.flatten]) [str "b", str "c"]
            else [])).length < n →
        throttleMerge2.drain fuel n
            (⟨FromSlice [], fun packets => if packets.length = 0 then [] else [packets.flatten],
              10000000, [str "b", str "c"], [str "a"], none, 0,
              ⟨fun _ => 5000000, 0⟩⟩ : throttleMerge2 GoString)
          = some (([str "a"] ++ (if [str "b", str "c"].length > 0 then
              (fun packets : List GoString =>
                if packets.length = 0 then [] else [packets.flatten]) [str "b", str "c"]
              else []), Error.EOF), m')) ∧
      ∀ k, m'.Recv (k + 1) = some ((default, some Error.EOF), m') :=
  ThrottleMerge2_error_after_flush
    (⟨FromSlice [], fun packets => if packets.length = 0 then [] else [packets.flatten],
      10000000, [str "b", str "c"], [str "a"], none, 0,
      ⟨fun _ => 5000000, 0⟩⟩ : throttleMerge2 GoString)
    Error.EOF rfl rfl

/-! ## ConcurrentQueue -/

theorem setNext_length {T : Type} (heap : List (Node T)) (p : Nat) (nx : Option Nat) :
    (setNext heap p nx).length = heap.length := by
  simp only [setNext]
  split <;> simp

theorem setNext_get?_ne {T : Type} (heap : List (Node T)) (p a : Nat) (nx : Option Nat)
    (h : p ≠ a) : (setNext heap p nx).get? a = heap.get? a := by
  simp only [setNext]
  split
  · simp [List.getElem?_set_ne h]
  · rfl

theorem setNext_get?_eq {T : Type} (heap : List (Node T)) (p : Nat) (nx : Option Nat)
    (n : Node T) (h : heap.get? p = some n) :
    (setNext heap p nx).get? p = some { n with next := nx } := by
  have hlt : p < heap.length := by
    by_contra hc
    have : heap.get? p = none := by simp; omega
    rw [this] at h; simp at h
  simp only [setNext, h]
  simp [hlt]

theorem Chain_bounds {T : Type} (heap : List (Node T)) :
    ∀ (xs : List T) (a t : Nat), Chain heap a xs t → a ≤ t ∧ t < heap.length := by
  intro xs
  induction xs with
  | nil => intro a t h; simp [Chain] at h
  | cons x xs ih =>
    intro a t h
    cases xs with
    | nil =>
      obtain ⟨h1, h2⟩ := h
      subst h2
      refine ⟨le_refl _, ?_⟩
      by_contra hc
      have : heap.get? a = none := by simp; omega
      rw [this] at h1; simp at h1
    | cons y rest =>
      obtain ⟨b, _, h2, h3⟩ := h
      obtain ⟨i1, i2⟩ := ih b t h3
      exact ⟨by omega, i2⟩

/-- Linking a new node behind the last node of a chain. -/
theorem Chain_push {T : Type} (heap : List (Node T)) (v : T) :
    ∀ (xs : List T) (a t : Nat), Chain heap a xs t →
    Chain (setNext (heap ++ [(⟨v, none⟩ : Node T)]) t (some heap.length)) a
      (xs ++ [v]) heap.length := by
  intro xs
  induction xs with
  | nil => intro a t h; simp [Chain] at h
  | cons x xs ih =>
    intro a t h
    have hb := Chain_bounds heap (x :: xs) a t h
    cases xs with
    | nil =>
      obtain ⟨h1, h2⟩ := h
      subst h2
      have hg : (heap ++ [(⟨v, none⟩ : Node T)]).get? a = some ⟨x, none⟩ := by
        rw [List.get?_eq_getElem?, List.getElem?_append_left hb.2, ← List.get?_eq_getElem?]
        exact h1
      refine ⟨heap.length, ?_, hb.2, ?_, rfl⟩
      · rw [setNext_get?_eq _ _ _ _ hg]
      · rw [setNext_get?_ne _ _ _ _ (by omega)]
        simp
    | cons y rest =>
      obtain ⟨b, h1, h2, h3⟩ := h
      have hb2 := Chain_bounds heap (y :: rest) b t h3
      refine ⟨b, ?_, h2, ih b t h3⟩
      rw [setNext_get?_ne _ _ _ _ (by omega)]
      have hlt : a < heap.length := by omega
      rw [List.get?_eq_getElem?, List.getElem?_append_left hlt, ← List.get?_eq_getElem?]
      exact h1

theorem Holds_zero {T : Type} : (ConcurrentQueue.zero : ConcurrentQueue T).Holds [] :=
  ⟨rfl, rfl⟩

/-- `Push` appends at the back. -/
theorem Holds_Push {T : Type} (q : ConcurrentQueue T) (xs : List T) (v : T) (h : q.Holds xs) :
    (q.Push v).Holds (xs ++ [v]) := by
  cases xs with
  | nil =>
    obtain ⟨_, h2⟩ := h
    simp only [ConcurrentQueue.Push, h2, List.nil_append]
    exact ⟨q.heap.length, q.heap.length, rfl, rfl, by simp [Chain]⟩
  | cons x rest =>
    obtain ⟨a, t, h1, h2, h3⟩ := h
    simp only [ConcurrentQueue.Push, h2, List.cons_append]
    exact ⟨a, q.heap.length, h1, rfl, Chain_push q.heap v (x :: rest) a t h3⟩

/-- `Pop` on the empty queue. -/
theorem Pop_empty {T : Type} [Inhabited T] (q : ConcurrentQueue T) (h : q.Holds []) :
    q.Pop = ((default, false), q) := by
  obtain ⟨h1, _⟩ := h
  simp [ConcurrentQueue.Pop, h1]

/-- `Pop` removes at the front. -/
theorem Pop_front {T : Type} [Inhabited T] (q : ConcurrentQueue T) (x : T) (xs : List T)
    (h : q.Holds (x :: xs)) : (q.Pop).1 = (x, true) ∧ (q.Pop).2.Holds xs := by
  obtain ⟨a, t, h1, h2, h3⟩ := h
  cases xs with
  | nil =>
    obtain ⟨g1, _⟩ := h3
    constructor
    · simp only [ConcurrentQueue.Pop, h1, g1]
    · simp only [ConcurrentQueue.Pop, h1, g1]
      exact ⟨rfl, rfl⟩
  | cons y rest =>
    obtain ⟨b, g1, _, g3⟩ := h3
    constructor
    · simp only [ConcurrentQueue.Pop, h1, g1]
    · simp only [ConcurrentQueue.Pop, h1, g1, reduceCtorEq, if_false]
      exact ⟨b, t, rfl, h2, g3⟩

/-- The queue refines the list, operation by operation. -/
theorem exec_refines {T : Type} [Inhabited T] :
    ∀ (ops : List (QueueOp T)) (q : ConcurrentQueue T) (l : List T), q.Holds l →
    (q.exec ops).1 = (fifoExec l ops).1 ∧ (q.exec ops).2.Holds (fifoExec l ops).2 := by
  intro ops
  induction ops with
  | nil => intro q l h; exact ⟨rfl, h⟩
  | cons op rest ih =>
    intro q l h
    cases op with
    | push v =>
      simp only [ConcurrentQueue.exec, fifoExec]
      exact ih _ _ (Holds_Push q l v h)
    | pop =>
      cases l with
      | nil =>
        simp only [ConcurrentQueue.exec, fifoExec, Pop_empty q h]
        obtain ⟨i1, i2⟩ := ih q [] h
        exact ⟨by rw [i1], i2⟩
      | cons x l1 =>
        obtain ⟨p1, p2⟩ := Pop_front q x l1 h
        simp only [ConcurrentQueue.exec, fifoExec]
        obtain ⟨i1, i2⟩ := ih (q.Pop).2 l1 p2
        exact ⟨by rw [p1, i1], i2⟩

/-- The list after a sequence of operations: the values it held and the
values pushed, without as many of the oldest as there were successful
`Pop`s. -/
theorem fifoExec_spec {T : Type} [Inhabited T] :
    ∀ (ops : List (QueueOp T)) (l : List T),
    (fifoExec l ops).1.countP (fun r => r.2) ≤ (l ++ pushed ops).length ∧
    (fifoExec l ops).2 = (l ++ pushed ops).drop ((fifoExec l ops).1.countP (fun r => r.2)) := by
  intro ops
  induction ops with
  | nil => intro l; simp [fifoExec, pushed]
  | cons op rest ih =>
    intro l
    cases op with
    | push v =>
      simp only [fifoExec, pushed]
      have := ih (l ++ [v])
      simpa using this
    | pop =>
      cases l with
      | nil =>
        simp only [fifoExec, pushed]
        have := ih []
        simpa using this
      | cons x l1 =>
        simp only [fifoExec, pushed]
        have := ih l1
        simp only [List.countP_cons_of_pos, List.cons_append, List.length_cons,
          List.drop_succ_cons]
        exact ⟨by omega, this.2⟩

/-- C23 (ConcurrentQueue is a FIFO). For every sequence of `Push` and `Pop`
operations on the empty queue, performed one after the other, the `Pop`
calls return what they return on a list that `Push` extends at the back and
`Pop` shortens at the front; a `Pop` issued after the sequence returns
`(v, true)` for the oldest pushed value `v` not yet popped, and
`(zero, false)` exactly when every pushed value has been popped. -/
theorem ConcurrentQueue_is_FIFO {T : Type} [Inhabited T] (ops : List (QueueOp T)) :
    ((ConcurrentQueue.zero : ConcurrentQueue T).exec ops).1 = (fifoExec [] ops).1 ∧
    (((ConcurrentQueue.zero : ConcurrentQueue T).exec ops).2.Pop).1
      = (match (pushed ops).get?
            (((ConcurrentQueue.zero : ConcurrentQueue T).exec ops).1.countP (fun r => r.2)) with
         | some v => (v, true)
         | none => (default, false)) ∧
    ((((ConcurrentQueue.zero : ConcurrentQueue T).exec ops).2.Pop).1.2 = false ↔
      ((ConcurrentQueue.zero : ConcurrentQueue T).exec ops).1.countP (fun r => r.2)
        = (pushed ops).length) := by
  obtain ⟨r1, r2⟩ := exec_refines ops (ConcurrentQueue.zero : ConcurrentQueue T) [] Holds_zero
  obtain ⟨s1, s2⟩ := fifoExec_spec ops ([] : List T)
  rw [← r1] at s1 s2
  simp only [List.nil_append] at s1 s2
  rw [s2] at r2
  have key : (((ConcurrentQueue.zero : ConcurrentQueue T).exec ops).2.Pop).1
      = (match (pushed ops).get?
            (((ConcurrentQueue.zero : ConcurrentQueue T).exec ops).1.countP (fun r => r.2)) with
         | some v => (v, true)
         | none => (default, false)) := by
    generalize ((ConcurrentQueue.zero : ConcurrentQueue T).exec ops).1.countP (fun r => r.2) = k
      at s1 r2 ⊢
    cases hd : (pushed ops).drop k with
    | nil =>
      rw [hd] at r2
      have hk : (pushed ops).length ≤ k := List.drop_eq_nil_iff.mp hd
      rw [Pop_empty _ r2]
      have : (pushed ops).get? k = none := by simp; omega
      rw [this]
    | cons x xs =>
      rw [hd] at r2
      rw [(Pop_front _ x xs r2).1]
      have hk : k < (pushed ops).length := by
        by_contra hc
        have : (pushed ops).drop k = [] := List.drop_eq_nil_iff.mpr (by omega)
        rw [this] at hd; simp at hd
      have hx : (pushed ops).get? k = some x := by
        have := List.drop_eq_getElem_cons hk
        rw [hd] at this
        simp only [List.cons.injEq] at this
        rw [List.get?_eq_getElem?, List.getElem?_eq_getElem hk, this.1]
      rw [hx]
  refine ⟨r1, key, ?_⟩
  rw [key]
  generalize ((ConcurrentQueue.zero : ConcurrentQueue T).exec ops).1.countP (fun r => r.2) = k
    at s1 ⊢
  cases hg : (pushed ops).get? k with
  | none =>
    have : (pushed ops).length ≤ k := by simpa using hg
    simp; omega
  | some v =>
    have : k < (pushed ops).length := by
      by_contra hc
      have : (pushed ops).get? k = none := by simp; omega
      rw [this] at hg; simp at hg
    simp; omega

/-! ## StringReader.ReadUntil -/

theorem take_ne_nil {α : Type} (B : List α) (k : Nat) (hB : B ≠ []) (hk : 1 ≤ k) :
    B.take k ≠ [] := by
  cases B with
  | nil => exact absurd rfl hB
  | cons b t =>
    obtain ⟨k', rfl⟩ : ∃ k', k = k' + 1 := ⟨k - 1, by omega⟩
    simp

/-- What the scan of the delimiters returns is a non-empty prefix of the
buffer, and what it writes back is the rest. -/
theorem scanDelims_some (B : GoString) (hB : B ≠ []) :
    ∀ (delims : List GoString) (out rest : GoString),
    scanDelims B delims = some (out, rest) → out ≠ [] ∧ out ++ rest = B := by
  intro delims
  induction delims with
  | nil => intro out rest h; simp [scanDelims] at h
  | cons delim delims ih =>
    intro out rest h
    cases hI : Index B delim with
    | none =>
      simp only [scanDelims, hI] at h
      exact ih out rest h
    | some index =>
      simp only [scanDelims, hI, Option.some.injEq, Prod.mk.injEq] at h
      obtain ⟨h1, h2⟩ := h
      subst h1 h2
      refine ⟨?_, List.take_append_drop _ _⟩
      apply take_ne_nil _ _ hB
      by_cases hd : delim = []
      · rw [if_pos hd]
        cases B with
        | nil => exact absurd rfl hB
        | cons b t => exact DecodeRune_size_pos b t
      · rw [if_neg hd]
        have : 1 ≤ delim.length := by
          cases delim with
          | nil => exact absurd rfl hd
          | cons _ _ => simp
        omega

/-- The scan stops at the first delimiter of the list that occurs. -/
theorem scanDelims_first (B : GoString) (pre post : List GoString) (d : GoString) (i : Nat)
    (hpre : ∀ p ∈ pre, Index B p = none) (hd : Index B d = some i) :
    scanDelims B (pre ++ d :: post)
      = some (B.take (if d = [] then (DecodeRuneInString B).2 else i + d.length),
              B.drop (if d = [] then (DecodeRuneInString B).2 else i + d.length)) := by
  induction pre with
  | nil => simp only [List.nil_append, scanDelims, hd]
  | cons p pre ih =>
    have hp : Index B p = none := hpre p (by simp)
    simp only [List.cons_append, scanDelims, hp]
    exact ih (fun q hq => hpre q (by simp [hq]))

theorem RU_hit (fuel : Nat) (b : StringReader) (delims : List GoString) (out rest : GoString)
    (hb : b.buffer.length > 0) (h : scanDelims b.buffer delims = some (out, rest)) :
    b.ReadUntil (fuel + 1) delims = some ((out, none), { b with buffer := rest }) := by
  simp only [StringReader.ReadUntil, if_pos hb, h]

theorem RU_eof (fuel : Nat) (b : StringReader) (delims : List GoString)
    (h : (if b.buffer.length > 0 then scanDelims b.buffer delims else none) = none)
    (he : (b.Stream.Recv).1.2 = some Error.EOF) :
    b.ReadUntil (fuel + 1) delims
      = if b.buffer.length > 0 then
          some ((b.buffer, none), { Stream := (b.Stream.Recv).2, buffer := [] })
        else some (([], some Error.EOF), { Stream := (b.Stream.Recv).2, buffer := b.buffer }) := by
  simp only [StringReader.ReadUntil, h, he]

theorem RU_chunk (fuel : Nat) (b : StringReader) (delims : List GoString) (v : GoString)
    (h : (if b.buffer.length > 0 then scanDelims b.buffer delims else none) = none)
    (he : (b.Stream.Recv).1 = (v, none)) :
    b.ReadUntil (fuel + 1) delims
      = StringReader.ReadUntil fuel { Stream := (b.Stream.Recv).2, buffer := b.buffer ++ v }
          delims := by
  simp only [StringReader.ReadUntil, h, he]
  by_cases hv : v.length > 0
  · rw [if_pos hv]
  · rw [if_neg hv]
    have : v = [] := List.length_eq_zero.mp (by omega)
    subst this
    simp

/-- One call of `ReadUntil` on a source that has the chunks `rem` to give and
then `io.EOF`. Either nothing is buffered and no chunk has a byte, and the
call returns `io.EOF`; or the call reads `k` chunks and returns a non-empty
string `out` with a nil error, which is what the scan of the delimiters cuts
off the text `B` buffered then, or is all of `B` when the source has ended
and no delimiter occurs in `B`. -/
theorem RU_spec (delims : List GoString) :
    ∀ (rem : List GoString) (b : StringReader) (fuel : Nat), b.Stream.GivesThenEOF rem →
    rem.length + 1 ≤ fuel →
    ∃ r b', b.ReadUntil fuel delims = some (r, b') ∧
      ((r = ([], some Error.EOF) ∧ b.buffer = [] ∧ rem.flatten = [] ∧ b'.buffer = [] ∧
          b'.Stream.GivesThenEOF []) ∨
       (∃ out k, r = (out, none) ∧ out ≠ [] ∧ k ≤ rem.length ∧
          b'.Stream.GivesThenEOF (rem.drop k) ∧
          out ++ b'.buffer = b.buffer ++ (rem.take k).flatten ∧
          (scanDelims (b.buffer ++ (rem.take k).flatten) delims = some (out, b'.buffer) ∨
           (scanDelims (b.buffer ++ (rem.take k).flatten) delims = none ∧ b'.buffer = [] ∧
              k = rem.length)))) := by
  intro rem
  induction rem with
  | nil =>
    intro b fuel hsrc hf
    obtain ⟨f, rfl⟩ : ∃ f, fuel = f + 1 := ⟨fuel - 1, by omega⟩
    obtain ⟨e1, e2⟩ := GivesThenEOF_nil _ hsrc
    by_cases hb : b.buffer.length > 0
    · have hne : b.buffer ≠ [] := by intro hc; rw [hc] at hb; simp at hb
      cases hsc : scanDelims b.buffer delims with
      | some p =>
        obtain ⟨out, rest⟩ := p
        obtain ⟨s1, s2⟩ := scanDelims_some b.buffer hne delims out rest hsc
        refine ⟨_, _, RU_hit f b delims out rest hb hsc, Or.inr ⟨out, 0, rfl, s1, le_refl _, ?_, ?_, ?_⟩⟩
        · simpa using hsrc
        · simpa using s2
        · left; simpa using hsc
      | none =>
        have hmiss : (if b.buffer.length > 0 then scanDelims b.buffer delims else none) = none := by
          rw [if_pos hb]; exact hsc
        refine ⟨(b.buffer, none), { Stream := (b.Stream.Recv).2, buffer := [] },
          by rw [RU_eof f b delims hmiss e1, if_pos hb],
          Or.inr ⟨b.buffer, 0, rfl, hne, le_refl _, ?_, ?_, ?_⟩⟩
        · simpa using e2
        · simp
        · right; simpa using hsc
    · have hnil : b.buffer = [] := List.length_eq_zero.mp (by omega)
      have hmiss : (if b.buffer.length > 0 then scanDelims b.buffer delims else none) = none := by
        rw [if_neg hb]
      refine ⟨([], some Error.EOF), { Stream := (b.Stream.Recv).2, buffer := b.buffer },
        by rw [RU_eof f b delims hmiss e1, if_neg hb], Or.inl ⟨rfl, hnil, rfl, hnil, e2⟩⟩
  | cons x rest ih =>
    intro b fuel hsrc hf
    obtain ⟨f, rfl⟩ : ∃ f, fuel = f + 1 := ⟨fuel - 1, by omega⟩
    obtain ⟨e1, e2⟩ := GivesThenEOF_cons _ x rest hsrc
    have hread : ∀ (hmiss : (if b.buffer.length > 0 then scanDelims b.buffer delims else none)
          = none), _ := fun hmiss => RU_chunk f b delims x hmiss e1
    have hgo : (if b.buffer.length > 0 then scanDelims b.buffer delims else none) = none →
        ∃ r b', b.ReadUntil (f + 1) delims = some (r, b') ∧
      ((r = ([], some Error.EOF) ∧ b.buffer = [] ∧ (x :: rest).flatten = [] ∧ b'.buffer = [] ∧
          b'.Stream.GivesThenEOF []) ∨
       (∃ out k, r = (out, none) ∧ out ≠ [] ∧ k ≤ (x :: rest).length ∧
          b'.Stream.GivesThenEOF ((x :: rest).drop k) ∧
          out ++ b'.buffer = b.buffer ++ ((x :: rest).take k).flatten ∧
          (scanDelims (b.buffer ++ ((x :: rest).take k).flatten) delims = some (out, b'.buffer) ∨
           (scanDelims (b.buffer ++ ((x :: rest).take k).flatten) delims = none ∧
              b'.buffer = [] ∧ k = (x :: rest).length)))) := by
      intro hmiss
      obtain ⟨r, b', h1, h2⟩ := ih { Stream := (b.Stream.Recv).2, buffer := b.buffer ++ x } f e2
        (by simp at hf; omega)
      refine ⟨r, b', by rw [hread hmiss]; exact h1, ?_⟩
      rcases h2 with ⟨a1, a2, a3, a4, a5⟩ | ⟨out, k, a1, a2, a3, a4, a5, a6⟩
      · left
        have a2' : b.buffer ++ x = [] := a2
        have hb0 : b.buffer = [] := (List.append_eq_nil.mp a2').1
        have hx0 : x = [] := (List.append_eq_nil.mp a2').2
        exact ⟨a1, hb0, by simp [hx0, a3], a4, a5⟩
      · right
        refine ⟨out, k + 1, a1, a2, by simp; omega, by simpa using a4, ?_, ?_⟩
        · simpa [List.append_assoc] using a5
        · simpa [List.append_assoc] using a6
    by_cases hb : b.buffer.length > 0
    · have hne : b.buffer ≠ [] := by intro hc; rw [hc] at hb; simp at hb
      cases hsc : scanDelims b.buffer delims with
      | some p =>
        obtain ⟨out, rst⟩ := p
        obtain ⟨s1, s2⟩ := scanDelims_some b.buffer hne delims out rst hsc
        refine ⟨_, _, RU_hit f b delims out rst hb hsc,
          Or.inr ⟨out, 0, rfl, s1, by simp, ?_, ?_, ?_⟩⟩
        · simpa using hsrc
        · simpa using s2
        · left; simpa using hsc
      | none => exact hgo (by rw [if_pos hb]; exact hsc)
    · exact hgo (by rw [if_neg hb])

/-- Draining a `StringReader` whose calls of `ReadUntil` each take a
non-empty piece off the text still to come (what is buffered followed by what
the source still gives): a property `G` of the text and the list of pieces
that holds of the empty text and is passed on by each call holds of the whole
output. -/
theorem RU_drain_generic (delims : List GoString) (I : StringReader → List GoString → Prop)
    (G : GoString → List GoString → Prop) (hG : G [] [])
    (hstep : ∀ (b : StringReader) (rem : List GoString) (fuel : Nat), I b rem →
      rem.length + 1 ≤ fuel →
      ∃ r b', b.ReadUntil fuel delims = some (r, b') ∧
        ((r = ([], some Error.EOF) ∧ b.buffer ++ rem.flatten = []) ∨
         (∃ out rem', r = (out, none) ∧ out ≠ [] ∧ I b' rem' ∧ rem'.length ≤ rem.length ∧
            out ++ (b'.buffer ++ rem'.flatten) = b.buffer ++ rem.flatten ∧
            ∀ outs, G (b'.buffer ++ rem'.flatten) outs →
              G (b.buffer ++ rem.flatten) (out :: outs)))) :
    ∀ (L : Nat) (b : StringReader) (rem : List GoString), I b rem →
    (b.buffer ++ rem.flatten).length ≤ L →
    ∀ fuel n, rem.length + 1 ≤ fuel → L < n →
    ∃ outs b', StringReader.drain fuel delims n b = some ((outs, Error.EOF), b') ∧
      G (b.buffer ++ rem.flatten) outs := by
  intro L
  induction L with
  | zero =>
    intro b rem hI hL fuel n hf hn
    obtain ⟨n', rfl⟩ : ∃ n', n = n' + 1 := ⟨n - 1, by omega⟩
    obtain ⟨r, b', h1, h2⟩ := hstep b rem fuel hI hf
    rcases h2 with ⟨a1, a2⟩ | ⟨out, rem', a1, a2, _, _, a5, _⟩
    · subst a1
      refine ⟨[], b', by simp [StringReader.drain, h1], ?_⟩
      rw [a2]; exact hG
    · exfalso
      have : (out ++ (b'.buffer ++ rem'.flatten)).length = (b.buffer ++ rem.flatten).length := by
        rw [a5]
      have hpos : 1 ≤ out.length := by
        cases out with
        | nil => exact absurd rfl a2
        | cons _ _ => simp
      rw [List.length_append] at this
      omega
  | succ L ih =>
    intro b rem hI hL fuel n hf hn
    obtain ⟨n', rfl⟩ : ∃ n', n = n' + 1 := ⟨n - 1, by omega⟩
    obtain ⟨r, b', h1, h2⟩ := hstep b rem fuel hI hf
    rcases h2 with ⟨a1, a2⟩ | ⟨out, rem', a1, a2, a3, a4, a5, a6⟩
    · subst a1
      refine ⟨[], b', by simp [StringReader.drain, h1], ?_⟩
      rw [a2]; exact hG
    · subst a1
      have hlen : (out ++ (b'.buffer ++ rem'.flatten)).length
          = (b.buffer ++ rem.flatten).length := by rw [a5]
      have hpos : 1 ≤ out.length := by
        cases out with
        | nil => exact absurd rfl a2
        | cons _ _ => simp
      rw [List.length_append] at hlen
      obtain ⟨outs, b2, d1, d2⟩ := ih b' rem' a3 (by omega) fuel n' (by omega) (by omega)
      refine ⟨out :: outs, b2, ?_, a6 outs d2⟩
      simp [StringReader.drain, h1, d1]

/-- C27 (StringReader.ReadUntil is lossless). For every list of delimiters and
every source that gives finitely many chunks and then `io.EOF`, the calls of
`ReadUntil` up to the first `io.EOF` return strings that are all non-empty
and concatenate to the concatenation of the chunks; the calls do return,
within a number of loop iterations bounded by the number of chunks. -/
theorem ReadUntil_lossless (delims : List GoString) (src : Stream GoString)
    (chunks : List GoString) (hsrc : src.GivesThenEOF chunks) :
    ∀ fuel n, chunks.length + 1 ≤ fuel → chunks.flatten.length < n →
    ∃ out b', (NewStringReader (some src)).drain fuel delims n = some ((out, Error.EOF), b') ∧
      out.flatten = chunks.flatten ∧ ∀ o ∈ out, o ≠ [] := by
  intro fuel n hf hn
  have hgen := RU_drain_generic delims (fun b rem => b.Stream.GivesThenEOF rem)
    (fun text outs => outs.flatten = text ∧ ∀ o ∈ outs, o ≠ []) (by simp)
    (by
      intro b rem fuel hI hfuel
      obtain ⟨r, b', h1, h2⟩ := RU_spec delims rem b fuel hI hfuel
      refine ⟨r, b', h1, ?_⟩
      rcases h2 with ⟨a1, a2, a3, _, _⟩ | ⟨out, k, a1, a2, a3, a4, a5, _⟩
      · left; exact ⟨a1, by rw [a2, a3]; rfl⟩
      · right
        have htext : out ++ (b'.buffer ++ (rem.drop k).flatten) = b.buffer ++ rem.flatten := by
          rw [← List.append_assoc, a5, List.append_assoc, ← List.flatten_append,
            List.take_append_drop]
        refine ⟨out, rem.drop k, a1, a2, a4, by simp, htext, ?_⟩
        intro outs hG
        refine ⟨?_, ?_⟩
        · rw [List.flatten_cons, hG.1, htext]
        · intro o ho
          rcases List.mem_cons.mp ho with rfl | ho
          · exact a2
          · exact hG.2 o ho)
    chunks.flatten.length (NewStringReader (some src)) chunks hsrc
    (by simp [NewStringReader]) fuel n hf hn
  obtain ⟨outs, b', d1, d2, d3⟩ := hgen
  exact ⟨outs, b', d1, by simpa [NewStringReader] using d2, d3⟩

theorem ReadUntil_lossless_witness :
    ∃ out b', (NewStringReader (some (FromSlice [str "foo&bar", str "baz|end"]))).drain 3
        [str "&", str "|"] 15 = some ((out, Error.EOF), b') ∧
      out.flatten = [str "foo&bar", str "baz|end"].flatten ∧ ∀ o ∈ out, o ≠ [] :=
  ReadUntil_lossless [str "&", str "|"] (FromSlice [str "foo&bar", str "baz|end"])
    [str "foo&bar", str "baz|end"] (FromSlice_GivesThenEOF _) 3 15 (by decide) (by decide)

/-- C28, as stated, fails for the empty delimiter. With the delimiters `""` and
`"b"` and the text `"ab"`, both delimiters occur, `""` comes first in the list
and its first occurrence is at offset 0, so the text up to and including that
occurrence is empty; `ReadUntil` returns `"a"`. -/
theorem ReadUntil_list_order_counterexample :
    Index (str "ab") (str "") = some 0 ∧ Index (str "ab") (str "b") = some 1 ∧
    (str "ab").take (0 + (str "").length) = str "" ∧
    ((StringReader.ReadUntil 1 ⟨FromSlice [], str "ab"⟩ [str "", str "b"]).map
      (fun r => (r.1, r.2.buffer))) = some ((str "a", none), str "b") ∧
    (((NewStringReader (some (FromSlice [str "ab"]))).ReadUntil 2 [str "", str "b"]).map
      (fun r => (r.1, r.2.buffer))) = some ((str "a", none), str "b") := by
  decide

/-- C28, amended (ReadUntil cuts by delimiter list order). When the buffered
text contains an occurrence of a non-empty delimiter `d` and of none of the
delimiters listed before `d`, `ReadUntil` returns at once, without reading the
source, the buffered text up to and including the first occurrence of `d`,
and keeps the rest in the buffer, wherever the delimiters listed after `d`
occur in the text. -/
theorem ReadUntil_cuts_by_list_order (b : StringReader) (pre post : List GoString)
    (d : GoString) (i fuel : Nat) (hpre : ∀ p ∈ pre, Index b.buffer p = none)
    (hd : Index b.buffer d = some i) (hne : d ≠ []) :
    b.ReadUntil (fuel + 1) (pre ++ d :: post)
      = some ((b.buffer.take (i + d.length), none),
              { Stream := b.Stream, buffer := b.buffer.drop (i + d.length) }) := by
  have hlen := Index_some_length b.buffer d i hd
  have hpos : b.buffer.length > 0 := by
    cases d with
    | nil => exact absurd rfl hne
    | cons _ _ => have := hlen.1; simp at this; omega
  have hsc := scanDelims_first b.buffer pre post d i hpre hd
  rw [if_neg hne] at hsc
  exact RU_hit fuel b (pre ++ d :: post) _ _ hpos hsc

theorem ReadUntil_cuts_by_list_order_witness :
    StringReader.ReadUntil (0 + 1) ⟨FromSlice [], str "foo&bar|end"⟩
        ([str "#"] ++ str "|" :: [str "&"])
      = some (((str "foo&bar|end").take (7 + (str "|").length), none),
              { Stream := FromSlice [], buffer := (str "foo&bar|end").drop (7 + (str "|").length) }) :=
  ReadUntil_cuts_by_list_order ⟨FromSlice [], str "foo&bar|end"⟩ [str "#"] [str "&"] (str "|")
    7 0 (by decide) (by decide) (by decide)

/-- With the empty delimiter the scan cuts the first rune off the buffer. -/
theorem scanDelims_empty (B : GoString) :
    scanDelims B [[]] = some (B.take (DecodeRuneInString B).2, B.drop (DecodeRuneInString B).2) := by
  simp [scanDelims, Index_nil_sub]

/-- The first rune of valid UTF-8: its bytes, and the runes of the rest. -/
theorem runes_first_valid (B R : GoString) (hB : ValidString B = true) (hne : B ≠ []) :
    B.take (DecodeRuneInString B).2 = encodeRune (DecodeRuneInString B).1 ∧
    ValidString (B.drop (DecodeRuneInString B).2) = true ∧
    runes (B ++ R) = (DecodeRuneInString B).1 :: runes (B.drop (DecodeRuneInString B).2 ++ R) := by
  cases B with
  | nil => exact absurd rfl hne
  | cons x t =>
    obtain ⟨h1, h2⟩ := (ValidString_cons x t).mp hB
    refine ⟨(decode_roundtrip x t h1).symm, h2, ?_⟩
    rw [runes_append_valid _ _ hB, runes_cons, runes_append_valid _ _ h2]
    rfl

/-- C29 (StringReader.ReadUntil with an empty delimiter splits into code
points). With the delimiter list `[""]` and a source that gives finitely many
chunks, each of them valid UTF-8, and then `io.EOF`, the calls of `ReadUntil`
return the encodings of the code points of the concatenated chunks, one for
each call and in order, and then `io.EOF`. -/
theorem ReadUntil_empty_delim_splits_runes (src : Stream GoString) (chunks : List GoString)
    (hsrc : src.GivesThenEOF chunks) (hv : ∀ c ∈ chunks, ValidString c = true) :
    ∀ fuel n, chunks.length + 1 ≤ fuel → chunks.flatten.length < n →
    ∃ b', (NewStringReader (some src)).drain fuel [[]] n
      = some (((runes chunks.flatten).map encodeRune, Error.EOF), b') := by
  intro fuel n hf hn
  have hgen := RU_drain_generic [[]]
    (fun b rem => b.Stream.GivesThenEOF rem ∧ ValidString b.buffer = true ∧
      ∀ c ∈ rem, ValidString c = true)
    (fun text outs => outs = (runes text).map encodeRune) (by simp [runes_nil])
    (by
      intro b rem fuel hI hfuel
      obtain ⟨hI1, hI2, hI3⟩ := hI
      obtain ⟨r, b', h1, h2⟩ := RU_spec [[]] rem b fuel hI1 hfuel
      refine ⟨r, b', h1, ?_⟩
      rcases h2 with ⟨a1, a2, a3, _, _⟩ | ⟨out, k, a1, a2, a3, a4, a5, a6⟩
      · left; exact ⟨a1, by rw [a2, a3]; rfl⟩
      · right
        have htext : out ++ (b'.buffer ++ (rem.drop k).flatten) = b.buffer ++ rem.flatten := by
          rw [← List.append_assoc, a5, List.append_assoc, ← List.flatten_append,
            List.take_append_drop]
        have hsc := scanDelims_empty (b.buffer ++ (rem.take k).flatten)
        have hBv : ValidString (b.buffer ++ (rem.take k).flatten) = true :=
          ValidString_append _ _ hI2
            (ValidString_flatten _ (fun c hc => hI3 c (List.mem_of_mem_take hc)))
        have hBne : b.buffer ++ (rem.take k).flatten ≠ [] := by
          intro hc
          rw [hc] at a5
          exact a2 (List.append_eq_nil.mp a5).1
        rcases a6 with a6 | ⟨a6, _, _⟩
        · rw [hsc] at a6
          simp only [Option.some.injEq, Prod.mk.injEq] at a6
          obtain ⟨o1, o2⟩ := a6
          obtain ⟨f1, f2, f3⟩ := runes_first_valid (b.buffer ++ (rem.take k).flatten)
            (rem.drop k).flatten hBv hBne
          refine ⟨out, rem.drop k, a1, a2,
            ⟨a4, by rw [← o2]; exact f2, fun c hc => hI3 c (List.mem_of_mem_drop hc)⟩,
            by simp, htext, ?_⟩
          intro outs hG
          rw [hG]
          have e1 : b.buffer ++ rem.flatten
              = (b.buffer ++ (rem.take k).flatten) ++ (rem.drop k).flatten := by
            rw [List.append_assoc, ← List.flatten_append, List.take_append_drop]
          rw [e1, f3, List.map_cons, ← o1, f1, ← o2]
        · rw [hsc] at a6
          simp at a6)
    chunks.flatten.length (NewStringReader (some src)) chunks
    ⟨hsrc, ValidString_nil, hv⟩ (by simp [NewStringReader]) fuel n hf hn
  obtain ⟨outs, b', d1, d2⟩ := hgen
  refine ⟨b', ?_⟩
  rw [d1, d2]
  simp [NewStringReader]

theorem ReadUntil_empty_delim_splits_runes_witness :
    ∃ b', (NewStringReader (some (FromSlice [str "你好", str "世界"]))).drain 3 [[]] 13
      = some (((runes [str "你好", str "世界"].flatten).map encodeRune, Error.EOF), b') :=
  ReadUntil_empty_delim_splits_runes (FromSlice [str "你好", str "世界"])
    [str "你好", str "世界"] (FromSlice_GivesThenEOF _) (by decide) 3 13 (by decide) (by decide)

/-! ## WithBuffer -/

theorem firstAnswers_succ {T : Type} (s : Stream T) (n : Nat) :
    s.firstAnswers (n + 1) = s.firstAnswers n ++ [s.answers (s.calls + n)] := by
  simp [Stream.firstAnswers, List.range_succ]

theorem BufInv_init {T : Type} [Inhabited T] (src : Stream T) :
    BufInv src (WithBuffer src) 0 [] :=
  { answers := rfl
    calls := rfl
    holds := Holds_zero
    content := by simp [WithBuffer, Stream.firstAnswers]
    early := by intro j hj; omega
    atRecv := by intro _ j hj; omega
    held := by intro h; exact absurd rfl h }

/-- Every action of either thread keeps the invariant. -/
theorem BufInv_step {T : Type} [Inhabited T] (src0 : Stream T) (w w' : withBuffer T)
    (P : Nat) (qs : List (valWithErr T)) (t : Thread) (h : BufInv src0 w P qs)
    (hs : w.step t = some w') : ∃ P' qs', BufInv src0 w' P' qs' := by
  cases t with
  | producer =>
    cases hp : w.producer with
    | recv =>
      simp only [withBuffer.step, hp, Option.some.injEq] at hs
      subst hs
      have hc := h.content
      rw [hp] at hc
      simp only [reduceCtorEq, if_false, List.append_nil] at hc
      refine ⟨P + 1, qs, ⟨h.answers, ?_, h.holds, ?_, ?_, ?_, ?_⟩⟩
      · show w.src.calls + 1 = _
        rw [h.calls]; omega
      · show w.results ++ qs.map (fun v => (v.val, v.err)) ++
            [((w.src.Recv).1.1, (w.src.Recv).1.2)] = _
        rw [firstAnswers_succ, hc]
        simp [Stream.Recv, h.answers, h.calls]
      · intro j hj
        exact h.atRecv hp j (by omega)
      · intro hc2; simp at hc2
      · intro _
        refine ⟨by omega, ?_⟩
        show ((w.src.Recv).1.1, (w.src.Recv).1.2) = _
        simp [Stream.Recv, h.answers, h.calls]
    | push =>
      simp only [withBuffer.step, hp, Option.some.injEq] at hs
      subst hs
      have hc := h.content
      rw [hp] at hc
      simp only [if_true] at hc
      refine ⟨P, qs ++ [(⟨w.val, w.err⟩ : valWithErr T)],
        ⟨h.answers, h.calls, Holds_Push _ _ _ h.holds, ?_, h.early, ?_, ?_⟩⟩
      · show w.results ++ (qs ++ [(⟨w.val, w.err⟩ : valWithErr T)]).map
            (fun v => (v.val, v.err)) ++ [] = _
        rw [← hc]
        simp
      · intro hc2; simp at hc2
      · intro _
        exact h.held (by rw [hp]; simp)
    | signal =>
      simp only [withBuffer.step, hp, Option.some.injEq] at hs
      subst hs
      have hc := h.content
      rw [hp] at hc
      simp only [reduceCtorEq, if_false, List.append_nil] at hc
      obtain ⟨hP, hheld⟩ := h.held (by rw [hp]; simp)
      cases he : w.err with
      | none =>
        refine ⟨P, qs, ⟨h.answers, h.calls, h.holds, ?_, h.early, ?_, ?_⟩⟩
        · simp [he, hc]
        · intro _ j hj
          by_cases hj2 : j + 1 < P
          · exact h.early j hj2
          · have : j = P - 1 := by omega
            subst this
            rw [← hheld]
            exact he
        · intro hc2
          simp [he] at hc2
      | some e =>
        refine ⟨P, qs, ⟨h.answers, h.calls, h.holds, ?_, h.early, ?_, ?_⟩⟩
        · simp [he, hc]
        · intro hc2
          simp [he] at hc2
        · intro _
          rw [he] at hheld
          exact ⟨hP, hheld⟩
    | returned =>
      simp [withBuffer.step, hp] at hs
  | consumer =>
    cases hcns : w.consumer with
    | outside =>
      simp only [withBuffer.step, hcns, Option.some.injEq] at hs
      subst hs
      exact ⟨P, qs, ⟨h.answers, h.calls, h.holds, h.content, h.early, h.atRecv, h.held⟩⟩
    | pop =>
      cases qs with
      | nil =>
        have hpop := Pop_empty w.queue h.holds
        simp only [withBuffer.step, hcns, hpop, Bool.false_eq_true, if_false,
          Option.some.injEq] at hs
        subst hs
        exact ⟨P, [], ⟨h.answers, h.calls, h.holds, h.content, h.early, h.atRecv, h.held⟩⟩
      | cons x qs1 =>
        obtain ⟨p1, p2⟩ := Pop_front w.queue x qs1 h.holds
        have p1b : (w.queue.Pop).1.2 = true := by rw [p1]
        have p1a : (w.queue.Pop).1.1 = x := by rw [p1]
        simp only [withBuffer.step, hcns, p1b, if_true, Option.some.injEq] at hs
        subst hs
        refine ⟨P, qs1, ⟨h.answers, h.calls, p2, ?_, h.early, h.atRecv, h.held⟩⟩
        show (w.results ++ [((w.queue.Pop).1.1.val, (w.queue.Pop).1.1.err)]) ++
            qs1.map (fun v => (v.val, v.err)) ++
            (if w.producer = producerAt.push then [(w.val, w.err)] else []) = _
        rw [← h.content, p1a]
        simp
    | wait =>
      simp only [withBuffer.step, hcns, Option.some.injEq] at hs
      subst hs
      exact ⟨P, qs, ⟨h.answers, h.calls, h.holds, h.content, h.early, h.atRecv, h.held⟩⟩
    | waiting =>
      simp [withBuffer.step, hcns] at hs

theorem BufInv_run {T : Type} [Inhabited T] (src0 : Stream T) :
    ∀ (sched : List Thread) (w w' : withBuffer T) (P : Nat) (qs : List (valWithErr T)),
    BufInv src0 w P qs → withBuffer.run sched w = some w' → ∃ P' qs', BufInv src0 w' P' qs' := by
  intro sched
  induction sched with
  | nil =>
    intro w w' P qs h hr
    simp only [withBuffer.run, Option.some.injEq] at hr
    subst hr
    exact ⟨P, qs, h⟩
  | cons t rest ih =>
    intro w w' P qs h hr
    simp only [withBuffer.run] at hr
    cases hs : w.step t with
    | none => rw [hs] at hr; simp at hr
    | some w1 =>
      rw [hs] at hr
      obtain ⟨P1, qs1, h1⟩ := BufInv_step src0 w w1 P qs t h hs
      exact ih w1 w' P1 qs1 h1 hr

/-- C22 (WithBuffer preserves content and order, but a result can fail to be
delivered). In every state that the two threads of `WithBuffer(src)` can reach,
what the calls of `Recv` have returned so far is an initial part of the
answers of the source, in order, none of them after an answer with an error.
Delivery is not guaranteed. With the source `Empty[int]()`, let the caller
of `Recv` take the lock and find the queue empty; let the goroutine then read
`(0, io.EOF)`, push it, call `cond.Signal()` while nobody waits, and return;
the caller then enters `cond.Wait()`. In the state reached the answer of the
source is in the queue, the call has not returned, and neither thread can
move. Had the goroutine moved first, the call would have returned
`(0, io.EOF)`. -/
theorem WithBuffer_lost_wakeup :
    (∀ (T : Type) [Inhabited T] (src : Stream T) (sched : List Thread) (w : withBuffer T),
      withBuffer.run sched (WithBuffer src) = some w →
      ∃ P, w.results <+: src.firstAnswers P ∧
        ∀ j, j + 1 < P → (src.answers (src.calls + j)).2 = none) ∧
    (∃ w : withBuffer Nat,
      withBuffer.run [Thread.consumer, Thread.consumer, Thread.producer, Thread.producer,
        Thread.producer, Thread.consumer] (WithBuffer Empty) = some w ∧
      w.results = [] ∧ w.consumer = consumerAt.waiting ∧ w.producer = producerAt.returned ∧
      ((w.queue.Pop).1.1.val, (w.queue.Pop).1.1.err, (w.queue.Pop).1.2)
        = (0, some Error.EOF, true) ∧
      ∀ t, w.step t = none) ∧
    (∃ w : withBuffer Nat,
      withBuffer.run [Thread.producer, Thread.producer, Thread.producer, Thread.consumer,
        Thread.consumer] (WithBuffer Empty) = some w ∧
      w.results = [(0, some Error.EOF)]) := by
  refine ⟨?_, ⟨_, rfl, rfl, rfl, rfl, rfl, ?_⟩, ⟨_, rfl, rfl⟩⟩
  · intro T _ src sched w hr
    obtain ⟨P, qs, h⟩ := BufInv_run src sched (WithBuffer src) w 0 [] (BufInv_init src) hr
    refine ⟨P, ?_, h.early⟩
    have := h.content
    rw [List.append_assoc] at this
    exact ⟨_, this⟩
  · intro t
    cases t <;> rfl

/-! ## FirstNonEmpty -/

/-- A loop iteration of `concatStream.Recv` that does not return costs one
unit of fuel. -/
theorem concat_drain_silent {T : Type} [Inhabited T] (fuel n : Nat) (m m1 : concatStream T)
    (r : (List T × Error) × concatStream T)
    (hstep : m.Recv (fuel + 1) = concatStream.Recv fuel m1)
    (hd : concatStream.drain fuel n m1 = some r) :
    concatStream.drain (fuel + 1) n m = some r := by
  cases n with
  | zero => simp [concatStream.drain] at hd
  | succ n =>
    simp only [concatStream.drain] at hd ⊢
    rw [hstep]
    cases hq : concatStream.Recv fuel m1 with
    | none => rw [hq] at hd; simp at hd
    | some q =>
      rw [hq] at hd
      obtain ⟨⟨v, err⟩, m2⟩ := q
      cases err with
      | some e => exact hd
      | none =>
        simp only at hd ⊢
        cases hd2 : concatStream.drain fuel n m2 with
        | none => rw [hd2] at hd; simp at hd
        | some q2 =>
          rw [hd2] at hd
          rw [concat_drain_mono fuel n m2 q2 hd2]
          exact hd

theorem fne_Recv_item {T : Type} [Inhabited T] (fuel : Nat)
    (done rest : List (Stream T)) (s : Stream T) (x : T) (ne : Bool)
    (hr : (s.Recv).1 = (x, none)) :
    concatStream.Recv (fuel + 1) ⟨done ++ s :: rest, done.length, ne, true⟩
      = some ((x, none), ⟨done ++ (s.Recv).2 :: rest, done.length, true, true⟩) := by
  have hlt : done.length < (done ++ s :: rest).length := by simp
  rw [concatStream.Recv, dif_pos hlt]
  simp only [get_append_middle done s rest hlt, hr, set_append_middle]
  simp

theorem fne_Recv_skip {T : Type} [Inhabited T] (fuel : Nat)
    (done rest : List (Stream T)) (s : Stream T)
    (hr : (s.Recv).1.2 = some Error.EOF) :
    concatStream.Recv (fuel + 1) ⟨done ++ s :: rest, done.length, false, true⟩
      = concatStream.Recv fuel
          ⟨(done ++ [(s.Recv).2]) ++ rest, (done ++ [(s.Recv).2]).length, false, true⟩ := by
  have hlt : done.length < (done ++ s :: rest).length := by simp
  rw [concatStream.Recv, dif_pos hlt]
  simp only [get_append_middle done s rest hlt, hr, set_append_middle]
  simp

theorem fne_Recv_stop {T : Type} [Inhabited T] (fuel : Nat)
    (done rest : List (Stream T)) (s : Stream T)
    (hr : (s.Recv).1.2 = some Error.EOF) :
    concatStream.Recv (fuel + 1) ⟨done ++ s :: rest, done.length, true, true⟩
      = some ((default, some Error.EOF), ⟨done ++ (s.Recv).2 :: rest, done.length, true, true⟩) := by
  have hlt : done.length < (done ++ s :: rest).length := by simp
  rw [concatStream.Recv, dif_pos hlt]
  simp only [get_append_middle done s rest hlt, hr, set_append_middle]
  simp

/-- The streams without items at the beginning of the list are read once
each and passed over. -/
theorem fne_drain_skip {T : Type} [Inhabited T] (tail : List (Stream T)) :
    ∀ (pre done : List (Stream T)), (∀ p ∈ pre, p.Yields [] Error.EOF) →
    ∃ done', done'.length = done.length + pre.length ∧
      ∀ fuel n r, concatStream.drain fuel n ⟨done' ++ tail, done'.length, false, true⟩ = some r →
        concatStream.drain (fuel + pre.length) n
          ⟨done ++ (pre ++ tail), done.length, false, true⟩ = some r := by
  intro pre
  induction pre with
  | nil =>
    intro done _
    exact ⟨done, by simp, fun fuel n r h => by simpa using h⟩
  | cons p pre ih =>
    intro done hpre
    have hp := Yields_nil p _ (hpre p (by simp))
    obtain ⟨done', h1, h2⟩ := ih (done ++ [(p.Recv).2]) (fun q hq => hpre q (by simp [hq]))
    refine ⟨done', by simp at h1 ⊢; omega, ?_⟩
    intro fuel n r h
    have := h2 fuel n r h
    have hstep := fne_Recv_skip (fuel + pre.length) done (pre ++ tail) p hp
    exact concat_drain_silent (fuel + pre.length) n _ _ r hstep this

/-- Once an item has been given, the current stream is drained and the
stream of `FirstNonEmpty` ends with it. -/
theorem fne_drain_current {T : Type} [Inhabited T] (fuel : Nat) (done rest : List (Stream T)) :
    ∀ (ys : List T) (s : Stream T) (n : Nat), s.GivesThenEOF ys → ys.length < n →
    ∃ s', s'.GivesThenEOF [] ∧
      concatStream.drain (fuel + 1) n ⟨done ++ s :: rest, done.length, true, true⟩
        = some ((ys, Error.EOF), ⟨done ++ s' :: rest, done.length, true, true⟩) := by
  intro ys
  induction ys with
  | nil =>
    intro s n hs hn
    obtain ⟨c, rfl⟩ : ∃ c, n = c + 1 := ⟨n - 1, by omega⟩
    obtain ⟨e1, e2⟩ := GivesThenEOF_nil s hs
    refine ⟨(s.Recv).2, e2, ?_⟩
    simp only [concatStream.drain, fne_Recv_stop fuel done rest s e1]
  | cons y ys ih =>
    intro s n hs hn
    obtain ⟨c, rfl⟩ : ∃ c, n = c + 1 := ⟨n - 1, by omega⟩
    obtain ⟨e1, e2⟩ := GivesThenEOF_cons s y ys hs
    obtain ⟨s', g1, g2⟩ := ih (s.Recv).2 c e2 (by simp at hn; omega)
    refine ⟨s', g1, ?_⟩
    simp only [concatStream.drain, fne_Recv_item fuel done rest s y true e1, g2]

/-- After the end of the first non-empty stream every call returns `io.EOF`
and reads that stream only. -/
theorem fne_recvs_after {T : Type} [Inhabited T] (fuel : Nat) (done rest : List (Stream T)) :
    ∀ (j : Nat) (s : Stream T), s.GivesThenEOF [] →
    ∃ s', s'.GivesThenEOF [] ∧
      recvsWith (concatStream.Recv (fuel + 1)) j ⟨done ++ s :: rest, done.length, true, true⟩
        = some (List.replicate j (default, some Error.EOF),
            ⟨done ++ s' :: rest, done.length, true, true⟩) := by
  intro j
  induction j with
  | zero => intro s hs; exact ⟨s, hs, rfl⟩
  | succ j ih =>
    intro s hs
    obtain ⟨e1, e2⟩ := GivesThenEOF_nil s hs
    obtain ⟨s', g1, g2⟩ := ih (s.Recv).2 e2
    refine ⟨s', g1, ?_⟩
    simp only [recvsWith, fne_Recv_stop fuel done rest s e1, g2, List.replicate_succ]

theorem avoidNil_empty {T : Type} [Inhabited T] (pre : List (Option (Stream T)))
    (hpre : ∀ p ∈ pre, EntryGives p []) : ∀ q ∈ avoidNils pre, q.Yields [] Error.EOF := by
  intro q hq
  simp only [avoidNils, List.mem_map] at hq
  obtain ⟨p, hp, rfl⟩ := hq
  exact avoidNil_gives p [] (hpre p hp)

/-- C31 (FirstNonEmpty yields only the first non-empty stream). Let the
arguments `pre` be streams that give no item and then `io.EOF` (or nil).
If they are all the arguments, the stream of `FirstNonEmpty` gives no item
and `io.EOF` on every call. If they are followed by a stream `s` that gives
the items `x :: xs` and then `io.EOF` on every later call, and by any further
arguments `post`, the stream of `FirstNonEmpty` gives exactly `x :: xs` and
then `io.EOF` on every later call, and the streams `post` are never read:
they are in the state as they were given. -/
theorem FirstNonEmpty_first_stream {T : Type} [Inhabited T] (pre post : List (Option (Stream T)))
    (hpre : ∀ p ∈ pre, EntryGives p []) :
    (∀ fuel n, pre.length + 1 ≤ fuel → 0 < n →
      ∃ m', (FirstNonEmpty pre).drain fuel n = some (([], Error.EOF), m') ∧
        ∀ k, m'.Recv (k + 1) = some ((default, some Error.EOF), m')) ∧
    (∀ (s : Stream T) (x : T) (xs : List T), s.GivesThenEOF (x :: xs) →
      ∀ fuel n, pre.length + 1 ≤ fuel → xs.length + 1 < n →
      ∃ m', (FirstNonEmpty (pre ++ some s :: post)).drain fuel n
          = some ((x :: xs, Error.EOF), m') ∧
        m'.streams.drop (pre.length + 1) = avoidNils post ∧
        ∀ j k, ∃ m'', recvsWith (concatStream.Recv (k + 1)) j m'
            = some (List.replicate j (default, some Error.EOF), m'') ∧
          m''.streams.drop (pre.length + 1) = avoidNils post) := by
  have hpre' := avoidNil_empty pre hpre
  constructor
  · intro fuel n hf hn
    obtain ⟨f, rfl⟩ : ∃ f, fuel = f + 1 + pre.length := ⟨fuel - 1 - pre.length, by omega⟩
    obtain ⟨c, rfl⟩ : ∃ c, n = c + 1 := ⟨n - 1, by omega⟩
    obtain ⟨done', h1, h2⟩ := fne_drain_skip ([] : List (Stream T)) (avoidNils pre) [] hpre'
    have hend : concatStream.drain (f + 1) (c + 1) ⟨done' ++ [], done'.length, false, true⟩
        = some (([], Error.EOF), ⟨done' ++ [], done'.length, false, true⟩) := by
      simp only [concatStream.drain]
      rw [concat_Recv_end f _ (by simp)]
    have := h2 (f + 1) (c + 1) _ hend
    simp only [avoidNils, List.length_map] at this
    refine ⟨⟨done' ++ [], done'.length, false, true⟩, ?_, fun k => concat_Recv_end k _ (by simp)⟩
    simpa [FirstNonEmpty, avoidNils] using this
  · intro s x xs hs fuel n hf hn
    obtain ⟨f, rfl⟩ : ∃ f, fuel = f + 1 + pre.length := ⟨fuel - 1 - pre.length, by omega⟩
    obtain ⟨c, rfl⟩ : ∃ c, n = c + 1 := ⟨n - 1, by omega⟩
    obtain ⟨done', h1, h2⟩ := fne_drain_skip (s :: avoidNils post) (avoidNils pre) [] hpre'
    obtain ⟨e1, e2⟩ := GivesThenEOF_cons s x xs hs
    obtain ⟨s', g1, g2⟩ := fne_drain_current f done' (avoidNils post) xs (s.Recv).2 c e2
      (by omega)
    have hfirst : concatStream.drain (f + 1) (c + 1)
        ⟨done' ++ s :: avoidNils post, done'.length, false, true⟩
        = some ((x :: xs, Error.EOF), ⟨done' ++ s' :: avoidNils post, done'.length, true, true⟩) := by
      simp only [concatStream.drain, fne_Recv_item f done' (avoidNils post) s x false e1, g2]
    have := h2 (f + 1) (c + 1) _ hfirst
    simp only [avoidNils, List.length_map] at this h1
    have hlen : done'.length = pre.length := by simpa using h1
    refine ⟨⟨done' ++ s' :: avoidNils post, done'.length, true, true⟩, ?_, ?_, ?_⟩
    · simpa [FirstNonEmpty, avoidNils, avoidNil] using this
    · show (done' ++ s' :: avoidNils post).drop (pre.length + 1) = avoidNils post
      rw [← hlen]
      simp
    · intro j k
      obtain ⟨s'', _, r2⟩ := fne_recvs_after k done' (avoidNils post) j s' g1
      refine ⟨_, r2, ?_⟩
      show (done' ++ s'' :: avoidNils post).drop (pre.length + 1) = avoidNils post
      rw [← hlen]
      simp

theorem FirstNonEmpty_first_stream_witness :
    ∃ m', (FirstNonEmpty ([some (FromSlice []), none] ++ some (FromSlice [3, 4])
          :: [some (FromSlice [5])])).drain 3 3
        = some ((3 :: [4], Error.EOF), m') ∧
      m'.streams.drop ([some (FromSlice ([] : List Nat)), none].length + 1)
        = avoidNils [some (FromSlice [5])] ∧
      ∀ j k, ∃ m'', recvsWith (concatStream.Recv (k + 1)) j m'
          = some (List.replicate j (default, some Error.EOF), m'') ∧
        m''.streams.drop ([some (FromSlice ([] : List Nat)), none].length + 1)
          = avoidNils [some (FromSlice [5])] :=
  (FirstNonEmpty_first_stream [some (FromSlice []), none] [some (FromSlice [5])]
    (by
      intro p hp
      simp only [List.mem_cons, List.mem_singleton, List.not_mem_nil, or_false] at hp
      rcases hp with rfl | rfl
      · exact FromSlice_Yields _
      · rfl)).2
    (FromSlice [3, 4]) 3 [4] (FromSlice_GivesThenEOF _) 3 3 (by decide) (by decide)

/-! ## SkipUntil and SkipN -/

theorem drainWith_err {σ T : Type} (recv : σ → Option ((T × Option Error) × σ)) (n : Nat)
    (m m1 : σ) (v : T) (e : Error) (h : recv m = some ((v, some e), m1)) :
    drainWith recv (n + 1) m = some (([], e), m1) := by
  simp only [drainWith, h]

theorem drainWith_item {σ T : Type} (recv : σ → Option ((T × Option Error) × σ)) (n : Nat)
    (m m1 m2 : σ) (v : T) (vs : List T) (e : Error) (h : recv m = some ((v, none), m1))
    (hd : drainWith recv n m1 = some ((vs, e), m2)) :
    drainWith recv (n + 1) m = some ((v :: vs, e), m2) := by
  simp only [drainWith, h, hd]

/-- After the first match `SkipUntil` passes the source through. -/
theorem SkipUntil_pass {T : Type} [Inhabited T] (e : Error) (f : T → Bool) (fuel : Nat) :
    ∀ (ys : List T) (s : Stream T) (n : Nat), s.Yields ys e → ys.length < n →
    ∃ m', drainWith (skipUntil.Recv (fuel + 1)) n ⟨s, f, true⟩ = some ((ys, e), m') := by
  intro ys
  induction ys with
  | nil =>
    intro s n hs hn
    obtain ⟨n', rfl⟩ : ∃ n', n = n' + 1 := ⟨n - 1, by omega⟩
    have he := Yields_nil s e hs
    have hr : (s.Recv).1 = ((s.Recv).1.1, some e) := Prod.ext rfl he
    refine ⟨⟨(s.Recv).2, f, true⟩, drainWith_err _ n' _ _ (s.Recv).1.1 e ?_⟩
    simp only [skipUntil.Recv, if_true]
    rw [← hr]
  | cons y ys ih =>
    intro s n hs hn
    obtain ⟨n', rfl⟩ : ∃ n', n = n' + 1 := ⟨n - 1, by omega⟩
    obtain ⟨e1, e2⟩ := Yields_cons s y ys e hs
    obtain ⟨m', hm'⟩ := ih (s.Recv).2 n' e2 (by simp at hn; omega)
    refine ⟨m', drainWith_item _ n' _ _ _ y ys e ?_ hm'⟩
    simp only [skipUntil.Recv, if_true]
    rw [e1]

/-- The first call of `Recv` on `SkipUntil`: it reads the source up to the
first item that satisfies `f` and returns it, or returns the error of the
source when no item does. -/
theorem SkipUntil_search {T : Type} [Inhabited T] (e : Error) (f : T → Bool) :
    ∀ (xs : List T) (s : Stream T) (fuel : Nat), s.Yields xs e → xs.length + 1 ≤ fuel →
    (xs.dropWhile (fun x => !f x) = [] →
      ∃ m', skipUntil.Recv fuel ⟨s, f, false⟩ = some ((default, some e), m')) ∧
    (∀ y ys, xs.dropWhile (fun x => !f x) = y :: ys →
      ∃ s', skipUntil.Recv fuel ⟨s, f, false⟩ = some ((y, none), ⟨s', f, true⟩) ∧
        s'.Yields ys e) := by
  intro xs
  induction xs with
  | nil =>
    intro s fuel hs hf
    obtain ⟨k, rfl⟩ : ∃ k, fuel = k + 1 := ⟨fuel - 1, by omega⟩
    have he := Yields_nil s e hs
    refine ⟨fun _ => ⟨⟨(s.Recv).2, f, false⟩, ?_⟩, fun y ys h => by simp at h⟩
    simp [skipUntil.Recv, he]
  | cons x xs ih =>
    intro s fuel hs hf
    obtain ⟨k, rfl⟩ : ∃ k, fuel = k + 1 := ⟨fuel - 1, by omega⟩
    obtain ⟨e1, e2⟩ := Yields_cons s x xs e hs
    have e1a : (s.Recv).1.2 = none := by rw [e1]
    have e1b : (s.Recv).1.1 = x := by rw [e1]
    by_cases hx : f x = true
    · have hdw : (x :: xs).dropWhile (fun x => !f x) = x :: xs := by
        simp [List.dropWhile, hx]
      refine ⟨fun h => by rw [hdw] at h; simp at h, ?_⟩
      intro y ys h
      rw [hdw] at h
      simp only [List.cons.injEq] at h
      obtain ⟨rfl, rfl⟩ := h
      refine ⟨(s.Recv).2, ?_, e2⟩
      simp [skipUntil.Recv, e1a, e1b, hx]
    · have hx' : f x = false := by simpa using hx
      have hdw : (x :: xs).dropWhile (fun x => !f x) = xs.dropWhile (fun x => !f x) := by
        simp [List.dropWhile, hx']
      have hstep : skipUntil.Recv (k + 1) ⟨s, f, false⟩
          = skipUntil.Recv k ⟨(s.Recv).2, f, false⟩ := by
        simp [skipUntil.Recv, e1a, e1b, hx']
      obtain ⟨i1, i2⟩ := ih (s.Recv).2 k e2 (by simp at hf; omega)
      rw [hdw, hstep]
      exact ⟨i1, i2⟩

/-- C32 (SkipUntil returns the tail starting at the first match). For every
source that gives the items `xs` and then the error `e`, and every predicate
`f`, the stream of `SkipUntil` gives the items of `xs` from the first one that
satisfies `f` on, that one included, and then `e`; it gives no item, and then
`e`, when no item of `xs` satisfies `f`. The first call returns within
`len(xs) + 1` iterations of its loop. -/
theorem SkipUntil_tail_from_first_match {T : Type} [Inhabited T] (src : Stream T)
    (f : T → Bool) (xs : List T) (e : Error) (hsrc : src.Yields xs e) :
    (∀ fuel n, xs.length + 1 ≤ fuel → xs.length + 1 < n →
      ∃ m', drainWith (skipUntil.Recv fuel) n (SkipUntil src f)
        = some ((xs.dropWhile (fun x => !f x), e), m')) ∧
    (∀ pre y ys, xs = pre ++ y :: ys → (∀ p ∈ pre, f p = false) → f y = true →
      xs.dropWhile (fun x => !f x) = y :: ys) ∧
    ((∀ x ∈ xs, f x = false) → xs.dropWhile (fun x => !f x) = []) := by
  refine ⟨?_, ?_, ?_⟩
  · intro fuel n hf hn
    obtain ⟨k, rfl⟩ : ∃ k, fuel = k + 1 := ⟨fuel - 1, by omega⟩
    obtain ⟨n', rfl⟩ : ∃ n', n = n' + 1 := ⟨n - 1, by omega⟩
    obtain ⟨i1, i2⟩ := SkipUntil_search e f xs src (k + 1) hsrc hf
    cases hd : xs.dropWhile (fun x => !f x) with
    | nil =>
      obtain ⟨m', hm'⟩ := i1 hd
      exact ⟨m', drainWith_err _ n' _ _ default e hm'⟩
    | cons y ys =>
      obtain ⟨s', hs', hy⟩ := i2 y ys hd
      have hlen : ys.length < xs.length := by
        have := List.dropWhile_sublist (fun x => !f x) (l := xs)
        have := this.length_le
        rw [hd] at this
        simp at this
        omega
      obtain ⟨m', hm'⟩ := SkipUntil_pass e f k ys s' n' hy (by omega)
      exact ⟨m', drainWith_item _ n' _ _ _ y ys e hs' hm'⟩
  · intro pre y ys hxs hpre hy
    rw [hxs]
    clear hxs hsrc
    induction pre with
    | nil => simp [List.dropWhile, hy]
    | cons p pre ih =>
      have hp : f p = false := hpre p (by simp)
      simp only [List.cons_append, List.dropWhile, hp, Bool.not_false]
      exact ih (fun q hq => hpre q (by simp [hq]))
  · intro hall
    rw [List.dropWhile_eq_nil_iff]
    intro x hx
    simp [hall x hx]

theorem SkipUntil_tail_from_first_match_witness :
    ∃ m', drainWith (skipUntil.Recv 11) 12
        (SkipUntil (FromSlice [1, 2, 3, 4, 5, 6, 7, 8, 9, 10]) (fun i => i == 5))
      = some (([1, 2, 3, 4, 5, 6, 7, 8, 9, 10].dropWhile (fun x => !((fun i => i == 5) x)),
          Error.EOF), m') :=
  (SkipUntil_tail_from_first_match (FromSlice [1, 2, 3, 4, 5, 6, 7, 8, 9, 10])
    (fun i => i == 5) [1, 2, 3, 4, 5, 6, 7, 8, 9, 10] Error.EOF (FromSlice_Yields _)).1
    11 12 (by decide) (by decide)

/-- Once `i` has reached `n`, `SkipN` passes the source through. -/
theorem SkipN_pass {T : Type} [Inhabited T] (e : Error) (n i : Int) (hi : i ≥ n) (fuel : Nat) :
    ∀ (ys : List T) (s : Stream T) (cnt : Nat), s.Yields ys e → ys.length < cnt →
    ∃ m', drainWith (skipN.Recv (fuel + 1)) cnt ⟨s, n, i⟩ = some ((ys, e), m') := by
  intro ys
  induction ys with
  | nil =>
    intro s cnt hs hn
    obtain ⟨c, rfl⟩ : ∃ c, cnt = c + 1 := ⟨cnt - 1, by omega⟩
    have he := Yields_nil s e hs
    refine ⟨⟨(s.Recv).2, n, i⟩, drainWith_err _ c _ _ default e ?_⟩
    simp only [skipN.Recv, he]
  | cons y ys ih =>
    intro s cnt hs hn
    obtain ⟨c, rfl⟩ : ∃ c, cnt = c + 1 := ⟨cnt - 1, by omega⟩
    obtain ⟨e1, e2⟩ := Yields_cons s y ys e hs
    have e1a : (s.Recv).1.2 = none := by rw [e1]
    have e1b : (s.Recv).1.1 = y := by rw [e1]
    obtain ⟨m', hm'⟩ := ih (s.Recv).2 c e2 (by simp at hn; omega)
    refine ⟨m', drainWith_item _ c _ _ _ y ys e ?_ hm'⟩
    simp only [skipN.Recv, e1a, e1b, hi, if_true]

/-- The first call of `Recv` on `SkipN` with `k` items still to skip: it
returns the item after them, or the error of the source when there is no such
item. -/
theorem SkipN_search {T : Type} [Inhabited T] (e : Error) (n : Int) :
    ∀ (xs : List T) (s : Stream T) (i : Int) (fuel : Nat), s.Yields xs e →
    (n - i).toNat + 1 ≤ fuel →
    (xs.length ≤ (n - i).toNat →
      ∃ m', skipN.Recv fuel ⟨s, n, i⟩ = some ((default, some e), m')) ∧
    (∀ h : (n - i).toNat < xs.length,
      ∃ s' i', skipN.Recv fuel ⟨s, n, i⟩ = some ((xs.get ⟨(n - i).toNat, h⟩, none), ⟨s', n, i'⟩) ∧
        i' ≥ n ∧ s'.Yields (xs.drop ((n - i).toNat + 1)) e) := by
  intro xs
  induction xs with
  | nil =>
    intro s i fuel hs hf
    obtain ⟨k, rfl⟩ : ∃ k, fuel = k + 1 := ⟨fuel - 1, by omega⟩
    have he := Yields_nil s e hs
    refine ⟨fun _ => ⟨⟨(s.Recv).2, n, i⟩, ?_⟩, fun h => by simp at h⟩
    simp [skipN.Recv, he]
  | cons x xs ih =>
    intro s i fuel hs hf
    obtain ⟨k, rfl⟩ : ∃ k, fuel = k + 1 := ⟨fuel - 1, by omega⟩
    obtain ⟨e1, e2⟩ := Yields_cons s x xs e hs
    have e1a : (s.Recv).1.2 = none := by rw [e1]
    have e1b : (s.Recv).1.1 = x := by rw [e1]
    by_cases hi : i ≥ n
    · have hk : (n - i).toNat = 0 := by omega
      refine ⟨fun h => by rw [hk] at h; simp at h, ?_⟩
      intro h
      refine ⟨(s.Recv).2, i, ?_, hi, ?_⟩
      · simp only [skipN.Recv, e1a, e1b, hi, if_true]
        simp [hk]
      · rw [hk]; simpa using e2
    · have hstep : skipN.Recv (k + 1) ⟨s, n, i⟩ = skipN.Recv k ⟨(s.Recv).2, n, i + 1⟩ := by
        simp only [skipN.Recv, e1a, hi, if_false]
      have hk : (n - i).toNat = (n - (i + 1)).toNat + 1 := by omega
      obtain ⟨i1, i2⟩ := ih (s.Recv).2 (i + 1) k e2 (by omega)
      rw [hstep]
      refine ⟨fun h => i1 (by simp at h; omega), ?_⟩
      intro h
      have h' : (n - (i + 1)).toNat < xs.length := by simp at h; omega
      obtain ⟨s', i', g1, g2, g3⟩ := i2 h'
      refine ⟨s', i', ?_, g2, ?_⟩
      · rw [g1]
        simp only [List.get_eq_getElem, hk, List.getElem_cons_succ]
      · rw [hk, List.drop_succ_cons]
        exact g3

/-- C33 (SkipN drops exactly n items). For every source that gives the items
`xs` and then the error `e`, and every `n`, the stream of `SkipN` gives the
items of `xs` without the first `n` of them (no item when `n` is at least the
length of `xs`, all of them when `n` is not positive) and then `e`. The first
call returns within `n + 1` iterations of its loop. -/
theorem SkipN_drops_n {T : Type} [Inhabited T] (src : Stream T) (n : Int) (xs : List T)
    (e : Error) (hsrc : src.Yields xs e) :
    ∀ fuel cnt, n.toNat + 1 ≤ fuel → xs.length + 1 < cnt →
    ∃ m', drainWith (skipN.Recv fuel) cnt (SkipN src n) = some ((xs.drop n.toNat, e), m') := by
  intro fuel cnt hf hn
  obtain ⟨k, rfl⟩ : ∃ k, fuel = k + 1 := ⟨fuel - 1, by omega⟩
  obtain ⟨c, rfl⟩ : ∃ c, cnt = c + 1 := ⟨cnt - 1, by omega⟩
  obtain ⟨i1, i2⟩ := SkipN_search e n xs src 0 (k + 1) hsrc (by simpa using hf)
  simp only [sub_zero] at i1 i2
  by_cases hlen : xs.length ≤ n.toNat
  · obtain ⟨m', hm'⟩ := i1 hlen
    rw [List.drop_eq_nil_of_le hlen]
    exact ⟨m', drainWith_err _ c _ _ default e hm'⟩
  · have hlt : n.toNat < xs.length := by omega
    obtain ⟨s', i', g1, g2, g3⟩ := i2 hlt
    obtain ⟨m', hm'⟩ := SkipN_pass e n i' g2 k (xs.drop (n.toNat + 1)) s' c g3
      (by simp; omega)
    rw [List.drop_eq_getElem_cons hlt]
    exact ⟨m', drainWith_item _ c _ _ _ _ _ e g1 hm'⟩

theorem SkipN_drops_n_witness :
    ∃ m', drainWith (skipN.Recv 3) 7
        (SkipN (FromSlice [str "a", str "b", str "c", str "d", str "e"]) 2)
      = some (([str "a", str "b", str "c", str "d", str "e"].drop (2 : Int).toNat, Error.EOF),
          m') :=
  SkipN_drops_n (FromSlice [str "a", str "b", str "c", str "d", str "e"]) 2
    [str "a", str "b", str "c", str "d", str "e"] Error.EOF (FromSlice_Yields _) 3 7
    (by decide) (by decide)

/-! ## TakeWhile -/

theorem TakeWhile_Recv_ended {T : Type} [Inhabited T] (k : Nat) (s : Stream T)
    (canTake : T → Bool) :
    takeWhile.Recv (k + 1) ⟨s, canTake, true⟩
      = some ((default, some Error.EOF), ⟨s, canTake, true⟩) := by
  simp only [takeWhile.Recv, if_true]

/-- Draining `TakeWhile` on a source that gives the items `xs` and then the
error `e`. -/
theorem TakeWhile_drain {T : Type} [Inhabited T] (e : Error) (canTake : T → Bool) :
    ∀ (xs : List T) (s : Stream T) (fuel n : Nat), s.Yields xs e → 2 ≤ fuel → xs.length < n →
    ∃ m', drainWith (takeWhile.Recv fuel) n ⟨s, canTake, false⟩
        = some ((xs.takeWhile canTake, if xs.all canTake then e else Error.EOF), m') ∧
      m'.src.calls = s.calls + (xs.takeWhile canTake).length + 1 ∧
      m'.src.answers = s.answers ∧ m'.canTake = canTake ∧
      (xs.all canTake = false → m'.ended = true) := by
  intro xs
  induction xs with
  | nil =>
    intro s fuel n hs hf hn
    obtain ⟨k, rfl⟩ : ∃ k, fuel = k + 1 := ⟨fuel - 1, by omega⟩
    obtain ⟨c, rfl⟩ : ∃ c, n = c + 1 := ⟨n - 1, by omega⟩
    have he := Yields_nil s e hs
    refine ⟨⟨(s.Recv).2, canTake, false⟩,
      drainWith_err _ c _ _ (s.Recv).1.1 e ?_, by simp [Stream.Recv], rfl, rfl, by simp⟩
    simp only [takeWhile.Recv, he]
    simp
  | cons x xs ih =>
    intro s fuel n hs hf hn
    obtain ⟨k, rfl⟩ : ∃ k, fuel = k + 2 := ⟨fuel - 2, by omega⟩
    obtain ⟨c, rfl⟩ : ∃ c, n = c + 1 := ⟨n - 1, by omega⟩
    obtain ⟨e1, e2⟩ := Yields_cons s x xs e hs
    have e1a : (s.Recv).1.2 = none := by rw [e1]
    have e1b : (s.Recv).1.1 = x := by rw [e1]
    by_cases hx : canTake x = true
    · obtain ⟨m', g1, g2, g3, g4, g5⟩ := ih (s.Recv).2 (k + 2) c e2 (by omega)
        (by simp at hn; omega)
      refine ⟨m', ?_, ?_, ?_, g4, ?_⟩
      · have hr : takeWhile.Recv (k + 2) ⟨s, canTake, false⟩
            = some ((x, none), ⟨(s.Recv).2, canTake, false⟩) := by
          simp [takeWhile.Recv, e1a, e1b, hx]
        have := drainWith_item _ c _ _ _ x _ _ hr g1
        simpa [List.takeWhile, hx] using this
      · rw [g2]
        simp [List.takeWhile, hx, Stream.Recv]
        omega
      · rw [g3]; rfl
      · intro hall
        apply g5
        simpa [hx] using hall
    · have hx' : canTake x = false := by simpa using hx
      have hr : takeWhile.Recv (k + 2) ⟨s, canTake, false⟩
          = some ((default, some Error.EOF), ⟨(s.Recv).2, canTake, true⟩) := by
        simp [takeWhile.Recv, e1a, e1b, hx']
      refine ⟨⟨(s.Recv).2, canTake, true⟩, ?_, ?_, rfl, rfl, fun _ => rfl⟩
      · have := drainWith_err _ c _ _ default Error.EOF hr
        simpa [List.takeWhile, hx'] using this
      · simp [List.takeWhile, hx', Stream.Recv]

/-- C34 (TakeWhile yields the longest satisfying prefix). For every source
that gives the items `xs` and then the error `e`, and every predicate
`canTake`, the stream of `TakeWhile` gives the longest initial part of `xs`
whose items all satisfy `canTake`. When an item fails, the source has then
been read once for each item given and once more, for the failing item, which
is not given; the stream ends with `io.EOF`, and every later `Recv` returns
`io.EOF` and leaves the state, the source included, as it is. When no item
fails the stream ends with `e`. -/
theorem TakeWhile_longest_prefix {T : Type} [Inhabited T] (src : Stream T)
    (canTake : T → Bool) (xs : List T) (e : Error) (hsrc : src.Yields xs e) :
    ∀ fuel n, 2 ≤ fuel → xs.length < n →
    ∃ m', drainWith (takeWhile.Recv fuel) n (TakeWhile src canTake)
        = some ((xs.takeWhile canTake, if xs.all canTake then e else Error.EOF), m') ∧
      m'.src.calls = src.calls + (xs.takeWhile canTake).length + 1 ∧
      m'.src.answers = src.answers ∧
      (xs.all canTake = false →
        ∀ k, takeWhile.Recv (k + 1) m' = some ((default, some Error.EOF), m')) := by
  intro fuel n hf hn
  obtain ⟨m', g1, g2, g3, g4, g5⟩ := TakeWhile_drain e canTake xs src fuel n hsrc hf hn
  refine ⟨m', g1, g2, g3, ?_⟩
  intro hall k
  have hend := g5 hall
  obtain ⟨s', c', en⟩ := m'
  simp only at hend g4
  subst hend
  exact TakeWhile_Recv_ended k s' c'

theorem TakeWhile_longest_prefix_witness :
    ∃ m', drainWith (takeWhile.Recv 2) 7
        (TakeWhile (FromSlice [2, 4, 6, 7, 8, 10]) (fun i => i % 2 == 0))
        = some (([2, 4, 6, 7, 8, 10].takeWhile (fun i => i % 2 == 0),
            if [2, 4, 6, 7, 8, 10].all (fun i => i % 2 == 0) then Error.EOF else Error.EOF),
          m') ∧
      m'.src.calls = (FromSlice [2, 4, 6, 7, 8, 10]).calls
        + ([2, 4, 6, 7, 8, 10].takeWhile (fun i => i % 2 == 0)).length + 1 ∧
      m'.src.answers = (FromSlice [2, 4, 6, 7, 8, 10]).answers ∧
      ([2, 4, 6, 7, 8, 10].all (fun i => i % 2 == 0) = false →
        ∀ k, takeWhile.Recv (k + 1) m' = some ((default, some Error.EOF), m')) :=
  TakeWhile_longest_prefix (FromSlice [2, 4, 6, 7, 8, 10]) (fun i => i % 2 == 0)
    [2, 4, 6, 7, 8, 10] Error.EOF (FromSlice_Yields _) 2 7 (by decide) (by decide)

/-! ## The lookahead bound -/

/-- C35 (the initial lookahead bound is a number of bytes). With the single
token `"你"` (one code point, three bytes) each of the three constructors sets
`minBufferLen` to 3, where the maximum number of code points of a token is 1;
and the value depends on the order of the tokens: the tokens `"éé"` and
`"abc"` give 4 in this order and 3 in the other, the maximum number of code
points being 3. -/
theorem minBufferLen_counts_bytes :
    (NewSpecialTokenParserStream (FromSlice []) [str "你"]).minBufferLen = 3 ∧
    maxRuneCount [str "你"] = 1 ∧
    (NewLabelStream (FromSlice []) [⟨str "X", str "你", str "好"⟩]).map
      (fun s => s.minBufferLen) = some 3 ∧
    maxRuneCount (labelTokens [⟨str "X", str "你", str "好"⟩]) = 1 ∧
    (NewRemoveTokensStream (FromSlice []) [str "你"]).minBufferLen = some 3 ∧
    (NewSpecialTokenParserStream (FromSlice []) [str "éé", str "abc"]).minBufferLen = 4 ∧
    (NewSpecialTokenParserStream (FromSlice []) [str "abc", str "éé"]).minBufferLen = 3 ∧
    maxRuneCount [str "éé", str "abc"] = 3 ∧ maxRuneCount [str "abc", str "éé"] = 3 := by
  decide

/-- A fold that never lowers its accumulator and lifts it to at least `g x` at
every element `x` ends at least as high as `g` of every element. -/
theorem foldl_bound {α : Type} (F : Nat → α → Nat) (g : α → Nat)
    (hF : ∀ acc x, acc ≤ F acc x ∧ g x ≤ F acc x) (l : List α) :
    ∀ acc : Nat, acc ≤ l.foldl F acc ∧ ∀ x ∈ l, g x ≤ l.foldl F acc := by
  induction l with
  | nil => intro acc; simp
  | cons t rest ih =>
    intro acc
    simp only [List.foldl_cons]
    obtain ⟨g1, g2⟩ := ih (F acc t)
    obtain ⟨f1, f2⟩ := hF acc t
    refine ⟨by omega, ?_⟩
    intro x hx
    rcases List.mem_cons.mp hx with rfl | hx
    · omega
    · exact g2 x hx

theorem removeMinBufferLen_ge (tokens : List GoString) (t : GoString) (h : t ∈ tokens) :
    RuneCountInString t ≤ removeMinBufferLen tokens := by
  refine (foldl_bound _ RuneCountInString ?_ tokens 0).2 t h
  intro acc x
  have := RuneCount_le_length x
  simp only []
  split_ifs <;> omega

theorem labelMinBufferLen_ge (labels : List SLabel) (lb : SLabel) (h : lb ∈ labels) :
    RuneCountInString lb.StartToken ≤ labelMinBufferLen labels ∧
    RuneCountInString lb.EndToken ≤ labelMinBufferLen labels := by
  constructor
  · refine (foldl_bound _ (fun l => RuneCountInString l.StartToken) ?_ labels 0).2 lb h
    intro acc x
    have := RuneCount_le_length x.StartToken
    have := RuneCount_le_length x.EndToken
    simp only []
    split_ifs <;> omega
  · refine (foldl_bound _ (fun l => RuneCountInString l.EndToken) ?_ labels 0).2 lb h
    intro acc x
    have := RuneCount_le_length x.StartToken
    have := RuneCount_le_length x.EndToken
    simp only []
    split_ifs <;> omega

/-- A token of which only the first `k` bytes have arrived, at the end of a
valid UTF-8 buffer, lies within the last `m` code points of the buffer when the
token has at most `m` code points. -/
theorem partial_token_kept (B t : GoString) (m k : Nat) (hB : ValidString B = true)
    (ht : ValidString t = true) (hm : RuneCountInString t ≤ m) (hsuf : t.take k <:+ B) :
    t.take k <:+ stringOfRunes ((runes B).drop (RuneCountInString B - m)) := by
  by_cases hp : t.take k = []
  · rw [hp]; exact List.nil_suffix
  obtain ⟨a, ha⟩ := hsuf
  have hcont : ∀ c, B[a.length]? = some c → isCont c = false := by
    intro c hc
    rw [← ha, List.getElem?_append_right (le_refl _), Nat.sub_self] at hc
    cases t with
    | nil => simp at hp
    | cons b0 bt =>
      cases k with
      | zero => simp at hp
      | succ k =>
        simp only [List.take_succ_cons, List.getElem?_cons_zero, Option.some.injEq] at hc
        rw [← hc]
        exact ValidString_head_not_cont b0 bt ht
  obtain ⟨va, vp⟩ := ValidString_split B hB a.length hcont
  rw [← ha] at va vp
  simp only [List.take_left', List.drop_left'] at va vp
  have hrB : runes B = runes a ++ runes (t.take k) := by
    rw [← ha]; exact runes_append_valid _ _ va
  have hrt : runes t = runes (t.take k) ++ runes (t.drop k) := by
    rw [← runes_append_valid _ _ vp, List.take_append_drop]
  have hcount : (runes (t.take k)).length ≤ m := by
    have : (runes t).length ≤ m := hm
    rw [hrt, List.length_append] at this
    omega
  simp only [RuneCountInString]
  rw [hrB, List.drop_append_of_le_length (by simp only [List.length_append]; omega),
    stringOfRunes_append, ValidString_roundtrip _ vp]
  exact List.suffix_append _ _

/-- C39, as stated, fails in its consequence. With the special tokens `ab`
and `𝄞` (the four bytes F0 9D 84 9E, one code point) `minBufferLen` is 2,
at least the code-point count of either token. When the buffer holds `xy`
and the first three bytes of `𝄞`, it counts five code points, and the last
two, which the engine keeps back, are two replacement characters: the part of
the token that has arrived is not in them. On the chunks `xy F0 9D 84` and
`9E` the engine emits replacement characters and no marker for `𝄞`, which it
does emit when the same text comes in one chunk. -/
theorem minBufferLen_partial_token_counterexample :
    (NewSpecialTokenParserStream (FromSlice []) [str "ab", str "𝄞"]).minBufferLen = 2 ∧
    RuneCountInString (str "ab") = 2 ∧ RuneCountInString (str "𝄞") = 1 ∧
    (str "𝄞").take 3 = [0xF0, 0x9D, 0x84] ∧
    (str "𝄞").take 3 <:+ str "xy" ++ [0xF0, 0x9D, 0x84] ∧
    RuneCountInString (str "xy" ++ [0xF0, 0x9D, 0x84]) = 5 ∧
    stringOfRunes ((runes (str "xy" ++ [0xF0, 0x9D, 0x84])).drop (5 - 2))
      = [0xEF, 0xBF, 0xBD, 0xEF, 0xBF, 0xBD] ∧
    ¬ ((str "𝄞").take 3 <:+
      stringOfRunes ((runes (str "xy" ++ [0xF0, 0x9D, 0x84])).drop (5 - 2))) ∧
    [str "xy" ++ [0xF0, 0x9D, 0x84], [0x9E]].flatten = str "xy𝄞" ∧
    specialTokenOutput [str "ab", str "𝄞"] [str "xy" ++ [0xF0, 0x9D, 0x84], [0x9E]] 20
      = some ([⟨str "", str "xy" ++ [0xEF, 0xBF, 0xBD]⟩, ⟨str "", [0xEF, 0xBF, 0xBD]⟩,
          ⟨str "", [0xEF, 0xBF, 0xBD, 0xEF, 0xBF, 0xBD]⟩], Error.EOF) ∧
    specialTokenOutput [str "ab", str "𝄞"] [str "xy𝄞"] 20
      = some ([⟨str "", str "xy"⟩, ⟨str "𝄞", str ""⟩], Error.EOF) := by
  decide

/-- C39, amended (the lookahead bound is never too small). For each of the
three constructors and every list of tokens, the initial `minBufferLen` is at
least the number of code points of every configured token (of every start and
end token for labels). Hence, when the buffer and the token are valid UTF-8
and only the first bytes of the token have arrived at the end of the buffer,
these bytes lie within the last `minBufferLen` code points of the buffer,
which is what the engines keep back. -/
theorem minBufferLen_ge_rune_count :
    (∀ (src : Stream GoString) (tokens : List GoString), ∀ t ∈ tokens,
      RuneCountInString t ≤ (NewSpecialTokenParserStream src tokens).minBufferLen) ∧
    (∀ (src : Stream GoString) (labels : List SLabel) (s : labelStream),
      NewLabelStream src labels = some s → ∀ lb ∈ labels,
        RuneCountInString lb.StartToken ≤ s.minBufferLen ∧
        RuneCountInString lb.EndToken ≤ s.minBufferLen) ∧
    (∀ (src : Stream GoString) (tokens : List GoString) (s : removeTokensStream),
      NewRemoveTokensStream src tokens = RemoveTokens.engine s → ∀ t ∈ tokens,
        RuneCountInString t ≤ s.minBufferLen) ∧
    (∀ (B t : GoString) (m k : Nat), ValidString B = true → ValidString t = true →
      RuneCountInString t ≤ m → t.take k <:+ B →
      t.take k <:+ stringOfRunes ((runes B).drop (RuneCountInString B - m))) := by
  refine ⟨?_, ?_, ?_, partial_token_kept⟩
  · intro src tokens t ht
    exact tokensMinBufferLen_ge tokens t ht
  · intro src labels s hs lb hlb
    simp only [NewLabelStream] at hs
    cases hch : checkLabels labels with
    | some msg => rw [hch] at hs; simp at hs
    | none =>
      rw [hch] at hs
      simp only [Option.some.injEq] at hs
      subst hs
      exact labelMinBufferLen_ge labels lb hlb
  · intro src tokens s hs t ht
    simp only [NewRemoveTokensStream] at hs
    split_ifs at hs with h0
    simp only [RemoveTokens.engine.injEq] at hs
    subst hs
    by_cases hte : t = []
    · subst hte; simp [RuneCountInString, runes_nil]
    · exact removeMinBufferLen_ge _ t (by simp [List.mem_filter, ht, hte])

theorem minBufferLen_ge_rune_count_witness :
    RuneCountInString (str "<é>") ≤
      (NewSpecialTokenParserStream (FromSlice []) [str "ab", str "<é>"]).minBufferLen ∧
    ValidString (str "xyz<é") = true ∧ ValidString (str "<é>") = true ∧
    (str "<é>").take 3 <:+ str "xyz<é" ∧
    (str "<é>").take 3 <:+ stringOfRunes ((runes (str "xyz<é")).drop
      (RuneCountInString (str "xyz<é") -
        (NewSpecialTokenParserStream (FromSlice []) [str "ab", str "<é>"]).minBufferLen)) :=
  ⟨minBufferLen_ge_rune_count.1 (FromSlice []) [str "ab", str "<é>"] (str "<é>") (by decide),
    by decide, by decide, by decide,
    minBufferLen_ge_rune_count.2.2.2 (str "xyz<é") (str "<é>") _ 3 (by decide) (by decide)
      (minBufferLen_ge_rune_count.1 (FromSlice []) [str "ab", str "<é>"] (str "<é>")
        (by decide)) (by decide)⟩

/-! ## Label engine: offsets of the start tokens, label of the text before a match -/

/-- C36, as stated, fails. With the candidates `A` (`<a>`) and `B` (`<b>`), in
this order, and the single chunk `x<b>y<a>z`, the start token of `B` occurs at
offset 1 and that of `A` at offset 5; the engine matches `A`: the text
`x<b>y` is emitted under the label `""` and `z` under `A`, and `B` is never
opened. -/
theorem label_earliest_offset_counterexample :
    Index (str "x<b>y<a>z") (str "<b>") = some 1 ∧
    Index (str "x<b>y<a>z") (str "<a>") = some 5 ∧
    labelOutput [⟨str "A", str "<a>", str "</a>"⟩, ⟨str "B", str "<b>", str "</b>"⟩]
        [str "x<b>y<a>z"] 20
      = some ([⟨[], str "x<b>y"⟩, ⟨str "A", str "z"⟩], Error.EOF) := by
  decide

/-- C36, amended (list order wins between differently positioned start
tokens). Take any state of the label engine in which `cutOverflowBuffer`
reaches the scan of the start tokens, and two remaining candidates `a` and
`b`, `a` listed before `b`, whose start tokens both occur in the buffer, at
the offsets `ia` and `ib`, no candidate listed before `a` occurring in the
buffer. Then `a` is the candidate matched, whatever the two offsets are: `a`
is the first label the call opens, the text before its start token is
returned when there is some, and `b` is still a candidate right after the
match. -/
theorem label_list_order_beats_offset (s : labelStream)
    (hlen : s.minBufferLen < RuneCountInString s.buffer) (hscan : s.cutOpenLabel = none)
    (i j : Nat) (a b : SLabel) (ia ib : Nat) (hij : i < j)
    (hi : s.labels[i]? = some a) (hj : s.labels[j]? = some b)
    (ha : Index s.buffer a.StartToken = some ia)
    (_hb : Index s.buffer b.StartToken = some ib)
    (hfirst : ∀ k lb, k < i → s.labels[k]? = some lb →
      Index s.buffer lb.StartToken = none) :
    (∃ r rest, s.cutOverflowBuffer = some r ∧ r.2.opened = s.opened ++ a :: rest) ∧
    (0 < ia →
      s.cutOverflowBuffer = some (([], s.buffer.take ia), s.openLabel i a ia)) ∧
    (ia = 0 → s.cutOverflowBuffer = (s.openLabel i a ia).cutOverflowBuffer) ∧
    (s.openLabel i a ia).currentLabel = some a ∧
    (s.openLabel i a ia).labels[j - 1]? = some b := by
  have hfind := findStartToken_first s.buffer s.labels 0 i a ia hi ha hfirst
  rw [Nat.zero_add] at hfind
  have hlen' : ¬ RuneCountInString s.buffer ≤ s.minBufferLen := by omega
  obtain ⟨hle, _⟩ := Index_some_length s.buffer a.StartToken ia ha
  have hilt : i < s.labels.length := by
    by_contra hx
    rw [List.getElem?_eq_none (by omega)] at hi
    cases hi
  have hfuel : (s.openLabel i a ia).labels.length + 1 = s.labels.length := by
    show (s.labels.eraseIdx i).length + 1 = s.labels.length
    rw [List.length_eraseIdx, if_pos hilt]
    omega
  have hpos : 0 < ia →
      s.cutOverflowBuffer = some (([], s.buffer.take ia), s.openLabel i a ia) := by
    intro h0
    have h4 : (s.buffer.take ia).length > 0 := by
      simp only [List.length_take]
      omega
    exact L_cut_start_emit _ s i a ia hlen' hscan hfind h4
  have hzero : ia = 0 →
      s.cutOverflowBuffer = (s.openLabel i a ia).cutOverflowBuffer := by
    intro h0
    have h4 : ¬ (s.buffer.take ia).length > 0 := by simp [h0]
    have := L_cut_start_rec s.labels.length s i a ia hlen' hscan hfind h4
    simp only [labelStream.cutOverflowBuffer]
    rw [this, hfuel]
  refine ⟨?_, hpos, hzero, rfl, ?_⟩
  · by_cases h0 : 0 < ia
    · exact ⟨_, [], hpos h0, by simp [labelStream.openLabel]⟩
    · obtain ⟨r, hr⟩ := cutOverflowBuffer_isSome (s.openLabel i a ia)
      obtain ⟨newly, g1, _⟩ := cut_Step _ r hr
      refine ⟨r, newly, ?_, ?_⟩
      · rw [hzero (by omega)]; exact hr
      · rw [g1]
        simp [labelStream.openLabel]
  · show (s.labels.eraseIdx i)[j - 1]? = some b
    rw [List.getElem?_eraseIdx]
    have h1 : ¬ j - 1 < i := by omega
    rw [if_neg h1, show j - 1 + 1 = j by omega]
    exact hj

theorem label_list_order_beats_offset_witness :
    labelStream.cutOverflowBuffer
        { src := FromSlice [], buffer := str "x<b>y<a>z", minBufferLen := 4,
          labels := [⟨str "A", str "<a>", str "</a>"⟩, ⟨str "B", str "<b>", str "</b>"⟩],
          currentLabel := none, opened := [] }
      = some (([], str "x<b>y"),
        { src := FromSlice [], buffer := str "z", minBufferLen := 4,
          labels := [⟨str "B", str "<b>", str "</b>"⟩],
          currentLabel := some ⟨str "A", str "<a>", str "</a>"⟩,
          opened := [⟨str "A", str "<a>", str "</a>"⟩] }) :=
  Eq.trans ((label_list_order_beats_offset
    { src := FromSlice [], buffer := str "x<b>y<a>z", minBufferLen := 4,
      labels := [⟨str "A", str "<a>", str "</a>"⟩, ⟨str "B", str "<b>", str "</b>"⟩],
      currentLabel := none, opened := [] }
    (by decide) rfl 0 1 ⟨str "A", str "<a>", str "</a>"⟩ ⟨str "B", str "<b>", str "</b>"⟩ 5 1
    (by decide) (by decide) (by decide) (by decide) (by decide)
    (by intro k lb hk; omega)).2.1 (by decide)) rfl

/-- C37 (text before a matched start token loses the open label). With the
labels `A` (`<a>` ... `</a>`) and `B` (`<b>` ... `</b>`) and the single chunk
`<a>abc<b>x`, the first `Recv` returns the text `abc` under the label `""`,
although `A` is the open label when the start token of `B` is matched: the
call of `cutOverflowBuffer` on the buffer `abc<b>x` with `A` open returns
`("", "abc")` and leaves `B` open. The label of such text depends on the
chunking: of the text `<a>abcdefgh<b>x` in one chunk all of `abcdefgh` comes
under `""`, and delivered byte by byte `abcdef` comes under `A` and `gh` under
`""`. -/
theorem label_text_before_match_unlabelled :
    (match NewLabelStream (FromSlice [str "<a>abc<b>x"])
        [⟨str "A", str "<a>", str "</a>"⟩, ⟨str "B", str "<b>", str "</b>"⟩] with
      | none => none
      | some s => (s.Recv 3).map (fun r => (r.1, r.2.currentLabel)))
      = some ((⟨[], str "abc"⟩, none), some ⟨str "B", str "<b>", str "</b>"⟩) ∧
    (labelStream.cutOverflowBuffer
        { src := FromSlice [], buffer := str "abc<b>x", minBufferLen := 4,
          labels := [⟨str "B", str "<b>", str "</b>"⟩],
          currentLabel := some ⟨str "A", str "<a>", str "</a>"⟩,
          opened := [⟨str "A", str "<a>", str "</a>"⟩] }).map
        (fun r => (r.1, r.2.currentLabel))
      = some (([], str "abc"), some ⟨str "B", str "<b>", str "</b>"⟩) ∧
    labelOutput [⟨str "A", str "<a>", str "</a>"⟩, ⟨str "B", str "<b>", str "</b>"⟩]
        [str "<a>abcdefgh<b>x"] 20
      = some ([⟨[], str "abcdefgh"⟩, ⟨str "B", str "x"⟩], Error.EOF) ∧
    labelOutput [⟨str "A", str "<a>", str "</a>"⟩, ⟨str "B", str "<b>", str "</b>"⟩]
        ((str "<a>abcdefgh<b>x").map (fun b => [b])) 40
      = some ([⟨str "A", str "a"⟩, ⟨str "A", str "b"⟩, ⟨str "A", str "c"⟩, ⟨str "A", str "d"⟩,
          ⟨str "A", str "e"⟩, ⟨str "A", str "f"⟩, ⟨[], str "gh"⟩, ⟨str "B", str "x"⟩],
        Error.EOF) := by
  decide

/-! ## Fork: the cursors and the cache -/

theorem CursorInv_Fork {T : Type} (src : Stream T) (copies : Nat) :
    CursorInv src (Fork src copies) :=
  { answers := rfl
    buf := by intro j h; simp [Fork, newCache] at h
    calls := by intro _; simp [Fork, newCache]
    index := by
      intro _ rd hrd
      simp only [Fork, List.mem_replicate] at hrd
      rw [hrd.2]
      exact Nat.zero_le _ }

theorem CursorInv_reFork {T : Type} (src0 : Stream T) (w : Forked T) (r copies : Nat)
    (h : CursorInv src0 w) : CursorInv src0 (w.Fork r copies) :=
  { answers := h.answers
    buf := h.buf
    calls := h.calls
    index := by
      intro he rd hrd
      simp only [Forked.Fork, List.mem_append, List.mem_replicate] at hrd
      rcases hrd with hrd | ⟨_, hrd⟩
      · exact h.index he rd hrd
      · rw [hrd]
        by_cases hr : r < w.readers.length
        · apply h.index he
          rw [List.getD_eq_getElem _ _ hr]
          exact List.getElem_mem hr
        · rw [List.getD_eq_default _ _ (by omega)]
          exact Nat.zero_le _ }

/-- The index of a reader is not beyond the end of the buffer while no error
is cached. -/
theorem CursorInv_reader {T : Type} (src0 : Stream T) (w : Forked T) (r : Nat)
    (h : CursorInv src0 w) (he : w.cache.err = none) :
    (w.readers.getD r { index := 0 }).index ≤ w.cache.buf.length := by
  by_cases hr : r < w.readers.length
  · apply h.index he
    rw [List.getD_eq_getElem _ _ hr]
    exact List.getElem_mem hr
  · rw [List.getD_eq_default _ _ (by omega)]
    exact Nat.zero_le _

/-- What `Get(i)` returns with a nil error is the answer of the source of
position `i`, and `Get` keeps the invariant of the cache. -/
theorem CursorInv_Recv {T : Type} [Inhabited T] (src0 : Stream T) (w : Forked T) (r : Nat)
    (h : CursorInv src0 w) :
    CursorInv src0 (w.Recv r).2 ∧
    ((w.Recv r).1.2 = none →
      (w.Recv r).1 = src0.answers (src0.calls + (w.readers.getD r { index := 0 }).index)) ∧
    (w.cache.err = none → w.cache.buf.length ≤ (w.readers.getD r { index := 0 }).index →
      (w.Recv r).1 = src0.answers (src0.calls + (w.readers.getD r { index := 0 }).index) ∧
      (w.Recv r).2.cache.src.calls = w.cache.src.calls + 1) := by
  have hmem : ∀ (v : Nat) (rd : forkStream), rd ∈ w.readers.set r { index := v } →
      rd.index = v ∨ rd ∈ w.readers := by
    intro v rd hrd
    rcases List.mem_or_eq_of_mem_set hrd with h1 | h1
    · exact Or.inr h1
    · exact Or.inl (by rw [h1])
  have hR : w.Recv r = ((w.cache.Get (w.readers.getD r { index := 0 }).index).1,
      ⟨(w.cache.Get (w.readers.getD r { index := 0 }).index).2,
        w.readers.set r { index := (w.readers.getD r { index := 0 }).index + 1 }⟩) := rfl
  generalize hidef : (w.readers.getD r { index := 0 }).index = i at hR ⊢
  by_cases hhit : i < w.cache.buf.length
  · rw [hR, Get_hit w.cache i hhit]
    refine ⟨⟨h.answers, h.buf, h.calls, ?_⟩, ?_, ?_⟩
    · intro he rd hrd
      rcases hmem _ rd hrd with h1 | h1
      · show rd.index ≤ w.cache.buf.length
        omega
      · exact h.index he rd h1
    · intro _
      exact (h.buf i hhit).symm
    · intro _ hge
      omega
  · cases he : w.cache.err with
    | some e =>
      obtain ⟨c1, c2⟩ := Get_closed w.cache i e he
      have c2' := c2 (by omega)
      have hG : w.cache.Get i = ((default, some e), w.cache) := Prod.ext c2' c1
      rw [hR, hG]
      refine ⟨⟨h.answers, h.buf, ?_, ?_⟩, ?_, ?_⟩
      · intro he2
        have he3 : w.cache.err = none := he2
        rw [he] at he3; cases he3
      · intro he2
        have he3 : w.cache.err = none := he2
        rw [he] at he3; cases he3
      · intro hnil
        cases hnil
      · intro hc; cases hc
    | none =>
      have hidx : i ≤ w.cache.buf.length := by
        rw [← hidef]; exact CursorInv_reader src0 w r h he
      have hi : i = w.cache.buf.length := by omega
      have hg := Get_miss w.cache i (by omega : w.cache.buf.length ≤ i) he
      have hcalls := h.calls he
      have hans : (w.cache.src.Recv).1 = src0.answers (src0.calls + w.cache.buf.length) := by
        simp only [Stream.Recv, h.answers, hcalls]
      cases hq : (w.cache.src.Recv).1.2 with
      | none =>
        rw [hq] at hg
        simp only at hg
        have hv : src0.answers (src0.calls + w.cache.buf.length)
            = ((w.cache.src.Recv).1.1, none) := by
          rw [← hans]; exact Prod.ext rfl hq
        rw [hR, hg]
        refine ⟨⟨h.answers, ?_, ?_, ?_⟩, ?_, ?_⟩
        · intro j hj
          have hj' : j < (w.cache.buf ++ [(w.cache.src.Recv).1.1]).length := hj
          simp only [List.length_append, List.length_singleton] at hj'
          show src0.answers (src0.calls + j)
            = ((w.cache.buf ++ [(w.cache.src.Recv).1.1]).get ⟨j, hj⟩, none)
          by_cases hjl : j < w.cache.buf.length
          · rw [h.buf j hjl]
            simp [List.getElem_append_left hjl]
          · have hje : j = w.cache.buf.length := by omega
            subst hje
            rw [hv]
            simp
        · intro _
          show (w.cache.src.Recv).2.calls
            = src0.calls + (w.cache.buf ++ [(w.cache.src.Recv).1.1]).length
          simp only [Stream.Recv, List.length_append, List.length_singleton]
          omega
        · intro _ rd hrd
          show rd.index ≤ (w.cache.buf ++ [(w.cache.src.Recv).1.1]).length
          simp only [List.length_append, List.length_singleton]
          rcases hmem _ rd hrd with h1 | h1
          · omega
          · have := h.index he rd h1
            omega
        · intro _
          rw [hi]
          exact hv.symm
        · intro _ _
          refine ⟨by rw [hi]; exact hv.symm, ?_⟩
          show (w.cache.src.Recv).2.calls = w.cache.src.calls + 1
          simp only [Stream.Recv]
      | some e =>
        rw [hq] at hg
        simp only at hg
        have hv : src0.answers (src0.calls + w.cache.buf.length)
            = ((w.cache.src.Recv).1.1, some e) := by
          rw [← hans]; exact Prod.ext rfl hq
        rw [hR, hg]
        refine ⟨⟨h.answers, h.buf, ?_, ?_⟩, ?_, ?_⟩
        · intro he2
          cases he2
        · intro he2
          cases he2
        · intro hnil
          cases hnil
        · intro _ _
          refine ⟨by rw [hi]; exact hv.symm, ?_⟩
          show (w.cache.src.Recv).2.calls = w.cache.src.calls + 1
          simp only [Stream.Recv]

theorem CursorInv_exec {T : Type} [Inhabited T] (src0 : Stream T) :
    ∀ (ops : List ForkOp) (w : Forked T), CursorInv src0 w → CursorInv src0 (w.exec ops) := by
  intro ops
  induction ops with
  | nil => intro w h; exact h
  | cons op rest ih =>
    intro w h
    cases op with
    | recv r => exact ih _ (CursorInv_Recv src0 w r h).1
    | fork r copies => exact ih _ (CursorInv_reFork src0 w r copies h)

/-- C38 (Fork cursors never run ahead of the cache). After any sequence of
`Recv` and `Fork` calls on the readers of `Fork(src, copies)`, forks of fork
readers included, performed one after the other: while no terminal error is
cached the index of every reader is at most `len(buf)`, so the call `Get(i)`
that the reader issues next has `i <= len(buf)`; when that call reads the
source (`i = len(buf)`), it reads it once and what it returns is the answer of
the source of position `i`; and every item a reader is served is the item of
the source of the position of its index. -/
theorem Fork_cursors_within_cache {T : Type} [Inhabited T] (src : Stream T) (copies : Nat)
    (ops : List ForkOp) (r : Nat) :
    (((Fork src copies).exec ops).cache.err = none →
      (((Fork src copies).exec ops).readers.getD r { index := 0 }).index
        ≤ ((Fork src copies).exec ops).cache.buf.length ∧
      ∀ rd ∈ ((Fork src copies).exec ops).readers,
        rd.index ≤ ((Fork src copies).exec ops).cache.buf.length) ∧
    (((Fork src copies).exec ops).cache.err = none →
      ((Fork src copies).exec ops).cache.buf.length
        ≤ (((Fork src copies).exec ops).readers.getD r { index := 0 }).index →
      (((Fork src copies).exec ops).Recv r).1
        = src.answers (src.calls
            + (((Fork src copies).exec ops).readers.getD r { index := 0 }).index) ∧
      (((Fork src copies).exec ops).Recv r).2.cache.src.calls
        = ((Fork src copies).exec ops).cache.src.calls + 1) ∧
    ((((Fork src copies).exec ops).Recv r).1.2 = none →
      (((Fork src copies).exec ops).Recv r).1
        = src.answers (src.calls
            + (((Fork src copies).exec ops).readers.getD r { index := 0 }).index)) := by
  have h := CursorInv_exec src ops (Fork src copies) (CursorInv_Fork src copies)
  obtain ⟨_, h2, h3⟩ := CursorInv_Recv src ((Fork src copies).exec ops) r h
  exact ⟨fun he => ⟨CursorInv_reader src _ r h he, h.index he⟩, h3, h2⟩

/-! ## Label engine: the recursion of cutOverflowBuffer -/

/-- The number of nested invocations a call of `cutOverflowBuffer` makes, as
the least bound under which the bounded function returns. -/
theorem cutOverflowBufferAux_depth :
    ∀ (n : Nat) (s : labelStream), s.labels.length = n →
    ∃ d r, 1 ≤ d ∧ d ≤ s.labels.length + 1 ∧
      (∀ fuel, d ≤ fuel → s.cutOverflowBufferAux fuel = some r) ∧
      (∀ fuel, fuel < d → s.cutOverflowBufferAux fuel = none) := by
  intro n
  induction n with
  | zero =>
    intro s hn
    have hnone : ∀ fuel, fuel < 1 → s.cutOverflowBufferAux fuel = none := by
      intro fuel hf
      have : fuel = 0 := by omega
      subst this
      rfl
    by_cases hc : RuneCountInString s.buffer ≤ s.minBufferLen
    · refine ⟨1, (([], []), s), le_refl _, by omega, ?_, hnone⟩
      intro fuel hf
      obtain ⟨k, rfl⟩ : ∃ k, fuel = k + 1 := ⟨fuel - 1, by omega⟩
      exact L_cut_small k s hc
    · cases hopen : s.cutOpenLabel with
      | some r' =>
        refine ⟨1, r', le_refl _, by omega, ?_, hnone⟩
        intro fuel hf
        obtain ⟨k, rfl⟩ : ∃ k, fuel = k + 1 := ⟨fuel - 1, by omega⟩
        exact L_cut_open k s r' hc hopen
      | none =>
        have hl : s.labels = [] := List.length_eq_zero.mp hn
        have hfind : findStartToken s.buffer 0 s.labels = none := by
          rw [hl]; rfl
        refine ⟨1, s.cutRunes, le_refl _, by omega, ?_, hnone⟩
        intro fuel hf
        obtain ⟨k, rfl⟩ : ∃ k, fuel = k + 1 := ⟨fuel - 1, by omega⟩
        exact L_cut_runes k s hc hopen hfind
  | succ n ih =>
    intro s hn
    have hnone : ∀ fuel, fuel < 1 → s.cutOverflowBufferAux fuel = none := by
      intro fuel hf
      have : fuel = 0 := by omega
      subst this
      rfl
    by_cases hc : RuneCountInString s.buffer ≤ s.minBufferLen
    · refine ⟨1, (([], []), s), le_refl _, by omega, ?_, hnone⟩
      intro fuel hf
      obtain ⟨k, rfl⟩ : ∃ k, fuel = k + 1 := ⟨fuel - 1, by omega⟩
      exact L_cut_small k s hc
    · cases hopen : s.cutOpenLabel with
      | some r' =>
        refine ⟨1, r', le_refl _, by omega, ?_, hnone⟩
        intro fuel hf
        obtain ⟨k, rfl⟩ : ∃ k, fuel = k + 1 := ⟨fuel - 1, by omega⟩
        exact L_cut_open k s r' hc hopen
      | none =>
        cases hfind : findStartToken s.buffer 0 s.labels with
        | none =>
          refine ⟨1, s.cutRunes, le_refl _, by omega, ?_, hnone⟩
          intro fuel hf
          obtain ⟨k, rfl⟩ : ∃ k, fuel = k + 1 := ⟨fuel - 1, by omega⟩
          exact L_cut_runes k s hc hopen hfind
        | some m =>
          obtain ⟨i, lb, index⟩ := m
          by_cases hd : (s.buffer.take index).length > 0
          · refine ⟨1, (([], s.buffer.take index), s.openLabel i lb index), le_refl _,
              by omega, ?_, hnone⟩
            intro fuel hf
            obtain ⟨k, rfl⟩ : ∃ k, fuel = k + 1 := ⟨fuel - 1, by omega⟩
            exact L_cut_start_emit k s i lb index hc hopen hfind hd
          · obtain ⟨_, hget, _⟩ := findStartToken_some s.buffer s.labels 0 i lb index hfind
            simp only [Nat.sub_zero] at hget
            have hi : i < s.labels.length := by
              by_contra hge
              rw [List.getElem?_eq_none (by omega)] at hget
              cases hget
            have hlen : (s.openLabel i lb index).labels.length = n := by
              simp only [labelStream.openLabel, List.length_eraseIdx, hi, if_true]
              omega
            obtain ⟨d, r, d1, d2, d3, d4⟩ := ih (s.openLabel i lb index) hlen
            refine ⟨d + 1, r, by omega, by omega, ?_, ?_⟩
            · intro fuel hf
              obtain ⟨k, rfl⟩ : ∃ k, fuel = k + 1 := ⟨fuel - 1, by omega⟩
              rw [L_cut_start_rec k s i lb index hc hopen hfind hd]
              exact d3 k (by omega)
            · intro fuel hf
              cases fuel with
              | zero => rfl
              | succ k =>
                rw [L_cut_start_rec k s i lb index hc hopen hfind hd]
                exact d4 k (by omega)

/-- C40 (labelStream.cutOverflowBuffer terminates). For every state of the
engine the call of `cutOverflowBuffer` returns, and it does so within `d`
nested invocations for some `d` between 1 and `len(labels) + 1`: with any
bound on the nesting from `d` on the bounded function returns the result of
the call, and with a bound below `d` it does not return. The bound
`len(labels) + 1` is reached: with the candidates `A` and `B` and the buffer
`<a><b>xyzuvw` two nested invocations are not enough and three are. -/
theorem cutOverflowBuffer_terminates (s : labelStream) :
    (∃ d r, 1 ≤ d ∧ d ≤ s.labels.length + 1 ∧ s.cutOverflowBuffer = some r ∧
      (∀ fuel, d ≤ fuel → s.cutOverflowBufferAux fuel = some r) ∧
      (∀ fuel, fuel < d → s.cutOverflowBufferAux fuel = none)) ∧
    (labelStream.cutOverflowBufferAux 2
        { src := FromSlice [], buffer := str "<a><b>xyzuvw", minBufferLen := 4,
          labels := [⟨str "A", str "<a>", str "</a>"⟩, ⟨str "B", str "<b>", str "</b>"⟩],
          currentLabel := none, opened := [] }).isSome = false ∧
    (labelStream.cutOverflowBufferAux 3
        { src := FromSlice [], buffer := str "<a><b>xyzuvw", minBufferLen := 4,
          labels := [⟨str "A", str "<a>", str "</a>"⟩, ⟨str "B", str "<b>", str "</b>"⟩],
          currentLabel := none, opened := [] }).isSome = true := by
  refine ⟨?_, by decide, by decide⟩
  obtain ⟨d, r, d1, d2, d3, d4⟩ := cutOverflowBufferAux_depth s.labels.length s rfl
  exact ⟨d, r, d1, d2, d3 _ d2, d3, d4⟩
/-! ## Label engine: the loop of `Recv` with a separate pass at the end of input -/

/-- The loop of `labelStream.Recv` under two invariants: `I` holds where
`cutOverflowBuffer` is called, `J` where upstream is read after an empty
chunk; the pass made after upstream has ended starts from `J`. -/
theorem label_Recv_generic2
    (I J : labelStream → List (GoString × Nat) → List GoString → Prop)
    (hsrc : ∀ s D f, J s D f → s.src.GivesThenEOF f)
    (hcut : ∀ s D f, I s D f → ∃ l c s', s.cutOverflowBuffer = some ((l, c), s') ∧
      ∃ D', D = labelBytes l c ++ D' ∧ (c ≠ [] → I s' D' f) ∧ (c = [] → J s' D' f))
    (hchunk : ∀ s D x f, J s D (x :: f) → I s.onChunk D f)
    (heof : ∀ s D, J s D [] → ∃ l c s', s.onEOF.cutOverflowBuffer = some ((l, c), s') ∧
      ((c ≠ [] ∧ ∃ D', D = labelBytes l c ++ D' ∧ I s' D' []) ∨ (c = [] ∧ D = [])))
    (fuel : Nat) :
    ∀ (s : labelStream) (D : List (GoString × Nat)) (f : List GoString),
    I s D f → f.length < fuel →
    ∃ res s', s.Recv fuel = some (res, s') ∧
      ((∃ l c D' f', res = (LabeledChunk.mk l c, none) ∧ c ≠ [] ∧
          D = labelBytes l c ++ D' ∧ f'.length ≤ f.length ∧ I s' D' f') ∨
       (res = (default, some Error.EOF) ∧ D = [])) := by
  induction fuel with
  | zero => intro s D f _ h; omega
  | succ fuel ih =>
    intro s D f h hf
    obtain ⟨l, c, s1, hc, D', hD, hI, hJ⟩ := hcut s D f h
    by_cases hne : c ≠ []
    · exact ⟨_, _, L_Recv_emit fuel s s1 l c hc hne,
        Or.inl ⟨l, c, D', f, rfl, hne, hD, le_refl _, hI hne⟩⟩
    · have hnil : c = [] := by simpa using hne
      subst hnil
      have hD' : D' = D := by rw [hD]; rfl
      subst hD'
      have hJ1 := hJ rfl
      cases f with
      | nil =>
        obtain ⟨e1, _⟩ := GivesThenEOF_nil _ (hsrc _ _ _ hJ1)
        obtain ⟨l2, c2, s3, hc2, hres⟩ := heof s1 D' hJ1
        rw [L_Recv_eof fuel s s1 s3 l l2 c2 hc e1 hc2]
        rcases hres with ⟨hne2, D2, hD2, hI3⟩ | ⟨hnil2, hD0⟩
        · rw [if_pos hne2]
          exact ⟨_, _, rfl, Or.inl ⟨l2, c2, D2, [], rfl, hne2, hD2, le_refl _, hI3⟩⟩
        · rw [if_neg (by simpa using hnil2)]
          exact ⟨_, _, rfl, Or.inr ⟨rfl, hD0⟩⟩
      | cons x fut =>
        obtain ⟨e1, _⟩ := GivesThenEOF_cons _ x fut (hsrc _ _ _ hJ1)
        have e1' : (s1.src.Recv).1.2 = none := by rw [e1]
        have hI2 := hchunk s1 D' x fut hJ1
        obtain ⟨res, s', r1, r2⟩ := ih _ D' fut hI2 (by simp at hf; omega)
        refine ⟨res, s', ?_, ?_⟩
        · rw [L_Recv_chunk fuel s s1 l hc e1']
          exact r1
        · rcases r2 with ⟨l2, c2, D2, f2, q1, q2, q3, q4, q5⟩ | q
          · exact Or.inl ⟨l2, c2, D2, f2, q1, q2, q3, by simp; omega, q5⟩
          · exact Or.inr q

/-- Draining the label engine under such invariants: the items received
before end-of-stream say exactly the labelled bytes `D`, in non-empty
chunks. -/
theorem label_drain_generic2
    (I J : labelStream → List (GoString × Nat) → List GoString → Prop)
    (hsrc : ∀ s D f, J s D f → s.src.GivesThenEOF f)
    (hcut : ∀ s D f, I s D f → ∃ l c s', s.cutOverflowBuffer = some ((l, c), s') ∧
      ∃ D', D = labelBytes l c ++ D' ∧ (c ≠ [] → I s' D' f) ∧ (c = [] → J s' D' f))
    (hchunk : ∀ s D x f, J s D (x :: f) → I s.onChunk D f)
    (heof : ∀ s D, J s D [] → ∃ l c s', s.onEOF.cutOverflowBuffer = some ((l, c), s') ∧
      ((c ≠ [] ∧ ∃ D', D = labelBytes l c ++ D' ∧ I s' D' []) ∨ (c = [] ∧ D = [])))
    (fuel : Nat) (n : Nat) :
    ∀ (s : labelStream) (D : List (GoString × Nat)) (f : List GoString),
    I s D f → f.length < fuel → D.length < n →
    ∃ out s', labelStream.drain fuel n s = some ((out, Error.EOF), s') ∧
      labelledBytes out = D ∧ ∀ o ∈ out, o.Chunk ≠ [] := by
  induction n with
  | zero => intro s D f _ _ h; omega
  | succ n ih =>
    intro s D f h hf hn
    obtain ⟨res, s1, r1, r2⟩ := label_Recv_generic2 I J hsrc hcut hchunk heof fuel s D f h hf
    rcases r2 with ⟨l, c, D2, f2, q1, q2, q3, q4, q5⟩ | ⟨q1, q2⟩
    · have hclen : 1 ≤ c.length := by
        cases c with
        | nil => exact absurd rfl q2
        | cons a t => simp
      obtain ⟨out, s2, g1, g2, g3⟩ := ih s1 D2 f2 q5 (by omega)
        (by rw [q3, List.length_append, labelBytes_length] at hn; omega)
      refine ⟨LabeledChunk.mk l c :: out, s2, ?_, ?_, ?_⟩
      · simp only [labelStream.drain, r1, q1, g1]
      · rw [labelledBytes_cons, g2, q3]
      · intro o ho
        rcases List.mem_cons.mp ho with rfl | ho
        · exact q2
        · exact g3 o ho
    · refine ⟨[], s1, ?_, by simp [labelledBytes, q2], by simp⟩
      simp only [labelStream.drain, r1, q1]
/-! ## Label engine: the release of the buffer and the scan of the start tokens -/

/-- The scan of the start tokens when only `lb` can occur. -/
theorem findStartToken_live (B : GoString) (lb : SLabel) (post : List SLabel) :
    ∀ (pre : List SLabel) (k : Nat), (∀ l ∈ pre ++ post, ¬ l.StartToken <:+: B) →
    findStartToken B k (pre ++ lb :: post)
      = (Index B lb.StartToken).map (fun i => (k + pre.length, lb, i)) := by
  intro pre
  induction pre with
  | nil =>
    intro k habs
    simp only [List.nil_append, findStartToken, List.length_nil, Nat.add_zero]
    cases hi : Index B lb.StartToken with
    | none =>
      simp only [Option.map_none']
      exact findStartToken_none B post (k + 1) (fun l hl => habs l (by simp [hl]))
    | some i => rfl
  | cons a pre ih =>
    intro k habs
    have ha : Index B a.StartToken = none :=
      Index_none_of_absent B a.StartToken (habs a (by simp))
    have hrec := ih (k + 1) (fun l hl => habs l (by
      simp only [List.cons_append, List.mem_cons]
      exact Or.inr hl))
    have hstep : findStartToken B k ((a :: pre) ++ lb :: post)
        = findStartToken B (k + 1) (pre ++ lb :: post) := by
      show findStartToken B k (a :: (pre ++ lb :: post)) = _
      simp only [findStartToken, ha]
    rw [hstep, hrec]
    simp only [List.length_cons]
    cases Index B lb.StartToken with
    | none => rfl
    | some i => simp only [Option.map_some']; congr 2; omega

theorem eraseIdx_live {α : Type} (pre post : List α) (x : α) :
    (pre ++ x :: post).eraseIdx pre.length = pre ++ post := by
  induction pre with
  | nil => rfl
  | cons a pre ih => simp [List.eraseIdx, ih]

/-- The release of the runes in excess of the lookahead on a valid buffer,
with the number of code points kept. -/
theorem L_cutRunes_count (s : labelStream) (h : ¬ RuneCountInString s.buffer ≤ s.minBufferLen)
    (hv : ValidString s.buffer = true) :
    ∃ chunk kept, s.cutRunes =
        ((match s.currentLabel with
          | some cur => cur.Name
          | none => [], chunk), { s with buffer := kept }) ∧
      chunk ++ kept = s.buffer ∧ chunk ≠ [] ∧ RuneCountInString kept = s.minBufferLen ∧
      ValidString kept = true := by
  obtain ⟨g1, g2, _, g4⟩ := cut_runes_valid s.buffer s.minBufferLen hv (by omega)
  exact ⟨_, _, L_cutRunes_eq s h, g1, g2, cut_runes_count s.buffer s.minBufferLen hv (by omega),
    g4⟩

/-- No occurrence of a token that is absent from the buffer starts in the
part of the buffer released by the rune-wise cut, whatever text follows: the
lookahead kept back has room for the token, or nothing follows. -/
theorem no_occ_in_released (B F t chunk kept : GoString)
    (hB : ValidString B = true) (hF : ValidString F = true) (ht : ValidString t = true)
    (hsplit : chunk ++ kept = B) (hkv : ValidString kept = true)
    (hroom : RuneCountInString t ≤ RuneCountInString kept ∨ F = [])
    (hnone : Index B t = none) :
    ∀ j, j < chunk.length → ¬ t <+: (chunk ++ (kept ++ F)).drop j := by
  intro j hj hp
  rw [← List.append_assoc, hsplit] at hp
  have hne : t ≠ [] := by
    intro h0
    rw [h0, Index_nil_sub] at hnone
    cases hnone
  rcases hroom with hr | hF0
  · have hlen := token_within_buffer B F t chunk kept j hB hF ht hne hsplit hkv hr hj hp
    exact Index_eq_none B t hnone j (prefix_of_drop_append B F t j hlen hp)
  · rw [hF0, List.append_nil] at hp
    exact Index_eq_none B t hnone j hp

/-- After such a release the first occurrence of the token in the text is the
one in what is kept and what follows. -/
theorem Index_after_release (B F t chunk kept : GoString)
    (hB : ValidString B = true) (hF : ValidString F = true) (ht : ValidString t = true)
    (hsplit : chunk ++ kept = B) (hkv : ValidString kept = true)
    (hroom : RuneCountInString t ≤ RuneCountInString kept ∨ F = [])
    (hnone : Index B t = none) :
    Index (B ++ F) t = (Index (kept ++ F) t).map (fun i => i + chunk.length) := by
  rw [← hsplit, List.append_assoc]
  exact Index_skip t chunk (kept ++ F)
    (no_occ_in_released B F t chunk kept hB hF ht hsplit hkv hroom hnone)

theorem count_zero_of_append_le (a F : GoString) (m : Nat) (ha : ValidString a = true)
    (hc : RuneCountInString a = m) (h : RuneCountInString (a ++ F) ≤ m) : F = [] := by
  rw [RuneCount_append_valid a F ha] at h
  exact runes_eq_nil F (by omega)

theorem take_shift (chunk R : GoString) (q : Nat) :
    (chunk ++ R).take (q + chunk.length) = chunk ++ R.take q := by
  rw [List.take_append_eq_append_take, List.take_of_length_le (by omega)]
  congr 2
  omega

theorem drop_shift (chunk R : GoString) (q : Nat) :
    (chunk ++ R).drop (q + chunk.length) = R.drop q := by
  rw [drop_append_ge chunk R _ (by omega)]
  congr 1
  omega
/-! ## Label engine with labels met in list order: the reference -/

theorem closeRefK_none (name e : GoString) (b : Bool) (Y : GoString)
    (K : GoString → List (GoString × Nat)) (h : Index Y e = none) :
    closeRefK name e b Y K = labelBytes name Y := by
  simp only [closeRefK, h]

theorem closeRefK_keep (name e : GoString) (b : Bool) (Y : GoString)
    (K : GoString → List (GoString × Nat)) (j : Nat)
    (h : Index Y e = some j) (hk : ¬ (j = 0 ∧ b = true)) :
    closeRefK name e b Y K = labelBytes name (Y.take j) ++ K (Y.drop j) := by
  simp only [closeRefK, h, if_neg hk]

theorem closeRefK_lose (name e : GoString) (Y : GoString)
    (K : GoString → List (GoString × Nat)) (h : Index Y e = some 0) :
    closeRefK name e true Y K = [] := by
  simp [closeRefK, h]

theorem closeRefK_nil (name e : GoString) (b : Bool) (K : GoString → List (GoString × Nat))
    (he : e ≠ []) : closeRefK name e b [] K = [] := by
  rw [closeRefK_none _ _ _ _ _ (Index_nil_text e he)]
  rfl

theorem closeRefK_congr (name e : GoString) (b1 b2 : Bool) (Y : GoString)
    (K : GoString → List (GoString × Nat)) (h : Index Y e = some 0 → b1 = b2) :
    closeRefK name e b1 Y K = closeRefK name e b2 Y K := by
  cases hi : Index Y e with
  | none => simp only [closeRefK, hi]
  | some j =>
    by_cases hj : j = 0
    · subst hj; rw [h hi]
    · rw [closeRefK_keep _ _ _ _ _ _ hi (by simp [hj]),
        closeRefK_keep _ _ _ _ _ _ hi (by simp [hj])]

theorem closeRefK_length (name e : GoString) (b : Bool) (Y : GoString)
    (K : GoString → List (GoString × Nat)) (hK : ∀ Z, (K Z).length ≤ Z.length) :
    (closeRefK name e b Y K).length ≤ Y.length := by
  cases hi : Index Y e with
  | none => rw [closeRefK_none _ _ _ _ _ hi, labelBytes_length]
  | some j =>
    simp only [closeRefK, hi]
    split_ifs
    · simp
    · have := hK (Y.drop j)
      simp only [List.length_append, labelBytes_length, List.length_take, List.length_drop]
        at this ⊢
      omega

theorem openRefK_length (L : SLabel) (b : Bool) (Y : GoString)
    (K : GoString → List (GoString × Nat)) (hK : ∀ Z, (K Z).length ≤ Z.length) :
    (openRefK L b Y K).length ≤ Y.length := by
  simp only [openRefK]
  split_ifs
  · rw [labelBytes_length]
  · exact closeRefK_length _ _ _ _ _ hK

theorem stageRef_length (lose : Nat → GoString → Bool)
    (K : List SLabel → GoString → List (GoString × Nat))
    (hK : ∀ C Z, (K C Z).length ≤ Z.length) (C : List SLabel) (X : GoString) :
    (stageRef lose K C X).length ≤ X.length := by
  simp only [stageRef]
  cases hf : findStartToken X 0 C with
  | none => simp only [labelBytes_length, le_refl]
  | some r =>
    obtain ⟨i, L, p⟩ := r
    have := openRefK_length L (lose p (X.drop (p + L.StartToken.length)))
      (X.drop (p + L.StartToken.length)) (K (C.eraseIdx i)) (hK _)
    simp only [List.length_append, labelBytes_length, List.length_take, List.length_drop]
      at this ⊢
    omega

theorem laterRef_length (n : Nat) : ∀ (C : List SLabel) (X : GoString),
    (laterRef n C X).length ≤ X.length := by
  induction n with
  | zero => intro C X; simp only [laterRef, labelBytes_length, le_refl]
  | succ n ih =>
    intro C X
    simp only [laterRef]
    exact stageRef_length _ _ ih C X

theorem stagesRef_length (first : Bool) (C : List SLabel) (M : Nat) (X : GoString) :
    (stagesRef first C M X).length ≤ X.length :=
  stageRef_length _ _ (laterRef_length _) C X

/-- After the first label, the reference of a closed state is `laterRef`. -/
theorem laterRef_eq_stagesRef (C : List SLabel) (M : Nat) (X : GoString) :
    laterRef C.length C X = stagesRef false C M X := by
  cases C with
  | nil => simp only [List.length_nil, laterRef, stagesRef, stageRef, findStartToken]
  | cons a t =>
    simp only [List.length_cons, laterRef, stagesRef, Bool.false_and, Nat.add_sub_cancel]

theorem stagesRef_none (first : Bool) (C : List SLabel) (M : Nat) (X : GoString)
    (h : findStartToken X 0 C = none) : stagesRef first C M X = labelBytes [] X := by
  simp only [stagesRef, stageRef, h]

theorem stagesRef_some (first : Bool) (C : List SLabel) (M : Nat) (X : GoString)
    (i : Nat) (L : SLabel) (p : Nat) (h : findStartToken X 0 C = some (i, L, p)) :
    stagesRef first C M X = labelBytes [] (X.take p) ++
      openRefK L (first && firstLose M X p (X.drop (p + L.StartToken.length)))
        (X.drop (p + L.StartToken.length)) (laterRef (C.length - 1) (C.eraseIdx i)) := by
  simp only [stagesRef, stageRef, h]

theorem mem_occurrences (t X : GoString) (k : Nat) :
    k ∈ occurrences t X ↔ k < X.length ∧ t <+: X.drop k := by
  simp only [occurrences, List.mem_filter, List.mem_range, List.isPrefixOf_iff_prefix]

/-- An occurrence in a text that is not empty is listed by `occurrences`. -/
theorem mem_occurrences_of_prefix (t X : GoString) (k : Nat) (hX : X ≠ [])
    (h : t <+: X.drop k) (hk : k ≤ X.length) (ht : t = [] → k = 0) :
    k ∈ occurrences t X := by
  rw [mem_occurrences]
  refine ⟨?_, h⟩
  by_cases h0 : t = []
  · rw [ht h0]
    exact List.length_pos.mpr hX
  · by_contra hlt
    rw [List.drop_eq_nil_of_le (by omega)] at h
    exact h0 (List.prefix_nil.mp h)

theorem mem_occurrences_shift (t chunk X : GoString) (k : Nat) (h : k ∈ occurrences t X) :
    k + chunk.length ∈ occurrences t (chunk ++ X) := by
  rw [mem_occurrences] at h ⊢
  refine ⟨by simp only [List.length_append]; omega, ?_⟩
  rw [drop_shift]
  exact h.2

theorem mem_occurrences_Index (t X : GoString) (k : Nat) (hX : X ≠ [])
    (h : Index X t = some k) : k ∈ occurrences t X := by
  obtain ⟨g1, g2, _⟩ := Index_eq_some _ _ _ h
  apply mem_occurrences_of_prefix t X k hX g1 g2
  intro ht
  rw [ht, Index_nil_sub] at h
  exact (Option.some.inj h).symm

theorem findStartToken_none_all (B : GoString) (labels : List SLabel) (k : Nat)
    (h : findStartToken B k labels = none) : ∀ l ∈ labels, Index B l.StartToken = none := by
  induction labels generalizing k with
  | nil => intro l hl; simp at hl
  | cons a t ih =>
    simp only [findStartToken] at h
    cases hi : Index B a.StartToken with
    | none =>
      rw [hi] at h
      intro l hl
      rcases List.mem_cons.mp hl with rfl | hl
      · exact hi
      · exact ih (k + 1) h l hl
    | some j => rw [hi] at h; cases h

theorem findStartToken_none_of_all (B : GoString) (labels : List SLabel) (k : Nat)
    (h : ∀ l ∈ labels, Index B l.StartToken = none) : findStartToken B k labels = none :=
  findStartToken_none B labels k (fun l hl => (Index_none_iff _ _).mp (h l hl))

theorem findStartToken_earlier (B : GoString) (labels : List SLabel) (k i : Nat) (lb : SLabel)
    (index : Nat) (h : findStartToken B k labels = some (i, lb, index)) :
    ∀ j l, j < i - k → labels[j]? = some l → Index B l.StartToken = none := by
  induction labels generalizing k with
  | nil => simp [findStartToken] at h
  | cons a t ih =>
    simp only [findStartToken] at h
    cases hi : Index B a.StartToken with
    | none =>
      rw [hi] at h
      intro j l hj hl
      cases j with
      | zero =>
        simp only [List.getElem?_cons_zero, Option.some.injEq] at hl
        rw [← hl]
        exact hi
      | succ j =>
        simp only [List.getElem?_cons_succ] at hl
        exact ih (k + 1) h j l (by omega) hl
    | some q =>
      rw [hi] at h
      simp only [Option.some.injEq, Prod.mk.injEq] at h
      obtain ⟨rfl, _, _⟩ := h
      intro j l hj
      omega

theorem findStartToken_mem (B : GoString) (labels : List SLabel) (i : Nat) (lb : SLabel)
    (index : Nat) (h : findStartToken B 0 labels = some (i, lb, index)) :
    lb ∈ labels ∧ i < labels.length := by
  obtain ⟨_, h2, _⟩ := findStartToken_some B labels 0 i lb index h
  rw [Nat.sub_zero] at h2
  obtain ⟨hlt, heq⟩ := List.getElem?_eq_some_iff.mp h2
  exact ⟨heq ▸ List.getElem_mem hlt, hlt⟩

theorem orderlyFrom_none (n : Nat) (first : Bool) (C : List SLabel) (X : GoString)
    (h : findStartToken X 0 C = none) : orderlyFrom n first C X = true := by
  cases n with
  | zero => rfl
  | succ n => simp only [orderlyFrom, h]

/-- What `orderlyFrom` says of the label that is opened. -/
theorem orderlyFrom_some (n : Nat) (first : Bool) (C : List SLabel) (X : GoString)
    (i : Nat) (L : SLabel) (p : Nat) (hf : findStartToken X 0 C = some (i, L, p)) :
    orderlyFrom (n + 1) first C X = true ↔
    (ValidString L.StartToken = true ∧ ValidString L.EndToken = true ∧
      (∀ l ∈ C, ∀ k ∈ occurrences l.StartToken X,
        (l.StartToken = L.StartToken ∧ p ≤ k) ∨ p + L.StartToken.length ≤ k) ∧
      (L.EndToken = [] ∨
        ((first = true ∨ Index (X.drop (p + L.StartToken.length)) L.EndToken ≠ some 0) ∧
          openOrderly (orderlyFrom n false) (C.eraseIdx i) L.EndToken
            (X.drop (p + L.StartToken.length)) = true))) := by
  simp only [orderlyFrom, hf, Bool.and_eq_true, Bool.or_eq_true, decide_eq_true_eq,
    List.all_eq_true, and_assoc]

theorem openOrderly_none (later : List SLabel → GoString → Bool) (C : List SLabel)
    (e Y : GoString) (h : Index Y e = none) :
    openOrderly later C e Y = true ↔ ∀ l ∈ C, Index Y l.StartToken = none := by
  simp only [openOrderly, h, List.all_eq_true, Option.isNone_iff_eq_none]

theorem openOrderly_some (later : List SLabel → GoString → Bool) (C : List SLabel)
    (e Y : GoString) (q : Nat) (h : Index Y e = some q) :
    openOrderly later C e Y = true ↔
      (∀ l ∈ C, ∀ k ∈ occurrences l.StartToken Y, q + e.length ≤ k + l.StartToken.length) ∧
      later C (Y.drop q) = true := by
  simp only [openOrderly, h, Bool.and_eq_true, List.all_eq_true, decide_eq_true_eq]
/-! ## Label engine with labels met in list order: the scan of the buffer -/

theorem Index_none_suffix (chunk R t : GoString) (h : Index (chunk ++ R) t = none) :
    Index R t = none :=
  (Index_none_iff _ _).mpr (absent_of_append_right ((Index_none_iff _ _).mp h))

theorem Index_none_prefix (B F t : GoString) (h : Index (B ++ F) t = none) :
    Index B t = none :=
  (Index_none_iff _ _).mpr (absent_of_append_left ((Index_none_iff _ _).mp h))

/-- A token that occurs in the text so that it ends inside the buffer occurs
in the buffer. -/
theorem Index_ne_none_of_within (B F t : GoString) (p : Nat)
    (h : Index (B ++ F) t = some p) (hp : p + t.length ≤ B.length) : Index B t ≠ none := by
  intro hn
  obtain ⟨g1, _, _⟩ := Index_eq_some _ _ _ h
  exact Index_eq_none B t hn p (prefix_of_drop_append B F t p hp g1)

/-- On an orderly text, the label the scan finds in the buffer is the one it
finds in the whole text. -/
theorem Ord_scan_agree (first : Bool) (C : List SLabel) (B F : GoString) (hB : B ≠ [])
    (hord : orderlyFrom C.length first C (B ++ F) = true)
    (i : Nat) (L : SLabel) (p : Nat) (h : findStartToken B 0 C = some (i, L, p)) :
    findStartToken (B ++ F) 0 C = some (i, L, p) := by
  obtain ⟨_, hC, hI⟩ := findStartToken_some B C 0 i L p h
  rw [Nat.sub_zero] at hC
  have hX : B ++ F ≠ [] := by
    intro h0
    exact hB (List.append_eq_nil.mp h0).1
  have hIX := Index_append_left B F L.StartToken p hI
  have hgoal := findStartToken_first (B ++ F) C 0 i L p hC hIX ?_
  · rw [Nat.zero_add] at hgoal
    exact hgoal
  intro j l hj hl
  by_contra hne
  cases hfX : findStartToken (B ++ F) 0 C with
  | none =>
    obtain ⟨hlt, heq⟩ := List.getElem?_eq_some_iff.mp hl
    exact hne (findStartToken_none_all _ _ _ hfX l (heq ▸ List.getElem_mem hlt))
  | some r =>
    obtain ⟨i2, L2, p2⟩ := r
    have hi2 : i2 ≤ j := by
      by_contra hlt
      exact hne (findStartToken_earlier _ _ _ _ _ _ hfX j l (by omega) hl)
    obtain ⟨_, hC2, hI2⟩ := findStartToken_some _ C 0 i2 L2 p2 hfX
    rw [Nat.sub_zero] at hC2
    have hB2 : Index B L2.StartToken = none :=
      findStartToken_earlier _ _ _ _ _ _ h i2 L2 (by omega) hC2
    obtain ⟨n, hn⟩ : ∃ n, C.length = n + 1 := by
      obtain ⟨hlt, _⟩ := List.getElem?_eq_some_iff.mp hC
      exact ⟨C.length - 1, by omega⟩
    rw [hn, orderlyFrom_some n first C _ i2 L2 p2 hfX] at hord
    obtain ⟨_, _, hscan, _⟩ := hord
    have hmem : L ∈ C := (findStartToken_mem _ _ _ _ _ h).1
    rcases hscan L hmem p (mem_occurrences_Index _ _ _ hX hIX) with ⟨h1, _⟩ | h2
    · rw [← h1, hI] at hB2
      cases hB2
    · obtain ⟨_, g2, _⟩ := Index_eq_some _ _ _ hI
      exact Index_ne_none_of_within B F L2.StartToken p2 hI2 (by omega) hB2

/-- Removing a prefix in which the label to be opened does not start keeps
the text orderly. -/
theorem orderlyFrom_shift (n : Nat) (first : Bool) (C : List SLabel) (chunk R : GoString)
    (i : Nat) (L : SLabel) (p : Nat)
    (h1 : findStartToken (chunk ++ R) 0 C = some (i, L, p + chunk.length))
    (h2 : findStartToken R 0 C = some (i, L, p))
    (hord : orderlyFrom (n + 1) first C (chunk ++ R) = true) :
    orderlyFrom (n + 1) first C R = true := by
  rw [orderlyFrom_some n first C _ i L _ h1] at hord
  rw [orderlyFrom_some n first C _ i L _ h2]
  obtain ⟨a1, a2, a3, a4⟩ := hord
  have hdrop : (chunk ++ R).drop (p + chunk.length + L.StartToken.length)
      = R.drop (p + L.StartToken.length) := by
    rw [show p + chunk.length + L.StartToken.length
      = (p + L.StartToken.length) + chunk.length by omega, drop_shift]
  rw [hdrop] at a4
  refine ⟨a1, a2, ?_, a4⟩
  intro l hl k hk
  rcases a3 l hl _ (mem_occurrences_shift _ chunk _ _ hk) with ⟨b1, b2⟩ | b
  · exact Or.inl ⟨b1, by omega⟩
  · exact Or.inr (by omega)

/-- Removing a prefix in which the end token of the open label does not start
keeps `openOrderly`. -/
theorem openOrderly_shift (later : List SLabel → GoString → Bool) (C : List SLabel)
    (e chunk R : GoString)
    (hidx : Index (chunk ++ R) e = (Index R e).map (fun i => i + chunk.length))
    (h : openOrderly later C e (chunk ++ R) = true) : openOrderly later C e R = true := by
  cases hk : Index R e with
  | none =>
    rw [hk] at hidx
    simp only [Option.map_none'] at hidx
    rw [openOrderly_none _ _ _ _ hidx] at h
    rw [openOrderly_none _ _ _ _ hk]
    exact fun l hl => Index_none_suffix chunk R _ (h l hl)
  | some q =>
    rw [hk] at hidx
    simp only [Option.map_some'] at hidx
    rw [openOrderly_some _ _ _ _ _ hidx] at h
    rw [openOrderly_some _ _ _ _ _ hk]
    obtain ⟨a1, a2⟩ := h
    rw [drop_shift] at a2
    refine ⟨?_, a2⟩
    intro l hl k hk2
    have := a1 l hl _ (mem_occurrences_shift _ chunk _ _ hk2)
    omega

/-- While a label is open on an orderly text and its end token is not in the
buffer, no start token of a candidate is in the buffer. -/
theorem openOrderly_scan (later : List SLabel → GoString → Bool) (C : List SLabel)
    (e B F : GoString) (hB : B ≠ []) (h : openOrderly later C e (B ++ F) = true)
    (hidx : Index B e = none) : findStartToken B 0 C = none := by
  apply findStartToken_none_of_all
  intro l hl
  have hX : B ++ F ≠ [] := by
    intro h0
    exact hB (List.append_eq_nil.mp h0).1
  cases hk : Index (B ++ F) e with
  | none =>
    rw [openOrderly_none _ _ _ _ hk] at h
    exact Index_none_prefix B F _ (h l hl)
  | some q =>
    rw [openOrderly_some _ _ _ _ _ hk] at h
    cases hl2 : Index B l.StartToken with
    | none => rfl
    | some k =>
      exfalso
      have hocc := mem_occurrences_Index _ _ _ hX (Index_append_left B F _ k hl2)
      have hle := h.1 l hl k hocc
      obtain ⟨g, _⟩ := Index_some_length _ _ _ hl2
      exact Index_ne_none_of_within B F e q hk (by omega) hidx
/-! ## Label engine with labels met in list order: one call of `cutOverflowBuffer` -/

/-- One call while a label without end token is open: the buffer goes out
under the name of the label. -/
theorem Ord_cut_absorb (M : Nat) (fuel : Nat) (s : labelStream) (f : List GoString)
    (L : SLabel) (hsrc : s.src.GivesThenEOF f) (hv : ValidString s.buffer = true)
    (hfv : ∀ c ∈ f, ValidString c = true)
    (hbd : ∀ l ∈ s.labels,
      RuneCountInString l.StartToken ≤ M ∧ RuneCountInString l.EndToken ≤ M)
    (hcur : s.currentLabel = some L) (he : L.EndToken = []) (hmin : s.minBufferLen = 0) :
    ∃ l c s', s.cutOverflowBufferAux (fuel + 1) = some ((l, c), s') ∧
      ∃ D', labelBytes L.Name (s.buffer ++ f.flatten) = labelBytes l c ++ D' ∧
        OrdInv M s' D' f ∧
        (c = [] → RuneCountInString s.buffer ≤ s.minBufferLen ∧ s' = s) := by
  by_cases hc : RuneCountInString s.buffer ≤ s.minBufferLen
  · exact ⟨[], [], s, L_cut_small fuel s hc, _, rfl,
      ⟨hsrc, hv, hfv, hbd, Or.inr (Or.inr (Or.inr ⟨L, hcur, he, hmin, rfl⟩))⟩,
      fun _ => ⟨hc, rfl⟩⟩
  · have hopen : s.cutOpenLabel
        = some ((L.Name, s.buffer), { s with minBufferLen := 0, buffer := [] }) := by
      simp only [labelStream.cutOpenLabel, hcur, he, if_true]
    have hne : s.buffer ≠ [] := by
      intro h
      rw [h, RuneCount_nil] at hc
      omega
    refine ⟨L.Name, s.buffer, _, L_cut_open fuel s _ hc hopen, labelBytes L.Name f.flatten,
      labelBytes_append _ _ _, ?_, fun h => absurd h hne⟩
    exact ⟨hsrc, ValidString_nil, hfv, hbd,
      Or.inr (Or.inr (Or.inr ⟨L, hcur, he, rfl, by simp⟩))⟩

/-- One call while a label with an end token is open. -/
theorem Ord_cut_open (M : Nat) (fuel : Nat) (s : labelStream) (f : List GoString)
    (L : SLabel) (hsrc : s.src.GivesThenEOF f) (hv : ValidString s.buffer = true)
    (hfv : ∀ c ∈ f, ValidString c = true)
    (hbd : ∀ l ∈ s.labels,
      RuneCountInString l.StartToken ≤ M ∧ RuneCountInString l.EndToken ≤ M)
    (hcur : s.currentLabel = some L) (he : L.EndToken ≠ [])
    (hev : ValidString L.EndToken = true) (hMe : RuneCountInString L.EndToken ≤ M)
    (hmin : s.minBufferLen = M ∨ (s.minBufferLen = 0 ∧ f = []))
    (hoo : openOrderly (orderlyFrom s.labels.length false) s.labels L.EndToken
      (s.buffer ++ f.flatten) = true) :
    ∃ l c s', s.cutOverflowBufferAux (fuel + 1) = some ((l, c), s') ∧
      ∃ D', closeRefK L.Name L.EndToken
          (decide (RuneCountInString (s.buffer ++ f.flatten) ≤ s.minBufferLen))
          (s.buffer ++ f.flatten) (laterRef s.labels.length s.labels)
            = labelBytes l c ++ D' ∧
        OrdInv M s' D' f ∧
        (c = [] → (RuneCountInString s.buffer ≤ s.minBufferLen ∧ s' = s) ∨
          (¬ RuneCountInString s.buffer ≤ s.minBufferLen ∧
            Index s.buffer L.EndToken = some 0 ∧ OrdClosed M false s' D' f)) := by
  by_cases hc : RuneCountInString s.buffer ≤ s.minBufferLen
  · exact ⟨[], [], s, L_cut_small fuel s hc, _, rfl,
      ⟨hsrc, hv, hfv, hbd, Or.inr (Or.inr (Or.inl ⟨L, hcur, he, hev, hMe, hmin, rfl, hoo⟩))⟩,
      fun _ => Or.inl ⟨hc, rfl⟩⟩
  · have hF : ValidString f.flatten = true := ValidString_flatten f hfv
    have hBne : s.buffer ≠ [] := by
      intro h
      rw [h, RuneCount_nil] at hc
      omega
    have hcX : ¬ RuneCountInString (s.buffer ++ f.flatten) ≤ s.minBufferLen := by
      rw [RuneCount_append_valid _ _ hv]; omega
    rw [decide_eq_false hcX]
    cases hidx : Index s.buffer L.EndToken with
    | some q =>
      have hopen : s.cutOpenLabel = some ((L.Name, s.buffer.take q),
          { s with buffer := s.buffer.drop q, currentLabel := none }) := by
        simp only [labelStream.cutOpenLabel, hcur, if_neg he, hidx]
      obtain ⟨g1, g2, _⟩ := Index_eq_some _ _ _ hidx
      have hX := Index_append_left s.buffer f.flatten L.EndToken q hidx
      obtain ⟨_, v2, _⟩ := ValidString_at_occurrence s.buffer L.EndToken q hv hev he g1
      rw [openOrderly_some _ _ _ _ _ hX, List.drop_append_of_le_length g2] at hoo
      have hclosed : OrdClosed M false
          { s with buffer := s.buffer.drop q, currentLabel := none }
          (laterRef s.labels.length s.labels (s.buffer.drop q ++ f.flatten)) f :=
        ⟨rfl, hmin, laterRef_eq_stagesRef _ _ _, hoo.2⟩
      refine ⟨L.Name, s.buffer.take q, _, L_cut_open fuel s _ hc hopen,
        laterRef s.labels.length s.labels (s.buffer.drop q ++ f.flatten), ?_, ?_, ?_⟩
      · rw [closeRefK_keep _ _ _ _ _ _ hX (by simp), List.take_append_of_le_length g2,
          List.drop_append_of_le_length g2]
      · exact ⟨hsrc, v2, hfv, hbd, Or.inr (Or.inl hclosed)⟩
      · intro hnil
        refine Or.inr ⟨hc, ?_, hclosed⟩
        rcases List.take_eq_nil_iff.mp hnil with h0 | h0
        · rw [h0]
        · exact absurd h0 hBne
    | none =>
      have hopen : s.cutOpenLabel = none := by
        simp only [labelStream.cutOpenLabel, hcur, if_neg he, hidx]
      have hfind : findStartToken s.buffer 0 s.labels = none :=
        openOrderly_scan _ _ _ _ _ hBne hoo hidx
      obtain ⟨chunk, kept, he0, g1, g2, g3, g4⟩ := L_cutRunes_count s hc hv
      have hcut := L_cut_runes fuel s hc hopen hfind
      rw [he0, hcur] at hcut
      have hroom : RuneCountInString L.EndToken ≤ RuneCountInString kept ∨ f.flatten = [] := by
        rcases hmin with hm | ⟨_, hf⟩
        · left; rw [g3, hm]; exact hMe
        · right; rw [hf]; rfl
      have hIdx := Index_after_release s.buffer f.flatten L.EndToken chunk kept hv hF hev g1 g4
        hroom hidx
      have hsplit : s.buffer ++ f.flatten = chunk ++ (kept ++ f.flatten) := by
        rw [← g1, List.append_assoc]
      rw [hsplit] at hIdx hoo
      have hoo' := openOrderly_shift _ _ _ _ _ hIdx hoo
      refine ⟨_, _, _, hcut, closeRefK L.Name L.EndToken
        (decide (RuneCountInString (kept ++ f.flatten) ≤ s.minBufferLen)) (kept ++ f.flatten)
        (laterRef s.labels.length s.labels),
        ?_, ⟨hsrc, g4, hfv, hbd,
          Or.inr (Or.inr (Or.inl ⟨L, rfl, he, hev, hMe, hmin, rfl, hoo'⟩))⟩,
        fun h => absurd h g2⟩
      rw [hsplit]
      cases hk : Index (kept ++ f.flatten) L.EndToken with
      | none =>
        rw [hk] at hIdx
        rw [closeRefK_none _ _ _ _ _ hIdx, closeRefK_none _ _ _ _ _ hk, labelBytes_append]
      | some q' =>
        rw [hk] at hIdx
        simp only [Option.map_some'] at hIdx
        have hne0 : ¬ (q' = 0 ∧
            decide (RuneCountInString (kept ++ f.flatten) ≤ s.minBufferLen) = true) := by
          rintro ⟨_, hd⟩
          have hF0 := count_zero_of_append_le kept f.flatten s.minBufferLen g4 g3
            (of_decide_eq_true hd)
          rw [hF0, List.append_nil] at hk
          have h1 : L.EndToken <:+: kept := occurs_of_Index_some _ _ _ hk
          have h2 : L.EndToken <:+: s.buffer := by
            rw [← g1]
            exact h1.trans (List.suffix_append chunk kept).isInfix
          exact (Index_none_iff _ _).mp hidx h2
        rw [closeRefK_keep _ _ _ _ _ _ hIdx (by simp), closeRefK_keep _ _ _ _ _ _ hk hne0,
          take_shift, drop_shift, labelBytes_append, List.append_assoc]

/-- The state in which the scan has matched the start token of `L` at the
offset `p` of the buffer satisfies the invariant for the text after it. -/
theorem Ord_opened (M : Nat) (first : Bool) (s : labelStream) (f : List GoString)
    (i : Nat) (L : SLabel) (p : Nat) (b : Bool)
    (hsrc : s.src.GivesThenEOF f) (hv : ValidString s.buffer = true)
    (hfv : ∀ c ∈ f, ValidString c = true)
    (hbd : ∀ l ∈ s.labels,
      RuneCountInString l.StartToken ≤ M ∧ RuneCountInString l.EndToken ≤ M)
    (hmin : s.minBufferLen = M ∨ (s.minBufferLen = 0 ∧ f = []))
    (hscan : findStartToken s.buffer 0 s.labels = some (i, L, p))
    (hscanX : findStartToken (s.buffer ++ f.flatten) 0 s.labels = some (i, L, p))
    (hord : orderlyFrom s.labels.length first s.labels (s.buffer ++ f.flatten) = true)
    (hb : L.EndToken ≠ [] →
      Index (s.buffer.drop (p + L.StartToken.length) ++ f.flatten) L.EndToken = some 0 →
      b = decide (RuneCountInString (s.buffer.drop (p + L.StartToken.length) ++ f.flatten)
        ≤ s.minBufferLen)) :
    OrdInv M (s.openLabel i L p)
      (openRefK L b (s.buffer.drop (p + L.StartToken.length) ++ f.flatten)
        (laterRef (s.labels.length - 1) (s.labels.eraseIdx i))) f := by
  obtain ⟨_, _, hidx⟩ := findStartToken_some _ _ _ _ _ _ hscan
  obtain ⟨hmem, hilt⟩ := findStartToken_mem _ _ _ _ _ hscan
  obtain ⟨g1, g2, _⟩ := Index_eq_some _ _ _ hidx
  obtain ⟨g3, _⟩ := Index_some_length _ _ _ hidx
  obtain ⟨n, hn⟩ : ∃ n, s.labels.length = n + 1 := ⟨s.labels.length - 1, by omega⟩
  rw [hn, orderlyFrom_some n first _ _ i L p hscanX,
    List.drop_append_of_le_length g3] at hord
  obtain ⟨hsv, hev, _, hopen⟩ := hord
  have hvalid : ValidString (s.buffer.drop (p + L.StartToken.length)) = true := by
    by_cases hs : L.StartToken = []
    · rw [hs, Index_nil_sub] at hidx
      have hp : p = 0 := (Option.some.inj hidx).symm
      rw [hs, hp]
      exact hv
    · exact (ValidString_at_occurrence s.buffer L.StartToken p hv hsv hs g1).2.2
  have hlen : (s.labels.eraseIdx i).length = n := by
    rw [List.length_eraseIdx, if_pos hilt, hn]
    rfl
  have hbd' : ∀ l ∈ (s.openLabel i L p).labels,
      RuneCountInString l.StartToken ≤ M ∧ RuneCountInString l.EndToken ≤ M :=
    fun l hl => hbd l (List.mem_of_mem_eraseIdx hl)
  refine ⟨hsrc, hvalid, hfv, hbd', ?_⟩
  by_cases he : L.EndToken = []
  · refine Or.inr (Or.inr (Or.inr ⟨L, rfl, he, ?_, ?_⟩))
    · simp only [labelStream.openLabel, he, if_true]
    · simp only [openRefK, he, if_true]
      rfl
  · have hm : (s.openLabel i L p).minBufferLen = s.minBufferLen := by
      simp only [labelStream.openLabel, if_neg he]
    rcases hopen with h0 | ⟨_, hoo⟩
    · exact absurd h0 he
    refine Or.inr (Or.inr (Or.inl ⟨L, rfl, he, hev, (hbd L hmem).2, ?_, ?_, ?_⟩))
    · rw [hm]
      exact hmin
    · simp only [openRefK, if_neg he]
      show closeRefK L.Name L.EndToken b _ _ = closeRefK L.Name L.EndToken
        (decide (RuneCountInString (s.buffer.drop (p + L.StartToken.length) ++ f.flatten)
          ≤ (s.openLabel i L p).minBufferLen)) _
        (laterRef (s.labels.eraseIdx i).length (s.labels.eraseIdx i))
      rw [hm, hlen, hn, Nat.add_sub_cancel]
      exact closeRefK_congr _ _ _ _ _ _ (hb he)
    · show openOrderly (orderlyFrom (s.labels.eraseIdx i).length false) (s.labels.eraseIdx i)
        L.EndToken (s.buffer.drop (p + L.StartToken.length) ++ f.flatten) = true
      rw [hlen]
      exact hoo

/-- One call in a state of the invariant with a label open, with or without
end token. -/
theorem Ord_cut_current (M : Nat) (fuel : Nat) (s : labelStream) (D : List (GoString × Nat))
    (f : List GoString) (h : OrdInv M s D f) (L : SLabel) (hcur : s.currentLabel = some L) :
    ∃ l c s', s.cutOverflowBufferAux (fuel + 1) = some ((l, c), s') ∧
      ∃ D', D = labelBytes l c ++ D' ∧ OrdInv M s' D' f ∧
        (c = [] → (RuneCountInString s.buffer ≤ s.minBufferLen ∧ s' = s) ∨
          (¬ RuneCountInString s.buffer ≤ s.minBufferLen ∧ L.EndToken ≠ [] ∧
            Index s.buffer L.EndToken = some 0 ∧ OrdClosed M false s' D' f)) := by
  obtain ⟨hsrc, hv, hfv, hbd, hph⟩ := h
  rcases hph with ⟨h1, _⟩ | ⟨h1, _⟩ | ⟨L2, hc2, he, hev, hMe, hmin, hD, hoo⟩ |
    ⟨L2, hc2, he, hmin, hD⟩
  · rw [hcur] at h1; cases h1
  · rw [hcur] at h1; cases h1
  · have hL : L2 = L := by rw [hcur] at hc2; exact (Option.some.inj hc2).symm
    subst hL
    obtain ⟨l, c, s', g1, D', g2, g3, g4⟩ := Ord_cut_open M fuel s f L2 hsrc hv hfv hbd hcur he
      hev hMe hmin hoo
    refine ⟨l, c, s', g1, D', by rw [hD]; exact g2, g3, ?_⟩
    intro hc
    rcases g4 hc with k | ⟨k1, k2, k3⟩
    · exact Or.inl k
    · exact Or.inr ⟨k1, he, k2, k3⟩
  · have hL : L2 = L := by rw [hcur] at hc2; exact (Option.some.inj hc2).symm
    subst hL
    obtain ⟨l, c, s', g1, D', g2, g3, g4⟩ := Ord_cut_absorb M fuel s f L2 hsrc hv hfv hbd hcur
      he hmin
    exact ⟨l, c, s', g1, D', by rw [hD]; exact g2, g3, fun hc => Or.inl (g4 hc)⟩
/-! ## Label engine with labels met in list order: a call with no label open -/

theorem OrdClosed_phase (M : Nat) (first : Bool) (s : labelStream) (D : List (GoString × Nat))
    (f : List GoString) (h : OrdClosed M first s D f) :
    OrdClosed M true s D f ∨ OrdClosed M false s D f ∨ OrdOpen M s D f ∨ OrdAbsorb s D f := by
  cases first with
  | true => exact Or.inl h
  | false => exact Or.inr (Or.inl h)

/-- One call in a state with no label open. -/
theorem Ord_cut_closed (M : Nat) (fuel : Nat) (first : Bool) (s : labelStream)
    (f : List GoString) (hsrc : s.src.GivesThenEOF f) (hv : ValidString s.buffer = true)
    (hfv : ∀ c ∈ f, ValidString c = true)
    (hbd : ∀ l ∈ s.labels,
      RuneCountInString l.StartToken ≤ M ∧ RuneCountInString l.EndToken ≤ M)
    (hcur : s.currentLabel = none)
    (hmin : s.minBufferLen = M ∨ (s.minBufferLen = 0 ∧ f = []))
    (hord : orderlyFrom s.labels.length first s.labels (s.buffer ++ f.flatten) = true) :
    ∃ l c s', s.cutOverflowBufferAux (fuel + 2) = some ((l, c), s') ∧
      ∃ D', stagesRef first s.labels s.minBufferLen (s.buffer ++ f.flatten)
          = labelBytes l c ++ D' ∧
        OrdInv M s' D' f ∧
        (c = [] → (RuneCountInString s.buffer ≤ s.minBufferLen ∧ s' = s) ∨
          (¬ RuneCountInString s.buffer ≤ s.minBufferLen ∧
            (∃ i L, findStartToken s.buffer 0 s.labels = some (i, L, 0)) ∧
            (RuneCountInString s'.buffer ≤ s'.minBufferLen ∨ OrdClosed M false s' D' f))) := by
  by_cases hc : RuneCountInString s.buffer ≤ s.minBufferLen
  · exact ⟨[], [], s, L_cut_small (fuel + 1) s hc, _, rfl,
      ⟨hsrc, hv, hfv, hbd, OrdClosed_phase M first s _ f ⟨hcur, hmin, rfl, hord⟩⟩,
      fun _ => Or.inl ⟨hc, rfl⟩⟩
  · have hF : ValidString f.flatten = true := ValidString_flatten f hfv
    have hBne : s.buffer ≠ [] := by
      intro h
      rw [h, RuneCount_nil] at hc
      omega
    have hcX : ¬ RuneCountInString (s.buffer ++ f.flatten) ≤ s.minBufferLen := by
      rw [RuneCount_append_valid _ _ hv]; omega
    have hopen : s.cutOpenLabel = none := by
      simp only [labelStream.cutOpenLabel, hcur]
    cases hscan : findStartToken s.buffer 0 s.labels with
    | some r =>
      obtain ⟨i, L, p⟩ := r
      have hscanX := Ord_scan_agree first s.labels s.buffer f.flatten hBne hord i L p hscan
      obtain ⟨_, _, hidx⟩ := findStartToken_some _ _ _ _ _ _ hscan
      obtain ⟨hmem, hilt⟩ := findStartToken_mem _ _ _ _ _ hscan
      obtain ⟨g1, g2, _⟩ := Index_eq_some _ _ _ hidx
      obtain ⟨g3, _⟩ := Index_some_length _ _ _ hidx
      have hY : (s.buffer ++ f.flatten).drop (p + L.StartToken.length)
          = s.buffer.drop (p + L.StartToken.length) ++ f.flatten :=
        List.drop_append_of_le_length g3
      have hD : stagesRef first s.labels s.minBufferLen (s.buffer ++ f.flatten)
          = labelBytes [] (s.buffer.take p) ++
            openRefK L (first && decide (RuneCountInString
              (s.buffer.drop (p + L.StartToken.length) ++ f.flatten) ≤ s.minBufferLen))
              (s.buffer.drop (p + L.StartToken.length) ++ f.flatten)
              (laterRef (s.labels.length - 1) (s.labels.eraseIdx i)) := by
        rw [stagesRef_some first _ _ _ i L p hscanX]
        simp only [firstLose, if_neg hcX, hY, List.take_append_of_le_length g2]
      have hfirst : L.EndToken ≠ [] →
          Index (s.buffer.drop (p + L.StartToken.length) ++ f.flatten) L.EndToken = some 0 →
          first = true := by
        intro he h0
        obtain ⟨n, hn⟩ : ∃ n, s.labels.length = n + 1 := ⟨s.labels.length - 1, by omega⟩
        have hord2 := hord
        rw [hn, orderlyFrom_some n first _ _ i L p hscanX, hY] at hord2
        rcases hord2.2.2.2 with h1 | ⟨h2, _⟩
        · exact absurd h1 he
        · rcases h2 with h3 | h3
          · exact h3
          · exact absurd h0 h3
      have hinv := Ord_opened M first s f i L p
        (first && decide (RuneCountInString
          (s.buffer.drop (p + L.StartToken.length) ++ f.flatten) ≤ s.minBufferLen))
        hsrc hv hfv hbd hmin hscan hscanX hord
        (fun he h0 => by rw [hfirst he h0, Bool.true_and])
      rw [hD]
      by_cases hd : (s.buffer.take p).length > 0
      · refine ⟨[], s.buffer.take p, _, L_cut_start_emit (fuel + 1) s _ L p hc hopen hscan hd,
          _, rfl, hinv, ?_⟩
        intro hnil
        rw [hnil] at hd
        simp at hd
      · have htake : s.buffer.take p = [] := List.length_eq_zero.mp (by omega)
        have hp0 : p = 0 := by
          rcases List.take_eq_nil_iff.mp htake with h0 | h0
          · exact h0
          · exact absurd h0 hBne
        rw [L_cut_start_rec (fuel + 1) s _ L p hc hopen hscan hd, htake, labelBytes_nil,
          List.nil_append]
        obtain ⟨l, c, s', k1, D', k2, k3, k4⟩ := Ord_cut_current M fuel _ _ f hinv L rfl
        refine ⟨l, c, s', k1, D', k2, k3, ?_⟩
        intro hcn
        refine Or.inr ⟨hc, ⟨i, L, by rw [← hp0]⟩, ?_⟩
        rcases k4 hcn with ⟨m1, m2⟩ | ⟨_, _, _, m3⟩
        · left; rw [m2]; exact m1
        · right; exact m3
    | none =>
      obtain ⟨chunk, kept, he0, g1, g2, g3, g4⟩ := L_cutRunes_count s hc hv
      have hcut := L_cut_runes (fuel + 1) s hc hopen hscan
      rw [he0, hcur] at hcut
      have hsplit : s.buffer ++ f.flatten = chunk ++ (kept ++ f.flatten) := by
        rw [← g1, List.append_assoc]
      have hfinish : ∀ (hord' : orderlyFrom s.labels.length first s.labels
            (kept ++ f.flatten) = true)
          (_ : stagesRef first s.labels s.minBufferLen (s.buffer ++ f.flatten)
            = labelBytes [] chunk ++ stagesRef first s.labels s.minBufferLen
                (kept ++ f.flatten)),
          ∃ l c s', s.cutOverflowBufferAux (fuel + 2) = some ((l, c), s') ∧
            ∃ D', stagesRef first s.labels s.minBufferLen (s.buffer ++ f.flatten)
                = labelBytes l c ++ D' ∧
              OrdInv M s' D' f ∧
              (c = [] → (RuneCountInString s.buffer ≤ s.minBufferLen ∧ s' = s) ∨
                (¬ RuneCountInString s.buffer ≤ s.minBufferLen ∧
                  (∃ i L, (none : Option (Nat × SLabel × Nat)) = some (i, L, 0)) ∧
                  (RuneCountInString s'.buffer ≤ s'.minBufferLen ∨
                    OrdClosed M false s' D' f))) := by
        intro hord' hD
        exact ⟨_, _, _, hcut, _, hD,
          ⟨hsrc, g4, hfv, hbd, OrdClosed_phase M first _ _ f ⟨rfl, hmin, rfl, hord'⟩⟩,
          fun h => absurd h g2⟩
      cases hscanX : findStartToken (s.buffer ++ f.flatten) 0 s.labels with
      | none =>
        have hscanK : findStartToken (kept ++ f.flatten) 0 s.labels = none := by
          apply findStartToken_none_of_all
          intro l hl
          have := findStartToken_none_all _ _ _ hscanX l hl
          rw [hsplit] at this
          exact Index_none_suffix _ _ _ this
        refine hfinish (orderlyFrom_none _ _ _ _ hscanK) ?_
        rw [stagesRef_none _ _ _ _ hscanX, stagesRef_none _ _ _ _ hscanK, hsplit,
          labelBytes_append]
      | some r =>
        obtain ⟨i, L, p⟩ := r
        obtain ⟨_, hC, hidxX⟩ := findStartToken_some _ _ _ _ _ _ hscanX
        rw [Nat.sub_zero] at hC
        obtain ⟨hmem, hilt⟩ := findStartToken_mem _ _ _ _ _ hscanX
        obtain ⟨n, hn⟩ : ∃ n, s.labels.length = n + 1 := ⟨s.labels.length - 1, by omega⟩
        have hord2 := hord
        rw [hn, orderlyFrom_some n first _ _ i L p hscanX] at hord2
        have hsv := hord2.1
        have hidx : Index s.buffer L.StartToken = none :=
          findStartToken_none_all _ _ _ hscan L hmem
        have hroom : RuneCountInString L.StartToken ≤ RuneCountInString kept ∨
            f.flatten = [] := by
          rcases hmin with hm | ⟨_, hf⟩
          · left; rw [g3, hm]; exact (hbd L hmem).1
          · right; rw [hf]; rfl
        have hIdx := Index_after_release s.buffer f.flatten L.StartToken chunk kept hv hF hsv g1
          g4 hroom hidx
        rw [hidxX] at hIdx
        cases hk : Index (kept ++ f.flatten) L.StartToken with
        | none =>
          rw [hk] at hIdx
          cases hIdx
        | some p' =>
          rw [hk] at hIdx
          simp only [Option.map_some', Option.some.injEq] at hIdx
          have hscanK : findStartToken (kept ++ f.flatten) 0 s.labels = some (i, L, p') := by
            have hgoal := findStartToken_first (kept ++ f.flatten) s.labels 0 i L p' hC hk ?_
            · rw [Nat.zero_add] at hgoal
              exact hgoal
            intro j l hj hl
            have := findStartToken_earlier _ _ _ _ _ _ hscanX j l (by omega) hl
            rw [hsplit] at this
            exact Index_none_suffix _ _ _ this
          have hcK : ¬ RuneCountInString (kept ++ f.flatten) ≤ s.minBufferLen := by
            intro hle
            have hF0 := count_zero_of_append_le kept f.flatten s.minBufferLen g4 g3 hle
            rw [hF0, List.append_nil] at hk
            have h1 : L.StartToken <:+: kept := occurs_of_Index_some _ _ _ hk
            have h2 : L.StartToken <:+: s.buffer := by
              rw [← g1]
              exact h1.trans (List.suffix_append chunk kept).isInfix
            exact (Index_none_iff _ _).mp hidx h2
          have hscanX' : findStartToken (chunk ++ (kept ++ f.flatten)) 0 s.labels
              = some (i, L, p' + chunk.length) := by
            rw [← hsplit, hscanX, hIdx]
          refine hfinish ?_ ?_
          · rw [hn]
            apply orderlyFrom_shift n first s.labels chunk (kept ++ f.flatten) i L p' hscanX'
              hscanK
            rw [← hsplit, ← hn]
            exact hord
          · have hdrop : (s.buffer ++ f.flatten).drop (p + L.StartToken.length)
                = (kept ++ f.flatten).drop (p' + L.StartToken.length) := by
              rw [hsplit, hIdx, show p' + chunk.length + L.StartToken.length
                = (p' + L.StartToken.length) + chunk.length by omega, drop_shift]
            have htake : (s.buffer ++ f.flatten).take p = chunk ++ (kept ++ f.flatten).take p' := by
              rw [hsplit, hIdx, take_shift]
            rw [stagesRef_some first _ _ _ i L p hscanX,
              stagesRef_some first _ _ _ i L p' hscanK]
            simp only [firstLose, if_neg hcX, if_neg hcK, hdrop, htake]
            rw [labelBytes_append, List.append_assoc]
/-! ## Label engine with labels met in list order: the invariant along `Recv` -/

theorem Ord_src (M : Nat) (s : labelStream) (D : List (GoString × Nat)) (f : List GoString)
    (h : OrdRest M s D f) : s.src.GivesThenEOF f := h.1.1

/-- More fuel than `cutOverflowBuffer` gives changes nothing. -/
theorem cutOverflowBuffer_of_more (s : labelStream) (k : Nat)
    (r : (GoString × GoString) × labelStream)
    (h : s.cutOverflowBufferAux (s.labels.length + 1 + k) = some r) :
    s.cutOverflowBuffer = some r := by
  obtain ⟨d, r2, _, h2, h3, _⟩ := cutOverflowBufferAux_depth s.labels.length s rfl
  rw [h3 _ (by omega)] at h
  rw [labelStream.cutOverflowBuffer, h3 _ h2]
  exact h

theorem openRefK_nil (L : SLabel) (b : Bool) (K : GoString → List (GoString × Nat)) :
    openRefK L b [] K = [] := by
  simp only [openRefK]
  split_ifs with h
  · rfl
  · exact closeRefK_nil _ _ _ _ h

theorem stagesRef_nil (first : Bool) (C : List SLabel) (M : Nat) :
    stagesRef first C M [] = [] :=
  List.length_eq_zero.mp (Nat.le_zero.mp (stagesRef_length first C M []))

/-- One call of `cutOverflowBuffer` in a state of the invariant. -/
theorem Ord_cut (M : Nat) (s : labelStream) (D : List (GoString × Nat)) (f : List GoString)
    (h : OrdInv M s D f) :
    ∃ l c s', s.cutOverflowBuffer = some ((l, c), s') ∧
      ∃ D', D = labelBytes l c ++ D' ∧ (c ≠ [] → OrdInv M s' D' f) ∧
        (c = [] → OrdRest M s' D' f) := by
  have h0 := h
  obtain ⟨hsrc, hv, hfv, hbd, hph⟩ := h
  have hclosed : ∀ first, OrdClosed M first s D f →
      ∃ l c s', s.cutOverflowBuffer = some ((l, c), s') ∧
        ∃ D', D = labelBytes l c ++ D' ∧ (c ≠ [] → OrdInv M s' D' f) ∧
          (c = [] → OrdRest M s' D' f) := by
    rintro first ⟨hcur, hmin, hD, hord⟩
    obtain ⟨l, c, s', g1, D', g2, g3, g4⟩ := Ord_cut_closed M s.labels.length first s f hsrc hv
      hfv hbd hcur hmin hord
    refine ⟨l, c, s', cutOverflowBuffer_of_more s 1 _ g1, D', by rw [hD]; exact g2,
      fun _ => g3, ?_⟩
    intro hc
    refine ⟨g3, ?_⟩
    rcases g4 hc with ⟨k1, k2⟩ | ⟨_, _, k3⟩
    · left; rw [k2]; exact k1
    · exact k3
  have hcurrent : ∀ L, s.currentLabel = some L →
      ∃ l c s', s.cutOverflowBuffer = some ((l, c), s') ∧
        ∃ D', D = labelBytes l c ++ D' ∧ (c ≠ [] → OrdInv M s' D' f) ∧
          (c = [] → OrdRest M s' D' f) := by
    intro L hcur
    obtain ⟨l, c, s', g1, D', g2, g3, g4⟩ := Ord_cut_current M s.labels.length s D f h0 L hcur
    refine ⟨l, c, s', g1, D', g2, fun _ => g3, ?_⟩
    intro hc
    refine ⟨g3, ?_⟩
    rcases g4 hc with ⟨k1, k2⟩ | ⟨_, _, _, k3⟩
    · left; rw [k2]; exact k1
    · right; exact k3
  rcases hph with h1 | h1 | ⟨L, hcur, _⟩ | ⟨L, hcur, _⟩
  · exact hclosed true h1
  · exact hclosed false h1
  · exact hcurrent L hcur
  · exact hcurrent L hcur

/-- A chunk from upstream keeps the invariant. -/
theorem Ord_chunk (M : Nat) (s : labelStream) (D : List (GoString × Nat)) (x : GoString)
    (f : List GoString) (h : OrdRest M s D (x :: f)) : OrdInv M s.onChunk D f := by
  obtain ⟨⟨hsrc, hv, hfv, hbd, hph⟩, _⟩ := h
  obtain ⟨e1, e2⟩ := GivesThenEOF_cons _ x f hsrc
  have hx : (s.src.Recv).1.1 = x := by rw [e1]
  have hbuf : s.onChunk.buffer ++ f.flatten = s.buffer ++ (x :: f).flatten := by
    simp only [labelStream.onChunk, hx, List.flatten_cons, List.append_assoc]
  have hmin : ∀ {m : Nat}, (m = M ∨ (m = 0 ∧ x :: f = [])) → (m = M ∨ (m = 0 ∧ f = [])) := by
    intro m hm
    rcases hm with hm | ⟨_, hf⟩
    · exact Or.inl hm
    · cases hf
  have hclosed : ∀ first, OrdClosed M first s D (x :: f) →
      OrdClosed M first s.onChunk D f := by
    rintro first ⟨a1, a2, a3, a4⟩
    refine ⟨a1, hmin a2, ?_, ?_⟩
    · rw [hbuf]; exact a3
    · rw [hbuf]; exact a4
  refine ⟨e2, ?_, fun c hc => hfv c (List.mem_cons_of_mem _ hc), hbd, ?_⟩
  · simp only [labelStream.onChunk, hx]
    exact ValidString_append _ _ hv (hfv x (List.mem_cons_self _ _))
  · rcases hph with h1 | h1 | ⟨L, a1, a2, a3, a4, a5, a6, a7⟩ | ⟨L, a1, a2, a3, a4⟩
    · exact Or.inl (hclosed true h1)
    · exact Or.inr (Or.inl (hclosed false h1))
    · refine Or.inr (Or.inr (Or.inl ⟨L, a1, a2, a3, a4, hmin a5, ?_, ?_⟩))
      · rw [hbuf]; exact a6
      · rw [hbuf]; exact a7
    · refine Or.inr (Or.inr (Or.inr ⟨L, a1, a2, a3, ?_⟩))
      rw [hbuf]; exact a4

/-- The pass made after upstream has ended, in a state with a label open: it
emits a chunk and keeps the invariant, or it closes the label with an empty
chunk at an end token at offset 0, and then nothing more is emitted. -/
theorem Ord_eof_current (M : Nat) (fuel : Nat) (t : labelStream) (L : SLabel)
    (hsrc : t.src.GivesThenEOF []) (hv : ValidString t.buffer = true)
    (hbd : ∀ l ∈ t.labels,
      RuneCountInString l.StartToken ≤ M ∧ RuneCountInString l.EndToken ≤ M)
    (hcur : t.currentLabel = some L) (hmin : t.minBufferLen = 0)
    (hev : ValidString L.EndToken = true) (hMe : RuneCountInString L.EndToken ≤ M)
    (hoo : L.EndToken ≠ [] →
      openOrderly (orderlyFrom t.labels.length false) t.labels L.EndToken t.buffer = true) :
    ∃ l c s', t.cutOverflowBufferAux (fuel + 1) = some ((l, c), s') ∧
      ((c ≠ [] ∧ ∃ D', openRefK L true t.buffer (laterRef t.labels.length t.labels)
            = labelBytes l c ++ D' ∧ OrdInv M s' D' []) ∨
       (c = [] ∧ openRefK L true t.buffer (laterRef t.labels.length t.labels) = [])) := by
  have hX : t.buffer ++ ([] : List GoString).flatten = t.buffer := by simp
  by_cases hB : t.buffer = []
  · have hc : RuneCountInString t.buffer ≤ t.minBufferLen := by rw [hB, RuneCount_nil]; omega
    exact ⟨[], [], t, L_cut_small fuel t hc, Or.inr ⟨rfl, by rw [hB]; exact openRefK_nil _ _ _⟩⟩
  · have hcnt : ¬ RuneCountInString t.buffer ≤ t.minBufferLen := by
      have := RuneCount_pos_of_ne_nil _ hB
      omega
    by_cases hlose : L.EndToken ≠ [] ∧ Index t.buffer L.EndToken = some 0
    · obtain ⟨he, hidx⟩ := hlose
      have hopen : t.cutOpenLabel = some ((L.Name, t.buffer.take 0),
          { t with buffer := t.buffer.drop 0, currentLabel := none }) := by
        simp only [labelStream.cutOpenLabel, hcur, if_neg he, hidx]
      refine ⟨L.Name, t.buffer.take 0, _, L_cut_open fuel t _ hcnt hopen, Or.inr ⟨rfl, ?_⟩⟩
      simp only [openRefK, if_neg he]
      exact closeRefK_lose _ _ _ _ hidx
    · have hinv : OrdInv M t (openRefK L true t.buffer (laterRef t.labels.length t.labels))
          [] := by
        refine ⟨hsrc, hv, by simp, hbd, ?_⟩
        by_cases he : L.EndToken = []
        · refine Or.inr (Or.inr (Or.inr ⟨L, hcur, he, hmin, ?_⟩))
          simp only [openRefK, he, if_true, hX]
        · refine Or.inr (Or.inr (Or.inl ⟨L, hcur, he, hev, hMe, Or.inr ⟨hmin, rfl⟩, ?_, ?_⟩))
          · simp only [openRefK, if_neg he, hX]
            exact closeRefK_congr _ _ _ _ _ _ (fun h0 => absurd ⟨he, h0⟩ hlose)
          · rw [hX]
            exact hoo he
      obtain ⟨l, c, s', g1, D', g2, g3, g4⟩ := Ord_cut_current M fuel t _ [] hinv L hcur
      refine ⟨l, c, s', g1, Or.inl ⟨?_, D', g2, g3⟩⟩
      intro hc
      rcases g4 hc with ⟨k1, _⟩ | ⟨_, k2, k3, _⟩
      · exact hcnt k1
      · exact hlose ⟨k2, k3⟩
/-! ## Label engine with labels met in list order: the pass after the end of input -/

theorem openRefK_congr (L : SLabel) (b1 b2 : Bool) (Y : GoString)
    (K : GoString → List (GoString × Nat))
    (h : L.EndToken ≠ [] → Index Y L.EndToken = some 0 → b1 = b2) :
    openRefK L b1 Y K = openRefK L b2 Y K := by
  simp only [openRefK]
  split_ifs with he
  · rfl
  · exact closeRefK_congr _ _ _ _ _ _ (h he)

/-- The pass made after upstream has ended, from a state with no label
open. -/
theorem Ord_eof_closed (M : Nat) (first : Bool) (s : labelStream) (D : List (GoString × Nat))
    (hsrc : s.src.GivesThenEOF []) (hv : ValidString s.buffer = true)
    (hbd : ∀ l ∈ s.labels,
      RuneCountInString l.StartToken ≤ M ∧ RuneCountInString l.EndToken ≤ M)
    (hcur : s.currentLabel = none)
    (hD : D = stagesRef first s.labels s.minBufferLen s.buffer)
    (hord : orderlyFrom s.labels.length first s.labels s.buffer = true)
    (hcount : first = true → RuneCountInString s.buffer ≤ s.minBufferLen) :
    ∃ l c s', s.onEOF.cutOverflowBuffer = some ((l, c), s') ∧
      ((c ≠ [] ∧ ∃ D', D = labelBytes l c ++ D' ∧ OrdInv M s' D' []) ∨
       (c = [] ∧ D = [])) := by
  have hsrc' : s.onEOF.src.GivesThenEOF [] := (GivesThenEOF_nil _ hsrc).2
  have hX : s.buffer ++ ([] : List GoString).flatten = s.buffer := by simp
  have hfv0 : ∀ c ∈ ([] : List GoString), ValidString c = true := by simp
  have hv' : ValidString s.onEOF.buffer = true := hv
  have hbd' : ∀ l ∈ s.onEOF.labels,
      RuneCountInString l.StartToken ≤ M ∧ RuneCountInString l.EndToken ≤ M := hbd
  have hcur' : s.onEOF.currentLabel = none := hcur
  have hordE : orderlyFrom s.onEOF.labels.length first s.onEOF.labels
      (s.onEOF.buffer ++ ([] : List GoString).flatten) = true := by
    show orderlyFrom s.labels.length first s.labels
      (s.buffer ++ ([] : List GoString).flatten) = true
    rw [hX]
    exact hord
  by_cases hB : s.buffer = []
  · have hc : RuneCountInString s.onEOF.buffer ≤ s.onEOF.minBufferLen := by
      show RuneCountInString s.buffer ≤ 0
      rw [hB, RuneCount_nil]
    refine ⟨[], [], _, L_cut_small _ _ hc, Or.inr ⟨rfl, ?_⟩⟩
    rw [hD, hB]
    exact stagesRef_nil _ _ _
  · have hcnt : ¬ RuneCountInString s.onEOF.buffer ≤ s.onEOF.minBufferLen := by
      have := RuneCount_pos_of_ne_nil _ hB
      show ¬ RuneCountInString s.buffer ≤ 0
      omega
    cases hscan : findStartToken s.buffer 0 s.labels with
    | none =>
      obtain ⟨l, c, s', g1, D', g2, g3, g4⟩ := Ord_cut_closed M s.labels.length first s.onEOF []
        hsrc' hv' hfv0 hbd' hcur' (Or.inr ⟨rfl, rfl⟩) hordE
      have hDE : D = stagesRef first s.onEOF.labels s.onEOF.minBufferLen
          (s.onEOF.buffer ++ ([] : List GoString).flatten) := by
        rw [hD]
        show stagesRef first s.labels s.minBufferLen s.buffer
          = stagesRef first s.labels 0 (s.buffer ++ ([] : List GoString).flatten)
        rw [hX, stagesRef_none _ _ _ _ hscan, stagesRef_none _ _ _ _ hscan]
      refine ⟨l, c, s', cutOverflowBuffer_of_more s.onEOF 1 _ g1,
        Or.inl ⟨?_, D', by rw [hDE]; exact g2, g3⟩⟩
      intro hc
      rcases g4 hc with ⟨k1, _⟩ | ⟨_, ⟨i, L, k2⟩, _⟩
      · exact hcnt k1
      · have k3 : findStartToken s.buffer 0 s.labels = some (i, L, 0) := k2
        rw [hscan] at k3
        cases k3
    | some r =>
      obtain ⟨i, L, p⟩ := r
      obtain ⟨hmem, hilt⟩ := findStartToken_mem _ _ _ _ _ hscan
      obtain ⟨n, hn⟩ : ∃ n, s.labels.length = n + 1 := ⟨s.labels.length - 1, by omega⟩
      have hord2 := hord
      rw [hn, orderlyFrom_some n first _ _ i L p hscan] at hord2
      obtain ⟨hsv, hev, _, hopenc⟩ := hord2
      have hlen : (s.labels.eraseIdx i).length = n := by
        rw [List.length_eraseIdx, if_pos hilt, hn]
        rfl
      have hflag : (first && firstLose s.minBufferLen s.buffer p
          (s.buffer.drop (p + L.StartToken.length))) = (first && decide (p = 0)) := by
        cases first with
        | false => rfl
        | true => simp only [firstLose, if_pos (hcount rfl)]
      have hD' : D = labelBytes [] (s.buffer.take p) ++
          openRefK L (first && decide (p = 0)) (s.buffer.drop (p + L.StartToken.length))
            (laterRef n (s.labels.eraseIdx i)) := by
        rw [hD, stagesRef_some first _ _ _ i L p hscan, hflag, hn, Nat.add_sub_cancel]
      have hopen : s.onEOF.cutOpenLabel = none := by
        simp only [labelStream.cutOpenLabel, labelStream.onEOF, hcur]
      have hscanE : findStartToken s.onEOF.buffer 0 s.onEOF.labels = some (i, L, p) := hscan
      have hscanEX : findStartToken (s.onEOF.buffer ++ ([] : List GoString).flatten) 0
          s.onEOF.labels = some (i, L, p) := by
        show findStartToken (s.buffer ++ ([] : List GoString).flatten) 0 s.labels = _
        rw [hX]
        exact hscan
      have hY : s.onEOF.buffer.drop (p + L.StartToken.length) ++
          ([] : List GoString).flatten = s.buffer.drop (p + L.StartToken.length) := by
        simp [labelStream.onEOF]
      have hK : laterRef (s.onEOF.labels.length - 1) (s.onEOF.labels.eraseIdx i)
          = laterRef n (s.labels.eraseIdx i) := by
        show laterRef (s.labels.length - 1) (s.labels.eraseIdx i) = _
        rw [hn, Nat.add_sub_cancel]
      by_cases hd : (s.onEOF.buffer.take p).length > 0
      · have hp0 : ¬ p = 0 := by
          intro h0
          rw [h0] at hd
          simp at hd
        have hinv := Ord_opened M first s.onEOF [] i L p (first && decide (p = 0)) hsrc' hv'
          hfv0 hbd' (Or.inr ⟨rfl, rfl⟩) hscanE hscanEX hordE (by
            intro he hi0
            obtain ⟨hl, _⟩ := Index_some_length _ _ _ hi0
            have hel : 0 < L.EndToken.length := List.length_pos.mpr he
            have hne : s.onEOF.buffer.drop (p + L.StartToken.length) ++
                ([] : List GoString).flatten ≠ [] := by
              intro h0
              rw [h0] at hl
              simp only [List.length_nil] at hl
              omega
            have := RuneCount_pos_of_ne_nil _ hne
            rw [decide_eq_false hp0, Bool.and_false, eq_comm, decide_eq_false]
            show ¬ RuneCountInString _ ≤ 0
            omega)
        rw [hY, hK] at hinv
        refine ⟨[], s.onEOF.buffer.take p, _,
          L_cut_start_emit _ s.onEOF _ L p hcnt hopen hscanE hd, Or.inl ⟨?_, _, hD', hinv⟩⟩
        intro hnil
        rw [hnil] at hd
        simp at hd
      · have htake : s.buffer.take p = [] := List.length_eq_zero.mp (by
          have : (s.buffer.take p).length = (s.onEOF.buffer.take p).length := rfl
          omega)
        have hp0 : p = 0 := by
          rcases List.take_eq_nil_iff.mp htake with h0 | h0
          · exact h0
          · exact absurd h0 hB
        have hcom := Ord_opened M first s.onEOF [] i L p _ hsrc' hv' hfv0 hbd'
          (Or.inr ⟨rfl, rfl⟩) hscanE hscanEX hordE (fun _ _ => rfl)
        have hmin0 : (s.onEOF.openLabel i L p).minBufferLen = 0 := by
          simp only [labelStream.openLabel, labelStream.onEOF]
          split_ifs <;> rfl
        have hoo : L.EndToken ≠ [] →
            openOrderly (orderlyFrom (s.onEOF.openLabel i L p).labels.length false)
              (s.onEOF.openLabel i L p).labels L.EndToken (s.onEOF.openLabel i L p).buffer
                = true := by
          intro he
          show openOrderly (orderlyFrom (s.labels.eraseIdx i).length false)
            (s.labels.eraseIdx i) L.EndToken (s.buffer.drop (p + L.StartToken.length)) = true
          rw [hlen]
          rcases hopenc with h1 | ⟨_, h2⟩
          · exact absurd h1 he
          · exact h2
        have hDt : D = openRefK L true (s.onEOF.openLabel i L p).buffer
            (laterRef (s.onEOF.openLabel i L p).labels.length
              (s.onEOF.openLabel i L p).labels) := by
          show D = openRefK L true (s.buffer.drop (p + L.StartToken.length))
            (laterRef (s.labels.eraseIdx i).length (s.labels.eraseIdx i))
          rw [hD', htake, labelBytes_nil, List.nil_append, hlen]
          apply openRefK_congr
          intro he hi0
          rw [decide_eq_true hp0, Bool.and_true]
          rcases hopenc with h1 | ⟨h2, _⟩
          · exact absurd h1 he
          · rcases h2 with h3 | h3
            · exact h3
            · exact absurd hi0 h3
        obtain ⟨l, c, s', g1, g2⟩ := Ord_eof_current M s.onEOF.labels.length
          (s.onEOF.openLabel i L p) L hcom.1 hcom.2.1 hcom.2.2.2.1 rfl hmin0 hev
          (hbd L hmem).2 hoo
        rw [← hDt] at g2
        refine ⟨l, c, s', cutOverflowBuffer_of_more s.onEOF 1 _ ?_, g2⟩
        rw [L_cut_start_rec (s.onEOF.labels.length + 1) s.onEOF i L p hcnt hopen hscanE hd]
        exact g1

/-- The pass made after upstream has ended, from a state in which `Recv`
reads upstream. -/
theorem Ord_eof (M : Nat) (s : labelStream) (D : List (GoString × Nat))
    (h : OrdRest M s D []) :
    ∃ l c s', s.onEOF.cutOverflowBuffer = some ((l, c), s') ∧
      ((c ≠ [] ∧ ∃ D', D = labelBytes l c ++ D' ∧ OrdInv M s' D' []) ∨
       (c = [] ∧ D = [])) := by
  obtain ⟨⟨hsrc, hv, hfv, hbd, hph⟩, hrest⟩ := h
  have hsrc' : s.onEOF.src.GivesThenEOF [] := (GivesThenEOF_nil _ hsrc).2
  have hX : s.buffer ++ ([] : List GoString).flatten = s.buffer := by simp
  have hclosed : ∀ first, OrdClosed M first s D [] →
      (first = true → RuneCountInString s.buffer ≤ s.minBufferLen) →
      ∃ l c s', s.onEOF.cutOverflowBuffer = some ((l, c), s') ∧
        ((c ≠ [] ∧ ∃ D', D = labelBytes l c ++ D' ∧ OrdInv M s' D' []) ∨
         (c = [] ∧ D = [])) := by
    rintro first ⟨hcur, _, hD, hord⟩ hcount
    rw [hX] at hD hord
    exact Ord_eof_closed M first s D hsrc hv hbd hcur hD hord hcount
  have hcurrent : ∀ L, s.currentLabel = some L → ValidString L.EndToken = true →
      RuneCountInString L.EndToken ≤ M →
      (L.EndToken ≠ [] →
        openOrderly (orderlyFrom s.labels.length false) s.labels L.EndToken s.buffer = true) →
      D = openRefK L true s.buffer (laterRef s.labels.length s.labels) →
      ∃ l c s', s.onEOF.cutOverflowBuffer = some ((l, c), s') ∧
        ((c ≠ [] ∧ ∃ D', D = labelBytes l c ++ D' ∧ OrdInv M s' D' []) ∨
         (c = [] ∧ D = [])) := by
    intro L hcur hev hMe hoo hDt
    obtain ⟨l, c, s', g1, g2⟩ := Ord_eof_current M s.labels.length s.onEOF L hsrc' hv hbd hcur
      rfl hev hMe hoo
    have hDt' : D = openRefK L true s.onEOF.buffer
        (laterRef s.onEOF.labels.length s.onEOF.labels) := hDt
    rw [← hDt'] at g2
    exact ⟨l, c, s', g1, g2⟩
  rcases hph with h1 | h1 | ⟨L, hcur, he, hev, hMe, hmin, hD, hoo⟩ | ⟨L, hcur, he, hmin, hD⟩
  · rcases hrest with hr | hr
    · exact hclosed true h1 (fun _ => hr)
    · exact hclosed false hr (fun h => by cases h)
  · exact hclosed false h1 (fun h => by cases h)
  · have hcount : RuneCountInString s.buffer ≤ s.minBufferLen := by
      rcases hrest with h1 | ⟨h2, _⟩
      · exact h1
      · rw [hcur] at h2; cases h2
    rw [hX] at hD hoo
    apply hcurrent L hcur hev hMe (fun _ => hoo)
    rw [hD, decide_eq_true hcount]
    simp only [openRefK, if_neg he]
  · rw [hX] at hD
    apply hcurrent L hcur (by rw [he]; exact ValidString_nil)
      (by rw [he, RuneCount_nil]; exact Nat.zero_le _) (fun h => absurd he h)
    rw [hD]
    simp only [openRefK, he, if_true]
/-! ## Label engine with labels met in list order: the output -/

/-- The label engine on a text in which the labels are met in list order: for
every chunking of the text into valid UTF-8 chunks, draining the engine ends
with end-of-stream and the items say the labelled bytes `labelsRef` of the
text. -/
theorem labelOutput_orderly (labels : List SLabel) (hl : labels ≠ [])
    (chunks : List GoString) (hv : ∀ c ∈ chunks, ValidString c = true)
    (hord : Orderly labels chunks.flatten)
    (fuel : Nat) (hf1 : chunks.length < fuel) (hf2 : chunks.flatten.length < fuel) :
    ∃ out, labelOutput labels chunks fuel = some (out, Error.EOF) ∧
      labelledBytes out = labelsRef labels (labelMinBufferLen labels) chunks.flatten := by
  have hnew : NewLabelStream (FromSlice chunks) labels = some
      { src := FromSlice chunks, labels := labels, buffer := [],
        minBufferLen := labelMinBufferLen labels, currentLabel := none, opened := [] } := by
    have hlen : labels.length ≠ 0 := by
      intro h
      exact hl (List.length_eq_zero.mp h)
    simp only [NewLabelStream, checkLabels, if_neg hlen]
  have hinv : OrdInv (labelMinBufferLen labels)
      { src := FromSlice chunks, labels := labels, buffer := [],
        minBufferLen := labelMinBufferLen labels, currentLabel := none, opened := [] }
      (labelsRef labels (labelMinBufferLen labels) chunks.flatten) chunks :=
    ⟨FromSlice_GivesThenEOF chunks, ValidString_nil, hv,
      fun l hl => labelMinBufferLen_ge labels l hl,
      Or.inl ⟨rfl, Or.inl rfl, by simp only [List.nil_append, labelsRef],
        by simp only [List.nil_append]; exact hord⟩⟩
  obtain ⟨out, s', h1, h2, _⟩ := label_drain_generic2
    (OrdInv (labelMinBufferLen labels)) (OrdRest (labelMinBufferLen labels))
    (Ord_src _) (Ord_cut _) (Ord_chunk _) (Ord_eof _)
    fuel fuel _ _ _ hinv hf1
    (lt_of_le_of_lt (stagesRef_length true labels _ _) hf2)
  exact ⟨out, by simp [labelOutput, hnew, h1], h2⟩

/-- A text in which at most one of the labels has a start token that occurs,
this label having valid UTF-8 tokens, is orderly. -/
theorem Orderly_of_single (lb : SLabel) (pre post : List SLabel)
    (hsv : ValidString lb.StartToken = true) (hev : ValidString lb.EndToken = true)
    (X : GoString) (habs : ∀ l ∈ pre ++ post, Index X l.StartToken = none) :
    Orderly (pre ++ lb :: post) X := by
  have hscan := findStartToken_live X lb post pre 0
    (fun l hl => (Index_none_iff _ _).mp (habs l hl))
  rw [Nat.zero_add] at hscan
  have hlen : (pre ++ lb :: post).length = (pre ++ post).length + 1 := by
    simp only [List.length_append, List.length_cons]
    omega
  unfold Orderly
  cases hidx : Index X lb.StartToken with
  | none =>
    rw [hidx] at hscan
    exact orderlyFrom_none _ _ _ _ hscan
  | some p =>
    rw [hidx] at hscan
    simp only [Option.map_some'] at hscan
    rw [hlen, orderlyFrom_some _ true _ _ _ lb p hscan, eraseIdx_live]
    obtain ⟨_, _, g3⟩ := Index_eq_some _ _ _ hidx
    have hdrop : ∀ (n : Nat) (l : SLabel), l ∈ pre ++ post →
        Index (X.drop n) l.StartToken = none :=
      fun n l hl => Index_none_drop X _ n (habs l hl)
    refine ⟨hsv, hev, ?_, ?_⟩
    · intro l hl k hk
      rw [mem_occurrences] at hk
      rcases List.mem_append.mp hl with h1 | h1
      · exact absurd hk.2 (Index_eq_none _ _ (habs l (List.mem_append_left _ h1)) k)
      · rcases List.mem_cons.mp h1 with h2 | h2
        · left
          refine ⟨by rw [h2], ?_⟩
          by_contra hlt
          rw [h2] at hk
          exact g3 k (by omega) hk.2
        · exact absurd hk.2 (Index_eq_none _ _ (habs l (List.mem_append_right _ h2)) k)
    · by_cases he : lb.EndToken = []
      · exact Or.inl he
      · refine Or.inr ⟨Or.inl rfl, ?_⟩
        cases hq : Index (X.drop (p + lb.StartToken.length)) lb.EndToken with
        | none =>
          rw [openOrderly_none _ _ _ _ hq]
          exact fun l hl => hdrop _ l hl
        | some q =>
          rw [openOrderly_some _ _ _ _ _ hq]
          refine ⟨?_, ?_⟩
          · intro l hl k hk
            rw [mem_occurrences] at hk
            exact absurd hk.2 (Index_eq_none _ _ (hdrop _ l hl) k)
          · apply orderlyFrom_none
            apply findStartToken_none_of_all
            intro l hl
            exact Index_none_drop _ _ q (hdrop _ l hl)
/-! ## Chunk-boundary independence -/

/-- The special-token engine with tokens whose occurrences in the text do not
overlap and are met in list order: for every chunking of the text into valid
UTF-8 chunks the items say the reference segmentation of the text. -/
theorem specialTokenOutput_listed (tokens : List GoString) (hne : ∀ t ∈ tokens, t ≠ [])
    (hval : ∀ t ∈ tokens, ValidString t = true) (chunks : List GoString)
    (hv : ∀ c ∈ chunks, ValidString c = true)
    (hap : NoOverlap tokens chunks.flatten)
    (hord : ListedFirstIsEarliest tokens chunks.flatten) (fuel : Nat)
    (hfuel : chunks.length + 2 * chunks.flatten.length < fuel) :
    ∃ out, specialTokenOutput tokens chunks fuel = some (out, Error.EOF) ∧
      events out = segmentList tokens [] chunks.flatten := by
  have hoccurs : ∀ t ∈ tokens, ∀ (text : GoString) (j : Nat), t <+: text.drop j →
      j ∈ occurrences t text := by
    intro t ht text j hocc
    have hj : j < text.length := by
      by_contra hx
      rw [List.drop_eq_nil_of_le (by omega)] at hocc
      exact hne t ht (List.prefix_nil.mp hocc)
    simp only [occurrences, List.mem_filter, List.mem_range, List.isPrefixOf_iff_prefix]
    exact ⟨hj, hocc⟩
  have hordU : ∀ p st i, findToken (chunks.flatten.drop p) tokens = some (st, i) →
      ∀ t ∈ tokens, ∀ j, t <+: chunks.flatten.drop (p + j) → i ≤ j := by
    intro p st i hf t ht j hocc
    have hp : p < chunks.flatten.length := by
      have := hoccurs t ht chunks.flatten (p + j) hocc
      simp only [occurrences, List.mem_filter, List.mem_range] at this
      omega
    rw [← List.drop_drop] at hocc
    exact hord p hp (st, i) (Option.mem_def.mpr hf) t ht j (hoccurs t ht _ j hocc)
  have hapU : ∀ u ∈ tokens, ∀ v ∈ tokens, u ≠ v → ∀ j k, u <+: chunks.flatten.drop j →
      v <+: chunks.flatten.drop k → j + u.length ≤ k ∨ k + v.length ≤ j := by
    intro u hu v hv' huv j k h1 h2
    exact hap u hu v hv' huv j (hoccurs u hu _ j h1) k (hoccurs v hv' _ k h2)
  have hinit : TokInv tokens chunks.flatten (NewSpecialTokenParserStream (FromSlice chunks) tokens)
      (segmentList tokens [] chunks.flatten) chunks :=
    ⟨rfl, FromSlice_GivesThenEOF chunks, ValidString_nil, hv, Or.inl rfl,
      by simp [NewSpecialTokenParserStream], ⟨0, by simp [NewSpecialTokenParserStream]⟩⟩
  have hlen := segmentList_length tokens hne (chunks.flatten.length + 1) [] chunks.flatten
    (by omega)
  obtain ⟨out, s', h1, h2⟩ := ST_drain_generic (TokInv tokens chunks.flatten)
    (fun s D f h => h.src)
    (fun s D f h => Tok_cut tokens chunks.flatten hne hval hordU hapU h)
    (fun s D x f h => Tok_chunk h) (fun s D h => Tok_eof h) fuel fuel _ _ _ hinit
    (by omega) (by omega)
  exact ⟨out, by simp [specialTokenOutput, h1], h2⟩

/-- C7, as stated, fails for both engines. Two chunk lists with the same
concatenation give different sequences of `(Label, Chunk)` pairs already on a
text without any token, because the engine releases text as it arrives
(special-token engine, text `hello`); and when several tokens are configured
even the labelled content differs, because a token is searched in list order
in whatever the buffer holds (both engines, text `x<b>y<a>z` with `<a>`
listed before `<b>`). Two labels whose start tokens occur in list order fail
as well: what precedes the start token of the second label comes under `""`
or under the open first label according to the chunking (text
`<a>abcde<b>x`). With one label the labelled content still depends on the
chunking when a chunk boundary cuts a multi-byte character (label `X` with
start token `<`), or when a token of the label is not valid UTF-8 (start
token the single byte C3, text `éyz`). And a label opened after another one
whose end token follows its start token at once is closed with an empty chunk,
in the pass made after the end of the input or before it, according to the
chunking: what follows is dropped or emitted (text `<a></a><b></b>`). -/
theorem chunk_boundary_counterexample :
    ([str "hello"].flatten = [str "h", str "e", str "l", str "l", str "o"].flatten ∧
      specialTokenOutput [str "<e>"] [str "hello"] 20
        = some ([⟨str "", str "he"⟩, ⟨str "", str "llo"⟩], Error.EOF) ∧
      specialTokenOutput [str "<e>"] [str "h", str "e", str "l", str "l", str "o"] 20
        = some ([⟨str "", str "h"⟩, ⟨str "", str "e"⟩, ⟨str "", str "llo"⟩], Error.EOF)) ∧
    ([str "x<b>y<a>z"].flatten = [str "x<b>y", str "<a>z"].flatten ∧
      specialTokenOutput [str "<a>", str "<b>"] [str "x<b>y<a>z"] 20
        = some ([⟨str "", str "x<b>y"⟩, ⟨str "<a>", str ""⟩, ⟨str "<a>", str "z"⟩],
            Error.EOF) ∧
      specialTokenOutput [str "<a>", str "<b>"] [str "x<b>y", str "<a>z"] 20
        = some ([⟨str "", str "x"⟩, ⟨str "<b>", str ""⟩, ⟨str "<b>", str "y"⟩,
            ⟨str "<a>", str ""⟩, ⟨str "<a>", str "z"⟩], Error.EOF) ∧
      labelOutput [⟨str "A", str "<a>", str "</a>"⟩, ⟨str "B", str "<b>", str "</b>"⟩]
          [str "x<b>y<a>z"] 20
        = some ([⟨str "", str "x<b>y"⟩, ⟨str "A", str "z"⟩], Error.EOF) ∧
      labelOutput [⟨str "A", str "<a>", str "</a>"⟩, ⟨str "B", str "<b>", str "</b>"⟩]
          [str "x<b>y", str "<a>z"] 20
        = some ([⟨str "", str "x"⟩, ⟨str "", str "y"⟩, ⟨str "A", str "z"⟩], Error.EOF)) ∧
    ([str "<a>abcde<b>x"].flatten = [str "<a>abcde", str "<b>x"].flatten ∧
      labelOutput [⟨str "A", str "<a>", str "</a>"⟩, ⟨str "B", str "<b>", str "</b>"⟩]
          [str "<a>abcde<b>x"] 20
        = some ([⟨str "", str "abcde"⟩, ⟨str "B", str "x"⟩], Error.EOF) ∧
      labelOutput [⟨str "A", str "<a>", str "</a>"⟩, ⟨str "B", str "<b>", str "</b>"⟩]
          [str "<a>abcde", str "<b>x"] 20
        = some ([⟨str "A", str "a"⟩, ⟨str "", str "bcde"⟩, ⟨str "B", str "x"⟩],
            Error.EOF)) ∧
    ([[97, 98, 0xE4], [0xBD, 0xA0, 60, 114]].flatten = [str "ab你<r"].flatten ∧
      labelOutput [⟨str "X", str "<", str ""⟩] [[97, 98, 0xE4], [0xBD, 0xA0, 60, 114]] 20
        = some ([⟨str "", str "ab"⟩, ⟨str "", [0xEF, 0xBF, 0xBD, 0xBD, 0xA0]⟩,
            ⟨str "X", str "r"⟩], Error.EOF) ∧
      labelOutput [⟨str "X", str "<", str ""⟩] [str "ab你<r"] 20
        = some ([⟨str "", str "ab你"⟩, ⟨str "X", str "r"⟩], Error.EOF)) ∧
    ([str "éy", str "z"].flatten = [str "éyz"].flatten ∧
      labelOutput [⟨str "A", [0xC3], str "z"⟩] [str "éy", str "z"] 20
        = some ([⟨str "A", [0xEF, 0xBF, 0xBD]⟩, ⟨str "A", str "y"⟩, ⟨str "", str "z"⟩],
            Error.EOF) ∧
      labelOutput [⟨str "A", [0xC3], str "z"⟩] [str "éyz"] 20
        = some ([⟨str "A", [0xA9, 121]⟩, ⟨str "", str "z"⟩], Error.EOF)) ∧
    ([str "<a>", str "</a>", str "<b>", str "</b>"].flatten
        = [str "<a>", str "</a>", str "<b></b>"].flatten ∧
      labelOutput [⟨str "A", str "<a>", str "</a>"⟩, ⟨str "B", str "<b>", str "</b>"⟩]
          [str "<a>", str "</a>", str "<b>", str "</b>"] 20
        = some ([⟨str "", str "</a>"⟩], Error.EOF) ∧
      labelOutput [⟨str "A", str "<a>", str "</a>"⟩, ⟨str "B", str "<b>", str "</b>"⟩]
          [str "<a>", str "</a>", str "<b></b>"] 20
        = some ([⟨str "", str "</a>"⟩, ⟨str "", str "</b>"⟩], Error.EOF)) := by
  refine ⟨?_, ?_, ?_, ?_, ?_, ?_⟩ <;> decide

/-- C7, amended (chunk-boundary independence). Take any two lists of valid
UTF-8 chunks whose concatenations are the same text. In each of the following
cases draining the engine on either chunk list ends with end-of-stream, and
both outputs say the same labelled content: the same bytes under the same
labels, with the token marker items at the same places. (a) The special-token
engine configured with one non-empty valid UTF-8 token; the content is the
reference segmentation `segment` of the text. (b) The special-token engine
configured with non-empty valid UTF-8 tokens when, in the text, occurrences of
different tokens never overlap and in every suffix the first token in list
order that occurs is the one that occurs earliest; the content is the reference
segmentation `segmentList`. (c) The label engine when the labels are met in
list order in the text, one at a time (`Orderly`): the label opened is the
first remaining label in list order whose start token occurs in the text still
to come, its tokens are valid UTF-8, no start token of a remaining label other
than its own start token begins before the first occurrence of its start token
has ended, no start token of a remaining label ends, while the label is open,
before the first occurrence of its end token has ended (none occurs when the
end token does not), and every label opened after the first one has content
before its end token; the content is `labelsRef` of the text. (d) In particular
the label engine when at most one of the configured labels, `lb`, has a start
token that occurs in the text, the tokens of `lb` being valid UTF-8; this is
so in every configuration with a single label of valid UTF-8 tokens. (e) The label engine with any
non-empty label list, when no configured start token occurs in the text, and
(f) the special-token engine with any token list, when no configured token
occurs in the text; the items all carry the label `""` and their chunks
concatenate to the text. The sequences of `(Label, Chunk)` pairs themselves may
differ. -/
theorem chunk_boundary_independence (labels : List SLabel) (hl : labels ≠ [])
    (tokens : List GoString) (t : GoString) (ht : t ≠ []) (htv : ValidString t = true)
    (chunks1 chunks2 : List GoString)
    (hsame : chunks1.flatten = chunks2.flatten)
    (hv1 : ∀ c ∈ chunks1, ValidString c = true) (hv2 : ∀ c ∈ chunks2, ValidString c = true)
    (fuel : Nat) (hf1 : chunks1.length + 2 * chunks1.flatten.length < fuel)
    (hf2 : chunks2.length + 2 * chunks1.flatten.length < fuel) :
    (∃ out1 out2, specialTokenOutput [t] chunks1 fuel = some (out1, Error.EOF) ∧
      specialTokenOutput [t] chunks2 fuel = some (out2, Error.EOF) ∧
      events out1 = events out2 ∧ events out1 = segment t [] chunks1.flatten) ∧
    ((∀ u ∈ tokens, u ≠ []) → (∀ u ∈ tokens, ValidString u = true) →
      NoOverlap tokens chunks1.flatten → ListedFirstIsEarliest tokens chunks1.flatten →
      ∃ out1 out2, specialTokenOutput tokens chunks1 fuel = some (out1, Error.EOF) ∧
        specialTokenOutput tokens chunks2 fuel = some (out2, Error.EOF) ∧
        events out1 = events out2 ∧ events out1 = segmentList tokens [] chunks1.flatten) ∧
    (Orderly labels chunks1.flatten →
      ∃ out1 out2, labelOutput labels chunks1 fuel = some (out1, Error.EOF) ∧
        labelOutput labels chunks2 fuel = some (out2, Error.EOF) ∧
        labelledBytes out1 = labelledBytes out2 ∧
        labelledBytes out1 = labelsRef labels (labelMinBufferLen labels) chunks1.flatten) ∧
    (∀ (lb : SLabel) (pre post : List SLabel), labels = pre ++ lb :: post →
      ValidString lb.StartToken = true → ValidString lb.EndToken = true →
      (∀ l ∈ pre ++ post, Index chunks1.flatten l.StartToken = none) →
      ∃ out1 out2, labelOutput labels chunks1 fuel = some (out1, Error.EOF) ∧
        labelOutput labels chunks2 fuel = some (out2, Error.EOF) ∧
        labelledBytes out1 = labelledBytes out2 ∧
        labelledBytes out1 = labelsRef labels (labelMinBufferLen labels) chunks1.flatten) ∧
    ((∀ lb ∈ labels, Index chunks1.flatten lb.StartToken = none) →
      ∃ out1 out2, labelOutput labels chunks1 fuel = some (out1, Error.EOF) ∧
        labelOutput labels chunks2 fuel = some (out2, Error.EOF) ∧
        (∀ o ∈ out1, o.Label = []) ∧ (∀ o ∈ out2, o.Label = []) ∧
        (out1.map (fun o => o.Chunk)).flatten = chunks1.flatten ∧
        (out2.map (fun o => o.Chunk)).flatten = chunks1.flatten) ∧
    ((∀ t ∈ tokens, Index chunks1.flatten t = none) →
      ∃ out1 out2, specialTokenOutput tokens chunks1 fuel = some (out1, Error.EOF) ∧
        specialTokenOutput tokens chunks2 fuel = some (out2, Error.EOF) ∧
        (∀ o ∈ out1, o.Label = []) ∧ (∀ o ∈ out2, o.Label = []) ∧
        (out1.map (fun o => o.Chunk)).flatten = chunks1.flatten ∧
        (out2.map (fun o => o.Chunk)).flatten = chunks1.flatten) := by
  have hlabel : Orderly labels chunks1.flatten →
      ∃ out1 out2, labelOutput labels chunks1 fuel = some (out1, Error.EOF) ∧
        labelOutput labels chunks2 fuel = some (out2, Error.EOF) ∧
        labelledBytes out1 = labelledBytes out2 ∧
        labelledBytes out1
          = labelsRef labels (labelMinBufferLen labels) chunks1.flatten := by
    intro hord
    obtain ⟨o1, e1, e2⟩ := labelOutput_orderly labels hl chunks1 hv1 hord fuel
      (by omega) (by omega)
    obtain ⟨o2, e3, e4⟩ := labelOutput_orderly labels hl chunks2 hv2
      (by rw [← hsame]; exact hord) fuel (by omega) (by rw [← hsame]; omega)
    rw [← hsame] at e4
    exact ⟨o1, o2, e1, e3, by rw [e2, e4], e2⟩
  refine ⟨?_, ?_, hlabel, ?_, ?_, ?_⟩
  · obtain ⟨o1, e1, e2⟩ := specialTokenOutput_single t ht htv chunks1 hv1 fuel hf1
    obtain ⟨o2, e3, e4⟩ := specialTokenOutput_single t ht htv chunks2 hv2 fuel
      (by rw [← hsame]; exact hf2)
    rw [← hsame] at e4
    exact ⟨o1, o2, e1, e3, by rw [e2, e4], e2⟩
  · intro hne hval hap hord
    obtain ⟨o1, e1, e2⟩ := specialTokenOutput_listed tokens hne hval chunks1 hv1 hap hord fuel
      hf1
    obtain ⟨o2, e3, e4⟩ := specialTokenOutput_listed tokens hne hval chunks2 hv2
      (by rw [← hsame]; exact hap) (by rw [← hsame]; exact hord) fuel
      (by rw [← hsame]; exact hf2)
    rw [← hsame] at e4
    exact ⟨o1, o2, e1, e3, by rw [e2, e4], e2⟩
  · intro lb pre post hlab hsv hev habs
    apply hlabel
    rw [hlab]
    exact Orderly_of_single lb pre post hsv hev _ habs
  · intro hnoL
    obtain ⟨a1, a2, a3, a4⟩ := labelOutput_pass labels hl chunks1 hv1 hnoL fuel
      (by omega) (by omega)
    obtain ⟨b1, b2, b3, b4⟩ := labelOutput_pass labels hl chunks2 hv2
      (by rw [← hsame]; exact hnoL) fuel (by omega) (by rw [← hsame]; omega)
    rw [← hsame] at b4
    exact ⟨a1, b1, a2, b2, a3, b3, a4, b4⟩
  · intro hnoT
    obtain ⟨c1, c2, c3, c4⟩ := specialTokenOutput_pass tokens chunks1 hv1 hnoT fuel
      (by omega) (by omega)
    obtain ⟨d1, d2, d3, d4⟩ := specialTokenOutput_pass tokens chunks2 hv2
      (by rw [← hsame]; exact hnoT) fuel (by omega) (by rw [← hsame]; omega)
    rw [← hsame] at d4
    exact ⟨c1, d1, c2, d2, c3, d3, c4, d4⟩

theorem chunk_boundary_independence_witness :
    (∃ out1 out2,
      specialTokenOutput [str "<A>"] [str "hello <A>chunk1</A> world <B>chunk2</B> tail"] 200
        = some (out1, Error.EOF) ∧
      specialTokenOutput [str "<A>"]
          ((str "hello <A>chunk1</A> world <B>chunk2</B> tail").map (fun b => [b])) 200
        = some (out2, Error.EOF) ∧
      events out1 = events out2) ∧
    (∃ out1 out2,
      specialTokenOutput [str "<A>", str "</A>"]
          [str "hello <A>chunk1</A> world <B>chunk2</B> tail"] 200
        = some (out1, Error.EOF) ∧
      specialTokenOutput [str "<A>", str "</A>"]
          ((str "hello <A>chunk1</A> world <B>chunk2</B> tail").map (fun b => [b])) 200
        = some (out2, Error.EOF) ∧
      events out1 = events out2 ∧
      events out1 = segmentList [str "<A>", str "</A>"] []
        (str "hello <A>chunk1</A> world <B>chunk2</B> tail")) ∧
    (∃ out1 out2,
      labelOutput [⟨str "A", str "<A>", str "</A>"⟩, ⟨str "B", str "<B>", str "</B>"⟩]
          [str "hello <A>chunk1</A> world <B>chunk2</B> tail"] 200
        = some (out1, Error.EOF) ∧
      labelOutput [⟨str "A", str "<A>", str "</A>"⟩, ⟨str "B", str "<B>", str "</B>"⟩]
          ((str "hello <A>chunk1</A> world <B>chunk2</B> tail").map (fun b => [b])) 200
        = some (out2, Error.EOF) ∧
      labelledBytes out1 = labelledBytes out2 ∧
      labelledBytes out1
        = labelBytes (str "") (str "hello ") ++ labelBytes (str "A") (str "chunk1") ++
          labelBytes (str "") (str "</A> world ") ++ labelBytes (str "B") (str "chunk2") ++
          labelBytes (str "") (str "</B> tail")) ∧
    (∃ out1 out2,
      labelOutput [⟨str "A", str "<a>", str "</a>"⟩, ⟨str "B", str "<b>", str "</b>"⟩]
          [str "x<a>y</a>z"] 60
        = some (out1, Error.EOF) ∧
      labelOutput [⟨str "A", str "<a>", str "</a>"⟩, ⟨str "B", str "<b>", str "</b>"⟩]
          [str "x<", str "a>y</", str "a>z"] 60
        = some (out2, Error.EOF) ∧
      labelledBytes out1 = labelledBytes out2 ∧
      labelledBytes out1
        = labelBytes (str "") (str "x") ++ labelBytes (str "A") (str "y") ++
          labelBytes (str "") (str "</a>z")) := by
  obtain ⟨⟨o1, o2, h1, h2, h3, _⟩, hM, hL, _, _, _⟩ := chunk_boundary_independence
    [⟨str "A", str "<A>", str "</A>"⟩, ⟨str "B", str "<B>", str "</B>"⟩] (by decide)
    [str "<A>", str "</A>"] (str "<A>") (by decide) (by decide)
    [str "hello <A>chunk1</A> world <B>chunk2</B> tail"]
    ((str "hello <A>chunk1</A> world <B>chunk2</B> tail").map (fun b => [b]))
    (by decide) (by decide) (by decide) 200 (by decide) (by decide)
  obtain ⟨_, _, _, hS, _, _⟩ := chunk_boundary_independence
    [⟨str "A", str "<a>", str "</a>"⟩, ⟨str "B", str "<b>", str "</b>"⟩] (by decide)
    [str "<a>", str "</a>"] (str "<a>") (by decide) (by decide)
    [str "x<a>y</a>z"] [str "x<", str "a>y</", str "a>z"]
    (by decide) (by decide) (by decide) 60 (by decide) (by decide)
  obtain ⟨p1, p2, q1, q2, q3, q4⟩ := hM (by decide) (by decide) (by unfold NoOverlap; decide)
    (by unfold ListedFirstIsEarliest; decide)
  obtain ⟨r1, r2, s1, s2, s3, s4⟩ := hL (by unfold Orderly; decide)
  obtain ⟨u1, u2, v1, v2, v3, v4⟩ := hS ⟨str "A", str "<a>", str "</a>"⟩ []
    [⟨str "B", str "<b>", str "</b>"⟩] rfl (by decide) (by decide) (by decide)
  refine ⟨⟨o1, o2, h1, h2, h3⟩, ⟨p1, p2, q1, q2, q3, q4⟩, ⟨r1, r2, s1, s2, s3, ?_⟩,
    ⟨u1, u2, v1, v2, v3, ?_⟩⟩
  · rw [s4]
    decide
  · rw [v4]
    decide

end Streams
